import Mathlib

/-!
# YACK CW keyer library (`yack.cpp`): codebook, iambic keyer FSM, playback

A shallow embedding of the keyer core of `libraries/ATTiny85_CW_Keyer/yack.cpp`.
Bytes (`byte`, `char`) and words (`word`) are natural numbers; every place where
the C code truncates to 8 or 16 bits carries an explicit `% 256` or `% 65536`.
The module-level variables and the statics of `yackiambic` are the fields of one
record, `Yack`, which every function takes and returns.
-/

namespace CWKeyer

/-! ## Constants of `yack.h` -/

/-- Modelled from the spec: `yack.h` is not among the sources. The spec fixes the
timing constants in dot units: a dot is the unit. -/
def DITLEN : Nat := 1

/-- Modelled from the spec: `yack.h` is not among the sources; "dash = 3". -/
def DAHLEN : Nat := 3

/-- Modelled from the spec: `yack.h` is not among the sources;
"inter-element-gap = 1". -/
def IEGLEN : Nat := 1

/-- Modelled from the spec: `yack.h` is not among the sources;
"inter-character-gap = 3". -/
def ICGLEN : Nat := 3

/-- Modelled from the spec: `yack.h` is not among the sources;
"inter-word-gap = 7". -/
def IWGLEN : Nat := 7

/-- Modelled from the spec: `yack.h` is not among the sources. The spec lists the
volatile session flags as separate bits (dit-latched, dah-latched, dirty,
command-key-latched, sidetone-armed, TX-armed); the bit positions are those of
the library header. Bit 0 of `volflags`: the dit paddle was closed. -/
def DITLATCH : Nat := 0b00000001

/-- Modelled from the spec: `yack.h` is not among the sources. Bit 1 of
`volflags`: the dah paddle was closed. -/
def DAHLATCH : Nat := 0b00000010

/-- Modelled from the spec: `yack.h` is not among the sources. Both latches:
the paddles are squeezed. -/
def SQUEEZED : Nat := 0b00000011

/-- Modelled from the spec: `yack.h` is not among the sources. Bit 2 of
`volflags`: settings were changed and need storing. -/
def DIRTYFLAG : Nat := 0b00000100

/-- Modelled from the spec: `yack.h` is not among the sources. Bit 3 of
`volflags`: the command key was pressed at some point. -/
def CKLATCH : Nat := 0b00001000

/-- Modelled from the spec: `yack.h` is not among the sources. The two keyer-mode
bits of `yackflags`. -/
def MODE : Nat := 0b00001100

/-- Modelled from the spec: `yack.h` is not among the sources. Sidetone-enable
bit, in `yackflags` and copied to `volflags`. -/
def SIDETONE : Nat := 0b00010000

/-- Modelled from the spec: `yack.h` is not among the sources. TX-key-enable bit,
in `yackflags` and copied to `volflags`. -/
def TXKEY : Nat := 0b00100000

/-- Modelled from the spec: `yack.h` is not among the sources. Keying-invert
bit of `yackflags`. -/
def TXINV : Nat := 0b01000000

/-- Modelled from the spec: `yack.h` is not among the sources. Paddle-swap bit of
`yackflags`. -/
def PDLSWAP : Nat := 0b10000000

/-- Modelled from the spec: `yack.h` is not among the sources. Keyer mode
IAMBIC-A, a value of `yackflags & MODE`. -/
def IAMBICA : Nat := 0b00000000

/-- Modelled from the spec: `yack.h` is not among the sources. Keyer mode
IAMBIC-B. -/
def IAMBICB : Nat := 0b00000100

/-- Modelled from the spec: `yack.h` is not among the sources. Keyer mode
ULTIMATIC. -/
def ULTIMATIC : Nat := 0b00001000

/-- Modelled from the spec: `yack.h` is not among the sources. Keyer mode
DASH-PRIORITY. -/
def DAHPRIO : Nat := 0b00001100

/-- Modelled from the spec: `yack.h` is not among the sources. The `ctrl`
argument of `yackiambic` that switches word-gap detection off. -/
def OFF : Nat := 0

/-- Modelled from the spec: `yack.h` is not among the sources. The `ctrl`
argument of `yackiambic` that switches word-gap detection on. -/
def ON : Nat := 1

/-- Modelled from the spec: `yack.h` is not among the sources. The boolean
`FALSE` passed to `yackctrlkey`. -/
def FALSE : Nat := 0

/-- Modelled from the spec: `yack.h` is not among the sources. The boolean
`TRUE` passed to `yackctrlkey`. -/
def TRUE : Nat := 1

/-- Modelled from the spec: `yack.h` is not among the sources. The pattern that
marks the stored settings as valid; the declaration of `magic` in `yack.cpp`
says "Needs to contain 'A5' if mem is valid". -/
def MAGPAT : Nat := 0xA5

/-- Modelled from the spec: `yack.h` is not among the sources. The limits and
defaults of the settings, the size of the message buffer and the recording
timeout, which neither the spec nor `yack.cpp` gives a value: they are a
parameter of every function that reads one. `RECTIMEOUT` is the value of
`YACKSECS(DEFTIMEOUT)`, the number of heartbeats without a character that ends a
recording. -/
structure Header where
  MINWPM : Nat
  MAXWPM : Nat
  MAXFARN : Nat
  YACKBEAT : Nat
  DEFWPM : Nat
  DEFCTC : Nat
  FLAGDEFAULT : Nat
  RBSIZE : Nat
  RECTIMEOUT : Nat
  deriving DecidableEq, Repr

/-- The arguments `UP` and `DOWN` of `key`, `yackspeed` and `yackpitch`. -/
inductive Dir where
  | UP
  | DOWN
  deriving DecidableEq, Repr

/-- The arguments `DIT` and `DAH` of `yackplay`. -/
inductive Element where
  | DIT
  | DAH
  deriving DecidableEq, Repr

/-- The arguments `WPMSPEED` and `FARNSWORTH` of `yackspeed`. -/
inductive SpeedMode where
  | WPMSPEED
  | FARNSWORTH
  deriving DecidableEq, Repr

/-! ## The codebook -/

/-- Morse code table in Flash (`morse[]`): each byte is read from the left,
0 a dot and 1 a dash, and the last 1 is the stop marker. -/
def morse : List Nat :=
  [ 0b11111100,  -- 0
    0b01111100,  -- 1
    0b00111100,  -- 2
    0b00011100,  -- 3
    0b00001100,  -- 4
    0b00000100,  -- 5
    0b10000100,  -- 6
    0b11000100,  -- 7
    0b11100100,  -- 8
    0b11110100,  -- 9
    0b01100000,  -- A
    0b10001000,  -- B
    0b10101000,  -- C
    0b10010000,  -- D
    0b01000000,  -- E
    0b00101000,  -- F
    0b11010000,  -- G
    0b00001000,  -- H
    0b00100000,  -- I
    0b01111000,  -- J
    0b10110000,  -- K
    0b01001000,  -- L
    0b11100000,  -- M
    0b10100000,  -- N
    0b11110000,  -- O
    0b01101000,  -- P
    0b11011000,  -- Q
    0b01010000,  -- R
    0b00010000,  -- S
    0b11000000,  -- T
    0b00110000,  -- U
    0b00011000,  -- V
    0b01110000,  -- W
    0b10011000,  -- X
    0b10111000,  -- Y
    0b11001000,  -- Z
    0b00110010,  -- ?
    0b01010110,  -- .
    0b10010100,  -- /
    0b11101000,  -- !
    0b11001110,  -- ,
    0b11100010,  -- :
    0b10101010,  -- ;
    0b01001010,  -- "
    0b00010011,  -- $
    0b01111010,  -- apostrophe
    0b10110100,  -- ( or [
    0b10110110,  -- ) or ]
    0b10000110,  -- hyphen
    0b01101010,  -- @
    0b00110110,  -- underline
    0b01010010,  -- paragraph break
    0b10001100,  -- = and BT
    0b00010110,  -- SK
    0b01010100,  -- + and AR
    0b10001011,  -- BK
    0b01000100,  -- AS
    0b10101100,  -- KA
    0b00010100,  -- VE
    0b01011000 ] -- AA

/-- The characters of the special entries at the end of `morse`
(`spechar[24]`), as character codes. -/
def spechar : List Nat :=
  ("?./!,:;~$^()-@_|=#+*%&<>".toList).map Char.toNat

/-- The character that `morsechar` returns for a match at table index `i`. -/
def morsecharAt (i : Nat) : Nat :=
  if i < 10 then '0'.toNat + i
  else if i < 36 then 'A'.toNat + i - 10
  else spechar.getD (i - 36) 0

/-- The `for` loop of `morsechar` over the table entries from index `i` on:
the first entry equal to `buffer` decides, 0 when none is. -/
def morsecharFrom (buffer : Nat) : List Nat → Nat → Nat
  | [], _ => 0
  | m :: rest, i => if m = buffer then morsecharAt i else morsecharFrom buffer rest (i + 1)

/-- Reverse maps a code byte to a character (`morsechar`). -/
def morsechar (buffer : Nat) : Nat :=
  morsecharFrom buffer morse 0

/-- The `for` loop of `yackchar` over `spechar` from index `i` on: every match
overwrites `code`. -/
def specharScan (c : Nat) : List Nat → Nat → Nat → Nat
  | [], _, code => code
  | x :: rest, i, code =>
    specharScan c rest (i + 1) (if c = x then morse.getD (i + 36) 0 else code)

/-- The first part of `yackchar`: the code byte selected for character `c`,
0x80 (the empty code) when nothing matches. -/
def charCode (c : Nat) : Nat :=
  let code := 0x80
  let code := if '0'.toNat ≤ c ∧ c ≤ '9'.toNat then morse.getD (c - '0'.toNat) 0 else code
  let code := if 'a'.toNat ≤ c ∧ c ≤ 'z'.toNat then morse.getD (c - 'a'.toNat + 10) 0 else code
  let code := if 'A'.toNat ≤ c ∧ c ≤ 'Z'.toNat then morse.getD (c - 'A'.toNat + 10) 0 else code
  specharScan c spechar 0 code

/-- The characters C1 ranges over: the digits, the upper-case letters and the
characters of `spechar`. -/
def inCodebook (c : Nat) : Prop :=
  ('0'.toNat ≤ c ∧ c ≤ '9'.toNat) ∨ ('A'.toNat ≤ c ∧ c ≤ 'Z'.toNat) ∨ c ∈ spechar

instance (c : Nat) : Decidable (inCodebook c) := by
  unfold inCodebook; infer_instance

/-! ## Module state -/

/-- The states of the keyer FSM (`enum FSMSTATE`). -/
inductive FSMSTATE where
  | IDLE
  | KEYED
  | IEG
  deriving DecidableEq, Repr

/-- The paddle contacts as sampled from `KEYINP`: `true` is a closed contact
(the pin reads low). -/
structure Paddle where
  dit : Bool
  dah : Bool
  deriving DecidableEq, Repr

/-- What the library does to the outside world, in order: calls of `key`,
heartbeats waited for in `yackbeat`, the fixed `_delay_ms` pauses; and four
markers: `ctrlkey n r` for the return of the `n`-th call of `yackctrlkey` with
result `r`, `char c` for a call of `yackchar` with character `c`, `error` for a
call of `yackerror`, and `heard c` for a character `c` that `yackiambic` hands
to the recording loop of `yackmessage`. -/
inductive Event where
  | keyDown
  | keyUp
  | beat
  | delayMs (ms : Nat)
  | ctrlkey (n : Nat) (r : Bool)
  | char (c : Nat)
  | error
  | heard (c : Nat)
  deriving DecidableEq, Repr

/-- The module-level variables of `yack.cpp`, the EEPROM cells, the statics of
`yackiambic`, the two outputs that `key` drives, the number of `yackctrlkey`
calls made so far and the event log. -/
structure Yack where
  yackflags : Nat
  volflags : Nat
  ctcvalue : Nat
  wpmcnt : Nat
  wpm : Nat
  farnsworth : Nat
  magic : Nat
  flagstor : Nat
  ctcstor : Nat
  wpmstor : Nat
  fwstor : Nat
  user1 : Nat
  user2 : Nat
  eebuffer1 : List Nat
  eebuffer2 : List Nat
  eebuffer3 : List Nat
  eebuffer4 : List Nat
  fsms : FSMSTATE
  timer : Nat
  lastsymbol : Nat
  buffer : Nat
  bcntr : Nat
  iwgflag : Nat
  ultimem : Nat
  tone : Bool
  outpin : Bool
  npolls : Nat
  log : List Event
  deriving DecidableEq, Repr

/-- The byte `v & ~m`, for bytes `v` and `m`. -/
def bclr (v m : Nat) : Nat :=
  v &&& (255 ^^^ m)

/-! ## Keying and delays -/

/-- Keys the transmitter and the sidetone (`key`): `tone` is the sidetone
generator, switched when `volflags` has `SIDETONE`; `outpin` is the TX line,
driven when `volflags` has `TXKEY` and inverted under `TXINV`. -/
def key (mode : Dir) (s : Yack) : Yack :=
  match mode with
  | .DOWN =>
    { s with
      tone := if s.volflags &&& SIDETONE ≠ 0 then true else s.tone
      outpin :=
        if s.volflags &&& TXKEY ≠ 0 then (if s.yackflags &&& TXINV ≠ 0 then false else true)
        else s.outpin
      log := s.log ++ [Event.keyDown] }
  | .UP =>
    { s with
      tone := if s.volflags &&& SIDETONE ≠ 0 then false else s.tone
      outpin :=
        if s.volflags &&& TXKEY ≠ 0 then (if s.yackflags &&& TXINV ≠ 0 then true else false)
        else s.outpin
      log := s.log ++ [Event.keyUp] }

/-- Heartbeat delay (`yackbeat`): waits for the next tick. -/
def yackbeat (s : Yack) : Yack :=
  { s with log := s.log ++ [Event.beat] }

/-- The inner loop of `yackdelay`, `while (x--) yackbeat();`. -/
def beats : Nat → Yack → Yack
  | 0, s => s
  | x + 1, s => beats x (yackbeat s)

/-- The outer loop of `yackdelay`, `while (i--)`: each pass loads the byte `x`
from `wpmcnt`. -/
def delayLoop : Nat → Yack → Yack
  | 0, s => s
  | i + 1, s => delayLoop i (beats (s.wpmcnt % 256) s)

/-- Active waiting for `n` dot counts (`yackdelay`, `n` a byte). -/
def yackdelay (n : Nat) (s : Yack) : Yack :=
  delayLoop (n % 256) s

/-- The loop of `yackfarns`, `while (i--) yackdelay(1);`. -/
def farnsLoop : Nat → Yack → Yack
  | 0, s => s
  | i + 1, s => farnsLoop i (yackdelay 1 s)

/-- The additional Farnsworth delay (`yackfarns`). -/
def yackfarns (s : Yack) : Yack :=
  farnsLoop s.farnsworth s

/-- Keys for the duration of a dit or a dah (`yackplay`). -/
def yackplay (i : Element) (s : Yack) : Yack :=
  let s := key .DOWN s
  let s :=
    match i with
    | .DAH => yackdelay DAHLEN s
    | .DIT => yackdelay DITLEN s
  key .UP s

/-- The fixed pause `_delay_ms(ms)`. -/
def delayMs (ms : Nat) (s : Yack) : Yack :=
  { s with log := s.log ++ [Event.delayMs ms] }

/-! ## Settings -/

/-- Saves the settings to EEPROM when `DIRTYFLAG` is set (`yacksave`). -/
def yacksave (s : Yack) : Yack :=
  if s.volflags &&& DIRTYFLAG ≠ 0 then
    { s with
      magic := MAGPAT
      ctcstor := s.ctcvalue
      wpmstor := s.wpm
      flagstor := s.yackflags
      fwstor := s.farnsworth
      volflags := bclr s.volflags DIRTYFLAG }
  else s

/-- Inhibits (`mode` non-zero) or re-enables keying (`yackinhibit`). -/
def yackinhibit (mode : Nat) (s : Yack) : Yack :=
  if mode ≠ 0 then
    let s := { s with volflags := bclr s.volflags (TXKEY ||| SIDETONE) }
    { s with volflags := s.volflags ||| SIDETONE }
  else
    let s := { s with volflags := bclr s.volflags (TXKEY ||| SIDETONE) }
    let s := { s with volflags := s.volflags ||| (s.yackflags &&& (TXKEY ||| SIDETONE)) }
    key .UP s

/-- Increases or decreases the speed or the Farnsworth pause (`yackspeed`) and
plays the acknowledging "A"; `wpm` and `farnsworth` are bytes, `wpmcnt` is a
word that the quotient always fits. -/
def yackspeed (h : Header) (dir : Dir) (mode : SpeedMode) (s : Yack) : Yack :=
  let s :=
    match mode with
    | .FARNSWORTH =>
      let s := if dir = Dir.UP ∧ s.farnsworth > 0 then { s with farnsworth := s.farnsworth - 1 } else s
      if dir = Dir.DOWN ∧ s.farnsworth < h.MAXFARN then
        { s with farnsworth := (s.farnsworth + 1) % 256 }
      else s
    | .WPMSPEED =>
      let s := if dir = Dir.UP ∧ s.wpm < h.MAXWPM then { s with wpm := (s.wpm + 1) % 256 } else s
      let s := if dir = Dir.DOWN ∧ s.wpm > h.MINWPM then { s with wpm := s.wpm - 1 } else s
      { s with wpmcnt := (1200 / h.YACKBEAT) / s.wpm }
  let s := { s with volflags := s.volflags ||| DIRTYFLAG }
  let s := yackplay .DIT s
  let s := yackdelay IEGLEN s
  let s := yackplay .DAH s
  let s := yackdelay ICGLEN s
  yackfarns s

/-! ## The command key -/

/-- What the command button and the paddles do during one call of
`yackctrlkey`: `none` when the button reads open at entry; `some passes` when it
reads closed, with one entry per pass of the busy-wait loop (the button still
closed) giving the paddle contacts read in that pass, after which the button
reads open. -/
abbrev Poll := Option (List Paddle)

/-- The busy-wait loop of `yackctrlkey`: a paddle closed during the hold changes
the speed and drops the latch from `volbfr`. -/
def ctrlWait (h : Header) : List Paddle → Yack × Nat → Yack × Nat
  | [], sv => sv
  | p :: rest, (s, volbfr) =>
    let (s, volbfr) :=
      if p.dit then (yackspeed h .DOWN .WPMSPEED s, bclr volbfr CKLATCH) else (s, volbfr)
    let (s, volbfr) :=
      if p.dah then (yackspeed h .UP .WPMSPEED s, bclr volbfr CKLATCH) else (s, volbfr)
    ctrlWait h rest (s, volbfr)

/-- Scans for the command key (`yackctrlkey`); `w` tells what the button and the
paddles do during each call, by call number. -/
def yackctrlkey (h : Header) (w : Nat → Poll) (mode : Nat) (s : Yack) : Yack × Bool :=
  let n := s.npolls
  let s := { s with npolls := n + 1 }
  let volbfr := s.volflags
  let (s, volbfr) :=
    match w n with
    | none => (s, volbfr)
    | some passes =>
      let volbfr := volbfr ||| CKLATCH
      let s := yackinhibit ON s
      let s := delayMs 50 s
      let (s, volbfr) := ctrlWait h passes (s, volbfr)
      let s := delayMs 50 s
      let s := yacksave s
      (s, volbfr)
  let s := { s with volflags := volbfr }
  let s := if mode = TRUE then { s with volflags := bclr s.volflags CKLATCH } else s
  let r := decide (volbfr &&& CKLATCH ≠ 0)
  ({ s with log := s.log ++ [Event.ctrlkey n r] }, r)

/-! ## Playback -/

/-- The `while (code != 0x80)` loop of `yackchar`, with `fuel` bounding the
number of passes: `none` when the fuel runs out before the stop marker reaches
the top bit; otherwise the state and whether the loop ran to its end (`true`)
or `yackchar` returned from inside it on a command-key press (`false`). -/
def playLoop (h : Header) (w : Nat → Poll) : Nat → Nat → Yack → Option (Yack × Bool)
  | 0, code, s => if code = 0x80 then some (s, true) else none
  | fuel + 1, code, s =>
    if code = 0x80 then some (s, true)
    else
      let (s, r) := yackctrlkey h w FALSE s
      if r then some (s, false)
      else
        let s := if code &&& 0x80 ≠ 0 then yackplay .DAH s else yackplay .DIT s
        let s := yackdelay IEGLEN s
        playLoop h w fuel ((code <<< 1) % 256) s

/-- Sends a character in morse code (`yackchar`). A byte holds at most eight
elements, which bounds the passes of the playback loop. -/
def yackchar (h : Header) (w : Nat → Poll) (c : Nat) (s : Yack) : Option Yack :=
  let s := { s with log := s.log ++ [Event.char c] }
  let code := charCode c
  if c = ' '.toNat then
    some (yackdelay (IWGLEN - ICGLEN) s)
  else
    match playLoop h w 8 code s with
    | none => none
    | some (s, false) => some s
    | some (s, true) =>
      let s := yackdelay (ICGLEN - IEGLEN) s
      some (yackfarns s)

/-- Sends a 0-terminated string (`yackstring`); `p` is the memory from the
pointer on, and reading past its end gives the terminator. -/
def yackstring (h : Header) (w : Nat → Poll) : List Nat → Yack → Option Yack
  | [], s => some s
  | c :: p, s =>
    if c = 0 then some s
    else
      let (s, r) := yackctrlkey h w FALSE s
      if r then some s
      else
        match yackchar h w c s with
        | none => none
        | some s => yackstring h w p s

/-! ## The iambic keyer FSM -/

/-- Latches the status of the DIT and DAH paddles (`keylatch`). -/
def keylatch (p : Paddle) (s : Yack) : Yack :=
  let swap := s.yackflags &&& PDLSWAP
  let s :=
    if p.dit then { s with volflags := s.volflags ||| (if swap ≠ 0 then DAHLATCH else DITLATCH) }
    else s
  if p.dah then { s with volflags := s.volflags ||| (if swap ≠ 0 then DITLATCH else DAHLATCH) }
  else s

/-- The latching logic of the IDLE state, `switch (yackflags & MODE)`. -/
def modeLatch (s : Yack) : Yack :=
  let m := s.yackflags &&& MODE
  if m = IAMBICA ∨ m = IAMBICB then
    let s := { s with volflags := bclr s.volflags s.lastsymbol }
    { s with lastsymbol := 0 }
  else if m = ULTIMATIC then
    if s.volflags &&& SQUEEZED = SQUEEZED then
      if s.ultimem ≠ 0 then { s with volflags := bclr s.volflags s.ultimem }
      else { s with volflags := bclr s.volflags DITLATCH }
    else { s with ultimem := s.volflags &&& SQUEEZED }
  else if m = DAHPRIO then
    if s.volflags &&& SQUEEZED = SQUEEZED then { s with volflags := bclr s.volflags DITLATCH }
    else s
  else s

/-- The countdown at the top of `yackiambic`: `if (timer) timer--;`. -/
def countDown (s : Yack) : Yack :=
  if s.timer ≠ 0 then { s with timer := s.timer - 1 } else s

/-- No space detection: `if (ctrl == OFF) iwgflag = 0;`. -/
def spaceDetect (ctrl : Nat) (s : Yack) : Yack :=
  if ctrl = OFF then { s with iwgflag := 0 } else s

/-- The decode branch of the IDLE state: the accumulated elements are
terminated, left-justified and decoded, and the word-gap timer is armed.
`undef` stands for the byte that `buffer << (7 - bcntr)` leaves when `bcntr`
exceeds 7, a shift by a negative count, which C leaves undefined. -/
def decodeChar (undef : Nat) (s : Yack) : Yack × Nat :=
  let buffer := (s.buffer <<< 1) % 256
  let buffer := buffer ||| 1
  let buffer := if s.bcntr ≤ 7 then (buffer <<< (7 - s.bcntr)) % 256 else undef % 256
  let retchar := morsechar buffer
  ({ s with
      buffer := 0
      bcntr := 0
      timer := ((IWGLEN - ICGLEN) * s.wpmcnt) % 65536
      iwgflag := 1 }, retchar)

/-- The element-start branch of the IDLE state: the latched element is counted,
shifted into the buffer and keyed, and the FSM goes to KEYED. -/
def startElement (s : Yack) : Yack × Nat :=
  let s := { s with iwgflag := 0, bcntr := (s.bcntr + 1) % 256, buffer := (s.buffer <<< 1) % 256 }
  let s :=
    if s.volflags &&& DITLATCH ≠ 0 then
      { s with timer := (DITLEN * s.wpmcnt) % 65536, lastsymbol := DITLATCH }
    else
      { s with timer := (DAHLEN * s.wpmcnt) % 65536, lastsymbol := DAHLATCH, buffer := s.buffer ||| 1 }
  let s := key .DOWN s
  let s := { s with volflags := bclr s.volflags (DITLATCH ||| DAHLATCH) }
  ({ s with fsms := .KEYED }, 0)

/-- The arm `case IDLE:` of `yackiambic`. -/
def idleCase (p : Paddle) (undef : Nat) (s : Yack) : Yack × Nat :=
  let s := keylatch p s
  let s := modeLatch s
  if s.timer = 0 ∧ s.bcntr ≠ 0 then decodeChar undef s
  else if s.timer = 0 ∧ s.iwgflag ≠ 0 then ({ s with iwgflag := 0 }, ' '.toNat)
  else if s.volflags &&& (DITLATCH ||| DAHLATCH) ≠ 0 then startElement s
  else (s, 0)

/-- The arm `case KEYED:` of `yackiambic`. -/
def keyedCase (p : Paddle) (s : Yack) : Yack × Nat :=
  let s := if s.yackflags &&& MODE = IAMBICB then keylatch p s else s
  if s.timer = 0 then
    let s := key .UP s
    ({ s with timer := (IEGLEN * s.wpmcnt) % 65536, fsms := .IEG }, 0)
  else (s, 0)

/-- The arm `case IEG:` of `yackiambic`. -/
def iegCase (p : Paddle) (s : Yack) : Yack × Nat :=
  let s := keylatch p s
  if s.timer = 0 then
    ({ s with fsms := .IDLE, timer := ((ICGLEN - IEGLEN - 1) * s.wpmcnt) % 65536 }, 0)
  else (s, 0)

/-- One call of the keyer FSM (`yackiambic`), returning the new state and the
character; the arms of `switch (fsms)` are `idleCase`, `keyedCase` and
`iegCase`. The power-save hooks (`yackpower`) are left out. -/
def yackiambic (ctrl : Nat) (p : Paddle) (undef : Nat) (s : Yack) : Yack × Nat :=
  let s := countDown s
  let s := spaceDetect ctrl s
  match s.fsms with
  | .IDLE => idleCase p undef s
  | .KEYED => keyedCase p s
  | .IEG => iegCase p s

/-- What one heartbeat brings to `yackiambic` from outside: the paddle contacts,
the `ctrl` argument, the current values of `wpmcnt` and `yackflags` (which other
functions of the library may have changed since the last call), and `undef`. -/
structure Tick where
  paddle : Paddle
  ctrl : Nat
  wpmcnt : Nat
  yackflags : Nat
  undef : Nat
  deriving DecidableEq, Repr

/-- One heartbeat: `yackiambic` called with what the tick brings. The event log
is emptied first, so that afterwards it holds the `key` calls of this call. -/
def tick (i : Tick) (s : Yack) : Yack × Nat :=
  yackiambic i.ctrl i.paddle i.undef
    { s with wpmcnt := i.wpmcnt, yackflags := i.yackflags, log := [] }

/-- The state after the first `n` calls (calls `0 .. n-1`) of `yackiambic`,
one per heartbeat, with inputs `inp`; the event log is left empty. -/
def runFsm (inp : Nat → Tick) (s : Yack) : Nat → Yack
  | 0 => s
  | n + 1 => { (tick (inp n) (runFsm inp s n)).1 with log := [] }

/-- The character that call `n` returns. -/
def retAt (inp : Nat → Tick) (s : Yack) (n : Nat) : Nat :=
  (tick (inp n) (runFsm inp s n)).2

/-- The `key` calls that call `n` makes. -/
def keysAt (inp : Nat → Tick) (s : Yack) (n : Nat) : List Event :=
  (tick (inp n) (runFsm inp s n)).1.log

/-- The power-on state: every variable, EEPROM cell and static zero, the FSM
in IDLE, nothing keyed, no event. -/
def powerOn : Yack :=
  { yackflags := 0, volflags := 0, ctcvalue := 0, wpmcnt := 0, wpm := 0, farnsworth := 0,
    magic := 0, flagstor := 0, ctcstor := 0, wpmstor := 0, fwstor := 0, user1 := 0, user2 := 0,
    eebuffer1 := [], eebuffer2 := [], eebuffer3 := [], eebuffer4 := [],
    fsms := .IDLE, timer := 0, lastsymbol := 0, buffer := 0, bcntr := 0, iwgflag := 0,
    ultimem := 0, tone := false, outpin := false, npolls := 0, log := [] }

/-! ## Code bytes and element sequences -/

/-- The position of the stop marker of a code byte: its lowest set bit, searched
from bit `p` upwards with `n` positions left; 8 when there is none. -/
def sentinelFrom (b : Nat) : Nat → Nat → Nat
  | 0, _ => 8
  | n + 1, p => if b.testBit p then p else sentinelFrom b n (p + 1)

/-- The element sequence that a code byte stands for, in the words of the table
comment: the bits above the stop marker, read from the left, 0 a dot and 1 a
dash. -/
def codeElements (b : Nat) : List Element :=
  (List.range (7 - sentinelFrom b 8 0)).map
    (fun k => if b.testBit (7 - k) then Element.DAH else Element.DIT)

/-- The codebook as the table comments give it: the digits, the upper-case
letters and the characters of `spechar`, each with its code byte. -/
def codebook : List (Nat × Nat) :=
  ((List.range 10).map (fun i => '0'.toNat + i) ++ (List.range 26).map (fun i => 'A'.toNat + i)
    ++ spechar).zip morse

/-- The codebook character whose element sequence is `es`, 0 when there is
none. -/
def decodeElements (es : List Element) : Nat :=
  match codebook.find? (fun cb => decide (codeElements cb.2 = es)) with
  | some cb => cb.1
  | none => 0

/-- The accumulator of the FSM after the elements `es`: one shift per element,
low bit set for a dash. -/
def packElements (es : List Element) : Nat :=
  es.foldl (fun b e => 2 * b + (if e = Element.DAH then 1 else 0)) 0

/-- The element sequence of length `n` held in the low `n` bits of `b`, first
element most significant. -/
def unpackElements : Nat → Nat → List Element
  | 0, _ => []
  | n + 1, b => unpackElements n (b / 2) ++ [if b % 2 = 1 then Element.DAH else Element.DIT]

/-- The byte that the decode branch hands to `morsechar` for accumulator `b`
and element count `n ≤ 7`. -/
def justify (b n : Nat) : Nat :=
  ((((b <<< 1) % 256) ||| 1) <<< (7 - n)) % 256

/-- Nothing awaits decoding and no word gap is pending. -/
def quiet (s : Yack) : Prop :=
  s.iwgflag = 0 ∧ s.bcntr = 0

/-- Two dots keyed eight heartbeats apart at one tick per dot in IAMBIC-A, with
word-gap detection on. -/
def twoDots (k : Nat) : Tick :=
  { paddle := ⟨decide (k = 0 ∨ k = 8), false⟩, ctrl := ON, wpmcnt := 1, yackflags := IAMBICA,
    undef := 0 }


/-- A dash keyed from power-on at 21846 ticks per dot, the paddle closed on call
0 only. -/
def longDash (k : Nat) : Tick :=
  { paddle := ⟨false, decide (k = 0)⟩, ctrl := ON, wpmcnt := 21846, yackflags := IAMBICA,
    undef := 0 }

/-- A dot keyed from power-on at 3 ticks per dot, the paddle closed on call 0
only. -/
def oneDot (k : Nat) : Tick :=
  { paddle := ⟨decide (k = 0), false⟩, ctrl := ON, wpmcnt := 3, yackflags := IAMBICA,
    undef := 0 }

/-- The state on which `switch (fsms)` works in a heartbeat: the inputs of the
tick taken over, the timer counted down and `iwgflag` cleared under
`ctrl == OFF`. -/
def prelude (i : Tick) (s : Yack) : Yack :=
  spaceDetect i.ctrl (countDown { s with wpmcnt := i.wpmcnt, yackflags := i.yackflags, log := [] })


/-- Two states agree on what the keyer FSM reads and writes: its statics and
the two paddle latches of `volflags`. -/
def fsmEq (s t : Yack) : Prop :=
  s.fsms = t.fsms ∧ s.timer = t.timer ∧ s.lastsymbol = t.lastsymbol ∧ s.buffer = t.buffer ∧
  s.bcntr = t.bcntr ∧ s.iwgflag = t.iwgflag ∧ s.ultimem = t.ultimem ∧
  s.volflags &&& SQUEEZED = t.volflags &&& SQUEEZED

/-- Agreement within one call: `fsmEq`, and the same speed, flags and log. -/
def callEq (s t : Yack) : Prop :=
  fsmEq s t ∧ s.wpmcnt = t.wpmcnt ∧ s.yackflags = t.yackflags ∧ s.log = t.log


/-- What the keyer FSM reads and writes of the state: the statics of
`yackiambic` and the two paddle latches of `volflags`. -/
structure Statics where
  fsms : FSMSTATE
  timer : Nat
  lastsymbol : Nat
  buffer : Nat
  bcntr : Nat
  iwgflag : Nat
  ultimem : Nat
  latches : Nat
  deriving DecidableEq, Repr

/-- The statics and latches of a state. -/
def core (s : Yack) : Statics :=
  { fsms := s.fsms, timer := s.timer, lastsymbol := s.lastsymbol, buffer := s.buffer,
    bcntr := s.bcntr, iwgflag := s.iwgflag, ultimem := s.ultimem,
    latches := s.volflags &&& SQUEEZED }

/-- The power-on state with the statics and latches set to `c`. -/
def Statics.toYack (c : Statics) : Yack :=
  { powerOn with
    fsms := c.fsms, timer := c.timer, lastsymbol := c.lastsymbol, buffer := c.buffer,
    bcntr := c.bcntr, iwgflag := c.iwgflag, ultimem := c.ultimem, volflags := c.latches }

/-- One heartbeat as seen on the statics and latches: the new statics, the
character returned and the `key` calls made by `tick` from the state `c.toYack`. -/
def stepCore (i : Tick) (c : Statics) : Statics × Nat × List Event :=
  (core (tick i c.toYack).1, (tick i c.toYack).2, (tick i c.toYack).1.log)


/-- The statics in the IDLE state after the dot, with timer `t`: a dit latch
may only be left where the iambic modes will discard it. -/
def dotIdle (yf t : Nat) (c : Statics) : Prop :=
  ∃ ls ul v, c = ⟨.IDLE, t, ls, 0, 1, 0, ul, v⟩ ∧
    (v = 0 ∨ (v = 1 ∧ ls = 1 ∧ (yf &&& MODE = 0 ∨ yf &&& MODE = 4)))

/-- The dit paddle closed (`closed = true`) or open and the dah paddle open, as
contacts: under the paddle-swap flag the dit paddle is the contact on `DAHPIN`. -/
def ditPaddle (yf : Nat) (closed : Bool) : Paddle :=
  if yf &&& PDLSWAP = 0 then ⟨closed, false⟩ else ⟨false, closed⟩

/-- The inputs of C3: the dit paddle closed on calls `0 .. W-1` and both paddles
open afterwards, with `ctrl = ON`, `wpmcnt = W` and `yackflags = yf`. -/
def dotInput (W yf : Nat) (k : Nat) : Tick :=
  { paddle := ditPaddle yf (decide (k < W)), ctrl := ON, wpmcnt := W, yackflags := yf,
    undef := 0 }


/-- The inputs of C4: both paddles closed on every call, with `wpmcnt = W` and
`yackflags = yf`. -/
def squeezeInput (W yf : Nat) (_k : Nat) : Tick :=
  { paddle := ⟨true, true⟩, ctrl := ON, wpmcnt := W, yackflags := yf, undef := 0 }

/-- The statics from which a squeezed IAMBIC-A keyer starts a dit: power-on, or
IDLE after the gap that follows a dah, both latches set. -/
def ditDue (W : Nat) (c : Statics) : Prop :=
  c = ⟨.IDLE, 0, 0, 0, 0, 0, 0, 0⟩ ∨ ∃ bf b, c = ⟨.IDLE, W, 2, bf, b, 0, 0, 3⟩

/-- The statics from which a squeezed IAMBIC-A keyer starts a dah: IDLE after
the gap that follows a dit, both latches set. -/
def dahDue (W : Nat) (c : Statics) : Prop :=
  ∃ bf b, c = ⟨.IDLE, W, 1, bf, b, 0, 0, 3⟩

/-- The number of calls a dah is keyed at `W` ticks per dot: the 16-bit timer
value. -/
def dahTicks (W : Nat) : Nat :=
  (DAHLEN * W) % 65536

/-- The number of calls from one dit of a squeezed IAMBIC-A keyer to the next:
a dit and its gap, the call that starts the dah, the dah and its gap, the call
that starts the dit. -/
def squeezePeriod (W : Nat) : Nat :=
  (DITLEN * W + IEGLEN * W + 1) + (dahTicks W + IEGLEN * W + 1)

/-- The `key` calls of a squeezed IAMBIC-A keyer on the call at position `r` of
a period: a dit is keyed on call 0 and released `DITLEN * W` calls later, the dah
is keyed on the first call after the gap and released `dahTicks W` calls later. -/
def squeezeKeys (W r : Nat) : List Event :=
  if r = 0 then [Event.keyDown]
  else if r = DITLEN * W then [Event.keyUp]
  else if r = DITLEN * W + IEGLEN * W + 1 then [Event.keyDown]
  else if r = DITLEN * W + IEGLEN * W + 1 + dahTicks W then [Event.keyUp]
  else []


/-- The dah paddle closed and the dit paddle open, as contacts: under the
paddle-swap flag the dah paddle is the contact on `DITPIN`. -/
def dahOnly (yf : Nat) : Paddle :=
  if yf &&& PDLSWAP = 0 then ⟨false, true⟩ else ⟨true, false⟩

/-- The inputs of C5: only the dah paddle closed on call 0, both paddles closed
on every later call, with `wpmcnt = W` and `yackflags = yf`. -/
def dahThenSqueeze (W yf : Nat) (k : Nat) : Tick :=
  { paddle := if k = 0 then dahOnly yf else ⟨true, true⟩, ctrl := ON, wpmcnt := W,
    yackflags := yf, undef := 0 }

/-- The number of calls from one dit to the next when dits are repeated: the
dit, its gap and the call that starts the next dit. -/
def ditPeriod (W : Nat) : Nat :=
  DITLEN * W + IEGLEN * W + 1

/-- The `key` calls of an ULTIMATIC keyer on call `n` when a single dah press
on call 0 is followed by a squeeze: the dah is keyed on call 0 and released
`dahTicks W` calls later; after its gap a dit is keyed every `ditPeriod W`
calls and released `DITLEN * W` calls later. -/
def ultimaticKeys (W n : Nat) : List Event :=
  if n = 0 then [Event.keyDown]
  else if n = dahTicks W then [Event.keyUp]
  else if n < dahTicks W + IEGLEN * W + 1 then []
  else if (n - (dahTicks W + IEGLEN * W + 1)) % ditPeriod W = 0 then [Event.keyDown]
  else if (n - (dahTicks W + IEGLEN * W + 1)) % ditPeriod W = DITLEN * W then [Event.keyUp]
  else []

/-- The statics from which a squeezed ULTIMATIC keyer that remembers a single
dah press starts a dit: IDLE after a gap, both latches set. -/
def ultimaticDitDue (W : Nat) (c : Statics) : Prop :=
  ∃ ls bf b, c = ⟨.IDLE, W, ls, bf, b, 0, 2, 3⟩


/-- The statics in the IDLE state after an element whose accumulator and count
are `bf` and `b`, with timer `t`: no paddle latch is pending, or only the one
that the iambic modes discard. -/
def gapIdle (yf bf b t : Nat) (c : Statics) : Prop :=
  ∃ ls ul v iwg, c = ⟨.IDLE, t, ls, bf, b, iwg, ul, v⟩ ∧
    (v = 0 ∨ ((yf &&& MODE = 0 ∨ yf &&& MODE = 4) ∧ v = ls ∧ ls ≤ 3))


/-- The keying events of a log: the `key` calls and the heartbeats, without the
markers and the fixed pauses. -/
def keySchedule (l : List Event) : List Event :=
  l.filter (fun e => decide (e = Event.keyDown ∨ e = Event.keyUp ∨ e = Event.beat))

/-- The schedule of one element at `W` ticks per dot: key down for `DITLEN * W`
(dot) or `DAHLEN * W` (dash) heartbeats, then key up for `IEGLEN * W`. -/
def elementSchedule (W : Nat) (e : Element) : List Event :=
  Event.keyDown ::
    (List.replicate ((match e with | .DIT => DITLEN | .DAH => DAHLEN) * W) Event.beat ++
      Event.keyUp :: List.replicate (IEGLEN * W) Event.beat)

/-- Character `c` has a codebook entry: a digit, a letter of either case or a
character of `spechar`. -/
def hasCode (c : Nat) : Prop :=
  ('0'.toNat ≤ c ∧ c ≤ '9'.toNat) ∨ ('a'.toNat ≤ c ∧ c ≤ 'z'.toNat) ∨
  ('A'.toNat ≤ c ∧ c ≤ 'Z'.toNat) ∨ c ∈ spechar

instance (c : Nat) : Decidable (hasCode c) := by
  unfold hasCode; infer_instance

/-- No command-key press: the button reads open at every poll. -/
def neverPressed (w : Nat → Poll) : Prop :=
  ∀ n, w n = none

/-- A state for the playback examples: 3 ticks per dot, Farnsworth pause 1. -/
def playbackState : Yack :=
  { powerOn with wpmcnt := 3, farnsworth := 1 }

/-- A header for the examples: 5 to 50 wpm, 5 ms heartbeat, IAMBIC-B with TX
keying and sidetone as default flags, 100-byte messages as the EEPROM buffers
are declared, and a recording timeout of 5 s. -/
def exampleHeader : Header :=
  { MINWPM := 5, MAXWPM := 50, MAXFARN := 255, YACKBEAT := 5, DEFWPM := 12, DEFCTC := 135,
    FLAGDEFAULT := IAMBICB ||| TXKEY ||| SIDETONE, RBSIZE := 100, RECTIMEOUT := 1000 }


/-- An event other than the marker of a `yackctrlkey` return. -/
def notCtrl (e : Event) : Bool :=
  match e with
  | .ctrlkey _ _ => false
  | _ => true

/-- The log of `s'` extends that of `s` by events that are not `yackctrlkey`
markers, and no poll was made in between. -/
def extendsPlain (s s' : Yack) : Prop :=
  ∃ x, s'.log = s.log ++ x ∧ (∀ e ∈ x, notCtrl e = true) ∧ s'.npolls = s.npolls

/-- Nothing is keyed and no character is started in the events `l`. -/
def silent (l : List Event) : Prop :=
  Event.keyDown ∉ l ∧ ∀ c, Event.char c ∉ l

/-- What C10 asks of a stretch of execution from `s` to `s'`, for the poll
number `n` after which the button stays open: polls are numbered in order;
whatever follows a return `TRUE` of poll `n` is silent and leaves `CKLATCH` set;
and a stretch that starts after poll `n` with `CKLATCH` set is silent and leaves
`CKLATCH` set. -/
def cancelOk (n : Nat) (s s' : Yack) : Prop :=
  ∃ x, s'.log = s.log ++ x ∧ s.npolls ≤ s'.npolls ∧
    (∀ j r, Event.ctrlkey j r ∈ x → s.npolls ≤ j ∧ j < s'.npolls) ∧
    (∀ pre post, x = pre ++ Event.ctrlkey n true :: post →
      silent post ∧ s'.volflags &&& CKLATCH ≠ 0) ∧
    (n < s.npolls → s.volflags &&& CKLATCH ≠ 0 → silent x ∧ s'.volflags &&& CKLATCH ≠ 0)

/-- The command button pressed and released, no paddle touched, during poll
number `m`, and open at every other poll. -/
def pressAtPoll (m : Nat) : Nat → Poll :=
  fun j => if j = m then some [] else none


/-- No paddle contact is read closed in any pass of the busy-wait loop. -/
def noPaddle (passes : List Paddle) : Prop :=
  ∀ p ∈ passes, p.dit = false ∧ p.dah = false

/-- The speed changes that C12 describes for the passes of the busy-wait loop,
in order: a pass with the dit contact closed applies `yackspeed(DOWN, WPMSPEED)`
and a pass with the dah contact closed applies `yackspeed(UP, WPMSPEED)`. -/
def speedPasses (h : Header) (passes : List Paddle) (s : Yack) : Yack :=
  passes.foldl
    (fun s p =>
      let s := if p.dit then yackspeed h .DOWN .WPMSPEED s else s
      if p.dah then yackspeed h .UP .WPMSPEED s else s)
    s

/-- Some paddle contact is read closed in some pass of the busy-wait loop. -/
def somePaddle (passes : List Paddle) : Prop :=
  ∃ p ∈ passes, p.dit = true ∨ p.dah = true

/-- The button held during poll `m` for the passes `passes` of the busy-wait
loop, and open at every other poll. -/
def holdAtPoll (m : Nat) (passes : List Paddle) : Nat → Poll :=
  fun j => if j = m then some passes else none

/-- Modelled from the spec: `yack.h` is not among the sources. The constants of
the header have the types of the variables they are assigned to or compared
with: `wpm`, `farnsworth`, `yackflags` and the buffer index are bytes,
`ctcvalue` and the recording timer are words. -/
def Header.typed (h : Header) : Prop :=
  h.MAXWPM < 256 ∧ h.MAXFARN < 256 ∧ h.DEFWPM < 256 ∧ h.FLAGDEFAULT < 256 ∧
  h.DEFCTC < 65536 ∧ h.RBSIZE < 256 ∧ h.RECTIMEOUT < 65536

instance (h : Header) : Decidable h.typed := by
  unfold Header.typed; infer_instance

/-- A state for the speed examples: 19 wpm at the 5 ms heartbeat, 12 ticks per
dot, `CKLATCH` set. -/
def speedState : Yack :=
  { powerOn with wpm := 19, wpmcnt := 12, volflags := CKLATCH }

/-- The move of `wpm` that C14 describes for WPMSPEED mode: one up for UP and
one down for DOWN, and none at the limit in that direction. -/
def wpmStep (h : Header) (d : Dir) (wpm : Nat) : Nat :=
  match d with
  | .UP => if wpm = h.MAXWPM then wpm else wpm + 1
  | .DOWN => if wpm = h.MINWPM then wpm else wpm - 1

/-- The move of `farnsworth` that C14 describes for FARNSWORTH mode: one down
for UP unless it is 0, one up for DOWN unless it is `MAXFARN`. -/
def farnsStep (h : Header) (d : Dir) (f : Nat) : Nat :=
  match d with
  | .UP => if f = 0 then f else f - 1
  | .DOWN => if f = h.MAXFARN then f else f + 1

/-- A code byte in the format of the table comment with stop marker at bit `p`:
the byte is non-zero and fits 8 bits, bit `p` is its lowest set bit, and the
`7 - p` bits above it are its elements. -/
def wellFormedCode (b p : Nat) : Prop :=
  b ≠ 0 ∧ b < 256 ∧ b.testBit p = true ∧ b % 2 ^ p = 0 ∧
  (codeElements b).length = 7 - p

instance (b p : Nat) : Decidable (wellFormedCode b p) := by
  unfold wellFormedCode; infer_instance

/-- Modelled from the spec: `yack.h` is not among the sources. The arguments
`RECORD` and `PLAY` of `yackmessage`. -/
inductive MsgFunction where
  | RECORD
  | PLAY
  deriving DecidableEq, Repr

/-- Sets all parameters to their defaults and stores them (`yackreset`). -/
def yackreset (h : Header) (s : Yack) : Yack :=
  let s :=
    { s with
      ctcvalue := h.DEFCTC % 65536
      wpm := h.DEFWPM % 256
      wpmcnt := (1200 / h.YACKBEAT) / h.DEFWPM
      farnsworth := 0
      yackflags := h.FLAGDEFAULT % 256
      volflags := s.volflags ||| DIRTYFLAG }
  yacksave s

/-- Initialises the library (`yackinit`): the settings are read from EEPROM
when the magic byte is `MAGPAT` and reset otherwise. The port, pull-up and timer
registers are left out. -/
def yackinit (h : Header) (s : Yack) : Yack :=
  let magval := s.magic
  let s :=
    if magval = MAGPAT then
      let s := { s with ctcvalue := s.ctcstor }
      let s := { s with wpm := s.wpmstor }
      let s := { s with wpmcnt := (1200 / h.YACKBEAT) / s.wpm }
      let s := { s with farnsworth := s.fwstor }
      { s with yackflags := s.flagstor }
    else yackreset h s
  yackinhibit OFF s


/-- Sounds the error prosign, 8 dits (`yackerror`). -/
def yackerror (s : Yack) : Yack :=
  let s := { s with log := s.log ++ [Event.error] }
  let s := (List.range 8).foldl (fun s _ => yackdelay DITLEN (yackplay .DIT s)) s
  yackdelay DAHLEN s

/-- The first loop of `yacknumber`, `while (n)`: the digits of `n` go into the
5-byte `buffer` from index `i` on, least significant first. `none` when a digit
would be written outside the buffer, or when the `fuel` passes do not bring `n`
to 0. -/
def digitLoop : Nat → Nat → List Nat → Nat → Option (List Nat × Nat)
  | 0, n, buffer, i => if n = 0 then some (buffer, i) else none
  | fuel + 1, n, buffer, i =>
    if n = 0 then some (buffer, i)
    else if i < 5 then
      digitLoop fuel (n / 10) (buffer.set i ((n % 10 + '0'.toNat) % 256)) ((i + 1) % 256)
    else none

/-- The second loop of `yacknumber`, `while (i)`: the buffer is sent from index
`i - 1` down to 0, and a command-key press leaves the loop. `none` when a read
falls outside the buffer. -/
def sendDigits (h : Header) (w : Nat → Poll) (buffer : List Nat) : Nat → Yack → Option Yack
  | 0, s => some s
  | i + 1, s =>
    let (s, r) := yackctrlkey h w FALSE s
    if r then some s
    else
      match buffer[i]? with
      | none => none
      | some c =>
        match yackchar h w c s with
        | none => none
        | some s => sendDigits h w buffer i s

/-- Sends a number in CW (`yacknumber`); `n` is a word and `junk` is what the
5-byte buffer holds before it is written. Each pass of the first loop divides
`n` by 10, so `n` passes bring it to 0. -/
def yacknumber (h : Header) (w : Nat → Poll) (junk : List Nat) (n : Nat) (s : Yack) :
    Option Yack :=
  let n := n % 65536
  let buffer := (junk ++ List.replicate 5 0).take 5
  match digitLoop n n buffer 0 with
  | none => none
  | some (buffer, i) =>
    match sendDigits h w buffer i s with
    | none => none
    | some s => yackchar h w ' '.toNat s

/-- The characters handed to `yackchar` in a stretch of the log, in order. -/
def charsOf (l : List Event) : List Nat :=
  l.filterMap (fun e => match e with | .char c => some c | _ => none)

/-- The characters that `yackiambic` handed to the recording loop in a stretch
of the log, in order. -/
def heardOf (l : List Event) : List Nat :=
  l.filterMap (fun e => match e with | .heard c => some c | _ => none)

/-- The number of calls of `yackerror` in a stretch of the log. -/
def errorsOf (l : List Event) : Nat :=
  l.count Event.error

/-- An event that is none of the markers `char`, `error` and `heard`. -/
def notMark (e : Event) : Bool :=
  match e with
  | .char _ => false
  | .error => false
  | .heard _ => false
  | _ => true

/-- The log of `s'` extends that of `s` by events that are no `char`, `error`
or `heard` marker. -/
def unmarked (s s' : Yack) : Prop :=
  ∃ x, s'.log = s.log ++ x ∧ ∀ e ∈ x, notMark e = true

/-- The decimal digits of `n` as characters, most significant first. -/
def decimalChars (n : Nat) : List Nat :=
  (Nat.digits 10 n).reverse.map (fun d => d + '0'.toNat)

/-- An event of keying and timing: a `key` call, a heartbeat or a fixed pause,
and no marker. -/
def plainEvent (e : Event) : Bool :=
  match e with
  | .keyDown => true
  | .keyUp => true
  | .beat => true
  | .delayMs _ => true
  | _ => false

/-- The log of `s'` extends that of `s` by events of keying and timing. -/
def plainly (s s' : Yack) : Prop :=
  ∃ x, s'.log = s.log ++ x ∧ ∀ e ∈ x, plainEvent e = true


/-- The four message slots of `s'` hold what those of `s` hold. -/
def sameSlots (s s' : Yack) : Prop :=
  s'.eebuffer1 = s.eebuffer1 ∧ s'.eebuffer2 = s.eebuffer2 ∧
  s'.eebuffer3 = s.eebuffer3 ∧ s'.eebuffer4 = s.eebuffer4

/-- Message slot `m` of the EEPROM, for `m` from 1 to 4. -/
def slot (m : Nat) (s : Yack) : List Nat :=
  if m = 1 then s.eebuffer1
  else if m = 2 then s.eebuffer2
  else if m = 3 then s.eebuffer3
  else if m = 4 then s.eebuffer4
  else []

/-- The locals of `yackmessage` that the recording loop works on. -/
structure Capture where
  rambuffer : List Nat
  i : Nat
  extimer : Nat
  deriving DecidableEq, Repr

/-- The body of `if ((c = yackiambic(ON)))` in the recording loop: a character
is added to the buffer and the timer is started again. `none` when the write
falls outside `rambuffer`. -/
def capture (h : Header) (c : Nat) (m : Capture) (s : Yack) : Option (Capture × Yack) :=
  if c ≠ 0 then
    if m.i < h.RBSIZE then
      some ({ rambuffer := m.rambuffer.set m.i c, i := (m.i + 1) % 256,
              extimer := h.RECTIMEOUT % 65536 },
            { s with log := s.log ++ [Event.heard c] })
    else none
  else some (m, s)

/-- The statement `if (i >= RBSIZE)` of the recording loop: the error prosign is
sounded and the index goes back to 0. -/
def overflow (h : Header) (m : Capture) (s : Yack) : Capture × Yack :=
  if m.i ≥ h.RBSIZE then ({ m with i := 0 }, yackerror s) else (m, s)

/-- The recording loop of `yackmessage`, `while (extimer--)`; `pd k` and `ud k`
are the paddle contacts and the undefined shift result that pass `k` brings to
`yackiambic`. The result is `none` when the `fuel` passes do not end the loop
or a write falls outside the buffer; otherwise the state and `none` for a
return on a command-key press, or the locals at the timeout. -/
def recordLoop (h : Header) (w : Nat → Poll) (pd : Nat → Paddle) (ud : Nat → Nat) :
    Nat → Nat → Capture → Yack → Option (Yack × Option Capture)
  | 0, _, m, s => if m.extimer = 0 then some (s, some m) else none
  | fuel + 1, k, m, s =>
    if m.extimer = 0 then some (s, some m)
    else
      let m := { m with extimer := m.extimer - 1 }
      let (s, r) := yackctrlkey h w FALSE s
      if r then some (s, none)
      else
        let (s, c) := yackiambic ON (pd k) (ud k) s
        match capture h c m s with
        | none => none
        | some (m, s) =>
          let (m, s) := overflow h m s
          let s := yackbeat s
          recordLoop h w pd ud fuel (k + 1) m s

/-- The block copy `eeprom_write_block` and `eeprom_read_block` of `n` bytes
from `src` over the start of `dst`. -/
def copyBlock (src dst : List Nat) (n : Nat) : List Nat :=
  src.take n ++ dst.drop n

/-- The end of a recording after the timeout: a captured message is terminated
over its last character and written to slot `msgnr`; an empty capture sounds
the error prosign. -/
def storeMessage (h : Header) (msgnr : Nat) (m : Capture) (s : Yack) : Yack :=
  if m.i ≠ 0 then
    let m := { m with i := m.i - 1 }
    let m := { m with rambuffer := m.rambuffer.set m.i 0 }
    let s := if msgnr = 1 then { s with eebuffer1 := copyBlock m.rambuffer s.eebuffer1 h.RBSIZE }
             else s
    let s := if msgnr = 2 then { s with eebuffer2 := copyBlock m.rambuffer s.eebuffer2 h.RBSIZE }
             else s
    let s := if msgnr = 3 then { s with eebuffer3 := copyBlock m.rambuffer s.eebuffer3 h.RBSIZE }
             else s
    if msgnr = 4 then { s with eebuffer4 := copyBlock m.rambuffer s.eebuffer4 h.RBSIZE }
    else s
  else yackerror s

/-- The replay loop of `yackmessage`, `for (n = 0; (c = rambuffer[n]); n++)`,
over the buffer from index `n` on. `none` when the loop reads past the end of
the buffer. -/
def replay (h : Header) (w : Nat → Poll) : List Nat → Yack → Option Yack
  | [], _ => none
  | c :: rest, s =>
    if c = 0 then some s
    else
      let (s, r) := yackctrlkey h w TRUE s
      if r then some s
      else
        match yackchar h w c s with
        | none => none
        | some s => replay h w rest s

/-- The state at the head of pass `k` of the replay loop of `yackmessage`,
before the byte is read and the poll is made there; the passes are those of
`replay`. `none` when the loop has ended before pass `k`. -/
def replayHead (h : Header) (w : Nat → Poll) : Nat → List Nat → Yack → Option Yack
  | 0, _, s => some s
  | _ + 1, [], _ => none
  | k + 1, c :: rest, s =>
    if c = 0 then none
    else
      let (s, r) := yackctrlkey h w TRUE s
      if r then none
      else
        match yackchar h w c s with
        | none => none
        | some s => replayHead h w k rest s

/-- The message that PLAY loads into `rambuffer` for `msgnr`. -/
def loadMessage (h : Header) (msgnr : Nat) (rambuffer : List Nat) (s : Yack) : List Nat :=
  let rambuffer := if msgnr = 1 then copyBlock s.eebuffer1 rambuffer h.RBSIZE else rambuffer
  let rambuffer := if msgnr = 2 then copyBlock s.eebuffer2 rambuffer h.RBSIZE else rambuffer
  let rambuffer := if msgnr = 3 then copyBlock s.eebuffer3 rambuffer h.RBSIZE else rambuffer
  if msgnr = 4 then copyBlock s.eebuffer4 rambuffer h.RBSIZE else rambuffer

/-- Records or plays a stored message (`yackmessage`). `junk` is what
`rambuffer` holds before it is written, and `fuel` bounds the passes of the
recording loop, which has no bound of its own: every character keyed starts the
timeout again. -/
def yackmessage (h : Header) (w : Nat → Poll) (pd : Nat → Paddle) (ud : Nat → Nat)
    (junk : List Nat) (fuel : Nat) (function : MsgFunction) (msgnr : Nat) (s : Yack) :
    Option Yack :=
  let rambuffer := (junk ++ List.replicate h.RBSIZE 0).take h.RBSIZE
  match function with
  | .RECORD =>
    match recordLoop h w pd ud fuel 0
        { rambuffer := rambuffer, i := 0, extimer := h.RECTIMEOUT % 65536 } s with
    | none => none
    | some (s, none) => some s
    | some (s, some m) => some (storeMessage h msgnr m s)
  | .PLAY => replay h w (loadMessage h msgnr rambuffer s) s

/-- A header for the recording examples: messages of 2 bytes and a timeout of 8
heartbeats. -/
def shortHeader : Header :=
  { exampleHeader with RBSIZE := 2, RECTIMEOUT := 8 }

/-- A dit keyed on the first pass of the recording loop, and nothing after. -/
def oneDit (k : Nat) : Paddle :=
  ⟨decide (k = 0), false⟩

/-- The state at the start of the recording examples: IAMBIC-A at one tick per
dot. -/
def recordState : Yack :=
  { powerOn with wpmcnt := 1 }

/-- The marker of a poll that returned TRUE. -/
def truePoll (e : Event) : Bool :=
  match e with
  | .ctrlkey _ r => r
  | _ => false

/-- No poll in the stretch `x` of the log returned TRUE. -/
def noTruePoll (x : List Event) : Prop :=
  ∀ e ∈ x, truePoll e = false

instance (x : List Event) : Decidable (noTruePoll x) := by
  unfold noTruePoll; infer_instance

/-- A header for the recording examples: messages of 5 bytes and a timeout of 8
heartbeats. -/
def recordHeader : Header :=
  { exampleHeader with RBSIZE := 5, RECTIMEOUT := 8 }

/-- A state for the replay examples: slot 1 holds "AB" and a NUL, then a
leftover byte. -/
def messageState : Yack :=
  { playbackState with eebuffer1 := ['A'.toNat, 'B'.toNat, 0, 'C'.toNat] }


/-- Bytes `a` and `b` agree in every bit other than bit 3, the bit of
`CKLATCH`. -/
def sameButLatch (a b : Nat) : Prop :=
  ∀ i, i < 8 → i ≠ 3 → a.testBit i = b.testBit i

/-- Bytes `a` and `b` agree in every bit other than bit 2, the bit of
`DIRTYFLAG`. -/
def sameButDirty (a b : Nat) : Prop :=
  ∀ i, i < 8 → i ≠ 2 → a.testBit i = b.testBit i

/-- A state with changed settings that are not stored yet: `DIRTYFLAG` and
`TXKEY` set, 20 wpm, and 15 wpm in EEPROM. -/
def dirtyState : Yack :=
  { powerOn with volflags := DIRTYFLAG ||| TXKEY, wpm := 20, wpmcnt := 12, wpmstor := 15,
                 magic := MAGPAT }

/-- The dit paddle held closed for the first 57 heartbeats at 3 ticks per dot in
IAMBIC-A, in which time eight dits are started, and open afterwards; `u` is the
result of the undefined shift. -/
def heldDit (u : Nat) (k : Nat) : Tick :=
  { paddle := ⟨decide (k < 57), false⟩, ctrl := ON, wpmcnt := 3, yackflags := IAMBICA,
    undef := u }

/-- The call `yackiambic(ctrl)` with paddle contacts `p` in state `s` takes the
decode branch of the IDLE state: after the countdown the FSM is in IDLE, the
timer is 0 and `bcntr` is not 0. -/
def decodeDue (ctrl : Nat) (p : Paddle) (s : Yack) : Prop :=
  (modeLatch (keylatch p (spaceDetect ctrl (countDown s)))).fsms = .IDLE ∧
  (modeLatch (keylatch p (spaceDetect ctrl (countDown s)))).timer = 0 ∧
  (modeLatch (keylatch p (spaceDetect ctrl (countDown s)))).bcntr ≠ 0

instance (ctrl : Nat) (p : Paddle) (s : Yack) : Decidable (decodeDue ctrl p s) := by
  unfold decodeDue; infer_instance



/-- The locals and the state at the head of pass `n` of the recording loop of
`yackmessage`, before `extimer` is tested there; the passes are those of
`recordLoop`. `none` when the loop has ended before pass `n` or a write has
fallen outside the buffer. -/
def recordHead (h : Header) (w : Nat → Poll) (pd : Nat → Paddle) (ud : Nat → Nat) :
    Nat → Nat → Capture → Yack → Option (Capture × Yack)
  | 0, _, m, s => some (m, s)
  | n + 1, k, m, s =>
    if m.extimer = 0 then none
    else
      let m := { m with extimer := m.extimer - 1 }
      let (s, r) := yackctrlkey h w FALSE s
      if r then none
      else
        let (s, c) := yackiambic ON (pd k) (ud k) s
        match capture h c m s with
        | none => none
        | some (m, s) =>
          let (m, s) := overflow h m s
          let s := yackbeat s
          recordHead h w pd ud n (k + 1) m s

/-- The locals of `yackmessage` when the recording loop is entered. -/
def recordStart (h : Header) (junk : List Nat) : Capture :=
  { rambuffer := (junk ++ List.replicate h.RBSIZE 0).take h.RBSIZE, i := 0,
    extimer := h.RECTIMEOUT % 65536 }


/-- The latch bits that `keylatch` sets for the contacts `p` under the flags
`yf`: with the paddle-swap flag the contacts change roles. -/
def latchOf (yf : Nat) (p : Paddle) : Nat :=
  (if p.dit then (if yf &&& PDLSWAP ≠ 0 then DAHLATCH else DITLATCH) else 0) |||
  (if p.dah then (if yf &&& PDLSWAP ≠ 0 then DITLATCH else DAHLATCH) else 0)

/-- The latch of the element of the other kind: `DAHLATCH` for a dit, `DITLATCH`
for a dah. -/
def opposite (sym : Nat) : Nat :=
  if sym = DITLATCH then DAHLATCH else DITLATCH

/-- Inputs for the memory example at 2 ticks per dot: the dit contact closed on
call 0, the dah contact closed on call 1, both open from call 2 on. -/
def memoryInput (yf : Nat) (k : Nat) : Tick :=
  { paddle := ⟨decide (k = 0), decide (k = 1)⟩, ctrl := ON, wpmcnt := 2, yackflags := yf,
    undef := 0 }

/-! # Theorems -/

/-! ## The codebook: round trip and decoding -/

set_option maxRecDepth 100000 in
theorem roundtrip_below : ∀ c, c < 128 → inCodebook c → morsechar (charCode c) = c := by
  decide

theorem spechar_below : ∀ c, c ∈ spechar → c < 128 := by
  decide

/-- C1: the 60 bytes of the morse table are pairwise distinct, and for every
character `c` among the digits, the upper-case letters and the 24 characters of
`spechar`, `morsechar` applied to the code that `yackchar` selects for `c` gives
`c` back. -/
theorem morse_distinct_and_roundtrip :
    morse.length = 60 ∧ morse.Nodup ∧
    ∀ c, inCodebook c → morsechar (charCode c) = c := by
  refine ⟨by decide, by decide, ?_⟩
  intro c hc
  have hlt : c < 128 := by
    rcases hc with ⟨_, h⟩ | ⟨_, h⟩ | h
    · exact lt_of_le_of_lt h (by decide)
    · exact lt_of_le_of_lt h (by decide)
    · exact spechar_below c h
  exact roundtrip_below c hlt hc

/-- Witness for C1 at the letter A. -/
theorem morse_distinct_and_roundtrip_witness :
    inCodebook 'A'.toNat ∧ morsechar (charCode 'A'.toNat) = 'A'.toNat :=
  ⟨by decide, morse_distinct_and_roundtrip.2.2 'A'.toNat (by decide)⟩

set_option maxRecDepth 100000 in
theorem justify_decode : ∀ n, n < 8 → 1 ≤ n → ∀ b, b < 2 ^ n →
    morsechar (justify b n) = decodeElements (unpackElements n b) := by
  decide

@[simp] theorem keylatch_fsms (p : Paddle) (s : Yack) : (keylatch p s).fsms = s.fsms := by
  unfold keylatch
  cases p.dit <;> cases p.dah <;> simp

@[simp] theorem keylatch_timer (p : Paddle) (s : Yack) : (keylatch p s).timer = s.timer := by
  unfold keylatch
  cases p.dit <;> cases p.dah <;> simp

@[simp] theorem keylatch_buffer (p : Paddle) (s : Yack) : (keylatch p s).buffer = s.buffer := by
  unfold keylatch
  cases p.dit <;> cases p.dah <;> simp

@[simp] theorem keylatch_bcntr (p : Paddle) (s : Yack) : (keylatch p s).bcntr = s.bcntr := by
  unfold keylatch
  cases p.dit <;> cases p.dah <;> simp

@[simp] theorem keylatch_iwgflag (p : Paddle) (s : Yack) : (keylatch p s).iwgflag = s.iwgflag := by
  unfold keylatch
  cases p.dit <;> cases p.dah <;> simp

@[simp] theorem keylatch_lastsymbol (p : Paddle) (s : Yack) : (keylatch p s).lastsymbol = s.lastsymbol := by
  unfold keylatch
  cases p.dit <;> cases p.dah <;> simp

@[simp] theorem keylatch_ultimem (p : Paddle) (s : Yack) : (keylatch p s).ultimem = s.ultimem := by
  unfold keylatch
  cases p.dit <;> cases p.dah <;> simp

@[simp] theorem keylatch_wpmcnt (p : Paddle) (s : Yack) : (keylatch p s).wpmcnt = s.wpmcnt := by
  unfold keylatch
  cases p.dit <;> cases p.dah <;> simp

@[simp] theorem keylatch_yackflags (p : Paddle) (s : Yack) : (keylatch p s).yackflags = s.yackflags := by
  unfold keylatch
  cases p.dit <;> cases p.dah <;> simp

@[simp] theorem keylatch_log (p : Paddle) (s : Yack) : (keylatch p s).log = s.log := by
  unfold keylatch
  cases p.dit <;> cases p.dah <;> simp

@[simp] theorem modeLatch_fsms (s : Yack) : (modeLatch s).fsms = s.fsms := by
  unfold modeLatch
  simp only []
  split_ifs <;> simp

@[simp] theorem modeLatch_timer (s : Yack) : (modeLatch s).timer = s.timer := by
  unfold modeLatch
  simp only []
  split_ifs <;> simp

@[simp] theorem modeLatch_buffer (s : Yack) : (modeLatch s).buffer = s.buffer := by
  unfold modeLatch
  simp only []
  split_ifs <;> simp

@[simp] theorem modeLatch_bcntr (s : Yack) : (modeLatch s).bcntr = s.bcntr := by
  unfold modeLatch
  simp only []
  split_ifs <;> simp

@[simp] theorem modeLatch_iwgflag (s : Yack) : (modeLatch s).iwgflag = s.iwgflag := by
  unfold modeLatch
  simp only []
  split_ifs <;> simp

@[simp] theorem modeLatch_wpmcnt (s : Yack) : (modeLatch s).wpmcnt = s.wpmcnt := by
  unfold modeLatch
  simp only []
  split_ifs <;> simp

@[simp] theorem modeLatch_yackflags (s : Yack) : (modeLatch s).yackflags = s.yackflags := by
  unfold modeLatch
  simp only []
  split_ifs <;> simp

@[simp] theorem modeLatch_log (s : Yack) : (modeLatch s).log = s.log := by
  unfold modeLatch
  simp only []
  split_ifs <;> simp

theorem unpack_pack (es : List Element) :
    unpackElements es.length (packElements es) = es ∧ packElements es < 2 ^ es.length := by
  induction es using List.reverseRecOn with
  | nil => simp [unpackElements, packElements]
  | append_singleton l e ih =>
    have hp : packElements (l ++ [e]) = 2 * packElements l + (if e = Element.DAH then 1 else 0) := by
      simp [packElements, List.foldl_append]
    rw [hp, List.length_append, List.length_singleton]
    constructor
    · have h1 : ∀ b c : Nat, c < 2 → (2 * b + c) / 2 = b := by intro b c hc; omega
      have h2 : ∀ b c : Nat, c < 2 → (2 * b + c) % 2 = c := by intro b c hc; omega
      cases e <;> simp [unpackElements, ih.1, h1, h2]
    · have := ih.2
      rw [pow_succ]
      cases e <;> simp <;> omega

/-- C2: when `yackiambic` runs in IDLE with the timer at 0 after its decrement
(so at most 1 before it) and `bcntr = n`, `1 ≤ n ≤ 7`, with `buffer` holding the
keyed elements `es` in its low `n` bits, the call returns the codebook character
whose element sequence is `es`, or 0 when no table entry has that sequence, and
resets `buffer` and `bcntr` to 0. -/
theorem idle_decode_returns_codebook_char (s : Yack) (ctrl : Nat) (p : Paddle) (u : Nat) (es : List Element)
    (hidle : s.fsms = .IDLE) (htimer : s.timer ≤ 1)
    (hlen1 : 1 ≤ es.length) (hlen7 : es.length ≤ 7)
    (hb : s.bcntr = es.length) (hbuf : s.buffer = packElements es) :
    (yackiambic ctrl p u s).2 = decodeElements es ∧
    (yackiambic ctrl p u s).1.buffer = 0 ∧ (yackiambic ctrl p u s).1.bcntr = 0 := by
  have hj := justify_decode es.length (by omega) hlen1 (packElements es) (unpack_pack es).2
  rw [(unpack_pack es).1] at hj
  have hne : es.length ≠ 0 := by omega
  have ht : s.timer = 0 ∨ s.timer = 1 := by omega
  unfold justify at hj
  rcases ht with ht | ht <;> by_cases hc : ctrl = OFF <;>
    simp [yackiambic, countDown, spaceDetect, idleCase, decodeChar, hidle, ht, hc, hb, hbuf, hne,
      hlen7, hj]


/-- Witness for C2: the accumulation DOT, DOT returns the letter I. -/
theorem idle_decode_returns_codebook_char_witness :
    (yackiambic ON ⟨false, false⟩ 0 { powerOn with bcntr := 2 }).2 = 'I'.toNat ∧
    (yackiambic ON ⟨false, false⟩ 0 { powerOn with bcntr := 2 }).1.buffer = 0 ∧
    (yackiambic ON ⟨false, false⟩ 0 { powerOn with bcntr := 2 }).1.bcntr = 0 := by
  have h := idle_decode_returns_codebook_char { powerOn with bcntr := 2 } ON ⟨false, false⟩ 0
    [Element.DIT, Element.DIT] rfl (by decide) (by decide) (by decide) rfl rfl
  have hd : decodeElements [Element.DIT, Element.DIT] = 'I'.toNat := by decide
  rw [hd] at h
  exact h

/-! ## The keyer FSM: general facts -/

set_option maxRecDepth 100000 in
theorem morsechar_ne_space : ∀ b, b < 256 → morsechar b ≠ ' '.toNat := by
  decide

theorem countDown_eq (s : Yack) : countDown s = { s with timer := s.timer - 1 } := by
  unfold countDown
  split_ifs with h
  · rfl
  · have h0 : s.timer = 0 := by simpa using h
    cases s
    simp at h0
    simp [h0]

theorem spaceDetect_eq (ctrl : Nat) (s : Yack) :
    spaceDetect ctrl s = { s with iwgflag := if ctrl = OFF then 0 else s.iwgflag } := by
  unfold spaceDetect
  split_ifs <;> rfl

theorem decodeChar_ne_space (u : Nat) (s : Yack) : (decodeChar u s).2 ≠ ' '.toNat := by
  unfold decodeChar
  simp only []
  apply morsechar_ne_space
  split_ifs
  · exact Nat.mod_lt _ (by decide)
  · exact Nat.mod_lt _ (by decide)

theorem keyedCase_ret (p : Paddle) (s : Yack) : (keyedCase p s).2 = 0 := by
  unfold keyedCase
  simp only []
  split_ifs <;> rfl

theorem iegCase_ret (p : Paddle) (s : Yack) : (iegCase p s).2 = 0 := by
  unfold iegCase
  simp only []
  split_ifs <;> rfl

@[simp] theorem key_fsms (d : Dir) (s : Yack) : (key d s).fsms = s.fsms := by
  cases d <;> rfl

@[simp] theorem key_timer (d : Dir) (s : Yack) : (key d s).timer = s.timer := by
  cases d <;> rfl

@[simp] theorem key_buffer (d : Dir) (s : Yack) : (key d s).buffer = s.buffer := by
  cases d <;> rfl

@[simp] theorem key_bcntr (d : Dir) (s : Yack) : (key d s).bcntr = s.bcntr := by
  cases d <;> rfl

@[simp] theorem key_iwgflag (d : Dir) (s : Yack) : (key d s).iwgflag = s.iwgflag := by
  cases d <;> rfl

@[simp] theorem key_lastsymbol (d : Dir) (s : Yack) : (key d s).lastsymbol = s.lastsymbol := by
  cases d <;> rfl

@[simp] theorem key_ultimem (d : Dir) (s : Yack) : (key d s).ultimem = s.ultimem := by
  cases d <;> rfl

@[simp] theorem key_wpmcnt (d : Dir) (s : Yack) : (key d s).wpmcnt = s.wpmcnt := by
  cases d <;> rfl

@[simp] theorem key_yackflags (d : Dir) (s : Yack) : (key d s).yackflags = s.yackflags := by
  cases d <;> rfl

@[simp] theorem key_volflags (d : Dir) (s : Yack) : (key d s).volflags = s.volflags := by
  cases d <;> rfl

@[simp] theorem key_log_down (s : Yack) : (key Dir.DOWN s).log = s.log ++ [Event.keyDown] := by
  rfl

@[simp] theorem key_log_up (s : Yack) : (key Dir.UP s).log = s.log ++ [Event.keyUp] := by
  rfl

theorem startElement_out (s : Yack) :
    (startElement s).2 = 0 ∧ (startElement s).1.log = s.log ++ [Event.keyDown] ∧
    (startElement s).1.fsms = .KEYED := by
  unfold startElement
  simp only []
  split_ifs <;> simp

theorem keyedCase_quiet (p : Paddle) (s : Yack) :
    (keyedCase p s).1.iwgflag = s.iwgflag ∧ (keyedCase p s).1.bcntr = s.bcntr := by
  unfold keyedCase
  simp only []
  split_ifs <;> simp

theorem iegCase_quiet (p : Paddle) (s : Yack) :
    (iegCase p s).1.iwgflag = s.iwgflag ∧ (iegCase p s).1.bcntr = s.bcntr := by
  unfold iegCase
  simp only []
  split_ifs <;> simp

theorem idleCase_space_quiet (p : Paddle) (u : Nat) (s : Yack)
    (h : (idleCase p u s).2 = ' '.toNat) : quiet (idleCase p u s).1 := by
  unfold idleCase at *
  simp only [] at *
  generalize modeLatch (keylatch p s) = s2 at *
  split_ifs at h ⊢ with h1 h2 h3
  · exact absurd h (decodeChar_ne_space u s2)
  · simp only [quiet]
    refine ⟨trivial, ?_⟩
    by_contra hb
    exact h1 ⟨h2.1, hb⟩
  · rw [(startElement_out s2).1] at h
    exact absurd h (by decide)
  · exact absurd h (by simp)

theorem idleCase_quiet (p : Paddle) (u : Nat) (s : Yack) (h : quiet s) :
    (idleCase p u s).2 ≠ ' '.toNat ∧
    (quiet (idleCase p u s).1 ∨ (idleCase p u s).1.log = s.log ++ [Event.keyDown]) := by
  unfold idleCase
  simp only []
  have hq : quiet (modeLatch (keylatch p s)) := by
    simpa [quiet] using h
  have hl : (modeLatch (keylatch p s)).log = s.log := by simp
  generalize modeLatch (keylatch p s) = s2 at *
  split_ifs with h1 h2 h3
  · exact absurd hq.2 h1.2
  · exact absurd hq.1 h2.2
  · rw [(startElement_out s2).1, (startElement_out s2).2.1, hl]
    exact ⟨by decide, Or.inr rfl⟩
  · exact ⟨by simp, Or.inl hq⟩

theorem tick_space_quiet (i : Tick) (s : Yack) (h : (tick i s).2 = ' '.toNat) :
    quiet (tick i s).1 := by
  unfold tick yackiambic at *
  simp only [] at *
  generalize spaceDetect i.ctrl (countDown _) = s1 at *
  split at h
  · exact idleCase_space_quiet _ _ _ h
  · rw [keyedCase_ret] at h
    exact absurd h (by decide)
  · rw [iegCase_ret] at h
    exact absurd h (by decide)

theorem tick_quiet (i : Tick) (s : Yack) (h : quiet s) :
    (tick i s).2 ≠ ' '.toNat ∧ (quiet (tick i s).1 ∨ (tick i s).1.log = [Event.keyDown]) := by
  unfold tick yackiambic
  simp only []
  have hq : quiet (spaceDetect i.ctrl (countDown
      { s with wpmcnt := i.wpmcnt, yackflags := i.yackflags, log := [] })) := by
    rw [countDown_eq, spaceDetect_eq]
    simp only [quiet] at h ⊢
    refine ⟨?_, h.2⟩
    split_ifs
    · rfl
    · exact h.1
  have hl : (spaceDetect i.ctrl (countDown
      { s with wpmcnt := i.wpmcnt, yackflags := i.yackflags, log := [] })).log = [] := by
    rw [countDown_eq, spaceDetect_eq]
  generalize spaceDetect i.ctrl (countDown _) = s1 at *
  split
  · have := idleCase_quiet i.paddle i.undef s1 hq
    rw [hl] at this
    simpa using this
  · rw [keyedCase_ret]
    refine ⟨by decide, Or.inl ?_⟩
    simp only [quiet, (keyedCase_quiet _ _).1, (keyedCase_quiet _ _).2]
    exact hq
  · rw [iegCase_ret]
    refine ⟨by decide, Or.inl ?_⟩
    simp only [quiet, (iegCase_quiet _ _).1, (iegCase_quiet _ _).2]
    exact hq

theorem quiet_until (inp : Nat → Tick) (s : Yack) (a : Nat) (n : Nat)
    (h : quiet (runFsm inp s a))
    (hno : ∀ k, a ≤ k → k < a + n → keysAt inp s k ≠ [Event.keyDown]) :
    quiet (runFsm inp s (a + n)) := by
  induction n with
  | zero => simpa using h
  | succ n ih =>
    have ih1 := ih (fun k h1 h2 => hno k h1 (by omega))
    have hk := hno (a + n) (by omega) (by omega)
    have := (tick_quiet (inp (a + n)) _ ih1).2
    rcases this with hq | hd
    · show quiet (runFsm inp s (a + n + 1))
      simp only [runFsm, quiet] at hq ⊢
      exact hq
    · exact absurd hd hk

/-- C6: for every paddle input sequence, every `ctrl` argument sequence and every
starting state, between any two calls of `yackiambic` that return a space there
is a call that starts a new element (calls `key(DOWN)`). -/
theorem space_once_per_pause (inp : Nat → Tick) (s : Yack) (i j : Nat) (hij : i < j)
    (hi : retAt inp s i = ' '.toNat) (hj : retAt inp s j = ' '.toNat) :
    ∃ k, i < k ∧ k < j ∧ keysAt inp s k = [Event.keyDown] := by
  by_contra hno
  push_neg at hno
  have hq : quiet (runFsm inp s (i + 1)) := by
    have := tick_space_quiet (inp i) (runFsm inp s i) hi
    simp only [runFsm, quiet] at this ⊢
    exact this
  have hq2 := quiet_until inp s (i + 1) (j - (i + 1)) hq
    (fun k h1 h2 => hno k (by omega) (by omega))
  have hj' : i + 1 + (j - (i + 1)) = j := by omega
  rw [hj'] at hq2
  exact (tick_quiet (inp j) _ hq2).1 hj

/-- Witness for C6: two dots keyed eight heartbeats apart give spaces at calls 7
and 15, with a key-down in between. -/
theorem space_once_per_pause_witness :
    ∃ k, 7 < k ∧ k < 15 ∧ keysAt twoDots powerOn k = [Event.keyDown] :=
  space_once_per_pause twoDots powerOn 7 15 (by decide) (by decide) (by decide)

/-! ## The keyer FSM: duration of an element -/

theorem decodeChar_log (u : Nat) (s : Yack) : (decodeChar u s).1.log = s.log := by
  rfl

theorem startElement_timer (s : Yack) :
    ((startElement s).1.lastsymbol = DITLATCH ∧
      (startElement s).1.timer = (DITLEN * s.wpmcnt) % 65536) ∨
    ((startElement s).1.lastsymbol = DAHLATCH ∧
      (startElement s).1.timer = (DAHLEN * s.wpmcnt) % 65536) := by
  unfold startElement
  simp only []
  split_ifs
  · left
    simp
  · right
    simp

theorem keyedCase_step (p : Paddle) (s : Yack) :
    (s.timer = 0 → (keyedCase p s).1.log = s.log ++ [Event.keyUp]) ∧
    (s.timer ≠ 0 → (keyedCase p s).1.log = s.log ∧ (keyedCase p s).1.fsms = s.fsms ∧
      (keyedCase p s).1.timer = s.timer) := by
  unfold keyedCase
  simp only []
  constructor
  · intro h
    split_ifs <;> simp_all
  · intro h
    split_ifs <;> simp_all

theorem iegCase_log (p : Paddle) (s : Yack) : (iegCase p s).1.log = s.log := by
  unfold iegCase
  simp only []
  split_ifs <;> simp

theorem idleCase_keyDown (p : Paddle) (u : Nat) (s : Yack) (hl : s.log = [])
    (h : (idleCase p u s).1.log = [Event.keyDown]) :
    (idleCase p u s).1.fsms = .KEYED ∧
    (((idleCase p u s).1.lastsymbol = DITLATCH ∧
        (idleCase p u s).1.timer = (DITLEN * s.wpmcnt) % 65536) ∨
      ((idleCase p u s).1.lastsymbol = DAHLATCH ∧
        (idleCase p u s).1.timer = (DAHLEN * s.wpmcnt) % 65536)) := by
  unfold idleCase at *
  simp only [] at *
  have hl2 : (modeLatch (keylatch p s)).log = [] := by simp [hl]
  have hw : (modeLatch (keylatch p s)).wpmcnt = s.wpmcnt := by simp
  generalize modeLatch (keylatch p s) = s2 at *
  split_ifs at h ⊢ with h1 h2 h3
  · rw [decodeChar_log, hl2] at h
    exact absurd h (by simp)
  · simp [hl2] at h
  · rw [← hw]
    exact ⟨(startElement_out s2).2.2, startElement_timer s2⟩
  · simp [hl2] at h

theorem tick_eq (i : Tick) (s : Yack) :
    tick i s = match (prelude i s).fsms with
      | .IDLE => idleCase i.paddle i.undef (prelude i s)
      | .KEYED => keyedCase i.paddle (prelude i s)
      | .IEG => iegCase i.paddle (prelude i s) := by
  rfl

theorem prelude_fields (i : Tick) (s : Yack) :
    (prelude i s).fsms = s.fsms ∧ (prelude i s).timer = s.timer - 1 ∧
    (prelude i s).log = [] ∧ (prelude i s).wpmcnt = i.wpmcnt ∧
    (prelude i s).yackflags = i.yackflags ∧ (prelude i s).bcntr = s.bcntr ∧
    (prelude i s).buffer = s.buffer ∧ (prelude i s).lastsymbol = s.lastsymbol ∧
    (prelude i s).ultimem = s.ultimem ∧ (prelude i s).volflags = s.volflags ∧
    (prelude i s).iwgflag = (if i.ctrl = OFF then 0 else s.iwgflag) := by
  unfold prelude
  rw [countDown_eq, spaceDetect_eq]
  simp

theorem tick_keyDown (i : Tick) (s : Yack) (h : (tick i s).1.log = [Event.keyDown]) :
    (tick i s).1.fsms = .KEYED ∧
    (((tick i s).1.lastsymbol = DITLATCH ∧ (tick i s).1.timer = (DITLEN * i.wpmcnt) % 65536) ∨
      ((tick i s).1.lastsymbol = DAHLATCH ∧ (tick i s).1.timer = (DAHLEN * i.wpmcnt) % 65536)) := by
  rw [tick_eq] at h ⊢
  obtain ⟨-, -, pl, pw, -⟩ := prelude_fields i s
  generalize prelude i s = s1 at *
  split at h
  · have := idleCase_keyDown _ _ _ pl h
    rw [pw] at this
    exact this
  · exfalso
    by_cases ht : s1.timer = 0
    · have := (keyedCase_step i.paddle _).1 ht
      rw [this, pl] at h
      simp at h
    · have := ((keyedCase_step i.paddle _).2 ht).1
      rw [this, pl] at h
      simp at h
  · rw [iegCase_log, pl] at h
    simp at h

theorem tick_keyed (i : Tick) (s : Yack) (hf : s.fsms = .KEYED) :
    (s.timer ≤ 1 → (tick i s).1.log = [Event.keyUp]) ∧
    (2 ≤ s.timer → (tick i s).1.log = [] ∧ (tick i s).1.fsms = .KEYED ∧
      (tick i s).1.timer = s.timer - 1) := by
  rw [tick_eq]
  obtain ⟨pf, pt, pl, -⟩ := prelude_fields i s
  rw [hf] at pf
  generalize prelude i s = s1 at *
  simp only [pf]
  constructor
  · intro h
    have := (keyedCase_step i.paddle s1).1 (by omega)
    simpa [pl] using this
  · intro h
    have := (keyedCase_step i.paddle s1).2 (by omega)
    simpa [pl, pf, pt] using this

theorem keyed_hold (inp : Nat → Tick) (s : Yack) (a : Nat) (j : Nat)
    (hf : (runFsm inp s a).fsms = .KEYED) (hj : j < (runFsm inp s a).timer) :
    (runFsm inp s (a + j)).fsms = .KEYED ∧
    (runFsm inp s (a + j)).timer = (runFsm inp s a).timer - j ∧
    ∀ k, a ≤ k → k < a + j → keysAt inp s k = [] := by
  induction j with
  | zero =>
    refine ⟨hf, by simp, ?_⟩
    intro k h1 h2
    omega
  | succ j ih =>
    obtain ⟨h1, h2, h3⟩ := ih (by omega)
    have ht := (tick_keyed (inp (a + j)) _ h1).2 (by omega)
    refine ⟨?_, ?_, ?_⟩
    · show (runFsm inp s (a + j + 1)).fsms = .KEYED
      simp only [runFsm]
      exact ht.2.1
    · show (runFsm inp s (a + j + 1)).timer = _
      simp only [runFsm]
      rw [ht.2.2, h2]
      omega
    · intro k hk1 hk2
      by_cases hk : k < a + j
      · exact h3 k hk1 hk
      · have : k = a + j := by omega
        subst this
        exact ht.1

theorem keyed_release (inp : Nat → Tick) (s : Yack) (a : Nat) (len : Nat)
    (hf : (runFsm inp s a).fsms = .KEYED) (hlen : (runFsm inp s a).timer = len) (h1 : 1 ≤ len) :
    (∀ k, a ≤ k → k < a + (len - 1) → keysAt inp s k = []) ∧
    keysAt inp s (a + (len - 1)) = [Event.keyUp] := by
  obtain ⟨k1, k2, k3⟩ := keyed_hold inp s a (len - 1) hf (by omega)
  refine ⟨k3, ?_⟩
  exact (tick_keyed (inp (a + (len - 1))) _ k1).1 (by omega)

/-- An element started on a call where `wpmcnt = W`, `1 ≤ W` and
`DAHLEN * W < 65536`, so that the length fits the 16-bit timer: the key is held
down for exactly `DITLEN * W` calls (dot) or `DAHLEN * W` calls (dash),
whatever the later inputs are. -/
theorem element_duration_fit (inp : Nat → Tick) (s : Yack) (n W : Nat)
    (hdown : keysAt inp s n = [Event.keyDown]) (hW : (inp n).wpmcnt = W)
    (hW1 : 1 ≤ W) (hfit : DAHLEN * W < 65536) :
    ∃ len,
      (((runFsm inp s (n + 1)).lastsymbol = DITLATCH ∧ len = DITLEN * W) ∨
        ((runFsm inp s (n + 1)).lastsymbol = DAHLATCH ∧ len = DAHLEN * W)) ∧
      (∀ k, n < k → k < n + len → keysAt inp s k = []) ∧
      keysAt inp s (n + len) = [Event.keyUp] := by
  obtain ⟨hk, hsym⟩ := tick_keyDown (inp n) (runFsm inp s n) hdown
  rw [hW] at hsym
  have hfit1 : DITLEN * W < 65536 := by
    simp only [DITLEN, DAHLEN] at *
    omega
  rw [Nat.mod_eq_of_lt hfit, Nat.mod_eq_of_lt hfit1] at hsym
  have hf : (runFsm inp s (n + 1)).fsms = .KEYED := by
    simp only [runFsm]
    exact hk
  have aux : ∀ len, (runFsm inp s (n + 1)).timer = len → 1 ≤ len →
      (∀ k, n < k → k < n + len → keysAt inp s k = []) ∧
      keysAt inp s (n + len) = [Event.keyUp] := by
    intro len hlen h1
    obtain ⟨r1, r2⟩ := keyed_release inp s (n + 1) len hf hlen h1
    have e : n + 1 + (len - 1) = n + len := by omega
    rw [e] at r1 r2
    exact ⟨fun k hk1 hk2 => r1 k (by omega) hk2, r2⟩
  rcases hsym with ⟨hs, ht⟩ | ⟨hs, ht⟩
  · refine ⟨DITLEN * W, Or.inl ⟨?_, rfl⟩, ?_⟩
    · simp only [runFsm]
      exact hs
    · apply aux
      · simp only [runFsm]
        exact ht
      · simp only [DITLEN]
        omega
  · refine ⟨DAHLEN * W, Or.inr ⟨?_, rfl⟩, ?_⟩
    · simp only [runFsm]
      exact hs
    · apply aux
      · simp only [runFsm]
        exact ht
      · simp only [DAHLEN]
        omega

/-- The values that the library assigns to `wpmcnt`, `(1200 / YACKBEAT) / wpm`,
are at most 1200, and three dot lengths fit the 16-bit timer. -/
theorem speed_count_fits (Y wpm : Nat) : DAHLEN * ((1200 / Y) / wpm) < 65536 := by
  have h1 : (1200 / Y) / wpm ≤ 1200 / Y := Nat.div_le_self _ _
  have h2 : 1200 / Y ≤ 1200 := Nat.div_le_self _ _
  simp only [DAHLEN]
  omega

/-- C7: every element the FSM starts on a call where `wpmcnt = W` and `1 ≤ W`,
`W` being a value that the library assigns to `wpmcnt`, that is
`(1200 / YACKBEAT) / wpm` for some speed `wpm`, holds the key down for exactly
`DITLEN * W` calls (dot) or `DAHLEN * W` calls (dash): no `key` call is made in
between and `key(UP)` is called that many calls after the key-down call,
whatever the paddles, `ctrl`, `wpmcnt` and `yackflags` are on the later
calls. -/
theorem element_duration (h : Header) (inp : Nat → Tick) (s : Yack) (n W wpm : Nat)
    (hdown : keysAt inp s n = [Event.keyDown]) (hW : (inp n).wpmcnt = W)
    (hW1 : 1 ≤ W) (hcode : W = (1200 / h.YACKBEAT) / wpm) :
    ∃ len,
      (((runFsm inp s (n + 1)).lastsymbol = DITLATCH ∧ len = DITLEN * W) ∨
        ((runFsm inp s (n + 1)).lastsymbol = DAHLATCH ∧ len = DAHLEN * W)) ∧
      (∀ k, n < k → k < n + len → keysAt inp s k = []) ∧
      keysAt inp s (n + len) = [Event.keyUp] := by
  have hfit : DAHLEN * W < 65536 := by
    rw [hcode]
    exact speed_count_fits h.YACKBEAT wpm
  exact element_duration_fit inp s n W hdown hW hW1 hfit

/-- Witness for C7: a dot at 3 ticks per dot, the value of `wpmcnt` at 80 wpm
with a heartbeat of 5 ms. -/
theorem element_duration_witness :
    ∃ len,
      (((runFsm oneDot powerOn (0 + 1)).lastsymbol = DITLATCH ∧ len = DITLEN * 3) ∨
        ((runFsm oneDot powerOn (0 + 1)).lastsymbol = DAHLATCH ∧ len = DAHLEN * 3)) ∧
      (∀ k, 0 < k → k < 0 + len → keysAt oneDot powerOn k = []) ∧
      keysAt oneDot powerOn (0 + len) = [Event.keyUp] :=
  element_duration exampleHeader oneDot powerOn 0 3 80 (by decide) (by decide) (by decide)
    (by decide)

/-- The model takes `wpmcnt` as an input of each call and so admits values that
the library never assigns, the largest assigned being 1200: at
`wpmcnt = 21846` the timer of a dash would be loaded with
`3 * 21846 mod 65536 = 2`. -/
theorem element_duration_overflow :
    keysAt longDash powerOn 0 = [Event.keyDown] ∧ (longDash 0).wpmcnt = 21846 ∧
    (runFsm longDash powerOn 1).lastsymbol = DAHLATCH ∧
    keysAt longDash powerOn 2 = [Event.keyUp] ∧ DAHLEN * 21846 = 65538 := by
  decide

/-! ## The keyer FSM reads and writes only its statics and the paddle latches -/

theorem latch_or (v m : Nat) : (v ||| m) &&& SQUEEZED = ((v &&& SQUEEZED) ||| m) &&& SQUEEZED := by
  apply Nat.eq_of_testBit_eq
  intro i
  simp only [Nat.testBit_and, Nat.testBit_or]
  cases Nat.testBit v i <;> cases Nat.testBit m i <;> cases Nat.testBit SQUEEZED i <;> rfl

theorem latch_bclr (v m : Nat) :
    (bclr v m) &&& SQUEEZED = (bclr (v &&& SQUEEZED) m) &&& SQUEEZED := by
  unfold bclr
  apply Nat.eq_of_testBit_eq
  intro i
  simp only [Nat.testBit_and]
  cases Nat.testBit v i <;> cases Nat.testBit (255 ^^^ m) i <;> cases Nat.testBit SQUEEZED i <;> rfl

theorem latch_dit (v : Nat) : v &&& DITLATCH = (v &&& SQUEEZED) &&& DITLATCH := by
  rw [Nat.and_assoc]
  rfl

theorem latch_congr_or {v w : Nat} (m : Nat) (h : v &&& SQUEEZED = w &&& SQUEEZED) :
    (v ||| m) &&& SQUEEZED = (w ||| m) &&& SQUEEZED := by
  rw [latch_or v, latch_or w, h]

theorem latch_congr_bclr {v w : Nat} (m : Nat) (h : v &&& SQUEEZED = w &&& SQUEEZED) :
    (bclr v m) &&& SQUEEZED = (bclr w m) &&& SQUEEZED := by
  rw [latch_bclr v, latch_bclr w, h]

theorem latch_congr_dit {v w : Nat} (h : v &&& SQUEEZED = w &&& SQUEEZED) :
    v &&& DITLATCH = w &&& DITLATCH := by
  rw [latch_dit v, latch_dit w, h]

theorem keylatch_callEq (p : Paddle) (s t : Yack) (h : callEq s t) :
    callEq (keylatch p s) (keylatch p t) := by
  obtain ⟨⟨h1, h2, h3, h4, h5, h6, h7, h8⟩, hw, hy, hl⟩ := h
  refine ⟨⟨by simpa, by simpa, by simpa, by simpa, by simpa, by simpa, by simpa, ?_⟩,
    by simpa, by simpa, by simpa⟩
  unfold keylatch
  simp only [hy]
  cases p.dit <;> cases p.dah <;> simp only [Bool.false_eq_true, if_false, if_true, h8]
  · exact latch_congr_or _ h8
  · exact latch_congr_or _ h8
  · exact latch_congr_or _ (latch_congr_or _ h8)

theorem modeLatch_callEq (s t : Yack) (h : callEq s t) : callEq (modeLatch s) (modeLatch t) := by
  obtain ⟨⟨h1, h2, h3, h4, h5, h6, h7, h8⟩, hw, hy, hl⟩ := h
  have b1 := latch_congr_bclr t.lastsymbol h8
  have b2 := latch_congr_bclr t.ultimem h8
  have b3 := latch_congr_bclr DITLATCH h8
  unfold modeLatch callEq fsmEq
  simp only [hy, h3, h7, h8]
  split_ifs <;> simp_all

theorem decodeChar_callEq (u : Nat) (s t : Yack) (h : callEq s t) :
    callEq (decodeChar u s).1 (decodeChar u t).1 ∧ (decodeChar u s).2 = (decodeChar u t).2 := by
  obtain ⟨⟨h1, h2, h3, h4, h5, h6, h7, h8⟩, hw, hy, hl⟩ := h
  unfold decodeChar callEq fsmEq
  simp_all

theorem startElement_callEq (s t : Yack) (h : callEq s t) :
    callEq (startElement s).1 (startElement t).1 ∧ (startElement s).2 = (startElement t).2 := by
  obtain ⟨⟨h1, h2, h3, h4, h5, h6, h7, h8⟩, hw, hy, hl⟩ := h
  have b1 := latch_congr_dit h8
  have b2 := latch_congr_bclr (DITLATCH ||| DAHLATCH) h8
  unfold startElement callEq fsmEq
  simp only [b1]
  split_ifs <;> simp_all

theorem idleCase_callEq (p : Paddle) (u : Nat) (s t : Yack) (h : callEq s t) :
    callEq (idleCase p u s).1 (idleCase p u t).1 ∧ (idleCase p u s).2 = (idleCase p u t).2 := by
  have h2 := modeLatch_callEq _ _ (keylatch_callEq p s t h)
  unfold idleCase
  simp only []
  generalize modeLatch (keylatch p s) = s2 at *
  generalize modeLatch (keylatch p t) = t2 at *
  have hd := decodeChar_callEq u s2 t2 h2
  have hs := startElement_callEq s2 t2 h2
  obtain ⟨⟨h1, h2, h3, h4, h5, h6, h7, h8⟩, hw, hy, hl⟩ := h2
  have e : DITLATCH ||| DAHLATCH = SQUEEZED := by decide
  simp only [h2, h5, h6, e, h8]
  split_ifs
  · exact hd
  · unfold callEq fsmEq
    simp_all
  · exact hs
  · exact ⟨⟨⟨h1, h2, h3, h4, h5, h6, h7, h8⟩, hw, hy, hl⟩, rfl⟩

theorem keyedCase_callEq (p : Paddle) (s t : Yack) (h : callEq s t) :
    callEq (keyedCase p s).1 (keyedCase p t).1 ∧ (keyedCase p s).2 = (keyedCase p t).2 := by
  have hk := keylatch_callEq p s t h
  have hs : callEq (if s.yackflags &&& MODE = IAMBICB then keylatch p s else s)
      (if t.yackflags &&& MODE = IAMBICB then keylatch p t else t) := by
    rw [h.2.2.1]
    split_ifs
    · exact hk
    · exact h
  unfold keyedCase
  simp only []
  generalize (if s.yackflags &&& MODE = IAMBICB then keylatch p s else s) = s2 at *
  generalize (if t.yackflags &&& MODE = IAMBICB then keylatch p t else t) = t2 at *
  obtain ⟨⟨h1, h2, h3, h4, h5, h6, h7, h8⟩, hw, hy, hl⟩ := hs
  simp only [h2]
  split_ifs
  · unfold callEq fsmEq
    simp_all
  · exact ⟨⟨⟨h1, h2, h3, h4, h5, h6, h7, h8⟩, hw, hy, hl⟩, rfl⟩

theorem iegCase_callEq (p : Paddle) (s t : Yack) (h : callEq s t) :
    callEq (iegCase p s).1 (iegCase p t).1 ∧ (iegCase p s).2 = (iegCase p t).2 := by
  have hk := keylatch_callEq p s t h
  unfold iegCase
  simp only []
  generalize keylatch p s = s2 at *
  generalize keylatch p t = t2 at *
  obtain ⟨⟨h1, h2, h3, h4, h5, h6, h7, h8⟩, hw, hy, hl⟩ := hk
  simp only [h2]
  split_ifs
  · unfold callEq fsmEq
    simp_all
  · exact ⟨⟨⟨h1, h2, h3, h4, h5, h6, h7, h8⟩, hw, hy, hl⟩, rfl⟩

theorem prelude_callEq (i : Tick) (s t : Yack) (h : fsmEq s t) :
    callEq (prelude i s) (prelude i t) := by
  obtain ⟨h1, h2, h3, h4, h5, h6, h7, h8⟩ := h
  obtain ⟨a1, a2, a3, a4, a5, a6, a7, a8, a9, a10, a11⟩ := prelude_fields i s
  obtain ⟨b1, b2, b3, b4, b5, b6, b7, b8, b9, b10, b11⟩ := prelude_fields i t
  unfold callEq fsmEq
  simp_all

theorem tick_congr (i : Tick) (s t : Yack) (h : fsmEq s t) :
    fsmEq (tick i s).1 (tick i t).1 ∧ (tick i s).2 = (tick i t).2 ∧
    (tick i s).1.log = (tick i t).1.log := by
  have hp := prelude_callEq i s t h
  rw [tick_eq, tick_eq]
  have hf := hp.1.1
  generalize prelude i s = s1 at *
  generalize prelude i t = t1 at *
  rw [hf]
  cases t1.fsms
  · have := idleCase_callEq i.paddle i.undef s1 t1 hp
    exact ⟨this.1.1, this.2, this.1.2.2.2⟩
  · have := keyedCase_callEq i.paddle s1 t1 hp
    exact ⟨this.1.1, this.2, this.1.2.2.2⟩
  · have := iegCase_callEq i.paddle s1 t1 hp
    exact ⟨this.1.1, this.2, this.1.2.2.2⟩

theorem run_congr (inp : Nat → Tick) (s t : Yack) (h : fsmEq s t) (n : Nat) :
    fsmEq (runFsm inp s n) (runFsm inp t n) ∧ retAt inp s n = retAt inp t n ∧
    keysAt inp s n = keysAt inp t n := by
  have hrun : ∀ n, fsmEq (runFsm inp s n) (runFsm inp t n) := by
    intro n
    induction n with
    | zero => exact h
    | succ n ih =>
      have := (tick_congr (inp n) _ _ ih).1
      simp only [runFsm, fsmEq] at this ⊢
      exact this
  have := tick_congr (inp n) _ _ (hrun n)
  exact ⟨hrun n, this.2.1, this.2.2⟩

/-! ## Runs of the keyer FSM on the statics and latches -/

theorem fsmEq_of_core {s t : Yack} (h : core s = core t) : fsmEq s t := by
  unfold core at h
  simp only [Statics.mk.injEq] at h
  exact h

theorem core_of_fsmEq {s t : Yack} (h : fsmEq s t) : core s = core t := by
  unfold core
  simp only [Statics.mk.injEq]
  exact h

theorem core_toYack (s : Yack) : core (core s).toYack = core s := by
  unfold core Statics.toYack
  simp only [Statics.mk.injEq, true_and]
  rw [Nat.and_assoc]
  rfl

theorem tick_stepCore (i : Tick) (s : Yack) :
    (core (tick i s).1, (tick i s).2, (tick i s).1.log) = stepCore i (core s) := by
  have h := tick_congr i s (core s).toYack (fsmEq_of_core (core_toYack s).symm)
  unfold stepCore
  rw [core_of_fsmEq h.1, h.2.1, h.2.2]

theorem run_stepCore (inp : Nat → Tick) (s : Yack) (n : Nat) :
    (core (runFsm inp s (n + 1)), retAt inp s n, keysAt inp s n)
      = stepCore (inp n) (core (runFsm inp s n)) := by
  rw [← tick_stepCore]
  rfl

/-- A phase of a run: while `Q (t + 1)` holds of the statics, a heartbeat is
silent and leads to `Q t`. -/
theorem run_phase (inp : Nat → Tick) (s : Yack) (Q : Nat → Statics → Prop) (a n t : Nat)
    (hstep : ∀ k u c, a ≤ k → k < a + n → Q (u + 1) c →
      ∃ c', stepCore (inp k) c = (c', 0, []) ∧ Q u c')
    (h0 : Q (t + n) (core (runFsm inp s a))) :
    Q t (core (runFsm inp s (a + n))) ∧
    ∀ k, a ≤ k → k < a + n → retAt inp s k = 0 ∧ keysAt inp s k = [] := by
  induction n generalizing t with
  | zero =>
    refine ⟨by simpa using h0, ?_⟩
    intro k h1 h2
    omega
  | succ n ih =>
    have h0' : Q (t + 1 + n) (core (runFsm inp s a)) := by
      have e : t + 1 + n = t + (n + 1) := by omega
      rw [e]
      exact h0
    obtain ⟨hq, hout⟩ := ih (t + 1) (fun k u c h1 h2 => hstep k u c h1 (by omega)) h0'
    obtain ⟨c', hc, hq'⟩ := hstep (a + n) t _ (by omega) (by omega) hq
    have hr := run_stepCore inp s (a + n)
    rw [hc] at hr
    simp only [Prod.mk.injEq] at hr
    refine ⟨?_, ?_⟩
    · show Q t (core (runFsm inp s (a + n + 1)))
      rw [hr.1]
      exact hq'
    · intro k h1 h2
      by_cases hk : k < a + n
      · exact hout k h1 hk
      · have : k = a + n := by omega
        subst this
        exact hr.2

section FsmRuns

attribute [local simp] stepCore core Statics.toYack powerOn tick yackiambic countDown spaceDetect
  idleCase keyedCase iegCase decodeChar startElement keylatch modeLatch key bclr
  IAMBICA IAMBICB ULTIMATIC DAHPRIO DITLATCH DAHLATCH SQUEEZED SIDETONE TXKEY
  DITLEN DAHLEN IEGLEN ICGLEN IWGLEN ON OFF

theorem mod_word {W : Nat} (h : W < 65536) : W % 65536 = W :=
  Nat.mod_eq_of_lt h

/-- The four keyer modes. -/
theorem mode_cases (yf : Nat) :
    yf &&& MODE = 0 ∨ yf &&& MODE = 4 ∨ yf &&& MODE = 8 ∨ yf &&& MODE = 12 := by
  have h1 : yf &&& MODE ≤ 12 := Nat.and_le_right
  have h2 : (yf &&& MODE) &&& 3 = 0 := by
    rw [Nat.and_assoc]
    show yf &&& 0 = 0
    simp
  generalize yf &&& MODE = x at *
  interval_cases x <;> first | omega | exact absurd h2 (by decide)

/-! ### A single dot from power-on (C3) -/

theorem ditPaddle_open (yf : Nat) : ditPaddle yf false = ⟨false, false⟩ := by
  unfold ditPaddle
  split_ifs <;> rfl

theorem dot_start (i : Tick) (W yf : Nat) (hW : W < 65536)
    (hc : i.ctrl = ON) (hw : i.wpmcnt = W) (hy : i.yackflags = yf)
    (hp : i.paddle = ditPaddle yf true) :
    ∃ ul, stepCore i ⟨.IDLE, 0, 0, 0, 0, 0, 0, 0⟩
      = (⟨.KEYED, W, 1, 0, 1, 0, ul, 0⟩, 0, [Event.keyDown]) := by
  obtain ⟨⟨pd, ph⟩, ctrl, w, y, u⟩ := i
  simp only at hc hw hy hp
  subst hc hw hy
  unfold ditPaddle at hp
  by_cases hs : y &&& PDLSWAP = 0
  · rw [if_pos hs] at hp
    simp only [Paddle.mk.injEq] at hp
    obtain ⟨rfl, rfl⟩ := hp
    rcases mode_cases y with hm | hm | hm | hm <;> simp +decide [hm, hs, mod_word hW]
  · rw [if_neg hs] at hp
    simp only [Paddle.mk.injEq] at hp
    obtain ⟨rfl, rfl⟩ := hp
    rcases mode_cases y with hm | hm | hm | hm <;> simp +decide [hm, hs, mod_word hW]

theorem dot_keyed_hold (i : Tick) (W yf t v ul : Nat) (cl : Bool)
    (hv : v = 0 ∨ (v = 1 ∧ yf &&& MODE = 4))
    (hc : i.ctrl = ON) (hw : i.wpmcnt = W) (hy : i.yackflags = yf)
    (hp : i.paddle = ditPaddle yf cl) :
    ∃ v', (v' = 0 ∨ (v' = 1 ∧ yf &&& MODE = 4)) ∧ stepCore i ⟨.KEYED, t + 2, 1, 0, 1, 0, ul, v⟩
      = (⟨.KEYED, t + 1, 1, 0, 1, 0, ul, v'⟩, 0, []) := by
  obtain ⟨⟨pd, ph⟩, ctrl, w, y, u⟩ := i
  simp only at hc hw hy hp
  subst hc hw hy
  unfold ditPaddle at hp
  by_cases hs : y &&& PDLSWAP = 0
  · rw [if_pos hs] at hp
    simp only [Paddle.mk.injEq] at hp
    obtain ⟨rfl, rfl⟩ := hp
    rcases hv with rfl | ⟨rfl, hm⟩
    · rcases mode_cases y with hm | hm | hm | hm <;> cases pd <;> simp +decide [hm, hs]
    · cases pd <;> simp +decide [hm, hs]
  · rw [if_neg hs] at hp
    simp only [Paddle.mk.injEq] at hp
    obtain ⟨rfl, rfl⟩ := hp
    rcases hv with rfl | ⟨rfl, hm⟩
    · rcases mode_cases y with hm | hm | hm | hm <;> cases ph <;> simp +decide [hm, hs]
    · cases ph <;> simp +decide [hm, hs]

theorem dot_keyed_release (i : Tick) (W yf v ul : Nat) (hW : W < 65536) (hv : v = 0 ∨ v = 1)
    (hc : i.ctrl = ON) (hw : i.wpmcnt = W) (hy : i.yackflags = yf)
    (hp : i.paddle = ⟨false, false⟩) :
    stepCore i ⟨.KEYED, 1, 1, 0, 1, 0, ul, v⟩
      = (⟨.IEG, W, 1, 0, 1, 0, ul, v⟩, 0, [Event.keyUp]) := by
  obtain ⟨⟨pd, ph⟩, ctrl, w, y, u⟩ := i
  simp only [Paddle.mk.injEq] at hc hw hy hp
  obtain ⟨rfl, rfl⟩ := hp
  subst hc hw hy
  rcases mode_cases y with hm | hm | hm | hm <;> rcases hv with rfl | rfl <;>
    simp +decide [hm, mod_word hW]

theorem dot_ieg_hold (i : Tick) (W yf t v ul : Nat) (hv : v = 0 ∨ v = 1)
    (hc : i.ctrl = ON) (hw : i.wpmcnt = W) (hy : i.yackflags = yf)
    (hp : i.paddle = ⟨false, false⟩) :
    stepCore i ⟨.IEG, t + 2, 1, 0, 1, 0, ul, v⟩
      = (⟨.IEG, t + 1, 1, 0, 1, 0, ul, v⟩, 0, []) := by
  obtain ⟨⟨pd, ph⟩, ctrl, w, y, u⟩ := i
  simp only [Paddle.mk.injEq] at hc hw hy hp
  obtain ⟨rfl, rfl⟩ := hp
  subst hc hw hy
  rcases hv with rfl | rfl <;> simp +decide

theorem dot_ieg_end (i : Tick) (W yf v ul : Nat) (hW : W < 65536) (hv : v = 0 ∨ v = 1)
    (hc : i.ctrl = ON) (hw : i.wpmcnt = W) (hy : i.yackflags = yf)
    (hp : i.paddle = ⟨false, false⟩) :
    stepCore i ⟨.IEG, 1, 1, 0, 1, 0, ul, v⟩
      = (⟨.IDLE, W, 1, 0, 1, 0, ul, v⟩, 0, []) := by
  obtain ⟨⟨pd, ph⟩, ctrl, w, y, u⟩ := i
  simp only [Paddle.mk.injEq] at hc hw hy hp
  obtain ⟨rfl, rfl⟩ := hp
  subst hc hw hy
  rcases hv with rfl | rfl <;> simp +decide [mod_word hW]

theorem dot_idle_hold (i : Tick) (W yf t : Nat) (c : Statics) (h : dotIdle yf (t + 2) c)
    (hc : i.ctrl = ON) (hw : i.wpmcnt = W) (hy : i.yackflags = yf)
    (hp : i.paddle = ⟨false, false⟩) :
    ∃ c', stepCore i c = (c', 0, []) ∧ dotIdle yf (t + 1) c' := by
  obtain ⟨⟨pd, ph⟩, ctrl, w, y, u⟩ := i
  simp only [Paddle.mk.injEq] at hc hw hy hp
  obtain ⟨rfl, rfl⟩ := hp
  subst hc hw hy
  obtain ⟨ls, ul, v, rfl, hv⟩ := h
  unfold dotIdle
  rcases hv with rfl | ⟨rfl, rfl, hm | hm⟩
  · rcases mode_cases y with hm | hm | hm | hm <;> simp +decide [hm] <;>
      exact ⟨_, _, _, ⟨rfl, rfl, rfl⟩, Or.inl rfl⟩
  · simp +decide [hm]
    exact ⟨_, _, _, ⟨rfl, rfl, rfl⟩, Or.inl rfl⟩
  · simp +decide [hm]
    exact ⟨_, _, _, ⟨rfl, rfl, rfl⟩, Or.inl rfl⟩

theorem dot_decode (i : Tick) (W yf : Nat) (c : Statics) (h : dotIdle yf 1 c)
    (hc : i.ctrl = ON) (hw : i.wpmcnt = W) (hy : i.yackflags = yf)
    (hp : i.paddle = ⟨false, false⟩) :
    ∃ ls ul, stepCore i c
      = (⟨.IDLE, (4 * W) % 65536, ls, 0, 0, 1, ul, 0⟩, 'E'.toNat, []) := by
  obtain ⟨⟨pd, ph⟩, ctrl, w, y, u⟩ := i
  simp only [Paddle.mk.injEq] at hc hw hy hp
  obtain ⟨rfl, rfl⟩ := hp
  subst hc hw hy
  obtain ⟨ls, ul, v, rfl, hv⟩ := h
  have hE : morsechar 64 = 69 := by decide
  rcases hv with rfl | ⟨rfl, rfl, hm | hm⟩
  · rcases mode_cases y with hm | hm | hm | hm <;> simp +decide [hm, hE]
  · simp +decide [hm, hE]
  · simp +decide [hm, hE]

theorem gap_hold (i : Tick) (W yf t ls ul : Nat)
    (hc : i.ctrl = ON) (hw : i.wpmcnt = W) (hy : i.yackflags = yf)
    (hp : i.paddle = ⟨false, false⟩) :
    ∃ ls' ul', stepCore i ⟨.IDLE, t + 2, ls, 0, 0, 1, ul, 0⟩
      = (⟨.IDLE, t + 1, ls', 0, 0, 1, ul', 0⟩, 0, []) := by
  obtain ⟨⟨pd, ph⟩, ctrl, w, y, u⟩ := i
  simp only [Paddle.mk.injEq] at hc hw hy hp
  obtain ⟨rfl, rfl⟩ := hp
  subst hc hw hy
  rcases mode_cases y with hm | hm | hm | hm <;> simp +decide [hm]

theorem gap_space (i : Tick) (W yf t ls ul : Nat) (ht : t ≤ 1)
    (hc : i.ctrl = ON) (hw : i.wpmcnt = W) (hy : i.yackflags = yf)
    (hp : i.paddle = ⟨false, false⟩) :
    ∃ ls' ul', stepCore i ⟨.IDLE, t, ls, 0, 0, 1, ul, 0⟩
      = (⟨.IDLE, 0, ls', 0, 0, 0, ul', 0⟩, ' '.toNat, []) := by
  obtain ⟨⟨pd, ph⟩, ctrl, w, y, u⟩ := i
  simp only [Paddle.mk.injEq] at hc hw hy hp
  obtain ⟨rfl, rfl⟩ := hp
  subst hc hw hy
  have ht' : t = 0 ∨ t = 1 := by omega
  rcases ht' with rfl | rfl <;> rcases mode_cases y with hm | hm | hm | hm <;>
    simp +decide [hm]

theorem rest_hold (i : Tick) (yf ls ul : Nat) (hy : i.yackflags = yf)
    (hp : i.paddle = ⟨false, false⟩) :
    ∃ ls' ul', stepCore i ⟨.IDLE, 0, ls, 0, 0, 0, ul, 0⟩
      = (⟨.IDLE, 0, ls', 0, 0, 0, ul', 0⟩, 0, []) := by
  obtain ⟨⟨pd, ph⟩, ctrl, w, y, u⟩ := i
  simp only [Paddle.mk.injEq] at hy hp
  obtain ⟨rfl, rfl⟩ := hp
  subst hy
  by_cases hc : ctrl = 0 <;> rcases mode_cases y with hm | hm | hm | hm <;>
    simp +decide [hm, hc]


/-- A countdown phase of a run: while the timer-indexed condition `Q (u + 2)`
holds, a heartbeat is silent and leads to `Q (u + 1)`; from `Q T` the run
reaches `Q 1` after `T - 1` silent calls. -/
theorem run_countdown (inp : Nat → Tick) (s : Yack) (Q : Nat → Statics → Prop) (a T : Nat)
    (hT : 1 ≤ T)
    (hstep : ∀ k u c, a ≤ k → k < a + (T - 1) → Q (u + 2) c →
      ∃ c', stepCore (inp k) c = (c', 0, []) ∧ Q (u + 1) c')
    (h0 : Q T (core (runFsm inp s a))) :
    Q 1 (core (runFsm inp s (a + (T - 1)))) ∧
    ∀ k, a ≤ k → k < a + (T - 1) → retAt inp s k = 0 ∧ keysAt inp s k = [] := by
  have e : 0 + (T - 1) + 1 = T := by omega
  have := run_phase inp s (fun t c => Q (t + 1) c) a (T - 1) 0 hstep
    (by show Q (0 + (T - 1) + 1) _; rw [e]; exact h0)
  simpa using this

/-- C3: from the power-on state (the FSM in IDLE, its statics and both paddle
latches zero), in each of the four keyer modes (any `yackflags`, the paddle
swap either way), with `ctrl = ON` and `wpmcnt = W`, `1 ≤ W` (a 16-bit word):
if the dit paddle is closed on calls `0 .. W-1` and both paddles are open on
every later call, then exactly one call, `a`, returns `E`, exactly one later call,
`b`, returns a space, and every other call returns 0. -/
theorem single_dot_one_char_one_space (inp : Nat → Tick) (s : Yack) (W yf : Nat)
    (hW1 : 1 ≤ W) (hW : W < 65536)
    (hs : s.fsms = .IDLE ∧ s.timer = 0 ∧ s.lastsymbol = 0 ∧ s.buffer = 0 ∧ s.bcntr = 0 ∧
      s.iwgflag = 0 ∧ s.ultimem = 0 ∧ s.volflags &&& SQUEEZED = 0)
    (hinp : ∀ k, (inp k).ctrl = ON ∧ (inp k).wpmcnt = W ∧ (inp k).yackflags = yf ∧
      (inp k).paddle = ditPaddle yf (decide (k < W))) :
    ∃ a b, a < b ∧
      ∀ n, retAt inp s n = if n = a then 'E'.toNat else if n = b then ' '.toNat else 0 := by
  obtain ⟨s1, s2, s3, s4, s5, s6, s7, s8⟩ := hs
  have hcore : core (runFsm inp s 0) = ⟨.IDLE, 0, 0, 0, 0, 0, 0, 0⟩ := by
    simp only [runFsm, core, s1, s2, s3, s4, s5, s6, s7, s8]
  have hopen : ∀ k, W ≤ k → (inp k).paddle = ⟨false, false⟩ := by
    intro k hk
    rw [(hinp k).2.2.2, ← ditPaddle_open yf]
    congr 1
    simp only [decide_eq_false_iff_not]
    omega
  -- call 0: the dot is started
  obtain ⟨ul0, h0⟩ := dot_start (inp 0) W yf hW (hinp 0).1 (hinp 0).2.1 (hinp 0).2.2.1
    (by rw [(hinp 0).2.2.2]; congr 1; simp only [decide_eq_true_eq]; omega)
  have r0 := run_stepCore inp s 0
  rw [hcore, h0] at r0
  simp only [Prod.mk.injEq] at r0
  obtain ⟨c1, o0, -⟩ := r0
  -- calls 1 .. W-1: keyed
  obtain ⟨⟨ulk, vk, hvk', ck⟩, ok⟩ := run_countdown inp s
    (fun t c => ∃ ul v, (v = 0 ∨ (v = 1 ∧ yf &&& MODE = 4)) ∧
      c = ⟨.KEYED, t, 1, 0, 1, 0, ul, v⟩) 1 W hW1
    (by
      intro k u c _ _ hq
      obtain ⟨ul, v, hv, rfl⟩ := hq
      obtain ⟨v', hv', e⟩ := dot_keyed_hold (inp k) W yf u v ul _ hv (hinp k).1 (hinp k).2.1
        (hinp k).2.2.1 (hinp k).2.2.2
      exact ⟨_, e, ul, v', hv', rfl⟩)
    ⟨ul0, 0, Or.inl rfl, c1⟩
  have e1 : 1 + (W - 1) = W := by omega
  rw [e1] at ck ok
  have hvk : vk = 0 ∨ vk = 1 := by
    rcases hvk' with h | h
    · exact Or.inl h
    · exact Or.inr h.1
  -- call W: key up
  have hW' := dot_keyed_release (inp W) W yf vk ulk hW hvk (hinp W).1 (hinp W).2.1
    (hinp W).2.2.1 (hopen W le_rfl)
  have rW := run_stepCore inp s W
  rw [ck, hW'] at rW
  simp only [Prod.mk.injEq] at rW
  obtain ⟨cW, oW, -⟩ := rW
  -- calls W+1 .. 2W-1: inter-element gap
  obtain ⟨cg, og⟩ := run_countdown inp s
    (fun t c => c = ⟨.IEG, t, 1, 0, 1, 0, ulk, vk⟩) (W + 1) W hW1
    (by
      intro k u c hk1 _ hq
      subst hq
      exact ⟨_, dot_ieg_hold (inp k) W yf u vk ulk hvk (hinp k).1 (hinp k).2.1
        (hinp k).2.2.1 (hopen k (by omega)), rfl⟩)
    cW
  have e2 : W + 1 + (W - 1) = 2 * W := by omega
  rw [e2] at cg og
  -- call 2W: the gap ends
  have h2W := dot_ieg_end (inp (2 * W)) W yf vk ulk hW hvk (hinp _).1 (hinp _).2.1
    (hinp _).2.2.1 (hopen _ (by omega))
  have r2W := run_stepCore inp s (2 * W)
  rw [cg, h2W] at r2W
  simp only [Prod.mk.injEq] at r2W
  obtain ⟨c2W, o2W, -⟩ := r2W
  -- calls 2W+1 .. 3W-1: idle, the character not yet complete
  have hidle0 : dotIdle yf W (core (runFsm inp s (2 * W + 1))) := by
    rw [c2W]
    refine ⟨1, ulk, vk, rfl, ?_⟩
    rcases hvk' with h | h
    · exact Or.inl h
    · exact Or.inr ⟨h.1, rfl, Or.inr h.2⟩
  obtain ⟨ci, oi⟩ := run_countdown inp s (dotIdle yf) (2 * W + 1) W hW1
    (by
      intro k u c hk1 _ hq
      exact dot_idle_hold (inp k) W yf u c hq (hinp k).1 (hinp k).2.1 (hinp k).2.2.1
        (hopen k (by omega)))
    hidle0
  have e3 : 2 * W + 1 + (W - 1) = 3 * W := by omega
  rw [e3] at ci oi
  -- call 3W: the character is decoded
  obtain ⟨lsd, uld, h3W⟩ := dot_decode (inp (3 * W)) W yf _ ci (hinp _).1 (hinp _).2.1
    (hinp _).2.2.1 (hopen _ (by omega))
  have r3W := run_stepCore inp s (3 * W)
  rw [h3W] at r3W
  simp only [Prod.mk.injEq] at r3W
  obtain ⟨c3W, o3W, -⟩ := r3W
  -- the word gap: V - 1 silent calls, then the space
  have hgap : ∃ b ls ul, 3 * W < b ∧
      core (runFsm inp s b) = ⟨.IDLE, min ((4 * W) % 65536) 1, ls, 0, 0, 1, ul, 0⟩ ∧
      ∀ k, 3 * W + 1 ≤ k → k < b → retAt inp s k = 0 := by
    by_cases hV : (4 * W) % 65536 = 0
    · refine ⟨3 * W + 1, lsd, uld, by omega, ?_, ?_⟩
      · rw [c3W, hV]
        rfl
      · intro k h1 h2
        omega
    · obtain ⟨⟨ls, ul, cq⟩, oq⟩ := run_countdown inp s
        (fun t c => ∃ ls ul, c = ⟨.IDLE, t, ls, 0, 0, 1, ul, 0⟩) (3 * W + 1) ((4 * W) % 65536)
        (by omega)
        (by
          intro k u c hk1 _ hq
          obtain ⟨ls, ul, rfl⟩ := hq
          obtain ⟨ls', ul', e⟩ := gap_hold (inp k) W yf u ls ul (hinp k).1 (hinp k).2.1
            (hinp k).2.2.1 (hopen k (by omega))
          exact ⟨_, e, ls', ul', rfl⟩)
        ⟨lsd, uld, c3W⟩
      refine ⟨3 * W + 1 + ((4 * W) % 65536 - 1), ls, ul, by omega, ?_, ?_⟩
      · rw [cq]
        have : min ((4 * W) % 65536) 1 = 1 := by omega
        rw [this]
      · intro k h1 h2
        exact (oq k h1 h2).1
  obtain ⟨b, lsb, ulb, hb, cb, ob⟩ := hgap
  obtain ⟨lsr, ulr, hsp⟩ := gap_space (inp b) W yf _ lsb ulb (Nat.min_le_right _ 1)
    (hinp _).1 (hinp _).2.1 (hinp _).2.2.1 (hopen _ (by omega))
  have rb := run_stepCore inp s b
  rw [cb, hsp] at rb
  simp only [Prod.mk.injEq] at rb
  obtain ⟨cr, orb, -⟩ := rb
  -- afterwards: at rest
  have hrest : ∀ n k, b + 1 ≤ k → k < b + 1 + n → retAt inp s k = 0 := by
    intro n k h1 h2
    have := (run_phase inp s (fun _ c => ∃ ls ul, c = ⟨.IDLE, 0, ls, 0, 0, 0, ul, 0⟩) (b + 1) n 0
      (by
        intro k u c hk1 _ hq
        obtain ⟨ls, ul, rfl⟩ := hq
        obtain ⟨ls', ul', e⟩ := rest_hold (inp k) yf ls ul (hinp k).2.2.1 (hopen k (by omega))
        exact ⟨_, e, ls', ul', rfl⟩)
      ⟨lsr, ulr, cr⟩).2 k h1 h2
    exact this.1
  refine ⟨3 * W, b, hb, ?_⟩
  intro n
  by_cases h1 : n = 3 * W
  · rw [if_pos h1, h1]
    exact o3W
  rw [if_neg h1]
  by_cases h2 : n = b
  · rw [if_pos h2, h2]
    exact orb
  rw [if_neg h2]
  by_cases h3 : n = 0
  · rw [h3]
    exact o0
  by_cases h4 : n < W
  · exact (ok n (by omega) h4).1
  by_cases h5 : n = W
  · rw [h5]
    exact oW
  by_cases h6 : n < 2 * W
  · exact (og n (by omega) h6).1
  by_cases h7 : n = 2 * W
  · rw [h7]
    exact o2W
  by_cases h8 : n < 3 * W
  · exact (oi n (by omega) h8).1
  by_cases h9 : n < b
  · exact ob n (by omega) h9
  exact hrest (n - b) n (by omega) (by omega)

/-- Witness for C3: a dot at 3 ticks per dot in IAMBIC-B. -/
theorem single_dot_one_char_one_space_witness :
    ∃ a b, a < b ∧ ∀ n, retAt (dotInput 3 IAMBICB) powerOn n
      = if n = a then 'E'.toNat else if n = b then ' '.toNat else 0 :=
  single_dot_one_char_one_space (dotInput 3 IAMBICB) powerOn 3 IAMBICB (by decide) (by decide)
    (by decide) (fun _ => ⟨rfl, rfl, rfl, rfl⟩)

end FsmRuns

section SqueezeRuns

attribute [local simp] stepCore core Statics.toYack powerOn tick yackiambic countDown spaceDetect
  idleCase keyedCase iegCase decodeChar startElement keylatch modeLatch key bclr
  IAMBICA IAMBICB ULTIMATIC DAHPRIO DITLATCH DAHLATCH SQUEEZED SIDETONE TXKEY
  DITLEN DAHLEN IEGLEN ICGLEN IWGLEN ON OFF

/-! ### Both paddles held in IAMBIC-A (C4) -/

theorem sq_start_dit (i : Tick) (W yf : Nat) (c : Statics) (hW2 : 2 ≤ W) (hW : W < 65536)
    (hm : yf &&& MODE = 0) (hc : ditDue W c)
    (hw : i.wpmcnt = W) (hy : i.yackflags = yf) (hp : i.paddle = ⟨true, true⟩) :
    ∃ bf b, stepCore i c = (⟨.KEYED, W, 1, bf, b, 0, 0, 0⟩, 0, [Event.keyDown]) := by
  obtain ⟨⟨pd, ph⟩, ctrl, w, y, u⟩ := i
  simp only [Paddle.mk.injEq] at hw hy hp
  obtain ⟨rfl, rfl⟩ := hp
  subst hw hy
  obtain ⟨w, rfl⟩ : ∃ w', w = w' + 2 := ⟨w - 2, by omega⟩
  rcases hc with rfl | ⟨bf, b, rfl⟩ <;> by_cases hs : y &&& PDLSWAP = 0 <;>
    simp +decide [hm, hs, mod_word hW]

theorem sq_start_dah (i : Tick) (W yf : Nat) (c : Statics) (hW2 : 2 ≤ W)
    (hm : yf &&& MODE = 0) (hc : dahDue W c)
    (hw : i.wpmcnt = W) (hy : i.yackflags = yf) (hp : i.paddle = ⟨true, true⟩) :
    ∃ bf b, stepCore i c
      = (⟨.KEYED, (3 * W) % 65536, 2, bf, b, 0, 0, 0⟩, 0, [Event.keyDown]) := by
  obtain ⟨⟨pd, ph⟩, ctrl, w, y, u⟩ := i
  simp only [Paddle.mk.injEq] at hw hy hp
  obtain ⟨rfl, rfl⟩ := hp
  subst hw hy
  obtain ⟨w, rfl⟩ : ∃ w', w = w' + 2 := ⟨w - 2, by omega⟩
  obtain ⟨bf, b, rfl⟩ := hc
  by_cases hs : y &&& PDLSWAP = 0 <;> simp +decide [hm, hs]

theorem sq_keyed_hold (i : Tick) (yf t ls bf b ul : Nat)
    (hm : yf &&& MODE ≠ 4) (hy : i.yackflags = yf) :
    stepCore i ⟨.KEYED, t + 2, ls, bf, b, 0, ul, 0⟩
      = (⟨.KEYED, t + 1, ls, bf, b, 0, ul, 0⟩, 0, []) := by
  obtain ⟨⟨pd, ph⟩, ctrl, w, y, u⟩ := i
  simp only at hy
  subst hy
  simp +decide [hm]

theorem sq_keyed_release (i : Tick) (W yf ls bf b ul : Nat) (hW : W < 65536)
    (hm : yf &&& MODE ≠ 4) (hw : i.wpmcnt = W) (hy : i.yackflags = yf) :
    stepCore i ⟨.KEYED, 1, ls, bf, b, 0, ul, 0⟩
      = (⟨.IEG, W, ls, bf, b, 0, ul, 0⟩, 0, [Event.keyUp]) := by
  obtain ⟨⟨pd, ph⟩, ctrl, w, y, u⟩ := i
  simp only at hw hy
  subst hw hy
  simp +decide [hm, mod_word hW]

theorem sq_ieg_hold (i : Tick) (t ls bf b ul v : Nat) (hv : v = 0 ∨ v = 3)
    (hp : i.paddle = ⟨true, true⟩) :
    stepCore i ⟨.IEG, t + 2, ls, bf, b, 0, ul, v⟩
      = (⟨.IEG, t + 1, ls, bf, b, 0, ul, 3⟩, 0, []) := by
  obtain ⟨⟨pd, ph⟩, ctrl, w, y, u⟩ := i
  simp only [Paddle.mk.injEq] at hp
  obtain ⟨rfl, rfl⟩ := hp
  rcases hv with rfl | rfl <;> by_cases hs : y &&& PDLSWAP = 0 <;> simp +decide [hs]

theorem sq_ieg_end (i : Tick) (W ls bf b ul v : Nat) (hW : W < 65536) (hv : v = 0 ∨ v = 3)
    (hw : i.wpmcnt = W) (hp : i.paddle = ⟨true, true⟩) :
    stepCore i ⟨.IEG, 1, ls, bf, b, 0, ul, v⟩
      = (⟨.IDLE, W, ls, bf, b, 0, ul, 3⟩, 0, []) := by
  obtain ⟨⟨pd, ph⟩, ctrl, w, y, u⟩ := i
  simp only [Paddle.mk.injEq] at hw hp
  obtain ⟨rfl, rfl⟩ := hp
  subst hw
  rcases hv with rfl | rfl <;> by_cases hs : y &&& PDLSWAP = 0 <;>
    simp +decide [hs, mod_word hW]

/-- One element under the squeeze, in a mode that does not latch while keyed:
keyed for `L` calls, then the gap of `W` calls, then IDLE with both latches
set. The squeeze need only hold from call `a + 1` on. -/
theorem sq_element (inp : Nat → Tick) (s : Yack) (W yf a L ls bf b ul : Nat)
    (hW1 : 1 ≤ W) (hW : W < 65536) (hm : yf &&& MODE ≠ 4) (hL : 1 ≤ L)
    (hinp : ∀ k, a < k →
      (inp k).wpmcnt = W ∧ (inp k).yackflags = yf ∧ (inp k).paddle = ⟨true, true⟩)
    (hK : core (runFsm inp s (a + 1)) = ⟨.KEYED, L, ls, bf, b, 0, ul, 0⟩) :
    (∀ k, a < k → k < a + L → keysAt inp s k = []) ∧
    keysAt inp s (a + L) = [Event.keyUp] ∧
    (∀ k, a + L < k → k < a + L + W + 1 → keysAt inp s k = []) ∧
    core (runFsm inp s (a + L + W + 1)) = ⟨.IDLE, W, ls, bf, b, 0, ul, 3⟩ := by
  obtain ⟨ck, ok⟩ := run_countdown inp s (fun t c => c = ⟨.KEYED, t, ls, bf, b, 0, ul, 0⟩)
    (a + 1) L hL
    (by
      intro k u c hk _ hq
      subst hq
      exact ⟨_, sq_keyed_hold (inp k) yf u ls bf b ul hm (hinp k (by omega)).2.1, rfl⟩)
    hK
  have e1 : a + 1 + (L - 1) = a + L := by omega
  rw [e1] at ck ok
  have hr := sq_keyed_release (inp (a + L)) W yf ls bf b ul hW hm (hinp _ (by omega)).1
    (hinp _ (by omega)).2.1
  have r1 := run_stepCore inp s (a + L)
  rw [ck, hr] at r1
  simp only [Prod.mk.injEq] at r1
  obtain ⟨c1, -, k1⟩ := r1
  obtain ⟨⟨v, hv, cg⟩, og⟩ := run_countdown inp s
    (fun t c => ∃ v, (v = 0 ∨ v = 3) ∧ c = ⟨.IEG, t, ls, bf, b, 0, ul, v⟩) (a + L + 1) W hW1
    (by
      intro k u c hk _ hq
      obtain ⟨v, hv, rfl⟩ := hq
      exact ⟨_, sq_ieg_hold (inp k) u ls bf b ul v hv (hinp k (by omega)).2.2, 3, Or.inr rfl,
        rfl⟩)
    ⟨0, Or.inl rfl, c1⟩
  have e2 : a + L + 1 + (W - 1) = a + L + W := by omega
  rw [e2] at cg og
  have he := sq_ieg_end (inp (a + L + W)) W ls bf b ul v hW hv (hinp _ (by omega)).1
    (hinp _ (by omega)).2.2
  have r2 := run_stepCore inp s (a + L + W)
  rw [cg, he] at r2
  simp only [Prod.mk.injEq] at r2
  obtain ⟨c2, -, k2⟩ := r2
  refine ⟨fun k h1 h2 => (ok k (by omega) h2).2, k1, ?_, c2⟩
  intro k h1 h2
  by_cases hk : k < a + L + W
  · exact (og k (by omega) hk).2
  · have : k = a + L + W := by omega
    rw [this]
    exact k2

/-- One period under the squeeze: from a state where a dit is due, a dit and a
dah are keyed on the schedule `squeezeKeys`, and a dit is due again. -/
theorem sq_period (inp : Nat → Tick) (s : Yack) (W yf a : Nat)
    (hW2 : 2 ≤ W) (hW : W < 65536) (hm : yf &&& MODE = 0)
    (hinp : ∀ k, (inp k).wpmcnt = W ∧ (inp k).yackflags = yf ∧ (inp k).paddle = ⟨true, true⟩)
    (hd : ditDue W (core (runFsm inp s a))) :
    (∀ r, r < squeezePeriod W → keysAt inp s (a + r) = squeezeKeys W r) ∧
    ((runFsm inp s (a + 1)).lastsymbol = DITLATCH ∧ (runFsm inp s (a + 1)).timer = DITLEN * W) ∧
    ((runFsm inp s (a + (DITLEN * W + IEGLEN * W + 1) + 1)).lastsymbol = DAHLATCH ∧
      (runFsm inp s (a + (DITLEN * W + IEGLEN * W + 1) + 1)).timer = dahTicks W) ∧
    ditDue W (core (runFsm inp s (a + squeezePeriod W))) := by
  have hD3 : 1 ≤ (3 * W) % 65536 := by omega
  -- the dit
  obtain ⟨bf1, b1, h1⟩ := sq_start_dit (inp a) W yf _ hW2 hW hm hd (hinp a).1 (hinp a).2.1
    (hinp a).2.2
  have r1 := run_stepCore inp s a
  rw [h1] at r1
  simp only [Prod.mk.injEq] at r1
  obtain ⟨c1, -, k1⟩ := r1
  have hm4 : yf &&& MODE ≠ 4 := by
    rw [hm]
    decide
  obtain ⟨q1, u1, g1, n1⟩ := sq_element inp s W yf a W 1 bf1 b1 0 (by omega) hW hm4 (by omega)
    (fun k _ => hinp k) c1
  -- the dah
  obtain ⟨bf2, b2, h2⟩ := sq_start_dah (inp (a + W + W + 1)) W yf _ hW2 hm ⟨bf1, b1, n1⟩
    (hinp _).1 (hinp _).2.1 (hinp _).2.2
  have r2 := run_stepCore inp s (a + W + W + 1)
  rw [h2] at r2
  simp only [Prod.mk.injEq] at r2
  obtain ⟨c2, -, k2⟩ := r2
  obtain ⟨q2, u2, g2, n2⟩ := sq_element inp s W yf (a + W + W + 1) ((3 * W) % 65536) 2 bf2 b2 0
    (by omega) hW hm4 hD3 (fun k _ => hinp k) c2
  have hP : squeezePeriod W = W + W + 1 + ((3 * W) % 65536 + W + 1) := by
    simp only [squeezePeriod, dahTicks, DITLEN, IEGLEN, DAHLEN, one_mul]
  have hlen : DITLEN * W + IEGLEN * W + 1 = W + W + 1 := by
    simp only [DITLEN, IEGLEN, one_mul]
  refine ⟨?_, ?_, ?_, ?_⟩
  · intro r hr
    rw [hP] at hr
    unfold squeezeKeys
    simp only [dahTicks, DITLEN, IEGLEN, DAHLEN, one_mul]
    by_cases e0 : r = 0
    · rw [if_pos e0, e0]
      exact k1
    rw [if_neg e0]
    by_cases e1 : r = W
    · rw [if_pos e1, e1]
      exact u1
    rw [if_neg e1]
    by_cases e2 : r = W + W + 1
    · rw [if_pos e2, e2, ← Nat.add_assoc, ← Nat.add_assoc]
      exact k2
    rw [if_neg e2]
    by_cases e3 : r = W + W + 1 + (3 * W) % 65536
    · rw [if_pos e3, e3]
      have := u2
      have e : a + W + W + 1 + (3 * W) % 65536 = a + (W + W + 1 + (3 * W) % 65536) := by omega
      rw [e] at this
      exact this
    rw [if_neg e3]
    by_cases e4 : r < W
    · exact q1 _ (by omega) (by omega)
    by_cases e5 : r < W + W + 1
    · exact g1 _ (by omega) (by omega)
    by_cases e6 : r < W + W + 1 + (3 * W) % 65536
    · exact q2 _ (by omega) (by omega)
    · exact g2 _ (by omega) (by omega)
  · have := congrArg Statics.lastsymbol c1
    have := congrArg Statics.timer c1
    simp only [core] at *
    simp only [DITLATCH, DITLEN, one_mul]
    constructor <;> assumption
  · rw [hlen]
    have e : a + (W + W + 1) + 1 = a + W + W + 1 + 1 := by omega
    rw [e]
    have := congrArg Statics.lastsymbol c2
    have := congrArg Statics.timer c2
    simp only [core] at *
    simp only [DAHLATCH, dahTicks, DAHLEN]
    constructor <;> assumption
  · rw [hP]
    have e : a + (W + W + 1 + ((3 * W) % 65536 + W + 1))
        = a + W + W + 1 + (3 * W) % 65536 + W + 1 := by omega
    rw [e]
    exact Or.inr ⟨bf2, b2, n2⟩

theorem sq_periods (inp : Nat → Tick) (s : Yack) (W yf : Nat)
    (hW2 : 2 ≤ W) (hW : W < 65536) (hm : yf &&& MODE = 0)
    (hinp : ∀ k, (inp k).wpmcnt = W ∧ (inp k).yackflags = yf ∧ (inp k).paddle = ⟨true, true⟩)
    (hd : ditDue W (core (runFsm inp s 0))) (j : Nat) :
    ditDue W (core (runFsm inp s (j * squeezePeriod W))) := by
  induction j with
  | zero => simpa using hd
  | succ j ih =>
    have := (sq_period inp s W yf _ hW2 hW hm hinp ih).2.2.2
    rw [Nat.succ_mul]
    exact this

/-- C4: in IAMBIC-A mode, from the power-on state, with `wpmcnt = W`, `2 ≤ W` (a
16-bit word), and both paddle contacts closed on every call of `yackiambic`, the
`key` calls repeat with period `squeezePeriod W` on the schedule `squeezeKeys`:
each period keys one dit (`lastsymbol = DITLATCH`, timer `DITLEN * W`) and then
one dah (`lastsymbol = DAHLATCH`, timer `DAHLEN * W` as a 16-bit word), so the
first element is a dit and dits and dahs alternate for ever. -/
theorem iambicA_squeeze_alternates (inp : Nat → Tick) (s : Yack) (W yf : Nat)
    (hW2 : 2 ≤ W) (hW : W < 65536) (hmode : yf &&& MODE = IAMBICA)
    (hs : s.fsms = .IDLE ∧ s.timer = 0 ∧ s.lastsymbol = 0 ∧ s.buffer = 0 ∧ s.bcntr = 0 ∧
      s.iwgflag = 0 ∧ s.ultimem = 0 ∧ s.volflags &&& SQUEEZED = 0)
    (hinp : ∀ k, (inp k).wpmcnt = W ∧ (inp k).yackflags = yf ∧ (inp k).paddle = ⟨true, true⟩)
    (n : Nat) :
    keysAt inp s n = squeezeKeys W (n % squeezePeriod W) ∧
    (n % squeezePeriod W = 0 →
      (runFsm inp s (n + 1)).lastsymbol = DITLATCH ∧
      (runFsm inp s (n + 1)).timer = DITLEN * W) ∧
    (n % squeezePeriod W = DITLEN * W + IEGLEN * W + 1 →
      (runFsm inp s (n + 1)).lastsymbol = DAHLATCH ∧
      (runFsm inp s (n + 1)).timer = dahTicks W) := by
  obtain ⟨s1, s2, s3, s4, s5, s6, s7, s8⟩ := hs
  have hcore : ditDue W (core (runFsm inp s 0)) := by
    left
    simp only [runFsm, core, s1, s2, s3, s4, s5, s6, s7, s8]
  have hP : 0 < squeezePeriod W := by
    unfold squeezePeriod
    omega
  have hdue := sq_periods inp s W yf hW2 hW hmode hinp hcore (n / squeezePeriod W)
  obtain ⟨p1, p2, p3, -⟩ := sq_period inp s W yf _ hW2 hW hmode hinp hdue
  have hn : n / squeezePeriod W * squeezePeriod W + n % squeezePeriod W = n := by
    rw [Nat.mul_comm]
    exact Nat.div_add_mod n (squeezePeriod W)
  have hr := p1 (n % squeezePeriod W) (Nat.mod_lt n hP)
  rw [hn] at hr
  refine ⟨hr, ?_, ?_⟩
  · intro h0
    rw [h0, Nat.add_zero] at hn
    rw [hn] at p2
    exact p2
  · intro h1
    rw [h1] at hn
    rw [hn] at p3
    exact p3

/-- Witness for C4: both paddles held at 2 ticks per dot; call 5, the first of
the second half of the period, keys a dah. -/
theorem iambicA_squeeze_alternates_witness :
    keysAt (squeezeInput 2 IAMBICA) powerOn 5 = squeezeKeys 2 (5 % squeezePeriod 2) ∧
    (5 % squeezePeriod 2 = 0 →
      (runFsm (squeezeInput 2 IAMBICA) powerOn (5 + 1)).lastsymbol = DITLATCH ∧
      (runFsm (squeezeInput 2 IAMBICA) powerOn (5 + 1)).timer = DITLEN * 2) ∧
    (5 % squeezePeriod 2 = DITLEN * 2 + IEGLEN * 2 + 1 →
      (runFsm (squeezeInput 2 IAMBICA) powerOn (5 + 1)).lastsymbol = DAHLATCH ∧
      (runFsm (squeezeInput 2 IAMBICA) powerOn (5 + 1)).timer = dahTicks 2) :=
  iambicA_squeeze_alternates (squeezeInput 2 IAMBICA) powerOn 2 IAMBICA (by decide) (by decide)
    (by decide) (by decide) (fun _ => ⟨rfl, rfl, rfl⟩) 5

end SqueezeRuns

section UltimaticRuns

attribute [local simp] stepCore core Statics.toYack powerOn tick yackiambic countDown spaceDetect
  idleCase keyedCase iegCase decodeChar startElement keylatch modeLatch key bclr
  IAMBICA IAMBICB ULTIMATIC DAHPRIO DITLATCH DAHLATCH SQUEEZED SIDETONE TXKEY
  DITLEN DAHLEN IEGLEN ICGLEN IWGLEN ON OFF

/-! ### A dah press followed by a squeeze in ULTIMATIC (C5) -/

theorem ulti_start_dah (i : Tick) (W yf : Nat)
    (hm : yf &&& MODE = 8) (hw : i.wpmcnt = W) (hy : i.yackflags = yf)
    (hp : i.paddle = dahOnly yf) :
    ∃ bf b, stepCore i ⟨.IDLE, 0, 0, 0, 0, 0, 0, 0⟩
      = (⟨.KEYED, (3 * W) % 65536, 2, bf, b, 0, 2, 0⟩, 0, [Event.keyDown]) := by
  obtain ⟨⟨pd, ph⟩, ctrl, w, y, u⟩ := i
  simp only at hw hy hp
  subst hw hy
  unfold dahOnly at hp
  by_cases hs : y &&& PDLSWAP = 0
  · rw [if_pos hs] at hp
    simp only [Paddle.mk.injEq] at hp
    obtain ⟨rfl, rfl⟩ := hp
    simp +decide [hm, hs]
  · rw [if_neg hs] at hp
    simp only [Paddle.mk.injEq] at hp
    obtain ⟨rfl, rfl⟩ := hp
    simp +decide [hm, hs]

theorem ulti_start_dit (i : Tick) (W yf : Nat) (c : Statics) (hW2 : 2 ≤ W) (hW : W < 65536)
    (hm : yf &&& MODE = 8) (hc : ultimaticDitDue W c)
    (hw : i.wpmcnt = W) (hy : i.yackflags = yf) (hp : i.paddle = ⟨true, true⟩) :
    ∃ bf b, stepCore i c = (⟨.KEYED, W, 1, bf, b, 0, 2, 0⟩, 0, [Event.keyDown]) := by
  obtain ⟨⟨pd, ph⟩, ctrl, w, y, u⟩ := i
  simp only [Paddle.mk.injEq] at hw hy hp
  obtain ⟨rfl, rfl⟩ := hp
  subst hw hy
  obtain ⟨w, rfl⟩ : ∃ w', w = w' + 2 := ⟨w - 2, by omega⟩
  obtain ⟨ls, bf, b, rfl⟩ := hc
  by_cases hs : y &&& PDLSWAP = 0 <;> simp +decide [hm, hs, mod_word hW]

/-- One dit period of the squeezed ULTIMATIC keyer. -/
theorem ulti_period (inp : Nat → Tick) (s : Yack) (W yf a : Nat)
    (hW2 : 2 ≤ W) (hW : W < 65536) (hm : yf &&& MODE = 8)
    (hinp : ∀ k, a ≤ k →
      (inp k).wpmcnt = W ∧ (inp k).yackflags = yf ∧ (inp k).paddle = ⟨true, true⟩)
    (hd : ultimaticDitDue W (core (runFsm inp s a))) :
    (∀ r, r < ditPeriod W → keysAt inp s (a + r)
      = if r = 0 then [Event.keyDown] else if r = DITLEN * W then [Event.keyUp] else []) ∧
    (runFsm inp s (a + 1)).lastsymbol = DITLATCH ∧
    ultimaticDitDue W (core (runFsm inp s (a + ditPeriod W))) := by
  have hm4 : yf &&& MODE ≠ 4 := by
    rw [hm]
    decide
  obtain ⟨bf1, b1, h1⟩ := ulti_start_dit (inp a) W yf _ hW2 hW hm hd (hinp a le_rfl).1
    (hinp a le_rfl).2.1 (hinp a le_rfl).2.2
  have r1 := run_stepCore inp s a
  rw [h1] at r1
  simp only [Prod.mk.injEq] at r1
  obtain ⟨c1, -, k1⟩ := r1
  obtain ⟨q1, u1, g1, n1⟩ := sq_element inp s W yf a W 1 bf1 b1 2 (by omega) hW hm4 (by omega)
    (fun k hk => hinp k (by omega)) c1
  have hP : ditPeriod W = W + W + 1 := by
    simp only [ditPeriod, DITLEN, IEGLEN, one_mul]
  refine ⟨?_, ?_, ?_⟩
  · intro r hr
    rw [hP] at hr
    simp only [DITLEN, one_mul]
    by_cases e0 : r = 0
    · rw [if_pos e0, e0]
      exact k1
    rw [if_neg e0]
    by_cases e1 : r = W
    · rw [if_pos e1, e1]
      exact u1
    rw [if_neg e1]
    by_cases e4 : r < W
    · exact q1 _ (by omega) (by omega)
    · exact g1 _ (by omega) (by omega)
  · have := congrArg Statics.lastsymbol c1
    simp only [core] at this
    exact this
  · rw [hP]
    have e : a + (W + W + 1) = a + W + W + 1 := by omega
    rw [e]
    exact ⟨1, bf1, b1, n1⟩

theorem ulti_periods (inp : Nat → Tick) (s : Yack) (W yf a : Nat)
    (hW2 : 2 ≤ W) (hW : W < 65536) (hm : yf &&& MODE = 8)
    (hinp : ∀ k, a ≤ k →
      (inp k).wpmcnt = W ∧ (inp k).yackflags = yf ∧ (inp k).paddle = ⟨true, true⟩)
    (hd : ultimaticDitDue W (core (runFsm inp s a))) (j : Nat) :
    ultimaticDitDue W (core (runFsm inp s (a + j * ditPeriod W))) := by
  induction j with
  | zero => simpa using hd
  | succ j ih =>
    have := (ulti_period inp s W yf _ hW2 hW hm (fun k hk => hinp k (by omega)) ih).2.2
    rw [Nat.succ_mul, ← Nat.add_assoc]
    exact this

/-- C5, amended: in ULTIMATIC mode, from the power-on state with `wpmcnt = W`,
`2 ≤ W` (a 16-bit word), if only the dah paddle is closed on call 0 and both
paddles are closed on every later call, the `key` calls follow the schedule
`ultimaticKeys`: the element started on call 0 is a dah, and every element
started on a later call is a dit. -/
theorem ultimatic_dah_then_dits (inp : Nat → Tick) (s : Yack) (W yf : Nat)
    (hW2 : 2 ≤ W) (hW : W < 65536) (hmode : yf &&& MODE = ULTIMATIC)
    (hs : s.fsms = .IDLE ∧ s.timer = 0 ∧ s.lastsymbol = 0 ∧ s.buffer = 0 ∧ s.bcntr = 0 ∧
      s.iwgflag = 0 ∧ s.ultimem = 0 ∧ s.volflags &&& SQUEEZED = 0)
    (hinp : ∀ k, (inp k).wpmcnt = W ∧ (inp k).yackflags = yf ∧
      (inp k).paddle = if k = 0 then dahOnly yf else ⟨true, true⟩)
    (n : Nat) :
    keysAt inp s n = ultimaticKeys W n ∧
    (n = 0 → (runFsm inp s (n + 1)).lastsymbol = DAHLATCH) ∧
    (1 ≤ n → keysAt inp s n = [Event.keyDown] →
      (runFsm inp s (n + 1)).lastsymbol = DITLATCH) := by
  obtain ⟨s1, s2, s3, s4, s5, s6, s7, s8⟩ := hs
  have hcore : core (runFsm inp s 0) = ⟨.IDLE, 0, 0, 0, 0, 0, 0, 0⟩ := by
    simp only [runFsm, core, s1, s2, s3, s4, s5, s6, s7, s8]
  have hsq : ∀ k, 0 < k →
      (inp k).wpmcnt = W ∧ (inp k).yackflags = yf ∧ (inp k).paddle = ⟨true, true⟩ := by
    intro k hk
    refine ⟨(hinp k).1, (hinp k).2.1, ?_⟩
    rw [(hinp k).2.2, if_neg (by omega)]
  have hm4 : yf &&& MODE ≠ 4 := by
    rw [hmode]
    decide
  have hD3 : 1 ≤ (3 * W) % 65536 := by omega
  -- the dah
  obtain ⟨bf0, b0, h0⟩ := ulti_start_dah (inp 0) W yf hmode (hinp 0).1 (hinp 0).2.1
    (by rw [(hinp 0).2.2, if_pos rfl])
  have r0 := run_stepCore inp s 0
  rw [hcore, h0] at r0
  simp only [Prod.mk.injEq] at r0
  obtain ⟨c0, -, k0⟩ := r0
  obtain ⟨q0, u0, g0, n0⟩ := sq_element inp s W yf 0 ((3 * W) % 65536) 2 bf0 b0 2 (by omega) hW
    hm4 hD3 hsq c0
  simp only [Nat.zero_add] at q0 u0 g0 n0
  have hdue : ultimaticDitDue W (core (runFsm inp s ((3 * W) % 65536 + W + 1))) :=
    ⟨2, bf0, b0, n0⟩
  have hP : ditPeriod W = W + W + 1 := by
    simp only [ditPeriod, DITLEN, IEGLEN, one_mul]
  have hPpos : 0 < ditPeriod W := by omega
  have hsched : ∀ m, ultimaticKeys W m =
      if m = 0 then [Event.keyDown]
      else if m = (3 * W) % 65536 then [Event.keyUp]
      else if m < (3 * W) % 65536 + W + 1 then []
      else if (m - ((3 * W) % 65536 + W + 1)) % ditPeriod W = 0 then [Event.keyDown]
      else if (m - ((3 * W) % 65536 + W + 1)) % ditPeriod W = W then [Event.keyUp]
      else [] := by
    intro m
    simp only [ultimaticKeys, dahTicks, DAHLEN, DITLEN, IEGLEN, one_mul]
  rw [hsched]
  by_cases e0 : n = 0
  · subst e0
    refine ⟨by rw [if_pos rfl]; exact k0, fun _ => ?_, fun h => absurd h (by omega)⟩
    have := congrArg Statics.lastsymbol c0
    simp only [core] at this
    exact this
  rw [if_neg e0]
  by_cases e1 : n = (3 * W) % 65536
  · rw [if_pos e1]
    refine ⟨by rw [e1]; exact u0, fun h => absurd h e0, fun _ h => ?_⟩
    rw [e1, u0] at h
    exact absurd h (by decide)
  rw [if_neg e1]
  by_cases e2 : n < (3 * W) % 65536 + W + 1
  · rw [if_pos e2]
    have hk : keysAt inp s n = [] := by
      by_cases e3 : n < (3 * W) % 65536
      · exact q0 n (by omega) e3
      · exact g0 n (by omega) e2
    refine ⟨hk, fun h => absurd h e0, fun _ h => ?_⟩
    rw [hk] at h
    exact absurd h (by decide)
  rw [if_neg e2]
  -- the dits
  have hj := ulti_periods inp s W yf _ hW2 hW hmode (fun k hk => hsq k (by omega)) hdue
    ((n - ((3 * W) % 65536 + W + 1)) / ditPeriod W)
  obtain ⟨p1, p2, -⟩ := ulti_period inp s W yf _ hW2 hW hmode (fun k hk => hsq k (by omega)) hj
  have hn : (3 * W) % 65536 + W + 1
      + (n - ((3 * W) % 65536 + W + 1)) / ditPeriod W * ditPeriod W
      + (n - ((3 * W) % 65536 + W + 1)) % ditPeriod W = n := by
    have := Nat.div_add_mod (n - ((3 * W) % 65536 + W + 1)) (ditPeriod W)
    rw [Nat.mul_comm] at this
    omega
  have hr := p1 _ (Nat.mod_lt (n - ((3 * W) % 65536 + W + 1)) hPpos)
  rw [hn] at hr
  simp only [DITLEN, one_mul] at hr
  refine ⟨hr, fun h => absurd h e0, fun _ h => ?_⟩
  by_cases e4 : (n - ((3 * W) % 65536 + W + 1)) % ditPeriod W = 0
  · rw [e4, Nat.add_zero] at hn
    rw [hn] at p2
    exact p2
  · rw [hr, if_neg e4] at h
    split_ifs at h
    exact absurd h (by decide)

/-- Witness for C5, amended: at 2 ticks per dot the element started on call 9
is a dit. -/
theorem ultimatic_dah_then_dits_witness :
    keysAt (dahThenSqueeze 2 ULTIMATIC) powerOn 9 = ultimaticKeys 2 9 ∧
    (9 = 0 → (runFsm (dahThenSqueeze 2 ULTIMATIC) powerOn (9 + 1)).lastsymbol = DAHLATCH) ∧
    (1 ≤ 9 → keysAt (dahThenSqueeze 2 ULTIMATIC) powerOn 9 = [Event.keyDown] →
      (runFsm (dahThenSqueeze 2 ULTIMATIC) powerOn (9 + 1)).lastsymbol = DITLATCH) :=
  ultimatic_dah_then_dits (dahThenSqueeze 2 ULTIMATIC) powerOn 2 ULTIMATIC (by decide)
    (by decide) (by decide) (by decide) (fun _ => ⟨rfl, rfl, rfl⟩) 9

/-- C5 as stated fails: in ULTIMATIC at 2 ticks per dot, after the dah started
by the single press on call 0, the next element, started on call 9 under the
squeeze, is a dit, not a dah. -/
theorem ultimatic_second_element_is_dit :
    keysAt (dahThenSqueeze 2 ULTIMATIC) powerOn 0 = [Event.keyDown] ∧
    (runFsm (dahThenSqueeze 2 ULTIMATIC) powerOn 1).lastsymbol = DAHLATCH ∧
    (∀ k, k < 9 → 0 < k → keysAt (dahThenSqueeze 2 ULTIMATIC) powerOn k ≠ [Event.keyDown]) ∧
    keysAt (dahThenSqueeze 2 ULTIMATIC) powerOn 9 = [Event.keyDown] ∧
    (runFsm (dahThenSqueeze 2 ULTIMATIC) powerOn 10).lastsymbol = DITLATCH := by
  decide

end UltimaticRuns

/-! ### The gaps after an element (C8) -/

theorem tick_keyUp (i : Tick) (s : Yack) (h : (tick i s).1.log = [Event.keyUp]) :
    (tick i s).1.fsms = .IEG ∧ (tick i s).1.timer = (IEGLEN * i.wpmcnt) % 65536 := by
  rw [tick_eq] at h ⊢
  obtain ⟨-, -, pl, pw, -⟩ := prelude_fields i s
  generalize prelude i s = s1 at *
  split at h
  · exfalso
    unfold idleCase at h
    simp only [] at h
    have hl : (modeLatch (keylatch i.paddle s1)).log = [] := by simp [pl]
    generalize modeLatch (keylatch i.paddle s1) = s2 at *
    split_ifs at h
    · rw [decodeChar_log, hl] at h
      simp at h
    · simp [hl] at h
    · rw [(startElement_out s2).2.1, hl] at h
      simp at h
    · simp [hl] at h
  · unfold keyedCase at h ⊢
    simp only [] at h ⊢
    have hl : (if s1.yackflags &&& MODE = IAMBICB then keylatch i.paddle s1 else s1).log = [] := by
      split_ifs <;> simp [pl]
    have hw : (if s1.yackflags &&& MODE = IAMBICB then keylatch i.paddle s1 else s1).wpmcnt
        = i.wpmcnt := by
      split_ifs <;> simp [pw]
    generalize (if s1.yackflags &&& MODE = IAMBICB then keylatch i.paddle s1 else s1) = s2 at *
    split_ifs at h ⊢
    · simp [hw]
    · simp [hl] at h
  · rw [iegCase_log, pl] at h
    simp at h

section GapRuns

attribute [local simp] stepCore core Statics.toYack powerOn tick yackiambic countDown spaceDetect
  idleCase keyedCase iegCase decodeChar startElement keylatch modeLatch key bclr
  IAMBICA IAMBICB ULTIMATIC DAHPRIO DITLATCH DAHLATCH SQUEEZED SIDETONE TXKEY
  DITLEN DAHLEN IEGLEN ICGLEN IWGLEN ON OFF

theorem g8_ieg_hold (i : Tick) (t ls bf b iwg ul v : Nat) (hv : v ≤ 3)
    (hc : i.ctrl = ON) (hp : i.paddle = ⟨false, false⟩) :
    stepCore i ⟨.IEG, t + 2, ls, bf, b, iwg, ul, v⟩
      = (⟨.IEG, t + 1, ls, bf, b, iwg, ul, v⟩, 0, []) := by
  obtain ⟨⟨pd, ph⟩, ctrl, w, y, u⟩ := i
  simp only [Paddle.mk.injEq] at hc hp
  obtain ⟨rfl, rfl⟩ := hp
  subst hc
  interval_cases v <;> simp +decide

theorem g8_ieg_end (i : Tick) (W ls bf b iwg ul v : Nat) (hW : W < 65536) (hv : v ≤ 3)
    (hc : i.ctrl = ON) (hw : i.wpmcnt = W) (hp : i.paddle = ⟨false, false⟩) :
    stepCore i ⟨.IEG, 1, ls, bf, b, iwg, ul, v⟩
      = (⟨.IDLE, W, ls, bf, b, iwg, ul, v⟩, 0, []) := by
  obtain ⟨⟨pd, ph⟩, ctrl, w, y, u⟩ := i
  simp only [Paddle.mk.injEq] at hc hw hp
  obtain ⟨rfl, rfl⟩ := hp
  subst hc hw
  interval_cases v <;> simp +decide [mod_word hW]

theorem g8_idle_hold (i : Tick) (yf bf b t : Nat) (c : Statics) (h : gapIdle yf bf b (t + 2) c)
    (hc : i.ctrl = ON) (hy : i.yackflags = yf) (hp : i.paddle = ⟨false, false⟩) :
    ∃ c', stepCore i c = (c', 0, []) ∧ gapIdle yf bf b (t + 1) c' := by
  obtain ⟨⟨pd, ph⟩, ctrl, w, y, u⟩ := i
  simp only [Paddle.mk.injEq] at hc hy hp
  obtain ⟨rfl, rfl⟩ := hp
  subst hc hy
  obtain ⟨ls, ul, v, iwg, rfl, hv⟩ := h
  unfold gapIdle
  rcases hv with rfl | ⟨hm | hm, rfl, hls⟩
  · rcases mode_cases y with hm | hm | hm | hm <;> simp +decide [hm] <;>
      exact ⟨_, _, _, ⟨rfl, rfl, rfl⟩, Or.inl rfl⟩
  · interval_cases v <;> simp +decide [hm] <;>
      exact ⟨_, _, _, ⟨rfl, rfl, rfl⟩, Or.inl rfl⟩
  · interval_cases v <;> simp +decide [hm] <;>
      exact ⟨_, _, _, ⟨rfl, rfl, rfl⟩, Or.inl rfl⟩

theorem g8_decode (i : Tick) (W yf bf b : Nat) (c : Statics) (hb1 : 1 ≤ b) (hb7 : b ≤ 7)
    (h : gapIdle yf bf b 1 c)
    (hc : i.ctrl = ON) (hw : i.wpmcnt = W) (hy : i.yackflags = yf)
    (hp : i.paddle = ⟨false, false⟩) :
    ∃ ls ul, stepCore i c
      = (⟨.IDLE, (4 * W) % 65536, ls, 0, 0, 1, ul, 0⟩, morsechar (justify bf b), []) := by
  obtain ⟨⟨pd, ph⟩, ctrl, w, y, u⟩ := i
  simp only [Paddle.mk.injEq] at hc hw hy hp
  obtain ⟨rfl, rfl⟩ := hp
  subst hc hw hy
  obtain ⟨ls, ul, v, iwg, rfl, hv⟩ := h
  have hb0 : b ≠ 0 := by omega
  unfold justify
  rcases hv with rfl | ⟨hm | hm, rfl, hls⟩
  · rcases mode_cases y with hm | hm | hm | hm <;> simp +decide [hm, hb0, hb7]
  · interval_cases v <;> simp +decide [hm, hb0, hb7]
  · interval_cases v <;> simp +decide [hm, hb0, hb7]

/-- C8, amended: with `ctrl = ON`, `wpmcnt = W`, `1 ≤ W` and
`(IWGLEN - ICGLEN) * W < 65536`, both paddles open after the call `u` that keys
an element up, one to seven elements accumulated and no paddle latch pending
other than, in the iambic modes, the latch of the element just sent:
`yackiambic` returns the decoded character on the call at which the key has been
up for `(ICGLEN - 1) * W` ticks (2 dot times), returns the space
`(IWGLEN - ICGLEN) * W` calls later (4 further dot times), and returns 0 on
every other call in between. -/
theorem gap_timing (inp : Nat → Tick) (s : Yack) (u W yf : Nat)
    (hW1 : 1 ≤ W) (hfit : (IWGLEN - ICGLEN) * W < 65536)
    (hup : keysAt inp s u = [Event.keyUp]) (hWu : (inp u).wpmcnt = W)
    (hinp : ∀ k, u < k → (inp k).ctrl = ON ∧ (inp k).wpmcnt = W ∧ (inp k).yackflags = yf ∧
      (inp k).paddle = ⟨false, false⟩)
    (hb : 1 ≤ (runFsm inp s (u + 1)).bcntr ∧ (runFsm inp s (u + 1)).bcntr ≤ 7)
    (hl : (runFsm inp s (u + 1)).volflags &&& SQUEEZED = 0 ∨
      ((yf &&& MODE = IAMBICA ∨ yf &&& MODE = IAMBICB) ∧
        (runFsm inp s (u + 1)).volflags &&& SQUEEZED = (runFsm inp s (u + 1)).lastsymbol)) :
    retAt inp s (u + (ICGLEN - 1) * W)
      = morsechar (justify (runFsm inp s (u + 1)).buffer (runFsm inp s (u + 1)).bcntr) ∧
    retAt inp s (u + (ICGLEN - 1) * W + (IWGLEN - ICGLEN) * W) = ' '.toNat ∧
    ∀ k, u < k → k < u + (ICGLEN - 1) * W + (IWGLEN - ICGLEN) * W →
      k ≠ u + (ICGLEN - 1) * W → retAt inp s k = 0 := by
  have hfit4 : 4 * W < 65536 := by
    simpa only [IWGLEN, ICGLEN] using hfit
  have hW : W < 65536 := by omega
  have e2W : (ICGLEN - 1) * W = 2 * W := by
    simp only [ICGLEN]
  have e4W : (IWGLEN - ICGLEN) * W = 4 * W := by
    simp only [IWGLEN, ICGLEN]
  rw [e2W, e4W]
  -- the state after the key-up call
  obtain ⟨hf, ht⟩ := tick_keyUp (inp u) (runFsm inp s u) hup
  rw [hWu] at ht
  simp only [IEGLEN, one_mul, mod_word hW] at ht
  have hv3 : (runFsm inp s (u + 1)).volflags &&& SQUEEZED ≤ 3 := Nat.and_le_right
  have c0 : core (runFsm inp s (u + 1)) = ⟨.IEG, W, (runFsm inp s (u + 1)).lastsymbol,
      (runFsm inp s (u + 1)).buffer, (runFsm inp s (u + 1)).bcntr,
      (runFsm inp s (u + 1)).iwgflag, (runFsm inp s (u + 1)).ultimem,
      (runFsm inp s (u + 1)).volflags &&& SQUEEZED⟩ := by
    have hf' : (runFsm inp s (u + 1)).fsms = .IEG := hf
    have ht' : (runFsm inp s (u + 1)).timer = W := ht
    simp only [core, hf', ht']
  generalize (runFsm inp s (u + 1)).lastsymbol = ls at *
  generalize (runFsm inp s (u + 1)).buffer = bf at *
  generalize (runFsm inp s (u + 1)).bcntr = b at *
  generalize (runFsm inp s (u + 1)).iwgflag = iwg at *
  generalize (runFsm inp s (u + 1)).ultimem = ul at *
  generalize (runFsm inp s (u + 1)).volflags &&& SQUEEZED = v at *
  -- calls u+1 .. u+W-1: inter-element gap
  obtain ⟨cg, og⟩ := run_countdown inp s
    (fun t c => c = ⟨.IEG, t, ls, bf, b, iwg, ul, v⟩) (u + 1) W hW1
    (by
      intro k t c hk _ hq
      subst hq
      exact ⟨_, g8_ieg_hold (inp k) t ls bf b iwg ul v hv3 (hinp k (by omega)).1
        (hinp k (by omega)).2.2.2, rfl⟩)
    c0
  have e1 : u + 1 + (W - 1) = u + W := by omega
  rw [e1] at cg og
  -- call u+W: the gap ends
  have he := g8_ieg_end (inp (u + W)) W ls bf b iwg ul v hW hv3 (hinp _ (by omega)).1
    (hinp _ (by omega)).2.1 (hinp _ (by omega)).2.2.2
  have r1 := run_stepCore inp s (u + W)
  rw [cg, he] at r1
  simp only [Prod.mk.injEq] at r1
  obtain ⟨c1, o1, -⟩ := r1
  -- calls u+W+1 .. u+2W-1: idle
  have hidle : gapIdle yf bf b W (core (runFsm inp s (u + W + 1))) := by
    rw [c1]
    refine ⟨ls, ul, v, iwg, rfl, ?_⟩
    rcases hl with h | ⟨hm, h⟩
    · exact Or.inl h
    · exact Or.inr ⟨hm, h, by omega⟩
  obtain ⟨ci, oi⟩ := run_countdown inp s (gapIdle yf bf b) (u + W + 1) W hW1
    (by
      intro k t c hk _ hq
      exact g8_idle_hold (inp k) yf bf b t c hq (hinp k (by omega)).1 (hinp k (by omega)).2.2.1
        (hinp k (by omega)).2.2.2)
    hidle
  have e2 : u + W + 1 + (W - 1) = u + 2 * W := by omega
  rw [e2] at ci oi
  -- call u+2W: the character
  obtain ⟨lsd, uld, hd⟩ := g8_decode (inp (u + 2 * W)) W yf bf b _ hb.1 hb.2 ci
    (hinp _ (by omega)).1 (hinp _ (by omega)).2.1 (hinp _ (by omega)).2.2.1
    (hinp _ (by omega)).2.2.2
  have r2 := run_stepCore inp s (u + 2 * W)
  rw [hd] at r2
  simp only [Prod.mk.injEq] at r2
  obtain ⟨c2, o2, -⟩ := r2
  rw [mod_word hfit4] at c2
  -- calls u+2W+1 .. u+6W-1: the rest of the word gap
  obtain ⟨⟨lsq, ulq, cq⟩, oq⟩ := run_countdown inp s
    (fun t c => ∃ ls ul, c = ⟨.IDLE, t, ls, 0, 0, 1, ul, 0⟩) (u + 2 * W + 1) (4 * W) (by omega)
    (by
      intro k t c hk _ hq
      obtain ⟨ls, ul, rfl⟩ := hq
      obtain ⟨ls', ul', e⟩ := gap_hold (inp k) W yf t ls ul (hinp k (by omega)).1
        (hinp k (by omega)).2.1 (hinp k (by omega)).2.2.1 (hinp k (by omega)).2.2.2
      exact ⟨_, e, ls', ul', rfl⟩)
    ⟨lsd, uld, c2⟩
  have e3 : u + 2 * W + 1 + (4 * W - 1) = u + 2 * W + 4 * W := by omega
  rw [e3] at cq oq
  -- call u+6W: the space
  obtain ⟨lsr, ulr, hsp⟩ := gap_space (inp (u + 2 * W + 4 * W)) W yf 1 lsq ulq le_rfl
    (hinp _ (by omega)).1 (hinp _ (by omega)).2.1 (hinp _ (by omega)).2.2.1
    (hinp _ (by omega)).2.2.2
  have r3 := run_stepCore inp s (u + 2 * W + 4 * W)
  rw [cq, hsp] at r3
  simp only [Prod.mk.injEq] at r3
  obtain ⟨-, o3, -⟩ := r3
  refine ⟨o2, o3, ?_⟩
  intro k h1 h2 h3
  by_cases k1 : k < u + W
  · exact (og k (by omega) k1).1
  by_cases k2 : k = u + W
  · rw [k2]
    exact o1
  by_cases k3 : k < u + 2 * W
  · exact (oi k (by omega) k3).1
  · exact (oq k (by omega) h2).1

/-- Witness for C8, amended: a dot at 3 ticks per dot is keyed up on call 3; the
character comes on call 9 and the space on call 21. -/
theorem gap_timing_witness :
    retAt oneDot powerOn (3 + (ICGLEN - 1) * 3)
      = morsechar (justify (runFsm oneDot powerOn (3 + 1)).buffer
          (runFsm oneDot powerOn (3 + 1)).bcntr) ∧
    retAt oneDot powerOn (3 + (ICGLEN - 1) * 3 + (IWGLEN - ICGLEN) * 3) = ' '.toNat ∧
    ∀ k, 3 < k → k < 3 + (ICGLEN - 1) * 3 + (IWGLEN - ICGLEN) * 3 →
      k ≠ 3 + (ICGLEN - 1) * 3 → retAt oneDot powerOn k = 0 :=
  gap_timing oneDot powerOn 3 3 IAMBICA (by decide) (by decide) (by decide) (by decide)
    (fun k hk => ⟨rfl, rfl, rfl, by
      show (⟨decide (k = 0), false⟩ : Paddle) = ⟨false, false⟩
      congr 1
      simp only [decide_eq_false_iff_not]
      omega⟩)
    (by decide) (by decide)

/-- C8 as stated fails: a dot at 3 ticks per dot is keyed up on call 3; on the
call at which the key has been up for `ICGLEN * 3` ticks nothing is returned,
the character `E` having come `3` calls earlier, and likewise for the space at
`IWGLEN * 3` ticks. -/
theorem gap_timing_one_dot_early :
    keysAt oneDot powerOn 3 = [Event.keyUp] ∧
    retAt oneDot powerOn (3 + ICGLEN * 3) = 0 ∧
    retAt oneDot powerOn (3 + (ICGLEN - 1) * 3) = 'E'.toNat ∧
    retAt oneDot powerOn (3 + IWGLEN * 3) = 0 ∧
    retAt oneDot powerOn (3 + (IWGLEN - 1) * 3) = ' '.toNat := by
  decide

end GapRuns

/-! ## Playback: the key schedule of `yackchar` (C9) -/

theorem beats_eq (n : Nat) (s : Yack) :
    beats n s = { s with log := s.log ++ List.replicate n Event.beat } := by
  induction n generalizing s with
  | zero => simp [beats]
  | succ n ih =>
    rw [beats, ih]
    simp [yackbeat, List.replicate_succ]

theorem delayLoop_eq (i : Nat) (s : Yack) :
    delayLoop i s
      = { s with log := s.log ++ List.replicate (i * (s.wpmcnt % 256)) Event.beat } := by
  induction i generalizing s with
  | zero => simp [delayLoop]
  | succ i ih =>
    rw [delayLoop, ih, beats_eq]
    have e : (i + 1) * (s.wpmcnt % 256) = s.wpmcnt % 256 + i * (s.wpmcnt % 256) := by ring
    simp only [e, List.replicate_add, List.append_assoc]

theorem yackdelay_eq (n : Nat) (s : Yack) :
    yackdelay n s
      = { s with log := s.log ++ List.replicate ((n % 256) * (s.wpmcnt % 256)) Event.beat } := by
  unfold yackdelay
  rw [delayLoop_eq]

theorem farnsLoop_eq (i : Nat) (s : Yack) :
    farnsLoop i s
      = { s with log := s.log ++ List.replicate (i * (s.wpmcnt % 256)) Event.beat } := by
  induction i generalizing s with
  | zero => simp [farnsLoop]
  | succ i ih =>
    rw [farnsLoop, ih, yackdelay_eq]
    have e : (i + 1) * (s.wpmcnt % 256) = 1 % 256 * (s.wpmcnt % 256) + i * (s.wpmcnt % 256) := by
      norm_num
      ring
    simp only [e, List.replicate_add, List.append_assoc]

theorem yackfarns_eq (s : Yack) :
    yackfarns s
      = { s with log := s.log ++ List.replicate (s.farnsworth * (s.wpmcnt % 256)) Event.beat } := by
  unfold yackfarns
  rw [farnsLoop_eq]

theorem yackplay_log (e : Element) (s : Yack) :
    (yackplay e s).log = s.log ++ Event.keyDown ::
      (List.replicate (((match e with | .DIT => DITLEN | .DAH => DAHLEN) % 256)
        * (s.wpmcnt % 256)) Event.beat ++ [Event.keyUp]) := by
  unfold yackplay
  cases e <;> simp [yackdelay_eq, key]

theorem yackplay_frame (e : Element) (s : Yack) :
    (yackplay e s).wpmcnt = s.wpmcnt ∧ (yackplay e s).volflags = s.volflags ∧
    (yackplay e s).farnsworth = s.farnsworth ∧ (yackplay e s).npolls = s.npolls ∧
    (yackplay e s).wpm = s.wpm := by
  unfold yackplay
  cases e <;> simp [yackdelay_eq, key]

/-- A poll with the button open: nothing happens but the call being counted and
logged, and the result is whether `CKLATCH` was set. -/
theorem yackctrlkey_open (h : Header) (w : Nat → Poll) (s : Yack) (ho : w s.npolls = none) :
    yackctrlkey h w FALSE s
      = ({ s with npolls := s.npolls + 1,
                  log := s.log ++ [Event.ctrlkey s.npolls (decide (s.volflags &&& CKLATCH ≠ 0))] },
         decide (s.volflags &&& CKLATCH ≠ 0)) := by
  unfold yackctrlkey
  simp [ho, FALSE, TRUE]

theorem codeElements_stop : codeElements 0x80 = [] := by
  decide

set_option maxRecDepth 100000 in
theorem codeElements_step : ∀ code, code < 256 → 0 < code → code ≠ 0x80 →
    codeElements code
      = (if code &&& 0x80 ≠ 0 then Element.DAH else Element.DIT)
          :: codeElements ((code <<< 1) % 256) ∧
    0 < (code <<< 1) % 256 := by
  decide

set_option maxRecDepth 100000 in
theorem codeElements_length : ∀ code, code < 256 → (codeElements code).length ≤ 7 := by
  decide

/-- One pass of the playback loop without a command-key press: the poll, the
element and the inter-element gap. -/
theorem playLoop_pass (h : Header) (w : Nat → Poll) (hopen : neverPressed w) (fuel code : Nat)
    (s : Yack) (hne : code ≠ 0x80) (hck : s.volflags &&& CKLATCH = 0) (hW : s.wpmcnt < 256) :
    ∃ s1, playLoop h w (fuel + 1) code s = playLoop h w fuel ((code <<< 1) % 256) s1 ∧
      keySchedule s1.log = keySchedule s.log ++
        elementSchedule s.wpmcnt (if code &&& 0x80 ≠ 0 then Element.DAH else Element.DIT) ∧
      s1.wpmcnt = s.wpmcnt ∧ s1.farnsworth = s.farnsworth ∧ s1.volflags = s.volflags := by
  have hp := yackctrlkey_open h w s (hopen _)
  have hr : decide (s.volflags &&& CKLATCH ≠ 0) = false := by
    simp [hck]
  rw [hr] at hp
  have hmodW : s.wpmcnt % 256 = s.wpmcnt := Nat.mod_eq_of_lt hW
  by_cases hb : code &&& 0x80 ≠ 0
  · refine ⟨yackdelay IEGLEN (yackplay .DAH
      { s with npolls := s.npolls + 1, log := s.log ++ [Event.ctrlkey s.npolls false] }), ?_, ?_, ?_⟩
    · rw [playLoop]
      simp only [hne, if_false, hp, hb, if_true, Bool.false_eq_true, ne_eq, not_false_eq_true]
    · rw [yackdelay_eq, if_pos hb]
      simp only [yackplay_log, (yackplay_frame _ _).1, hmodW]
      simp [keySchedule, elementSchedule, DAHLEN, IEGLEN, List.filter_append]
    · rw [yackdelay_eq]
      simp [(yackplay_frame _ _).1, (yackplay_frame _ _).2.1, (yackplay_frame _ _).2.2.1]
  · refine ⟨yackdelay IEGLEN (yackplay .DIT
      { s with npolls := s.npolls + 1, log := s.log ++ [Event.ctrlkey s.npolls false] }), ?_, ?_, ?_⟩
    · rw [playLoop]
      simp only [hne, if_false, hp, hb, Bool.false_eq_true, ne_eq, not_false_eq_true]
    · rw [yackdelay_eq, if_neg hb]
      simp only [yackplay_log, (yackplay_frame _ _).1, hmodW]
      simp [keySchedule, elementSchedule, DITLEN, IEGLEN, List.filter_append]
    · rw [yackdelay_eq]
      simp [(yackplay_frame _ _).1, (yackplay_frame _ _).2.1, (yackplay_frame _ _).2.2.1]

theorem playLoop_schedule (h : Header) (w : Nat → Poll) (hopen : neverPressed w) :
    ∀ fuel code s, code < 256 → 0 < code → (codeElements code).length ≤ fuel →
      s.volflags &&& CKLATCH = 0 → s.wpmcnt < 256 →
      ∃ s', playLoop h w fuel code s = some (s', true) ∧
        keySchedule s'.log
          = keySchedule s.log ++ (codeElements code).flatMap (elementSchedule s.wpmcnt) ∧
        s'.wpmcnt = s.wpmcnt ∧ s'.farnsworth = s.farnsworth := by
  intro fuel
  induction fuel with
  | zero =>
    intro code s h1 h2 h3 _ _
    by_cases hc : code = 0x80
    · subst hc
      refine ⟨s, by simp [playLoop], ?_, rfl, rfl⟩
      rw [codeElements_stop]
      simp
    · rw [(codeElements_step code h1 h2 hc).1] at h3
      simp at h3
  | succ fuel ih =>
    intro code s h1 h2 h3 hck hW
    by_cases hc : code = 0x80
    · subst hc
      refine ⟨s, by simp [playLoop], ?_, rfl, rfl⟩
      rw [codeElements_stop]
      simp
    · obtain ⟨hstep, hpos⟩ := codeElements_step code h1 h2 hc
      obtain ⟨s1, e1, l1, w1, f1, v1⟩ := playLoop_pass h w hopen fuel code s hc hck hW
      rw [hstep] at h3
      obtain ⟨s', e2, l2, w2, f2⟩ := ih ((code <<< 1) % 256) s1 (Nat.mod_lt _ (by decide)) hpos
        (by simpa using h3) (by rw [v1]; exact hck) (by rw [w1]; exact hW)
      refine ⟨s', by rw [e1, e2], ?_, by rw [w2, w1], by rw [f2, f1]⟩
      rw [l2, l1, hstep, w1]
      simp [List.flatMap_cons]

theorem specharScan_not_mem (c : Nat) :
    ∀ (l : List Nat) (i code : Nat), c ∉ l → specharScan c l i code = code := by
  intro l
  induction l with
  | nil =>
    intro i code _
    rfl
  | cons x rest ih =>
    intro i code hc
    simp only [List.mem_cons, not_or] at hc
    rw [specharScan, if_neg hc.1]
    exact ih _ _ hc.2

theorem charCode_no_entry (c : Nat) (hc : ¬ hasCode c) : charCode c = 0x80 := by
  unfold hasCode at hc
  simp only [not_or] at hc
  obtain ⟨h1, h2, h3, h4⟩ := hc
  unfold charCode
  simp only [h1, h2, h3, if_false]
  exact specharScan_not_mem c spechar 0 _ h4

set_option maxRecDepth 100000 in
theorem charCode_range_below : ∀ c, c < 128 → 0 < charCode c ∧ charCode c < 256 := by
  decide

theorem charCode_range (c : Nat) : 0 < charCode c ∧ charCode c < 256 := by
  by_cases hc : c < 128
  · exact charCode_range_below c hc
  · have hn : ¬ hasCode c := by
      unfold hasCode
      rintro (⟨_, h⟩ | ⟨_, h⟩ | ⟨_, h⟩ | h)
      · exact hc (lt_of_le_of_lt h (by decide))
      · exact hc (lt_of_le_of_lt h (by decide))
      · exact hc (lt_of_le_of_lt h (by decide))
      · exact hc (spechar_below c h)
    rw [charCode_no_entry c hn]
    exact ⟨by decide, by decide⟩

theorem extendsPlain_refl (s : Yack) : extendsPlain s s :=
  ⟨[], by simp, by simp, rfl⟩

theorem extendsPlain_trans {s t u : Yack} (h1 : extendsPlain s t) (h2 : extendsPlain t u) :
    extendsPlain s u := by
  obtain ⟨x, hx, px, nx⟩ := h1
  obtain ⟨y, hy, py, ny⟩ := h2
  refine ⟨x ++ y, by rw [hy, hx, List.append_assoc], ?_, by rw [ny, nx]⟩
  intro e he
  rcases List.mem_append.mp he with h | h
  · exact px e h
  · exact py e h

theorem extendsPlain_log (s : Yack) (x : List Event) (hx : ∀ e ∈ x, notCtrl e = true)
    (s' : Yack) (hl : s'.log = s.log ++ x) (hn : s'.npolls = s.npolls) : extendsPlain s s' :=
  ⟨x, hl, hx, hn⟩

theorem yackdelay_plain (n : Nat) (s : Yack) : extendsPlain s (yackdelay n s) := by
  rw [yackdelay_eq]
  refine ⟨_, rfl, ?_, rfl⟩
  intro e he
  rw [List.eq_of_mem_replicate he]
  rfl

theorem yackfarns_plain (s : Yack) : extendsPlain s (yackfarns s) := by
  rw [yackfarns_eq]
  refine ⟨_, rfl, ?_, rfl⟩
  intro e he
  rw [List.eq_of_mem_replicate he]
  rfl

theorem key_plain (d : Dir) (s : Yack) : extendsPlain s (key d s) := by
  cases d
  · exact ⟨[Event.keyUp], rfl, by simp [notCtrl], rfl⟩
  · exact ⟨[Event.keyDown], rfl, by simp [notCtrl], rfl⟩

theorem yackplay_plain (e : Element) (s : Yack) : extendsPlain s (yackplay e s) := by
  unfold yackplay
  cases e
  · exact extendsPlain_trans (extendsPlain_trans (key_plain _ _) (yackdelay_plain _ _))
      (key_plain _ _)
  · exact extendsPlain_trans (extendsPlain_trans (key_plain _ _) (yackdelay_plain _ _))
      (key_plain _ _)

theorem yackspeed_plain (h : Header) (d : Dir) (m : SpeedMode) (s : Yack) :
    extendsPlain s (yackspeed h d m s) := by
  unfold yackspeed
  simp only []
  refine extendsPlain_trans ?_ (yackfarns_plain _)
  refine extendsPlain_trans ?_ (yackdelay_plain _ _)
  refine extendsPlain_trans ?_ (yackplay_plain _ _)
  refine extendsPlain_trans ?_ (yackdelay_plain _ _)
  refine extendsPlain_trans ?_ (yackplay_plain _ _)
  refine ⟨[], ?_, by simp, ?_⟩
  · cases m <;> simp only [] <;> split_ifs <;> simp
  · cases m <;> simp only [] <;> split_ifs <;> simp

theorem ctrlWait_plain (h : Header) (ps : List Paddle) (s : Yack) (v : Nat) :
    extendsPlain s (ctrlWait h ps (s, v)).1 := by
  induction ps generalizing s v with
  | nil => exact extendsPlain_refl s
  | cons p rest ih =>
    rw [ctrlWait]
    cases hd : p.dit <;> cases hh : p.dah <;> simp only [Bool.false_eq_true, if_false, if_true]
    · exact ih _ _
    · exact extendsPlain_trans (yackspeed_plain _ _ _ _) (ih _ _)
    · exact extendsPlain_trans (yackspeed_plain _ _ _ _) (ih _ _)
    · exact extendsPlain_trans
        (extendsPlain_trans (yackspeed_plain _ _ _ _) (yackspeed_plain _ _ _ _)) (ih _ _)

theorem yackinhibit_on_plain (s : Yack) : extendsPlain s (yackinhibit ON s) :=
  ⟨[], by simp [yackinhibit, ON], by simp, by simp [yackinhibit, ON]⟩

theorem delayMs_plain (ms : Nat) (s : Yack) : extendsPlain s (delayMs ms s) :=
  ⟨[Event.delayMs ms], rfl, by simp [notCtrl], rfl⟩

theorem yacksave_plain (s : Yack) : extendsPlain s (yacksave s) := by
  unfold yacksave
  split_ifs
  · exact ⟨[], by simp, by simp, rfl⟩
  · exact extendsPlain_refl s

/-- What a poll `yackctrlkey(FALSE)` does to the log, the poll count and
`CKLATCH`. -/
theorem yackctrlkey_false (h : Header) (w : Nat → Poll) (s : Yack) :
    ∃ x, (yackctrlkey h w FALSE s).1.log
        = s.log ++ x ++ [Event.ctrlkey s.npolls (yackctrlkey h w FALSE s).2] ∧
      (∀ e ∈ x, notCtrl e = true) ∧
      (yackctrlkey h w FALSE s).1.npolls = s.npolls + 1 ∧
      ((yackctrlkey h w FALSE s).2 = true ↔
        (yackctrlkey h w FALSE s).1.volflags &&& CKLATCH ≠ 0) ∧
      (w s.npolls = none → x = [] ∧ (yackctrlkey h w FALSE s).1.volflags = s.volflags) := by
  cases hw : w s.npolls with
  | none =>
    rw [yackctrlkey_open h w s hw]
    refine ⟨[], by simp, by simp, rfl, by simp, fun _ => ⟨rfl, rfl⟩⟩
  | some passes =>
    have hplain : extendsPlain { s with npolls := s.npolls + 1 } (yacksave (delayMs 50
        (ctrlWait h passes (delayMs 50 (yackinhibit ON { s with npolls := s.npolls + 1 }),
          s.volflags ||| CKLATCH)).1)) := by
      refine extendsPlain_trans ?_ (yacksave_plain _)
      refine extendsPlain_trans ?_ (delayMs_plain _ _)
      refine extendsPlain_trans ?_ (ctrlWait_plain _ _ _ _)
      refine extendsPlain_trans ?_ (delayMs_plain _ _)
      exact yackinhibit_on_plain _
    have hres : yackctrlkey h w FALSE s
        = ({ yacksave (delayMs 50 (ctrlWait h passes
                (delayMs 50 (yackinhibit ON { s with npolls := s.npolls + 1 }),
                  s.volflags ||| CKLATCH)).1) with
              volflags := (ctrlWait h passes
                (delayMs 50 (yackinhibit ON { s with npolls := s.npolls + 1 }),
                  s.volflags ||| CKLATCH)).2
              log := (yacksave (delayMs 50 (ctrlWait h passes
                (delayMs 50 (yackinhibit ON { s with npolls := s.npolls + 1 }),
                  s.volflags ||| CKLATCH)).1)).log ++
                [Event.ctrlkey s.npolls (decide ((ctrlWait h passes
                  (delayMs 50 (yackinhibit ON { s with npolls := s.npolls + 1 }),
                    s.volflags ||| CKLATCH)).2 &&& CKLATCH ≠ 0))] },
            decide ((ctrlWait h passes
              (delayMs 50 (yackinhibit ON { s with npolls := s.npolls + 1 }),
                s.volflags ||| CKLATCH)).2 &&& CKLATCH ≠ 0)) := by
      unfold yackctrlkey
      simp [hw, FALSE, TRUE]
    rw [hres]
    obtain ⟨x, hx, px, nx⟩ := hplain
    refine ⟨x, ?_, px, ?_, ?_, ?_⟩
    · simp only [hx]
    · simp only [nx]
    · simp
    · intro hcontra
      simp at hcontra

theorem cancelOk_refl (n : Nat) (s : Yack) : cancelOk n s s := by
  refine ⟨[], by simp, le_rfl, by simp, ?_, ?_⟩
  · intro pre post h
    simp at h
  · intro _ hck
    exact ⟨⟨by simp, by simp⟩, hck⟩

theorem cancelOk_trans {n : Nat} {s t u : Yack} (h1 : cancelOk n s t) (h2 : cancelOk n t u) :
    cancelOk n s u := by
  obtain ⟨x, hx, nx, ax, bx, cx⟩ := h1
  obtain ⟨y, hy, ny, ay, bY, cy⟩ := h2
  refine ⟨x ++ y, by rw [hy, hx, List.append_assoc], le_trans nx ny, ?_, ?_, ?_⟩
  · intro j r hj
    rcases List.mem_append.mp hj with h | h
    · exact ⟨(ax j r h).1, lt_of_lt_of_le (ax j r h).2 ny⟩
    · exact ⟨le_trans nx (ay j r h).1, (ay j r h).2⟩
  · intro pre post hpp
    rcases List.append_eq_append_iff.mp hpp with ⟨a', ha1, ha2⟩ | ⟨c', hc1, hc2⟩
    · -- the marker lies in `y`
      obtain ⟨sy, cky⟩ := bY a' post ha2
      exact ⟨sy, cky⟩
    · -- the marker lies in `x`
      cases c' with
      | nil =>
        simp only [List.append_nil, List.nil_append] at hc1 hc2
        obtain ⟨sy, cky⟩ := bY [] post (by simpa using hc2.symm)
        exact ⟨sy, cky⟩
      | cons e rest =>
        simp only [List.cons_append, List.cons.injEq] at hc2
        obtain ⟨he, hrest⟩ := hc2
        subst he
        obtain ⟨sx, ckx⟩ := bx pre rest hc1
        have hn : n < t.npolls := (ax n true (by rw [hc1]; simp)).2
        obtain ⟨sy, cky⟩ := cy hn ckx
        refine ⟨?_, cky⟩
        rw [hrest]
        refine ⟨?_, ?_⟩
        · intro hm
          rcases List.mem_append.mp hm with h | h
          · exact sx.1 h
          · exact sy.1 h
        · intro c hm
          rcases List.mem_append.mp hm with h | h
          · exact sx.2 c h
          · exact sy.2 c h
  · intro hn hck
    obtain ⟨sx, ckx⟩ := cx hn hck
    obtain ⟨sy, cky⟩ := cy (lt_of_lt_of_le hn nx) ckx
    refine ⟨⟨?_, ?_⟩, cky⟩
    · intro hm
      rcases List.mem_append.mp hm with h | h
      · exact sx.1 h
      · exact sy.1 h
    · intro c hm
      rcases List.mem_append.mp hm with h | h
      · exact sx.2 c h
      · exact sy.2 c h

theorem cancelOk_plain (n : Nat) {s t : Yack} (h : extendsPlain s t)
    (hck : s.volflags &&& CKLATCH = 0) : cancelOk n s t := by
  obtain ⟨x, hx, px, nx⟩ := h
  refine ⟨x, hx, by rw [nx], ?_, ?_, ?_⟩
  · intro j r hj
    have := px _ hj
    simp [notCtrl] at this
  · intro pre post hpp
    have := px (Event.ctrlkey n true) (by rw [hpp]; simp)
    simp [notCtrl] at this
  · intro _ hne
    exact absurd hck hne

theorem cancelOk_poll (h : Header) (w : Nat → Poll) (n : Nat) (s : Yack)
    (hopen : ∀ j, n < j → w j = none) :
    cancelOk n s (yackctrlkey h w FALSE s).1 := by
  obtain ⟨x, hx, px, nx, rx, ox⟩ := yackctrlkey_false h w s
  refine ⟨x ++ [Event.ctrlkey s.npolls (yackctrlkey h w FALSE s).2], by rw [hx,
    List.append_assoc], by rw [nx]; omega, ?_, ?_, ?_⟩
  · intro j r hj
    rcases List.mem_append.mp hj with hm | hm
    · have := px _ hm
      simp [notCtrl] at this
    · simp only [List.mem_singleton, Event.ctrlkey.injEq] at hm
      rw [nx, hm.1]
      omega
  · intro pre post hpp
    rcases List.append_eq_append_iff.mp hpp with ⟨a', ha1, ha2⟩ | ⟨c', hc1, hc2⟩
    · cases a' with
      | nil =>
        simp only [List.nil_append, List.cons.injEq, Event.ctrlkey.injEq] at ha2
        obtain ⟨⟨_, hr⟩, hpost⟩ := ha2
        rw [← hpost]
        exact ⟨⟨by simp, by simp⟩, rx.mp hr⟩
      | cons e rest =>
        simp only [List.cons_append, List.cons.injEq] at ha2
        have := congrArg List.length ha2.2
        simp at this
        omega
    · cases c' with
      | nil =>
        simp only [List.nil_append, List.cons.injEq, Event.ctrlkey.injEq] at hc2
        obtain ⟨⟨_, hr⟩, hpost⟩ := hc2
        rw [hpost]
        exact ⟨⟨by simp, by simp⟩, rx.mp hr.symm⟩
      | cons e rest =>
        simp only [List.cons_append, List.cons.injEq] at hc2
        have := px (Event.ctrlkey n true) (by rw [hc1, ← hc2.1]; simp)
        simp [notCtrl] at this
  · intro hn hck
    obtain ⟨hx0, hv⟩ := ox (hopen _ hn)
    rw [hx0, hv]
    refine ⟨⟨by simp, by simp⟩, hck⟩

theorem yackdelay_volflags (n : Nat) (s : Yack) : (yackdelay n s).volflags = s.volflags := by
  rw [yackdelay_eq]

theorem yackfarns_volflags (s : Yack) : (yackfarns s).volflags = s.volflags := by
  rw [yackfarns_eq]

theorem playLoop_stop (h : Header) (w : Nat → Poll) (fuel : Nat) (s : Yack) :
    playLoop h w fuel 0x80 s = some (s, true) := by
  cases fuel <;> simp [playLoop]

theorem playLoop_succ (h : Header) (w : Nat → Poll) (fuel code : Nat) (s : Yack)
    (hc : code ≠ 0x80) :
    playLoop h w (fuel + 1) code s
      = if (yackctrlkey h w FALSE s).2 = true then some ((yackctrlkey h w FALSE s).1, false)
        else playLoop h w fuel ((code <<< 1) % 256)
          (yackdelay IEGLEN (if code &&& 0x80 ≠ 0
            then yackplay .DAH (yackctrlkey h w FALSE s).1
            else yackplay .DIT (yackctrlkey h w FALSE s).1)) := by
  rw [playLoop, if_neg hc]

theorem playLoop_cancel (h : Header) (w : Nat → Poll) (n : Nat)
    (hopen : ∀ j, n < j → w j = none) :
    ∀ fuel code s s' b, s.volflags &&& CKLATCH = 0 →
      playLoop h w fuel code s = some (s', b) →
      cancelOk n s s' ∧ (b = true → s'.volflags &&& CKLATCH = 0) := by
  intro fuel
  induction fuel with
  | zero =>
    intro code s s' b hck hp
    by_cases hc : code = 0x80
    · rw [hc, playLoop_stop] at hp
      simp only [Option.some.injEq, Prod.mk.injEq] at hp
      rw [← hp.1]
      exact ⟨cancelOk_refl n s, fun _ => hck⟩
    · rw [playLoop, if_neg hc] at hp
      exact absurd hp (by simp)
  | succ fuel ih =>
    intro code s s' b hck hp
    by_cases hc : code = 0x80
    · rw [hc, playLoop_stop] at hp
      simp only [Option.some.injEq, Prod.mk.injEq] at hp
      rw [← hp.1]
      exact ⟨cancelOk_refl n s, fun _ => hck⟩
    · rw [playLoop_succ h w fuel code s hc] at hp
      have hpoll := cancelOk_poll h w n s hopen
      obtain ⟨x, -, -, -, rx, -⟩ := yackctrlkey_false h w s
      cases hr : (yackctrlkey h w FALSE s).2 with
      | true =>
        rw [hr] at hp
        simp only [if_true, Option.some.injEq, Prod.mk.injEq] at hp
        rw [← hp.1, ← hp.2]
        exact ⟨hpoll, fun hb => absurd hb (by decide)⟩
      | false =>
        rw [hr] at hp
        simp only [Bool.false_eq_true, if_false] at hp
        have hck1 : (yackctrlkey h w FALSE s).1.volflags &&& CKLATCH = 0 := by
          by_contra hne
          have := rx.mpr hne
          rw [hr] at this
          exact absurd this (by decide)
        have hplain : extendsPlain (yackctrlkey h w FALSE s).1
            (yackdelay IEGLEN (if code &&& 0x80 ≠ 0 then yackplay .DAH (yackctrlkey h w FALSE s).1
              else yackplay .DIT (yackctrlkey h w FALSE s).1)) := by
          refine extendsPlain_trans ?_ (yackdelay_plain _ _)
          by_cases hb : code &&& 0x80 ≠ 0
          · rw [if_pos hb]
            exact yackplay_plain _ _
          · rw [if_neg hb]
            exact yackplay_plain _ _
        have hck2 : (yackdelay IEGLEN (if code &&& 0x80 ≠ 0
            then yackplay .DAH (yackctrlkey h w FALSE s).1
            else yackplay .DIT (yackctrlkey h w FALSE s).1)).volflags &&& CKLATCH = 0 := by
          rw [yackdelay_volflags]
          by_cases hb : code &&& 0x80 ≠ 0
          · rw [if_pos hb, (yackplay_frame _ _).2.1]
            exact hck1
          · rw [if_neg hb, (yackplay_frame _ _).2.1]
            exact hck1
        obtain ⟨r1, r2⟩ := ih _ _ s' b hck2 hp
        exact ⟨cancelOk_trans hpoll (cancelOk_trans (cancelOk_plain n hplain hck1) r1), r2⟩

theorem yackchar_cancel (h : Header) (w : Nat → Poll) (n : Nat)
    (hopen : ∀ j, n < j → w j = none) (c : Nat) (s s' : Yack)
    (hck : s.volflags &&& CKLATCH = 0) (hy : yackchar h w c s = some s') :
    cancelOk n s s' := by
  unfold yackchar at hy
  simp only [] at hy
  have hmark : extendsPlain s { s with log := s.log ++ [Event.char c] } :=
    ⟨[Event.char c], rfl, by simp [notCtrl], rfl⟩
  split_ifs at hy with hsp
  · simp only [Option.some.injEq] at hy
    rw [← hy]
    exact cancelOk_plain n (extendsPlain_trans hmark (yackdelay_plain _ _)) hck
  · cases hp : playLoop h w 8 (charCode c) { s with log := s.log ++ [Event.char c] } with
    | none =>
      rw [hp] at hy
      simp at hy
    | some r =>
      obtain ⟨s1, b⟩ := r
      rw [hp] at hy
      obtain ⟨r1, r2⟩ := playLoop_cancel h w n hopen 8 (charCode c)
        { s with log := s.log ++ [Event.char c] } s1 b hck hp
      cases b with
      | false =>
        simp only [Option.some.injEq] at hy
        rw [← hy]
        exact cancelOk_trans (cancelOk_plain n hmark hck) r1
      | true =>
        simp only [Option.some.injEq] at hy
        rw [← hy]
        refine cancelOk_trans (cancelOk_plain n hmark hck) (cancelOk_trans r1 ?_)
        exact cancelOk_plain n (extendsPlain_trans (yackdelay_plain _ _) (yackfarns_plain _))
          (r2 rfl)

theorem yackstring_cons (h : Header) (w : Nat → Poll) (c : Nat) (p : List Nat) (s : Yack)
    (hc : c ≠ 0) :
    yackstring h w (c :: p) s
      = if (yackctrlkey h w FALSE s).2 = true then some (yackctrlkey h w FALSE s).1
        else match yackchar h w c (yackctrlkey h w FALSE s).1 with
          | none => none
          | some s => yackstring h w p s := by
  rw [yackstring, if_neg hc]

theorem yackstring_cancelOk (h : Header) (w : Nat → Poll) (n : Nat)
    (hopen : ∀ j, n < j → w j = none) :
    ∀ p s s', yackstring h w p s = some s' → cancelOk n s s' := by
  intro p
  induction p with
  | nil =>
    intro s s' hy
    rw [yackstring] at hy
    simp only [Option.some.injEq] at hy
    rw [← hy]
    exact cancelOk_refl n s
  | cons c p ih =>
    intro s s' hy
    by_cases hc : c = 0
    · rw [yackstring, if_pos hc] at hy
      simp only [Option.some.injEq] at hy
      rw [← hy]
      exact cancelOk_refl n s
    · rw [yackstring_cons h w c p s hc] at hy
      have hpoll := cancelOk_poll h w n s hopen
      obtain ⟨x, -, -, -, rx, -⟩ := yackctrlkey_false h w s
      cases hr : (yackctrlkey h w FALSE s).2 with
      | true =>
        rw [hr] at hy
        simp only [if_true, Option.some.injEq] at hy
        rw [← hy]
        exact hpoll
      | false =>
        rw [hr] at hy
        simp only [Bool.false_eq_true, if_false] at hy
        have hck1 : (yackctrlkey h w FALSE s).1.volflags &&& CKLATCH = 0 := by
          by_contra hne
          have := rx.mpr hne
          rw [hr] at this
          exact absurd this (by decide)
        cases hch : yackchar h w c (yackctrlkey h w FALSE s).1 with
        | none =>
          rw [hch] at hy
          simp at hy
        | some s1 =>
          rw [hch] at hy
          simp only [] at hy
          exact cancelOk_trans hpoll
            (cancelOk_trans (yackchar_cancel h w n hopen c _ s1 hck1 hch) (ih s1 s' hy))

theorem playLoop_returns (h : Header) (w : Nat → Poll) :
    ∀ fuel code s, code < 256 → 0 < code → (codeElements code).length ≤ fuel →
      ∃ r, playLoop h w fuel code s = some r := by
  intro fuel
  induction fuel with
  | zero =>
    intro code s h1 h2 h3
    by_cases hc : code = 0x80
    · exact ⟨_, by rw [hc, playLoop_stop]⟩
    · rw [(codeElements_step code h1 h2 hc).1] at h3
      simp at h3
  | succ fuel ih =>
    intro code s h1 h2 h3
    by_cases hc : code = 0x80
    · exact ⟨_, by rw [hc, playLoop_stop]⟩
    · rw [playLoop_succ h w fuel code s hc]
      obtain ⟨hstep, hpos⟩ := codeElements_step code h1 h2 hc
      rw [hstep] at h3
      by_cases hr : (yackctrlkey h w FALSE s).2 = true
      · rw [if_pos hr]
        exact ⟨_, rfl⟩
      · rw [if_neg hr]
        exact ih _ _ (Nat.mod_lt _ (by decide)) hpos (by simpa using h3)

theorem yackchar_returns (h : Header) (w : Nat → Poll) (c : Nat) (s : Yack) :
    ∃ s', yackchar h w c s = some s' := by
  unfold yackchar
  simp only []
  split_ifs
  · exact ⟨_, rfl⟩
  · obtain ⟨r, hr⟩ := playLoop_returns h w 8 (charCode c)
      { s with log := s.log ++ [Event.char c] } (charCode_range c).2 (charCode_range c).1
      (le_trans (codeElements_length _ (charCode_range c).2) (by decide))
    rw [hr]
    obtain ⟨s1, b⟩ := r
    cases b
    · exact ⟨_, rfl⟩
    · exact ⟨_, rfl⟩

theorem yackstring_returns (h : Header) (w : Nat → Poll) :
    ∀ p s, ∃ s', yackstring h w p s = some s' := by
  intro p
  induction p with
  | nil =>
    intro s
    exact ⟨s, by rw [yackstring]⟩
  | cons c p ih =>
    intro s
    by_cases hc : c = 0
    · exact ⟨s, by rw [yackstring, if_pos hc]⟩
    · rw [yackstring_cons h w c p s hc]
      by_cases hr : (yackctrlkey h w FALSE s).2 = true
      · rw [if_pos hr]
        exact ⟨_, rfl⟩
      · rw [if_neg hr]
        obtain ⟨s1, h1⟩ := yackchar_returns h w c (yackctrlkey h w FALSE s).1
        rw [h1]
        exact ih s1

/-- C10: `yackstring` returns, and if the poll number `n` made during it (by
`yackstring` itself or by `yackchar` inside it, all with argument `FALSE`)
returns `TRUE` and the command button is open at every later poll, then among
the events after that poll there is no `key(DOWN)` and no call of `yackchar`, and
`CKLATCH` is set when `yackstring` returns. -/
theorem yackstring_cancel (h : Header) (w : Nat → Poll) (p : List Nat) (s : Yack) (n : Nat)
    (hopen : ∀ j, n < j → w j = none) :
    ∃ s', yackstring h w p s = some s' ∧
      ∀ pre post, s'.log = s.log ++ pre ++ Event.ctrlkey n true :: post →
        Event.keyDown ∉ post ∧ (∀ c, Event.char c ∉ post) ∧
        s'.volflags &&& CKLATCH ≠ 0 := by
  obtain ⟨s', hs'⟩ := yackstring_returns h w p s
  refine ⟨s', hs', ?_⟩
  intro pre post hlog
  obtain ⟨x, hx, -, -, bx, -⟩ := yackstring_cancelOk h w n hopen p s s' hs'
  rw [hx, List.append_assoc] at hlog
  have := bx pre post (List.append_cancel_left hlog)
  exact ⟨this.1.1, this.1.2, this.2⟩

/-- Witness for C10: the string "AB" with the button pressed during poll 1, the
poll before the first element of A; the log ends with that poll and one more,
both returning `TRUE`, and nothing is keyed. -/
theorem yackstring_cancel_witness :
    (∃ s', yackstring exampleHeader (pressAtPoll 1) ['A'.toNat, 'B'.toNat] playbackState
        = some s' ∧
      ∀ pre post, s'.log = playbackState.log ++ pre ++ Event.ctrlkey 1 true :: post →
        Event.keyDown ∉ post ∧ (∀ c, Event.char c ∉ post) ∧
        s'.volflags &&& CKLATCH ≠ 0) ∧
    (yackstring exampleHeader (pressAtPoll 1) ['A'.toNat, 'B'.toNat] playbackState).map Yack.log
      = some [Event.ctrlkey 0 false, Event.char 'A'.toNat, Event.delayMs 50, Event.delayMs 50,
          Event.ctrlkey 1 true, Event.ctrlkey 2 true] :=
  ⟨yackstring_cancel exampleHeader (pressAtPoll 1) ['A'.toNat, 'B'.toNat] playbackState 1
      (fun j hj => by
        unfold pressAtPoll
        rw [if_neg (by omega)]),
    by decide⟩

/-! ## The command key: the latch (C11) and the speed change (C12) -/

theorem cklatch_or (v : Nat) : (v ||| CKLATCH) &&& CKLATCH ≠ 0 := by
  intro h
  have := congrArg (fun n => n.testBit 3) h
  simp only [Nat.testBit_and, Nat.testBit_or, CKLATCH] at this
  have h8 : Nat.testBit 8 3 = true := by decide
  rw [h8] at this
  simp at this

theorem cklatch_bclr (v : Nat) : bclr v CKLATCH &&& CKLATCH = 0 := by
  unfold bclr
  rw [Nat.and_assoc]
  have : (255 ^^^ CKLATCH) &&& CKLATCH = 0 := by decide
  rw [this, Nat.and_zero]

theorem ctrlWait_noPaddle (h : Header) (passes : List Paddle) (hp : noPaddle passes)
    (sv : Yack × Nat) : ctrlWait h passes sv = sv := by
  induction passes generalizing sv with
  | nil => rfl
  | cons p rest ih =>
    obtain ⟨s, v⟩ := sv
    have h1 := hp p (by simp)
    rw [ctrlWait]
    simp only [h1.1, h1.2, Bool.false_eq_true, if_false]
    exact ih (fun q hq => hp q (by simp [hq])) _

/-- What `yackctrlkey` returns and leaves in `volflags`, in terms of the latch
byte `volbfr` at the end of the call. -/
theorem yackctrlkey_result (h : Header) (w : Nat → Poll) (mode : Nat) (s : Yack) :
    ∃ volbfr,
      (yackctrlkey h w mode s).2 = decide (volbfr &&& CKLATCH ≠ 0) ∧
      (yackctrlkey h w mode s).1.volflags
        = (if mode = TRUE then bclr volbfr CKLATCH else volbfr) ∧
      (yackctrlkey h w mode s).1.npolls = s.npolls + 1 ∧
      (w s.npolls = none → volbfr = s.volflags) ∧
      (∀ passes, w s.npolls = some passes →
        volbfr = (ctrlWait h passes (delayMs 50 (yackinhibit ON { s with npolls := s.npolls + 1 }),
          s.volflags ||| CKLATCH)).2) := by
  cases hw : w s.npolls with
  | none =>
    refine ⟨s.volflags, ?_, ?_, ?_, fun _ => rfl, fun _ hc => by simp at hc⟩
    · unfold yackctrlkey
      simp [hw]
    · unfold yackctrlkey
      simp only [hw]
      split_ifs <;> simp
    · unfold yackctrlkey
      simp only [hw]
      split_ifs <;> simp
  | some passes =>
    refine ⟨(ctrlWait h passes (delayMs 50 (yackinhibit ON { s with npolls := s.npolls + 1 }),
      s.volflags ||| CKLATCH)).2, ?_, ?_, ?_, fun hc => by simp at hc, ?_⟩
    · unfold yackctrlkey
      simp [hw]
    · unfold yackctrlkey
      simp only [hw]
      split_ifs <;> simp
    · unfold yackctrlkey
      simp only [hw]
      have hplain : extendsPlain { s with npolls := s.npolls + 1 } (yacksave (delayMs 50
          (ctrlWait h passes (delayMs 50 (yackinhibit ON { s with npolls := s.npolls + 1 }),
            s.volflags ||| CKLATCH)).1)) := by
        refine extendsPlain_trans ?_ (yacksave_plain _)
        refine extendsPlain_trans ?_ (delayMs_plain _ _)
        refine extendsPlain_trans ?_ (ctrlWait_plain _ _ _ _)
        refine extendsPlain_trans ?_ (delayMs_plain _ _)
        exact yackinhibit_on_plain _
      obtain ⟨x, hx, px, nx⟩ := hplain
      split_ifs <;> simpa using nx
    · intro p hp
      simp only [Option.some.injEq] at hp
      rw [hp]

/-- C11: `yackctrlkey(mode)` returns TRUE exactly when a command press is
latched. With the button open at entry the result is TRUE iff `CKLATCH` was set;
with the button closed at entry and no paddle contact read closed before the
release the result is TRUE. On return `CKLATCH` is set iff the result is TRUE
and `mode` is not TRUE; so the next call with the button open returns FALSE
after a TRUE result with `mode = TRUE`, and TRUE after a TRUE result with any
other `mode`, `FALSE` in particular. -/
theorem yackctrlkey_latch (h : Header) (w : Nat → Poll) (mode : Nat) (s : Yack) :
    (w s.npolls = none →
      ((yackctrlkey h w mode s).2 = true ↔ s.volflags &&& CKLATCH ≠ 0)) ∧
    (∀ passes, w s.npolls = some passes → noPaddle passes →
      (yackctrlkey h w mode s).2 = true) ∧
    ((yackctrlkey h w mode s).1.volflags &&& CKLATCH ≠ 0 ↔
      ((yackctrlkey h w mode s).2 = true ∧ mode ≠ TRUE)) ∧
    ((yackctrlkey h w mode s).2 = true → w (yackctrlkey h w mode s).1.npolls = none →
      ∀ mode', (yackctrlkey h w mode' (yackctrlkey h w mode s).1).2
        = decide (mode ≠ TRUE)) := by
  obtain ⟨v, hr, hv, hn, hopen, hclosed⟩ := yackctrlkey_result h w mode s
  have hlatch : (yackctrlkey h w mode s).1.volflags &&& CKLATCH ≠ 0 ↔
      ((yackctrlkey h w mode s).2 = true ∧ mode ≠ TRUE) := by
    rw [hv, hr]
    by_cases hm : mode = TRUE
    · simp [hm, cklatch_bclr]
    · simp [hm]
  refine ⟨?_, ?_, hlatch, ?_⟩
  · intro ho
    rw [hr, hopen ho]
    simp
  · intro passes hw hp
    rw [hr, hclosed passes hw, ctrlWait_noPaddle h passes hp]
    simpa using cklatch_or s.volflags
  · intro htrue hnext mode'
    obtain ⟨v', hr', _, _, hopen', _⟩ := yackctrlkey_result h w mode' (yackctrlkey h w mode s).1
    rw [hr', hopen' hnext]
    by_cases hm : mode = TRUE
    · have : ¬ ((yackctrlkey h w mode s).1.volflags &&& CKLATCH ≠ 0) := by
        rw [hlatch]
        simp [hm]
      simp only [ne_eq, not_not] at this
      rw [this]
      simp [hm]
    · have : (yackctrlkey h w mode s).1.volflags &&& CKLATCH ≠ 0 := by
        rw [hlatch]
        exact ⟨htrue, hm⟩
      rw [decide_eq_true this]
      simp [hm]

/-- Witness for C11: the button pressed and released during poll 0, polled with
`mode = TRUE` from power-on: the result is TRUE and the next poll, with the
button open, gives FALSE. -/
theorem yackctrlkey_latch_witness :
    (yackctrlkey exampleHeader (pressAtPoll 0) TRUE powerOn).2 = true ∧
    (yackctrlkey exampleHeader (pressAtPoll 0) FALSE
      (yackctrlkey exampleHeader (pressAtPoll 0) TRUE powerOn).1).2 = decide (TRUE ≠ TRUE) :=
  ⟨(yackctrlkey_latch exampleHeader (pressAtPoll 0) TRUE powerOn).2.1 [] (by decide)
      (by intro p hp; cases hp),
    (yackctrlkey_latch exampleHeader (pressAtPoll 0) TRUE powerOn).2.2.2 (by decide) (by decide)
      FALSE⟩

theorem dirty_or (v : Nat) : (v ||| DIRTYFLAG) &&& DIRTYFLAG ≠ 0 := by
  intro h
  have := congrArg (fun n => n.testBit 2) h
  simp only [Nat.testBit_and, Nat.testBit_or, DIRTYFLAG] at this
  have h4 : Nat.testBit 4 2 = true := by decide
  rw [h4] at this
  simp at this

theorem yackspeed_volflags (h : Header) (d : Dir) (m : SpeedMode) (s : Yack) :
    (yackspeed h d m s).volflags = s.volflags ||| DIRTYFLAG := by
  unfold yackspeed
  simp only [yackfarns_eq, yackdelay_eq, (yackplay_frame _ _).2.1]
  cases m <;> simp only [] <;> split_ifs <;> rfl

theorem ctrlWait_speedPasses (h : Header) (passes : List Paddle) (s : Yack) (v : Nat) :
    (ctrlWait h passes (s, v)).1 = speedPasses h passes s := by
  induction passes generalizing s v with
  | nil => rfl
  | cons p rest ih =>
    rw [ctrlWait]
    unfold speedPasses
    rw [List.foldl_cons]
    cases hd : p.dit <;> cases hh : p.dah <;>
      simp only [Bool.false_eq_true, if_false, if_true] <;> exact ih _ _

theorem ctrlWait_unlatch (h : Header) (passes : List Paddle) (s : Yack) (v : Nat)
    (hp : somePaddle passes ∨ v &&& CKLATCH = 0) :
    (ctrlWait h passes (s, v)).2 &&& CKLATCH = 0 := by
  induction passes generalizing s v with
  | nil =>
    rcases hp with ⟨p, hp, _⟩ | hv
    · cases hp
    · exact hv
  | cons p rest ih =>
    rw [ctrlWait]
    cases hd : p.dit <;> cases hh : p.dah <;>
      simp only [Bool.false_eq_true, if_false, if_true]
    · apply ih
      rcases hp with ⟨q, hq, hc⟩ | hv
      · rcases List.mem_cons.mp hq with rfl | hq
        · simp [hd, hh] at hc
        · exact Or.inl ⟨q, hq, hc⟩
      · exact Or.inr hv
    · exact ih _ _ (Or.inr (cklatch_bclr _))
    · exact ih _ _ (Or.inr (cklatch_bclr _))
    · exact ih _ _ (Or.inr (cklatch_bclr _))

theorem speedPasses_dirty (h : Header) (passes : List Paddle) (s : Yack)
    (hp : somePaddle passes ∨ s.volflags &&& DIRTYFLAG ≠ 0) :
    (speedPasses h passes s).volflags &&& DIRTYFLAG ≠ 0 := by
  induction passes generalizing s with
  | nil =>
    rcases hp with ⟨p, hp, _⟩ | hv
    · cases hp
    · exact hv
  | cons p rest ih =>
    unfold speedPasses
    rw [List.foldl_cons]
    cases hd : p.dit <;> cases hh : p.dah <;>
      simp only [Bool.false_eq_true, if_false, if_true]
    · apply ih
      rcases hp with ⟨q, hq, hc⟩ | hv
      · rcases List.mem_cons.mp hq with rfl | hq
        · simp [hd, hh] at hc
        · exact Or.inl ⟨q, hq, hc⟩
      · exact Or.inr hv
    · exact ih _ (Or.inr (by rw [yackspeed_volflags]; exact dirty_or _))
    · exact ih _ (Or.inr (by rw [yackspeed_volflags]; exact dirty_or _))
    · exact ih _ (Or.inr (by rw [yackspeed_volflags]; exact dirty_or _))

/-- The result of `yackctrlkey` when the button is closed at entry. -/
theorem yackctrlkey_closed (h : Header) (w : Nat → Poll) (mode : Nat) (s : Yack)
    (passes : List Paddle) (hw : w s.npolls = some passes) :
    yackctrlkey h w mode s
      = ({ yacksave (delayMs 50 (ctrlWait h passes
              (delayMs 50 (yackinhibit ON { s with npolls := s.npolls + 1 }),
                s.volflags ||| CKLATCH)).1) with
            volflags :=
              if mode = TRUE then
                bclr (ctrlWait h passes
                  (delayMs 50 (yackinhibit ON { s with npolls := s.npolls + 1 }),
                    s.volflags ||| CKLATCH)).2 CKLATCH
              else (ctrlWait h passes
                  (delayMs 50 (yackinhibit ON { s with npolls := s.npolls + 1 }),
                    s.volflags ||| CKLATCH)).2
            log := (yacksave (delayMs 50 (ctrlWait h passes
                (delayMs 50 (yackinhibit ON { s with npolls := s.npolls + 1 }),
                  s.volflags ||| CKLATCH)).1)).log ++
              [Event.ctrlkey s.npolls (decide ((ctrlWait h passes
                (delayMs 50 (yackinhibit ON { s with npolls := s.npolls + 1 }),
                  s.volflags ||| CKLATCH)).2 &&& CKLATCH ≠ 0))] },
          decide ((ctrlWait h passes
            (delayMs 50 (yackinhibit ON { s with npolls := s.npolls + 1 }),
              s.volflags ||| CKLATCH)).2 &&& CKLATCH ≠ 0)) := by
  unfold yackctrlkey
  simp only [hw]
  split_ifs <;> rfl

theorem yacksave_dirty (s : Yack) (hd : s.volflags &&& DIRTYFLAG ≠ 0) :
    (yacksave s).wpmstor = s.wpm ∧ (yacksave s).wpm = s.wpm ∧
    (yacksave s).wpmcnt = s.wpmcnt ∧ (yacksave s).farnsworth = s.farnsworth ∧
    (yacksave s).log = s.log := by
  unfold yacksave
  rw [if_pos hd]
  exact ⟨rfl, rfl, rfl, rfl, rfl⟩

/-- C12: when the command button is closed at entry and a paddle contact is read
closed in some pass of the wait loop, `yackctrlkey` returns FALSE and leaves
`CKLATCH` clear whatever `volflags` held at entry; the state went through
`yackspeed(DOWN, WPMSPEED)` for each pass with the dit contact closed and
`yackspeed(UP, WPMSPEED)` for each pass with the dah contact closed, in order,
and on return the speed stored in EEPROM is the current `wpm`. -/
theorem yackctrlkey_speed_change (h : Header) (w : Nat → Poll) (mode : Nat) (s : Yack)
    (passes : List Paddle) (hw : w s.npolls = some passes) (hp : somePaddle passes) :
    (yackctrlkey h w mode s).2 = false ∧
    (yackctrlkey h w mode s).1.volflags &&& CKLATCH = 0 ∧
    (yackctrlkey h w mode s).1.wpm
      = (speedPasses h passes
          (delayMs 50 (yackinhibit ON { s with npolls := s.npolls + 1 }))).wpm ∧
    (yackctrlkey h w mode s).1.wpmcnt
      = (speedPasses h passes
          (delayMs 50 (yackinhibit ON { s with npolls := s.npolls + 1 }))).wpmcnt ∧
    (yackctrlkey h w mode s).1.log
      = (speedPasses h passes
          (delayMs 50 (yackinhibit ON { s with npolls := s.npolls + 1 }))).log
        ++ [Event.delayMs 50, Event.ctrlkey s.npolls false] ∧
    (yackctrlkey h w mode s).1.wpmstor = (yackctrlkey h w mode s).1.wpm := by
  have hun := ctrlWait_unlatch h passes
    (delayMs 50 (yackinhibit ON { s with npolls := s.npolls + 1 })) (s.volflags ||| CKLATCH)
    (Or.inl hp)
  have hdirty : (delayMs 50 (speedPasses h passes
      (delayMs 50 (yackinhibit ON { s with npolls := s.npolls + 1 })))).volflags
        &&& DIRTYFLAG ≠ 0 :=
    speedPasses_dirty h passes _ (Or.inl hp)
  obtain ⟨e1, e2, e3, e4, e5⟩ := yacksave_dirty _ hdirty
  rw [yackctrlkey_closed h w mode s passes hw]
  simp only [ctrlWait_speedPasses] at hun ⊢
  refine ⟨?_, ?_, ?_, ?_, ?_, ?_⟩
  · simp [hun]
  · show (if mode = TRUE then _ else _) &&& CKLATCH = 0
    split_ifs
    · exact cklatch_bclr _
    · exact hun
  · exact e2
  · exact e3
  · show (yacksave _).log ++ _ = _
    rw [e5, hun]
    simp [delayMs]
  · show (yacksave _).wpmstor = (yacksave _).wpm
    rw [e1, e2]

/-- Witness for C12: the button held from power-on with `CKLATCH` set, the dit
contact closed in the only pass of the wait loop. -/
theorem yackctrlkey_speed_change_witness :
    (yackctrlkey exampleHeader (holdAtPoll 0 [⟨true, false⟩]) FALSE speedState).2 = false ∧
    (yackctrlkey exampleHeader (holdAtPoll 0 [⟨true, false⟩]) FALSE speedState).1.volflags
      &&& CKLATCH = 0 ∧
    (yackctrlkey exampleHeader (holdAtPoll 0 [⟨true, false⟩]) FALSE speedState).1.wpm
      = (speedPasses exampleHeader [⟨true, false⟩]
          (delayMs 50 (yackinhibit ON { speedState with npolls := speedState.npolls + 1 }))).wpm ∧
    (yackctrlkey exampleHeader (holdAtPoll 0 [⟨true, false⟩]) FALSE speedState).1.wpmcnt
      = (speedPasses exampleHeader [⟨true, false⟩]
          (delayMs 50
            (yackinhibit ON { speedState with npolls := speedState.npolls + 1 }))).wpmcnt ∧
    (yackctrlkey exampleHeader (holdAtPoll 0 [⟨true, false⟩]) FALSE speedState).1.log
      = (speedPasses exampleHeader [⟨true, false⟩]
          (delayMs 50 (yackinhibit ON { speedState with npolls := speedState.npolls + 1 }))).log
        ++ [Event.delayMs 50, Event.ctrlkey speedState.npolls false] ∧
    (yackctrlkey exampleHeader (holdAtPoll 0 [⟨true, false⟩]) FALSE speedState).1.wpmstor
      = (yackctrlkey exampleHeader (holdAtPoll 0 [⟨true, false⟩]) FALSE speedState).1.wpm :=
  yackctrlkey_speed_change exampleHeader (holdAtPoll 0 [⟨true, false⟩]) FALSE speedState
    [⟨true, false⟩] rfl ⟨⟨true, false⟩, by simp, Or.inl rfl⟩

/-! ## Speed and Farnsworth pause: `yackspeed` (C13, C14) -/

theorem yackspeed_wpm (h : Header) (d : Dir) (s : Yack) :
    (yackspeed h d .WPMSPEED s).wpm
      = (match d with
          | .UP => if s.wpm < h.MAXWPM then (s.wpm + 1) % 256 else s.wpm
          | .DOWN => if s.wpm > h.MINWPM then s.wpm - 1 else s.wpm) ∧
    (yackspeed h d .WPMSPEED s).wpmcnt
      = (1200 / h.YACKBEAT) / (yackspeed h d .WPMSPEED s).wpm ∧
    (yackspeed h d .WPMSPEED s).farnsworth = s.farnsworth := by
  unfold yackspeed
  simp only [yackfarns_eq, yackdelay_eq, (yackplay_frame _ _).1, (yackplay_frame _ _).2.2.1,
    (yackplay_frame _ _).2.2.2.2]
  cases d <;> simp <;> split_ifs <;> simp

theorem yackspeed_farnsworth (h : Header) (d : Dir) (s : Yack) :
    (yackspeed h d .FARNSWORTH s).farnsworth
      = (match d with
          | .UP => if s.farnsworth > 0 then s.farnsworth - 1 else s.farnsworth
          | .DOWN => if s.farnsworth < h.MAXFARN then (s.farnsworth + 1) % 256
                     else s.farnsworth) ∧
    (yackspeed h d .FARNSWORTH s).wpm = s.wpm ∧
    (yackspeed h d .FARNSWORTH s).wpmcnt = s.wpmcnt := by
  unfold yackspeed
  simp only [yackfarns_eq, yackdelay_eq, (yackplay_frame _ _).1, (yackplay_frame _ _).2.2.1,
    (yackplay_frame _ _).2.2.2.2]
  cases d <;> simp <;> split_ifs <;> simp

theorem div_succ_lt (C a : Nat) (ha : 1 ≤ a) (hC : a * (a + 1) ≤ C) : C / (a + 1) < C / a := by
  have hq : C / (a + 1) * (a + 1) ≤ C := Nat.div_mul_le_self C (a + 1)
  rw [Nat.lt_iff_add_one_le, Nat.le_div_iff_mul_le (by omega)]
  by_cases hqa : a ≤ C / (a + 1)
  · nlinarith
  · push_neg at hqa
    nlinarith

/-- C13, amended: with `C = 1200 / YACKBEAT` and from a state in which
`wpmcnt = C / wpm`, a `yackspeed(UP, WPMSPEED)` never raises `wpmcnt` and a
`yackspeed(DOWN, WPMSPEED)` never lowers it; a step that changes `wpm` changes
`wpmcnt` strictly when the product of the lower and the higher of the two speeds
is at most `C`. -/
theorem speed_monotone (h : Header) (s : Yack) (ht : h.typed) (hmin : 1 ≤ h.MINWPM)
    (hlo : h.MINWPM ≤ s.wpm) (hcnt : s.wpmcnt = (1200 / h.YACKBEAT) / s.wpm) :
    (yackspeed h .UP .WPMSPEED s).wpmcnt ≤ s.wpmcnt ∧
    s.wpmcnt ≤ (yackspeed h .DOWN .WPMSPEED s).wpmcnt ∧
    (s.wpm < h.MAXWPM → s.wpm * (s.wpm + 1) ≤ 1200 / h.YACKBEAT →
      (yackspeed h .UP .WPMSPEED s).wpmcnt < s.wpmcnt) ∧
    (h.MINWPM < s.wpm → (s.wpm - 1) * s.wpm ≤ 1200 / h.YACKBEAT →
      s.wpmcnt < (yackspeed h .DOWN .WPMSPEED s).wpmcnt) := by
  obtain ⟨u1, u2, _⟩ := yackspeed_wpm h .UP s
  obtain ⟨d1, d2, _⟩ := yackspeed_wpm h .DOWN s
  have hM : h.MAXWPM < 256 := ht.1
  simp only [] at u1 d1
  rw [u2, d2, u1, d1, hcnt]
  refine ⟨?_, ?_, ?_, ?_⟩
  · split_ifs with hc
    · rw [Nat.mod_eq_of_lt (by omega)]
      exact Nat.div_le_div_left (by omega) (by omega)
    · exact le_rfl
  · split_ifs with hc
    · exact Nat.div_le_div_left (by omega) (by omega)
    · exact le_rfl
  · intro hc hp
    rw [if_pos hc, Nat.mod_eq_of_lt (by omega)]
    exact div_succ_lt _ _ (by omega) hp
  · intro hc hp
    rw [if_pos hc]
    have := div_succ_lt (1200 / h.YACKBEAT) (s.wpm - 1) (by omega) (by
      rw [Nat.sub_add_cancel (by omega)]; exact hp)
    rwa [Nat.sub_add_cancel (by omega)] at this

/-- Witness for C13, amended: 12 wpm at the 5 ms heartbeat, 20 ticks per dot. -/
theorem speed_monotone_witness :
    (yackspeed exampleHeader .UP .WPMSPEED { powerOn with wpm := 12, wpmcnt := 20 }).wpmcnt
      ≤ ({ powerOn with wpm := 12, wpmcnt := 20 } : Yack).wpmcnt ∧
    ({ powerOn with wpm := 12, wpmcnt := 20 } : Yack).wpmcnt
      ≤ (yackspeed exampleHeader .DOWN .WPMSPEED { powerOn with wpm := 12, wpmcnt := 20 }).wpmcnt ∧
    (({ powerOn with wpm := 12, wpmcnt := 20 } : Yack).wpm < exampleHeader.MAXWPM →
      ({ powerOn with wpm := 12, wpmcnt := 20 } : Yack).wpm
          * (({ powerOn with wpm := 12, wpmcnt := 20 } : Yack).wpm + 1)
        ≤ 1200 / exampleHeader.YACKBEAT →
      (yackspeed exampleHeader .UP .WPMSPEED { powerOn with wpm := 12, wpmcnt := 20 }).wpmcnt
        < ({ powerOn with wpm := 12, wpmcnt := 20 } : Yack).wpmcnt) ∧
    (exampleHeader.MINWPM < ({ powerOn with wpm := 12, wpmcnt := 20 } : Yack).wpm →
      (({ powerOn with wpm := 12, wpmcnt := 20 } : Yack).wpm - 1)
          * ({ powerOn with wpm := 12, wpmcnt := 20 } : Yack).wpm
        ≤ 1200 / exampleHeader.YACKBEAT →
      ({ powerOn with wpm := 12, wpmcnt := 20 } : Yack).wpmcnt
        < (yackspeed exampleHeader .DOWN .WPMSPEED
            { powerOn with wpm := 12, wpmcnt := 20 }).wpmcnt) :=
  speed_monotone exampleHeader { powerOn with wpm := 12, wpmcnt := 20 } (by decide) (by decide)
    (by decide) (by decide)

/-- C13 as stated fails: at the 5 ms heartbeat `240 / 19 = 240 / 20 = 12`, so a
`yackspeed(UP, WPMSPEED)` from 19 wpm, within the limits 5 and 50, raises `wpm`
to 20 and leaves `wpmcnt` at 12. -/
theorem speed_step_not_strict :
    1200 / exampleHeader.YACKBEAT = 240 ∧
    exampleHeader.MINWPM ≤ speedState.wpm ∧ speedState.wpm < exampleHeader.MAXWPM ∧
    speedState.wpmcnt = (1200 / exampleHeader.YACKBEAT) / speedState.wpm ∧
    (yackspeed exampleHeader .UP .WPMSPEED speedState).wpm = speedState.wpm + 1 ∧
    (yackspeed exampleHeader .UP .WPMSPEED speedState).wpmcnt = speedState.wpmcnt ∧
    ¬ ((1200 / exampleHeader.YACKBEAT) / (speedState.wpm + 1)
        < (1200 / exampleHeader.YACKBEAT) / speedState.wpm) := by
  decide

/-- C14: `yackspeed` keeps `MINWPM ≤ wpm ≤ MAXWPM` and `farnsworth ≤ MAXFARN`.
In WPMSPEED mode `wpm` moves by exactly one, up for UP and down for DOWN, or
stays as it is at the limit in that direction, and `wpmcnt` is
`(1200 / YACKBEAT) / wpm` afterwards; in FARNSWORTH mode only `farnsworth`
moves, down by one for UP unless it is 0 and up by one for DOWN unless it is
`MAXFARN`, and `wpm` and `wpmcnt` keep their values. -/
theorem yackspeed_invariant (h : Header) (d : Dir) (m : SpeedMode) (s : Yack) (ht : h.typed)
    (hlo : h.MINWPM ≤ s.wpm) (hhi : s.wpm ≤ h.MAXWPM) (hf : s.farnsworth ≤ h.MAXFARN) :
    (h.MINWPM ≤ (yackspeed h d m s).wpm ∧ (yackspeed h d m s).wpm ≤ h.MAXWPM ∧
      (yackspeed h d m s).farnsworth ≤ h.MAXFARN) ∧
    (m = .WPMSPEED →
      (yackspeed h d m s).wpm = wpmStep h d s.wpm ∧
      (yackspeed h d m s).wpmcnt = (1200 / h.YACKBEAT) / (yackspeed h d m s).wpm ∧
      (yackspeed h d m s).farnsworth = s.farnsworth) ∧
    (m = .FARNSWORTH →
      (yackspeed h d m s).farnsworth = farnsStep h d s.farnsworth ∧
      (yackspeed h d m s).wpm = s.wpm ∧
      (yackspeed h d m s).wpmcnt = s.wpmcnt) := by
  have hM : h.MAXWPM < 256 := ht.1
  have hF : h.MAXFARN < 256 := ht.2.1
  cases m with
  | WPMSPEED =>
    obtain ⟨e1, e2, e3⟩ := yackspeed_wpm h d s
    have hw : (yackspeed h d .WPMSPEED s).wpm = wpmStep h d s.wpm := by
      rw [e1]
      unfold wpmStep
      cases d <;> simp only [] <;> split_ifs <;> omega
    refine ⟨?_, fun _ => ⟨hw, e2, e3⟩, fun hc => (by cases hc)⟩
    rw [hw, e3]
    unfold wpmStep
    cases d <;> simp only [] <;> split_ifs <;> omega
  | FARNSWORTH =>
    obtain ⟨e1, e2, e3⟩ := yackspeed_farnsworth h d s
    have hw : (yackspeed h d .FARNSWORTH s).farnsworth = farnsStep h d s.farnsworth := by
      rw [e1]
      unfold farnsStep
      cases d <;> simp only [] <;> split_ifs <;> omega
    refine ⟨?_, fun hc => (by cases hc), fun _ => ⟨hw, e2, e3⟩⟩
    rw [hw, e2]
    unfold farnsStep
    cases d <;> simp only [] <;> split_ifs <;> omega

/-- Witness for C14: a step up from 50 wpm, the upper limit of the example
header. -/
theorem yackspeed_invariant_witness :
    (exampleHeader.MINWPM ≤ (yackspeed exampleHeader .UP .WPMSPEED
        { powerOn with wpm := 50, wpmcnt := 4 }).wpm ∧
      (yackspeed exampleHeader .UP .WPMSPEED { powerOn with wpm := 50, wpmcnt := 4 }).wpm
        ≤ exampleHeader.MAXWPM ∧
      (yackspeed exampleHeader .UP .WPMSPEED { powerOn with wpm := 50, wpmcnt := 4 }).farnsworth
        ≤ exampleHeader.MAXFARN) ∧
    (yackspeed exampleHeader .UP .WPMSPEED { powerOn with wpm := 50, wpmcnt := 4 }).wpm = 50 :=
  ⟨(yackspeed_invariant exampleHeader .UP .WPMSPEED { powerOn with wpm := 50, wpmcnt := 4 }
      (by decide) (by decide) (by decide) (by decide)).1,
    by decide⟩

/-! ## The format of the code table (C15) -/

/-- C15, amended: every entry of `morse` is a well-formed code of at most 7
elements: it is non-zero, its lowest set bit is the stop marker at a position
`p ≤ 6`, and the `7 - p` bits above the marker are its elements, between 1 and 7
of them. -/
theorem morse_well_formed (b : Nat) (hb : b ∈ morse) :
    sentinelFrom b 8 0 ≤ 6 ∧ wellFormedCode b (sentinelFrom b 8 0) ∧
    1 ≤ (codeElements b).length ∧ (codeElements b).length ≤ 7 := by
  revert b
  decide

/-- Witness for C15, amended: the entry of the letter A. -/
theorem morse_well_formed_witness :
    sentinelFrom 0b01100000 8 0 ≤ 6 ∧ wellFormedCode 0b01100000 (sentinelFrom 0b01100000 8 0) ∧
    1 ≤ (codeElements 0b01100000).length ∧ (codeElements 0b01100000).length ≤ 7 :=
  morse_well_formed 0b01100000 (by decide)

/-- C15 as stated fails: the entries of `$` and of the prosign BK have their
stop marker at bit 0 and seven elements. -/
theorem morse_seven_elements :
    0b00010011 ∈ morse ∧ 0b10001011 ∈ morse ∧
    sentinelFrom 0b00010011 8 0 = 0 ∧ sentinelFrom 0b10001011 8 0 = 0 ∧
    wellFormedCode 0b00010011 0 ∧ wellFormedCode 0b10001011 0 ∧
    (codeElements 0b00010011).length = 7 ∧ (codeElements 0b10001011).length = 7 ∧
    ¬ (∀ b ∈ morse, 1 ≤ sentinelFrom b 8 0 ∧ sentinelFrom b 8 0 ≤ 6) := by
  decide

/-! ## Start-up: `yackinit` and `yackreset` (C20) -/

theorem dirty_clear_after_inhibit (v f : Nat) :
    (bclr (bclr (v ||| DIRTYFLAG) DIRTYFLAG) (TXKEY ||| SIDETONE)
      ||| (f &&& (TXKEY ||| SIDETONE))) &&& DIRTYFLAG = 0 := by
  apply Nat.eq_of_testBit_eq
  intro i
  simp only [bclr, Nat.testBit_and, Nat.testBit_or, Nat.zero_testBit]
  by_cases hi : i = 2
  · subst hi
    have h1 : Nat.testBit (255 ^^^ DIRTYFLAG) 2 = false := by decide
    have h2 : Nat.testBit TXKEY 2 = false := by decide
    have h3 : Nat.testBit SIDETONE 2 = false := by decide
    simp [h1, h2, h3]
  · have h3 : Nat.testBit DIRTYFLAG i = false := by
      have : DIRTYFLAG = 2 ^ 2 := by decide
      rw [this, Nat.testBit_two_pow]
      simp
      omega
    simp [h3]

/-- C20: with a stored magic byte other than `MAGPAT`, `yackinit` sets
`ctcvalue = DEFCTC`, `wpm = DEFWPM`, `wpmcnt = (1200 / YACKBEAT) / DEFWPM`,
`farnsworth = 0` and `yackflags = FLAGDEFAULT`, writes these values and
`magic = MAGPAT` to EEPROM and leaves `DIRTYFLAG` clear; a second `yackinit`
then finds the magic byte valid and loads the same values, writing nothing. -/
theorem yackinit_defaults (h : Header) (s : Yack) (ht : h.typed) (hm : s.magic ≠ MAGPAT) :
    ((yackinit h s).ctcvalue = h.DEFCTC ∧ (yackinit h s).wpm = h.DEFWPM ∧
      (yackinit h s).wpmcnt = (1200 / h.YACKBEAT) / h.DEFWPM ∧
      (yackinit h s).farnsworth = 0 ∧ (yackinit h s).yackflags = h.FLAGDEFAULT) ∧
    ((yackinit h s).magic = MAGPAT ∧ (yackinit h s).ctcstor = h.DEFCTC ∧
      (yackinit h s).wpmstor = h.DEFWPM ∧ (yackinit h s).fwstor = 0 ∧
      (yackinit h s).flagstor = h.FLAGDEFAULT) ∧
    (yackinit h s).volflags &&& DIRTYFLAG = 0 ∧
    ((yackinit h (yackinit h s)).ctcvalue = h.DEFCTC ∧
      (yackinit h (yackinit h s)).wpm = h.DEFWPM ∧
      (yackinit h (yackinit h s)).wpmcnt = (1200 / h.YACKBEAT) / h.DEFWPM ∧
      (yackinit h (yackinit h s)).farnsworth = 0 ∧
      (yackinit h (yackinit h s)).yackflags = h.FLAGDEFAULT) ∧
    ((yackinit h (yackinit h s)).magic = MAGPAT ∧
      (yackinit h (yackinit h s)).ctcstor = h.DEFCTC ∧
      (yackinit h (yackinit h s)).wpmstor = h.DEFWPM ∧
      (yackinit h (yackinit h s)).fwstor = 0 ∧
      (yackinit h (yackinit h s)).flagstor = h.FLAGDEFAULT) := by
  obtain ⟨_, _, hw, hf, hc, _, _⟩ := ht
  have hdirty : (s.volflags ||| DIRTYFLAG) &&& DIRTYFLAG ≠ 0 := dirty_or _
  have e1 : yackinit h s
      = key .UP { s with
          ctcvalue := h.DEFCTC, wpm := h.DEFWPM, wpmcnt := (1200 / h.YACKBEAT) / h.DEFWPM,
          farnsworth := 0, yackflags := h.FLAGDEFAULT,
          magic := MAGPAT, ctcstor := h.DEFCTC, wpmstor := h.DEFWPM, flagstor := h.FLAGDEFAULT,
          fwstor := 0,
          volflags := bclr (bclr (s.volflags ||| DIRTYFLAG) DIRTYFLAG) (TXKEY ||| SIDETONE)
            ||| (h.FLAGDEFAULT &&& (TXKEY ||| SIDETONE)) } := by
    unfold yackinit yackreset yacksave yackinhibit
    simp only [if_neg hm, if_pos hdirty, Nat.mod_eq_of_lt hw, Nat.mod_eq_of_lt hf,
      Nat.mod_eq_of_lt hc]
    simp [OFF]
  have e2 : yackinit h (yackinit h s)
      = key .UP { yackinit h s with
          volflags := bclr (yackinit h s).volflags (TXKEY ||| SIDETONE)
            ||| (h.FLAGDEFAULT &&& (TXKEY ||| SIDETONE)) } := by
    rw [e1]
    unfold yackinit yackinhibit
    simp [OFF, key]
  rw [e2, e1]
  refine ⟨by simp [key], by simp [key], ?_, by simp [key], by simp [key]⟩
  simp only [key]
  exact dirty_clear_after_inhibit _ _

/-- Witness for C20: `yackinit` from power-on, where the magic byte is 0. -/
theorem yackinit_defaults_witness :
    (yackinit exampleHeader powerOn).wpm = exampleHeader.DEFWPM ∧
    (yackinit exampleHeader powerOn).magic = MAGPAT ∧
    (yackinit exampleHeader (yackinit exampleHeader powerOn)).wpm = exampleHeader.DEFWPM :=
  ⟨(yackinit_defaults exampleHeader powerOn (by decide) (by decide)).1.2.1,
    (yackinit_defaults exampleHeader powerOn (by decide) (by decide)).2.1.1,
    (yackinit_defaults exampleHeader powerOn (by decide) (by decide)).2.2.2.1.2.1⟩


/-! ## Events that are no markers -/

theorem charsOf_append (x y : List Event) : charsOf (x ++ y) = charsOf x ++ charsOf y := by
  simp [charsOf]

theorem heardOf_append (x y : List Event) : heardOf (x ++ y) = heardOf x ++ heardOf y := by
  simp [heardOf]

theorem errorsOf_append (x y : List Event) : errorsOf (x ++ y) = errorsOf x + errorsOf y := by
  simp [errorsOf]

theorem notMark_markers (x : List Event) (hx : ∀ e ∈ x, notMark e = true) :
    charsOf x = [] ∧ heardOf x = [] ∧ errorsOf x = 0 := by
  induction x with
  | nil => exact ⟨rfl, rfl, rfl⟩
  | cons e rest ih =>
    obtain ⟨i1, i2, i3⟩ := ih (fun e he => hx e (by simp [he]))
    have he := hx e (by simp)
    cases e <;> simp_all [charsOf, heardOf, errorsOf, notMark]

theorem unmarked_refl (s : Yack) : unmarked s s :=
  ⟨[], by simp, by simp⟩

theorem unmarked_trans {s t u : Yack} (h1 : unmarked s t) (h2 : unmarked t u) : unmarked s u := by
  obtain ⟨x, hx, px⟩ := h1
  obtain ⟨y, hy, py⟩ := h2
  refine ⟨x ++ y, by rw [hy, hx, List.append_assoc], ?_⟩
  intro e he
  rcases List.mem_append.mp he with h | h
  · exact px e h
  · exact py e h

theorem unmarked_of_log (s s' : Yack) (x : List Event) (hl : s'.log = s.log ++ x)
    (hx : ∀ e ∈ x, notMark e = true) : unmarked s s' :=
  ⟨x, hl, hx⟩

theorem plainEvent_notMark (e : Event) (he : plainEvent e = true) : notMark e = true := by
  cases e <;> simp_all [plainEvent, notMark]

theorem plainly_refl (s : Yack) : plainly s s :=
  ⟨[], by simp, by simp⟩

theorem plainly_trans {s t u : Yack} (h1 : plainly s t) (h2 : plainly t u) : plainly s u := by
  obtain ⟨x, hx, px⟩ := h1
  obtain ⟨y, hy, py⟩ := h2
  refine ⟨x ++ y, by rw [hy, hx, List.append_assoc], ?_⟩
  intro e he
  rcases List.mem_append.mp he with h | h
  · exact px e h
  · exact py e h

theorem plainly_unmarked {s t : Yack} (h : plainly s t) : unmarked s t := by
  obtain ⟨x, hx, px⟩ := h
  exact ⟨x, hx, fun e he => plainEvent_notMark e (px e he)⟩

theorem yackdelay_plainly (n : Nat) (s : Yack) : plainly s (yackdelay n s) := by
  rw [yackdelay_eq]
  refine ⟨_, rfl, ?_⟩
  intro e he
  rw [List.eq_of_mem_replicate he]
  rfl

theorem yackfarns_plainly (s : Yack) : plainly s (yackfarns s) := by
  rw [yackfarns_eq]
  refine ⟨_, rfl, ?_⟩
  intro e he
  rw [List.eq_of_mem_replicate he]
  rfl

theorem yackplay_plainly (e : Element) (s : Yack) : plainly s (yackplay e s) := by
  refine ⟨_, yackplay_log e s, ?_⟩
  intro x hx
  simp only [List.mem_cons, List.mem_append, List.mem_singleton, List.not_mem_nil,
    or_false] at hx
  rcases hx with rfl | hx | rfl
  · rfl
  · rw [List.eq_of_mem_replicate hx]
    rfl
  · rfl

theorem yackspeed_plainly (h : Header) (d : Dir) (m : SpeedMode) (s : Yack) :
    plainly s (yackspeed h d m s) := by
  unfold yackspeed
  simp only []
  refine plainly_trans ?_ (yackfarns_plainly _)
  refine plainly_trans ?_ (yackdelay_plainly _ _)
  refine plainly_trans ?_ (yackplay_plainly _ _)
  refine plainly_trans ?_ (yackdelay_plainly _ _)
  refine plainly_trans ?_ (yackplay_plainly _ _)
  refine ⟨[], ?_, by simp⟩
  cases m <;> simp only [] <;> split_ifs <;> simp

theorem speedPasses_plainly (h : Header) (ps : List Paddle) (s : Yack) :
    plainly s (speedPasses h ps s) := by
  induction ps generalizing s with
  | nil => exact plainly_refl s
  | cons p rest ih =>
    unfold speedPasses
    rw [List.foldl_cons]
    cases hd : p.dit <;> cases hh : p.dah <;> simp only [Bool.false_eq_true, if_false, if_true]
    · exact ih _
    · exact plainly_trans (yackspeed_plainly _ _ _ _) (ih _)
    · exact plainly_trans (yackspeed_plainly _ _ _ _) (ih _)
    · exact plainly_trans
        (plainly_trans (yackspeed_plainly _ _ _ _) (yackspeed_plainly _ _ _ _)) (ih _)

theorem yacksave_log (s : Yack) : (yacksave s).log = s.log := by
  unfold yacksave
  split_ifs <;> rfl

/-- The log of a poll: events of keying and timing, then the marker of the
poll. -/
theorem yackctrlkey_log (h : Header) (w : Nat → Poll) (mode : Nat) (s : Yack) :
    ∃ x, (yackctrlkey h w mode s).1.log
        = s.log ++ x ++ [Event.ctrlkey s.npolls (yackctrlkey h w mode s).2] ∧
      ∀ e ∈ x, plainEvent e = true := by
  cases hw : w s.npolls with
  | none =>
    refine ⟨[], ?_, by simp⟩
    unfold yackctrlkey
    simp only [hw]
    split_ifs <;> simp
  | some passes =>
    rw [yackctrlkey_closed h w mode s passes hw]
    obtain ⟨x, hx, px⟩ := speedPasses_plainly h passes
      (delayMs 50 (yackinhibit ON { s with npolls := s.npolls + 1 }))
    refine ⟨Event.delayMs 50 :: (x ++ [Event.delayMs 50]), ?_, ?_⟩
    · show (yacksave _).log ++ _ = _
      rw [yacksave_log, ctrlWait_speedPasses]
      show (speedPasses _ _ _).log ++ [Event.delayMs 50] ++ _ = _
      rw [hx]
      simp [delayMs, yackinhibit, ON]
    · intro e he
      simp only [List.mem_cons, List.mem_append, List.mem_singleton, List.not_mem_nil,
        or_false] at he
      rcases he with rfl | he | rfl
      · rfl
      · exact px e he
      · rfl

theorem yackctrlkey_unmarked (h : Header) (w : Nat → Poll) (mode : Nat) (s : Yack) :
    unmarked s (yackctrlkey h w mode s).1 := by
  obtain ⟨x, hx, px⟩ := yackctrlkey_log h w mode s
  refine ⟨x ++ [Event.ctrlkey s.npolls (yackctrlkey h w mode s).2], ?_, ?_⟩
  · rw [hx, List.append_assoc]
  · intro e he
    rcases List.mem_append.mp he with h1 | h1
    · exact plainEvent_notMark e (px e h1)
    · rw [List.mem_singleton.mp h1]
      rfl

theorem playLoop_unmarked (h : Header) (w : Nat → Poll) :
    ∀ fuel code s s' b, playLoop h w fuel code s = some (s', b) → unmarked s s' := by
  intro fuel
  induction fuel with
  | zero =>
    intro code s s' b hp
    rw [playLoop] at hp
    split_ifs at hp
    simp only [Option.some.injEq, Prod.mk.injEq] at hp
    rw [← hp.1]
    exact unmarked_refl s
  | succ fuel ih =>
    intro code s s' b hp
    by_cases hc : code = 0x80
    · rw [playLoop, if_pos hc] at hp
      simp only [Option.some.injEq, Prod.mk.injEq] at hp
      rw [← hp.1]
      exact unmarked_refl s
    · rw [playLoop_succ h w fuel code s hc] at hp
      by_cases hr : (yackctrlkey h w FALSE s).2 = true
      · rw [if_pos hr] at hp
        simp only [Option.some.injEq, Prod.mk.injEq] at hp
        rw [← hp.1]
        exact yackctrlkey_unmarked h w FALSE s
      · rw [if_neg hr] at hp
        refine unmarked_trans (yackctrlkey_unmarked h w FALSE s) ?_
        refine unmarked_trans ?_ (ih _ _ _ _ hp)
        refine unmarked_trans ?_ (plainly_unmarked (yackdelay_plainly _ _))
        split_ifs
        · exact plainly_unmarked (yackplay_plainly _ _)
        · exact plainly_unmarked (yackplay_plainly _ _)

/-- A call of `yackchar` logs its character once, and no other marker. -/
theorem yackchar_marker (h : Header) (w : Nat → Poll) (c : Nat) (s s' : Yack)
    (hy : yackchar h w c s = some s') :
    ∃ x, s'.log = s.log ++ Event.char c :: x ∧ ∀ e ∈ x, notMark e = true := by
  have key : unmarked { s with log := s.log ++ [Event.char c] } s' := by
    unfold yackchar at hy
    simp only [] at hy
    split_ifs at hy with hsp
    · simp only [Option.some.injEq] at hy
      rw [← hy]
      exact plainly_unmarked (yackdelay_plainly _ _)
    · cases hp : playLoop h w 8 (charCode c) { s with log := s.log ++ [Event.char c] } with
      | none => rw [hp] at hy; cases hy
      | some r =>
        obtain ⟨s1, b⟩ := r
        rw [hp] at hy
        have r1 := playLoop_unmarked h w 8 _ _ s1 b hp
        cases b with
        | false =>
          simp only [Option.some.injEq] at hy
          rw [← hy]
          exact r1
        | true =>
          simp only [Option.some.injEq] at hy
          rw [← hy]
          exact unmarked_trans r1 (plainly_unmarked
            (plainly_trans (yackdelay_plainly _ _) (yackfarns_plainly _)))
  obtain ⟨x, hx, px⟩ := key
  exact ⟨x, by rw [hx]; simp, px⟩

/-! ## Playback of a number: `yacknumber` (C19) -/

theorem playLoop_open (h : Header) (w : Nat → Poll) (hopen : neverPressed w) :
    ∀ fuel code s s' b, s.volflags &&& CKLATCH = 0 → playLoop h w fuel code s = some (s', b) →
      b = true ∧ s'.volflags = s.volflags := by
  intro fuel
  induction fuel with
  | zero =>
    intro code s s' b _ hp
    rw [playLoop] at hp
    split_ifs at hp
    simp only [Option.some.injEq, Prod.mk.injEq] at hp
    exact ⟨hp.2.symm, by rw [← hp.1]⟩
  | succ fuel ih =>
    intro code s s' b hck hp
    by_cases hc : code = 0x80
    · rw [playLoop, if_pos hc] at hp
      simp only [Option.some.injEq, Prod.mk.injEq] at hp
      exact ⟨hp.2.symm, by rw [← hp.1]⟩
    · rw [playLoop_succ h w fuel code s hc, yackctrlkey_open h w s (hopen _)] at hp
      have hr : decide (s.volflags &&& CKLATCH ≠ 0) = false := by simp [hck]
      simp only [hr, Bool.false_eq_true, if_false] at hp
      obtain ⟨hb, hv⟩ := ih _ _ _ _ (by
        rw [yackdelay_eq]
        split_ifs <;> simp only [(yackplay_frame _ _).2.1] <;> exact hck) hp
      refine ⟨hb, ?_⟩
      rw [hv, yackdelay_eq]
      split_ifs <;> simp only [(yackplay_frame _ _).2.1]

/-- A call of `yackchar` with the button open at every poll and `CKLATCH` clear
returns, logs its character once and no other marker, and leaves `volflags` as
it is. -/
theorem yackchar_open (h : Header) (w : Nat → Poll) (hopen : neverPressed w) (c : Nat)
    (s : Yack) (hck : s.volflags &&& CKLATCH = 0) :
    ∃ s' x, yackchar h w c s = some s' ∧ s'.log = s.log ++ Event.char c :: x ∧
      (∀ e ∈ x, notMark e = true) ∧ s'.volflags = s.volflags := by
  obtain ⟨s', hy⟩ := yackchar_returns h w c s
  obtain ⟨x, hx, px⟩ := yackchar_marker h w c s s' hy
  refine ⟨s', x, hy, hx, px, ?_⟩
  unfold yackchar at hy
  simp only [] at hy
  split_ifs at hy with hsp
  · simp only [Option.some.injEq] at hy
    rw [← hy, yackdelay_eq]
  · cases hp : playLoop h w 8 (charCode c) { s with log := s.log ++ [Event.char c] } with
    | none => rw [hp] at hy; cases hy
    | some r =>
      obtain ⟨s1, b⟩ := r
      rw [hp] at hy
      obtain ⟨hb, hv⟩ := playLoop_open h w hopen 8 _
        { s with log := s.log ++ [Event.char c] } s1 b hck hp
      subst hb
      simp only [Option.some.injEq] at hy
      rw [← hy, yackfarns_eq, yackdelay_eq]
      exact hv

theorem take_set_self (l : List Nat) (i a : Nat) : (l.set i a).take i = l.take i := by
  apply List.ext_getElem?
  intro j
  rw [List.getElem?_take, List.getElem?_take]
  split
  · rw [List.getElem?_set_ne (by omega)]
  · rfl

theorem digitLoop_spec :
    ∀ fuel n buffer i, n ≤ fuel → buffer.length = 5 → i + (Nat.digits 10 n).length ≤ 5 →
      ∃ buffer', digitLoop fuel n buffer i = some (buffer', i + (Nat.digits 10 n).length) ∧
        buffer'.length = 5 ∧
        buffer'.take (i + (Nat.digits 10 n).length)
          = buffer.take i ++ (Nat.digits 10 n).map (fun d => d + '0'.toNat) := by
  intro fuel
  induction fuel with
  | zero =>
    intro n buffer i hn hl _
    have h0 : n = 0 := by omega
    subst h0
    exact ⟨buffer, by simp [digitLoop], hl, by simp⟩
  | succ fuel ih =>
    intro n buffer i hn hl hi
    by_cases h0 : n = 0
    · subst h0
      exact ⟨buffer, by simp [digitLoop], hl, by simp⟩
    · have hd : Nat.digits 10 n = (n % 10) :: Nat.digits 10 (n / 10) :=
        Nat.digits_def' (by decide) (by omega)
      rw [hd] at hi ⊢
      simp only [List.length_cons] at hi ⊢
      have hi5 : i < 5 := by omega
      have hm1 : (i + 1) % 256 = i + 1 := Nat.mod_eq_of_lt (by omega)
      have hm2 : (n % 10 + '0'.toNat) % 256 = n % 10 + '0'.toNat := by
        have : '0'.toNat = 48 := by decide
        rw [this]
        exact Nat.mod_eq_of_lt (by omega)
      obtain ⟨b', e1, l1, t1⟩ := ih (n / 10) (buffer.set i (n % 10 + '0'.toNat)) (i + 1)
        (by omega) (by simp [hl]) (by omega)
      refine ⟨b', ?_, l1, ?_⟩
      · rw [digitLoop, if_neg h0, if_pos hi5, hm1, hm2, e1]
        congr 2
        omega
      · have e2 : i + ((Nat.digits 10 (n / 10)).length + 1)
            = i + 1 + (Nat.digits 10 (n / 10)).length := by omega
        rw [e2, t1]
        have e3 : (buffer.set i (n % 10 + '0'.toNat)).take (i + 1)
            = buffer.take i ++ [n % 10 + '0'.toNat] := by
          rw [List.take_succ, take_set_self]
          simp [hl, hi5]
        rw [e3]
        simp

theorem sendDigits_spec (h : Header) (w : Nat → Poll) (hopen : neverPressed w)
    (buffer : List Nat) :
    ∀ i s, i ≤ buffer.length → s.volflags &&& CKLATCH = 0 →
      ∃ s' x, sendDigits h w buffer i s = some s' ∧ s'.log = s.log ++ x ∧
        charsOf x = (buffer.take i).reverse ∧ s'.volflags &&& CKLATCH = 0 := by
  intro i
  induction i with
  | zero =>
    intro s _ hck
    exact ⟨s, [], rfl, by simp, by simp [charsOf], hck⟩
  | succ i ih =>
    intro s hi hck
    have hr : decide (s.volflags &&& CKLATCH ≠ 0) = false := by simp [hck]
    have hb : buffer[i]? = some (buffer[i]) := List.getElem?_eq_getElem (by omega)
    obtain ⟨s1, x1, y1, l1, p1, v1⟩ := yackchar_open h w hopen (buffer[i])
      { s with npolls := s.npolls + 1, log := s.log ++ [Event.ctrlkey s.npolls false] } hck
    obtain ⟨s2, x2, y2, l2, c2, v2⟩ := ih s1 (by omega) (by rw [v1]; exact hck)
    refine ⟨s2, Event.ctrlkey s.npolls false :: Event.char (buffer[i]) :: (x1 ++ x2), ?_, ?_, ?_,
      v2⟩
    · rw [sendDigits, yackctrlkey_open h w s (hopen _)]
      simp only [hr, Bool.false_eq_true, if_false, hb, y1, y2]
    · rw [l2, l1]
      simp
    · rw [List.take_succ, hb]
      simp only [Option.toList, List.reverse_append, List.reverse_cons, List.reverse_nil,
        List.nil_append, List.singleton_append]
      have := (notMark_markers x1 p1).1
      simp only [charsOf, List.filterMap_cons, List.filterMap_append] at this c2 ⊢
      rw [this, c2]
      simp

/-- C19: for `1 ≤ n ≤ 65535`, with the command button open at every poll and
`CKLATCH` clear, `yacknumber(n)` returns and hands to `yackchar` exactly the
decimal digits of `n`, most significant first and without a leading zero,
followed by one space. `n` has at most 5 digits, and no access falls outside the
5-byte buffer, whatever it held before (`yacknumber` is `none` when one
does). -/
theorem yacknumber_digits (h : Header) (w : Nat → Poll) (junk : List Nat) (n : Nat) (s : Yack)
    (h1 : 1 ≤ n) (h2 : n ≤ 65535) (hopen : neverPressed w)
    (hck : s.volflags &&& CKLATCH = 0) :
    (Nat.digits 10 n).length ≤ 5 ∧ decimalChars n ≠ [] ∧
    (decimalChars n).head? ≠ some '0'.toNat ∧
    ∃ s' x, yacknumber h w junk n s = some s' ∧ s'.log = s.log ++ x ∧
      charsOf x = decimalChars n ++ [' '.toNat] := by
  have hlen : (Nat.digits 10 n).length ≤ 5 := by
    have hmax : (Nat.digits 10 65535).length = 5 := by norm_num
    exact hmax ▸ Nat.le_digits_len_le 10 n 65535 h2
  have hne : Nat.digits 10 n ≠ [] := Nat.digits_ne_nil_iff_ne_zero.mpr (by omega)
  refine ⟨hlen, ?_, ?_, ?_⟩
  · unfold decimalChars
    simpa using hne
  · unfold decimalChars
    rw [List.head?_map, List.head?_reverse, List.getLast?_eq_getLast _ hne]
    have := Nat.getLast_digit_ne_zero 10 (m := n) (by omega)
    simp only [Option.map_some', ne_eq, Option.some.injEq]
    have h48 : '0'.toNat = 48 := by decide
    rw [h48]
    omega
  · have hbuf : ((junk ++ List.replicate 5 0).take 5).length = 5 := by
      simp
    obtain ⟨b', e1, l1, t1⟩ := digitLoop_spec n n ((junk ++ List.replicate 5 0).take 5) 0
      le_rfl hbuf (by omega)
    simp only [Nat.zero_add, List.take_zero, List.nil_append] at e1 t1
    obtain ⟨s1, x1, y1, g1, c1, v1⟩ := sendDigits_spec h w hopen b' (Nat.digits 10 n).length s
      (by omega) hck
    obtain ⟨s2, x2, y2, g2, p2, _⟩ := yackchar_open h w hopen ' '.toNat s1 v1
    refine ⟨s2, x1 ++ Event.char ' '.toNat :: x2, ?_, ?_, ?_⟩
    · unfold yacknumber
      simp only [Nat.mod_eq_of_lt (show n < 65536 by omega), e1, y1, y2]
    · rw [g2, g1, List.append_assoc]
    · rw [charsOf_append, c1, t1]
      have := (notMark_markers x2 p2).1
      simp only [charsOf, List.filterMap_cons] at this ⊢
      rw [this]
      simp [decimalChars, List.map_reverse]

/-- Witness for C19: the number 123 at power-on, the buffer holding zeros. -/
theorem yacknumber_digits_witness :
    (∃ s' x, yacknumber exampleHeader (fun _ => none) [] 123 powerOn = some s' ∧
      s'.log = powerOn.log ++ x ∧ charsOf x = decimalChars 123 ++ [' '.toNat]) ∧
    (yacknumber exampleHeader (fun _ => none) [] 123 powerOn).map (fun s => charsOf s.log)
      = some ['1'.toNat, '2'.toNat, '3'.toNat, ' '.toNat] :=
  ⟨(yacknumber_digits exampleHeader (fun _ => none) [] 123 powerOn (by decide) (by decide)
      (fun _ => rfl) (by decide)).2.2.2,
    by decide⟩


/-! ## The message slots are written by nothing but a recording -/

theorem sameSlots_refl (s : Yack) : sameSlots s s :=
  ⟨rfl, rfl, rfl, rfl⟩

theorem sameSlots_trans {s t u : Yack} (h1 : sameSlots s t) (h2 : sameSlots t u) :
    sameSlots s u := by
  obtain ⟨a1, a2, a3, a4⟩ := h1
  obtain ⟨b1, b2, b3, b4⟩ := h2
  exact ⟨by rw [b1, a1], by rw [b2, a2], by rw [b3, a3], by rw [b4, a4]⟩

theorem yackdelay_slots (n : Nat) (s : Yack) : sameSlots s (yackdelay n s) := by
  rw [yackdelay_eq]
  exact ⟨rfl, rfl, rfl, rfl⟩

theorem yackfarns_slots (s : Yack) : sameSlots s (yackfarns s) := by
  rw [yackfarns_eq]
  exact ⟨rfl, rfl, rfl, rfl⟩

theorem yackplay_slots (e : Element) (s : Yack) : sameSlots s (yackplay e s) := by
  unfold yackplay sameSlots
  cases e <;> simp [yackdelay_eq, key]

theorem yackspeed_slots (h : Header) (d : Dir) (m : SpeedMode) (s : Yack) :
    sameSlots s (yackspeed h d m s) := by
  unfold yackspeed
  simp only []
  refine sameSlots_trans ?_ (yackfarns_slots _)
  refine sameSlots_trans ?_ (yackdelay_slots _ _)
  refine sameSlots_trans ?_ (yackplay_slots _ _)
  refine sameSlots_trans ?_ (yackdelay_slots _ _)
  refine sameSlots_trans ?_ (yackplay_slots _ _)
  unfold sameSlots
  cases m <;> simp only [] <;> split_ifs <;> simp

theorem speedPasses_slots (h : Header) (ps : List Paddle) (s : Yack) :
    sameSlots s (speedPasses h ps s) := by
  induction ps generalizing s with
  | nil => exact sameSlots_refl s
  | cons p rest ih =>
    unfold speedPasses
    rw [List.foldl_cons]
    cases hd : p.dit <;> cases hh : p.dah <;> simp only [Bool.false_eq_true, if_false, if_true]
    · exact ih _
    · exact sameSlots_trans (yackspeed_slots _ _ _ _) (ih _)
    · exact sameSlots_trans (yackspeed_slots _ _ _ _) (ih _)
    · exact sameSlots_trans
        (sameSlots_trans (yackspeed_slots _ _ _ _) (yackspeed_slots _ _ _ _)) (ih _)

theorem yacksave_slots (s : Yack) : sameSlots s (yacksave s) := by
  unfold yacksave
  split_ifs
  · exact ⟨rfl, rfl, rfl, rfl⟩
  · exact sameSlots_refl s

theorem yackctrlkey_slots (h : Header) (w : Nat → Poll) (mode : Nat) (s : Yack) :
    sameSlots s (yackctrlkey h w mode s).1 := by
  cases hw : w s.npolls with
  | none =>
    unfold yackctrlkey sameSlots
    simp only [hw]
    split_ifs <;> simp
  | some passes =>
    rw [yackctrlkey_closed h w mode s passes hw]
    have h1 : sameSlots s (yacksave (delayMs 50 (ctrlWait h passes
        (delayMs 50 (yackinhibit ON { s with npolls := s.npolls + 1 }),
          s.volflags ||| CKLATCH)).1)) := by
      refine sameSlots_trans ?_ (yacksave_slots _)
      rw [ctrlWait_speedPasses]
      refine sameSlots_trans (t := speedPasses h passes
        (delayMs 50 (yackinhibit ON { s with npolls := s.npolls + 1 }))) ?_ ⟨rfl, rfl, rfl, rfl⟩
      refine sameSlots_trans ?_ (speedPasses_slots _ _ _)
      simp [sameSlots, delayMs, yackinhibit, ON]
    exact h1

theorem playLoop_slots (h : Header) (w : Nat → Poll) :
    ∀ fuel code s s' b, playLoop h w fuel code s = some (s', b) → sameSlots s s' := by
  intro fuel
  induction fuel with
  | zero =>
    intro code s s' b hp
    rw [playLoop] at hp
    split_ifs at hp
    simp only [Option.some.injEq, Prod.mk.injEq] at hp
    rw [← hp.1]
    exact sameSlots_refl s
  | succ fuel ih =>
    intro code s s' b hp
    by_cases hc : code = 0x80
    · rw [playLoop, if_pos hc] at hp
      simp only [Option.some.injEq, Prod.mk.injEq] at hp
      rw [← hp.1]
      exact sameSlots_refl s
    · rw [playLoop_succ h w fuel code s hc] at hp
      by_cases hr : (yackctrlkey h w FALSE s).2 = true
      · rw [if_pos hr] at hp
        simp only [Option.some.injEq, Prod.mk.injEq] at hp
        rw [← hp.1]
        exact yackctrlkey_slots h w FALSE s
      · rw [if_neg hr] at hp
        refine sameSlots_trans (yackctrlkey_slots h w FALSE s) ?_
        refine sameSlots_trans ?_ (ih _ _ _ _ hp)
        refine sameSlots_trans ?_ (yackdelay_slots _ _)
        split_ifs
        · exact yackplay_slots _ _
        · exact yackplay_slots _ _

theorem yackchar_slots (h : Header) (w : Nat → Poll) (c : Nat) (s s' : Yack)
    (hy : yackchar h w c s = some s') : sameSlots s s' := by
  have h0 : sameSlots s { s with log := s.log ++ [Event.char c] } := ⟨rfl, rfl, rfl, rfl⟩
  refine sameSlots_trans h0 ?_
  unfold yackchar at hy
  simp only [] at hy
  split_ifs at hy with hsp
  · simp only [Option.some.injEq] at hy
    rw [← hy]
    exact yackdelay_slots _ _
  · cases hp : playLoop h w 8 (charCode c) { s with log := s.log ++ [Event.char c] } with
    | none => rw [hp] at hy; cases hy
    | some r =>
      obtain ⟨s1, b⟩ := r
      rw [hp] at hy
      have r1 := playLoop_slots h w 8 _ _ s1 b hp
      cases b with
      | false =>
        simp only [Option.some.injEq] at hy
        rw [← hy]
        exact r1
      | true =>
        simp only [Option.some.injEq] at hy
        rw [← hy]
        exact sameSlots_trans r1 (sameSlots_trans (yackdelay_slots _ _) (yackfarns_slots _))

/-! ## Playing a stored message: `yackmessage(PLAY)` (C18) -/

theorem replay_cons (h : Header) (w : Nat → Poll) (c : Nat) (rest : List Nat) (s : Yack)
    (hc : c ≠ 0) :
    replay h w (c :: rest) s
      = if (yackctrlkey h w TRUE s).2 = true then some (yackctrlkey h w TRUE s).1
        else match yackchar h w c (yackctrlkey h w TRUE s).1 with
          | none => none
          | some s => replay h w rest s := by
  rw [replay, if_neg hc]

theorem replayHead_cons (h : Header) (w : Nat → Poll) (k c : Nat) (rest : List Nat) (s : Yack)
    (hc : c ≠ 0) :
    replayHead h w (k + 1) (c :: rest) s
      = if (yackctrlkey h w TRUE s).2 = true then none
        else match yackchar h w c (yackctrlkey h w TRUE s).1 with
          | none => none
          | some s => replayHead h w k rest s := by
  rw [replayHead, if_neg hc]

theorem replay_spec (h : Header) (w : Nat → Poll) :
    ∀ buf s, 0 ∈ buf →
      ∃ s' x m, replay h w buf s = some s' ∧ s'.log = s.log ++ x ∧
        m ≤ (buf.takeWhile (fun c => decide (c ≠ 0))).length ∧
        charsOf x = (buf.takeWhile (fun c => decide (c ≠ 0))).take m ∧
        (m < (buf.takeWhile (fun c => decide (c ≠ 0))).length →
          ∃ pre j, x = pre ++ [Event.ctrlkey j true]) ∧
        sameSlots s s' ∧
        (∀ k t, k < (buf.takeWhile (fun c => decide (c ≠ 0))).length →
          replayHead h w k buf s = some t →
          ((yackctrlkey h w TRUE t).2 = true → s' = (yackctrlkey h w TRUE t).1 ∧ m = k) ∧
          ((yackctrlkey h w TRUE t).2 = false → k < m)) ∧
        (∀ k, k ≤ m → (replayHead h w k buf s).isSome = true) := by
  intro buf
  induction buf with
  | nil =>
    intro s h0
    cases h0
  | cons c rest ih =>
    intro s h0
    by_cases hc : c = 0
    · subst hc
      refine ⟨s, [], 0, by simp [replay], by simp, by simp, by simp [charsOf], by simp,
        sameSlots_refl s, ?_, ?_⟩
      · intro k t hk
        simp at hk
      · intro k hk
        have : k = 0 := by omega
        subst this
        rfl
    · have hrest : 0 ∈ rest := by
        rcases List.mem_cons.mp h0 with h1 | h1
        · exact absurd h1.symm hc
        · exact h1
      have htw : (c :: rest).takeWhile (fun c => decide (c ≠ 0))
          = c :: rest.takeWhile (fun c => decide (c ≠ 0)) := by
        simp [List.takeWhile, hc]
      obtain ⟨y, hy, py⟩ := yackctrlkey_log h w TRUE s
      rw [replay_cons h w c rest s hc, htw]
      by_cases hr : (yackctrlkey h w TRUE s).2 = true
      · rw [if_pos hr]
        refine ⟨_, y ++ [Event.ctrlkey s.npolls true], 0, rfl, ?_, by simp, ?_, ?_,
          yackctrlkey_slots h w TRUE s, ?_, ?_⟩
        · rw [hy, hr, List.append_assoc]
        · rw [charsOf_append, (notMark_markers y (fun e he => plainEvent_notMark e (py e he))).1]
          simp [charsOf]
        · intro _
          exact ⟨y, s.npolls, rfl⟩
        · intro k t _ hh
          cases k with
          | zero =>
            simp only [replayHead, Option.some.injEq] at hh
            subst hh
            refine ⟨fun _ => ⟨rfl, rfl⟩, fun hf => ?_⟩
            rw [hr] at hf
            cases hf
          | succ k =>
            rw [replayHead_cons h w k c rest s hc, if_pos hr] at hh
            cases hh
        · intro k hk
          have : k = 0 := by omega
          subst this
          rfl
      · rw [if_neg hr]
        have hr' : (yackctrlkey h w TRUE s).2 = false := by simpa using hr
        obtain ⟨s1, hs1⟩ := yackchar_returns h w c (yackctrlkey h w TRUE s).1
        obtain ⟨z, hz, pz⟩ := yackchar_marker h w c _ s1 hs1
        obtain ⟨s2, x2, m2, e2, l2, b2, c2, a2, sl2, hd2, ex2⟩ := ih s1 hrest
        rw [hs1]
        refine ⟨s2, y ++ [Event.ctrlkey s.npolls false] ++ Event.char c :: z ++ x2, m2 + 1, e2,
          ?_, ?_, ?_, ?_, ?_, ?_, ?_⟩
        · rw [l2, hz, hy, hr']
          simp
        · simp only [List.length_cons]
          omega
        · rw [charsOf_append, charsOf_append, charsOf_append,
            (notMark_markers y (fun e he => plainEvent_notMark e (py e he))).1, c2]
          have hz0 := (notMark_markers z pz).1
          simp only [charsOf, List.filterMap_cons, List.filterMap_nil] at hz0 ⊢
          rw [hz0]
          simp
        · intro hlt
          simp only [List.length_cons] at hlt
          obtain ⟨pre, j, hx2⟩ := a2 (by omega)
          refine ⟨y ++ [Event.ctrlkey s.npolls false] ++ Event.char c :: z ++ pre, j, ?_⟩
          rw [hx2]
          simp
        · exact sameSlots_trans (yackctrlkey_slots h w TRUE s)
            (sameSlots_trans (yackchar_slots h w c _ s1 hs1) sl2)
        · intro k t hk hh
          cases k with
          | zero =>
            simp only [replayHead, Option.some.injEq] at hh
            subst hh
            refine ⟨fun ht => ?_, fun _ => by omega⟩
            rw [hr'] at ht
            cases ht
          | succ k =>
            rw [replayHead_cons h w k c rest s hc, if_neg hr, hs1] at hh
            simp only [List.length_cons] at hk
            obtain ⟨t1, t2⟩ := hd2 k t (by omega) hh
            refine ⟨fun ht => ?_, fun hf => ?_⟩
            · obtain ⟨u1, u2⟩ := t1 ht
              exact ⟨u1, by omega⟩
            · have := t2 hf
              omega
        · intro k hk
          cases k with
          | zero => rfl
          | succ k =>
            rw [replayHead_cons h w k c rest s hc, if_neg hr, hs1]
            exact ex2 k (by omega)

theorem loadMessage_slot (h : Header) (msgnr : Nat) (rambuffer : List Nat) (s : Yack)
    (h1 : 1 ≤ msgnr) (h4 : msgnr ≤ 4) (hl : rambuffer.length = h.RBSIZE) :
    loadMessage h msgnr rambuffer s = (slot msgnr s).take h.RBSIZE := by
  have hd : ∀ l : List Nat, l.length = h.RBSIZE → l.drop h.RBSIZE = [] := by
    intro l hl
    rw [← hl]
    exact List.drop_length l
  unfold loadMessage slot copyBlock
  interval_cases msgnr <;> simp [hd rambuffer hl]

/-- C18: for `msgnr` from 1 to 4 and a slot with a NUL among its first `RBSIZE`
bytes, `yackmessage(PLAY, msgnr)` returns, and the characters it hands to
`yackchar` are the first `m` of the bytes before the first NUL, in order.
`replayHead k` is the state in which the loop comes to byte `k`, and it exists
for every `k ≤ m`. When the poll `yackctrlkey(TRUE)` made there returns TRUE,
PLAY returns at once, with the state that this poll leaves, and `m = k`: byte
`k` and the bytes after it are not played. When it returns FALSE, byte `k` is
played. So `m` is all of the bytes unless a poll has returned TRUE, in which
case that return is the last event. No slot is written. -/
theorem yackmessage_play (h : Header) (w : Nat → Poll) (pd : Nat → Paddle) (ud : Nat → Nat)
    (junk : List Nat) (fuel msgnr : Nat) (s : Yack) (h1 : 1 ≤ msgnr) (h4 : msgnr ≤ 4)
    (hnul : 0 ∈ (slot msgnr s).take h.RBSIZE) :
    ∃ s' x m, yackmessage h w pd ud junk fuel .PLAY msgnr s = some s' ∧ s'.log = s.log ++ x ∧
      m ≤ (((slot msgnr s).take h.RBSIZE).takeWhile (fun c => decide (c ≠ 0))).length ∧
      charsOf x = (((slot msgnr s).take h.RBSIZE).takeWhile (fun c => decide (c ≠ 0))).take m ∧
      (m < (((slot msgnr s).take h.RBSIZE).takeWhile (fun c => decide (c ≠ 0))).length →
        ∃ pre j, x = pre ++ [Event.ctrlkey j true]) ∧
      ((∀ j, Event.ctrlkey j true ∉ x) →
        charsOf x = ((slot msgnr s).take h.RBSIZE).takeWhile (fun c => decide (c ≠ 0))) ∧
      sameSlots s s' ∧
      (∀ k t,
        k < (((slot msgnr s).take h.RBSIZE).takeWhile (fun c => decide (c ≠ 0))).length →
        replayHead h w k ((slot msgnr s).take h.RBSIZE) s = some t →
        ((yackctrlkey h w TRUE t).2 = true → s' = (yackctrlkey h w TRUE t).1 ∧ m = k) ∧
        ((yackctrlkey h w TRUE t).2 = false → k < m)) ∧
      (∀ k, k ≤ m → (replayHead h w k ((slot msgnr s).take h.RBSIZE) s).isSome = true) := by
  have hbuf : ((junk ++ List.replicate h.RBSIZE 0).take h.RBSIZE).length = h.RBSIZE := by
    simp
  obtain ⟨s', x, m, e, l, b, c, a, sl, hd, ex⟩ := replay_spec h w _ s hnul
  refine ⟨s', x, m, ?_, l, b, c, a, ?_, sl, hd, ex⟩
  · unfold yackmessage
    simp only [loadMessage_slot h msgnr _ s h1 h4 hbuf]
    exact e
  · intro hno
    by_cases hlt : m < (((slot msgnr s).take h.RBSIZE).takeWhile (fun c => decide (c ≠ 0))).length
    · obtain ⟨pre, j, hx⟩ := a hlt
      exact absurd (by rw [hx]; simp) (hno j)
    · rw [c, List.take_of_length_le (by omega)]

/-! ## Recording a message: `yackmessage(RECORD)` (C16, C17) -/

theorem keylatch_frame (p : Paddle) (s : Yack) :
    (keylatch p s).log = s.log ∧ sameSlots s (keylatch p s) := by
  unfold keylatch sameSlots
  simp only []
  split_ifs <;> exact ⟨rfl, rfl, rfl, rfl, rfl⟩

theorem modeLatch_frame (s : Yack) :
    (modeLatch s).log = s.log ∧ sameSlots s (modeLatch s) := by
  unfold modeLatch sameSlots
  simp only []
  split_ifs <;> exact ⟨rfl, rfl, rfl, rfl, rfl⟩

theorem startElement_frame (s : Yack) :
    (startElement s).1.log = s.log ++ [Event.keyDown] ∧ sameSlots s (startElement s).1 := by
  unfold startElement sameSlots
  simp only []
  split_ifs <;> simp [key]

theorem plainly_of_log_eq {s t : Yack} (h : t.log = s.log) : plainly s t :=
  ⟨[], by rw [h]; simp, by simp⟩

theorem idleCase_frame (p : Paddle) (u : Nat) (s : Yack) :
    plainly s (idleCase p u s).1 ∧ sameSlots s (idleCase p u s).1 := by
  have h1 := keylatch_frame p s
  have h2 := modeLatch_frame (keylatch p s)
  have hl : (modeLatch (keylatch p s)).log = s.log := by rw [h2.1, h1.1]
  have hs : sameSlots s (modeLatch (keylatch p s)) := sameSlots_trans h1.2 h2.2
  unfold idleCase
  simp only []
  split_ifs
  · exact ⟨plainly_of_log_eq (by rw [decodeChar_log, hl]),
      sameSlots_trans hs ⟨rfl, rfl, rfl, rfl⟩⟩
  · exact ⟨plainly_of_log_eq hl, sameSlots_trans hs ⟨rfl, rfl, rfl, rfl⟩⟩
  · refine ⟨⟨[Event.keyDown], ?_, ?_⟩, sameSlots_trans hs (startElement_frame _).2⟩
    · rw [(startElement_frame _).1, hl]
    · intro e he
      rw [List.mem_singleton.mp he]
      rfl
  · exact ⟨plainly_of_log_eq hl, hs⟩

theorem keyedCase_frame (p : Paddle) (s : Yack) :
    plainly s (keyedCase p s).1 ∧ sameSlots s (keyedCase p s).1 := by
  have h1 := keylatch_frame p s
  have hk : ∀ t : Yack, t.log = s.log → sameSlots s t →
      plainly s
        ({ key .UP t with timer := (IEGLEN * (key .UP t).wpmcnt) % 65536, fsms := .IEG },
          (0 : Nat)).1 ∧
      sameSlots s
        ({ key .UP t with timer := (IEGLEN * (key .UP t).wpmcnt) % 65536, fsms := .IEG },
          (0 : Nat)).1 := by
    intro t hl hs
    refine ⟨⟨[Event.keyUp], ?_, ?_⟩, sameSlots_trans hs ?_⟩
    · simp [key, hl]
    · intro e he
      rw [List.mem_singleton.mp he]
      rfl
    · simp [sameSlots, key]
  unfold keyedCase
  simp only []
  split_ifs
  · exact hk _ h1.1 h1.2
  · exact ⟨plainly_of_log_eq h1.1, h1.2⟩
  · exact hk _ rfl (sameSlots_refl s)
  · exact ⟨plainly_refl s, sameSlots_refl s⟩

theorem iegCase_frame (p : Paddle) (s : Yack) :
    plainly s (iegCase p s).1 ∧ sameSlots s (iegCase p s).1 := by
  have h1 := keylatch_frame p s
  unfold iegCase
  simp only []
  split_ifs
  · exact ⟨plainly_of_log_eq h1.1, sameSlots_trans h1.2 ⟨rfl, rfl, rfl, rfl⟩⟩
  · exact ⟨plainly_of_log_eq h1.1, h1.2⟩

/-- A call of `yackiambic` logs `key` calls only and writes no slot. -/
theorem yackiambic_frame (ctrl : Nat) (p : Paddle) (u : Nat) (s : Yack) :
    plainly s (yackiambic ctrl p u s).1 ∧ sameSlots s (yackiambic ctrl p u s).1 := by
  have h0 : plainly s (spaceDetect ctrl (countDown s)) ∧
      sameSlots s (spaceDetect ctrl (countDown s)) := by
    rw [countDown_eq, spaceDetect_eq]
    exact ⟨⟨[], by simp, by simp⟩, rfl, rfl, rfl, rfl⟩
  unfold yackiambic
  simp only []
  cases hf : (spaceDetect ctrl (countDown s)).fsms
  · simp only []
    exact ⟨plainly_trans h0.1 (idleCase_frame _ _ _).1,
      sameSlots_trans h0.2 (idleCase_frame _ _ _).2⟩
  · simp only []
    exact ⟨plainly_trans h0.1 (keyedCase_frame _ _).1,
      sameSlots_trans h0.2 (keyedCase_frame _ _).2⟩
  · simp only []
    exact ⟨plainly_trans h0.1 (iegCase_frame _ _).1,
      sameSlots_trans h0.2 (iegCase_frame _ _).2⟩

theorem dits_frame (l : List Nat) (s : Yack) :
    plainly s (l.foldl (fun s _ => yackdelay DITLEN (yackplay .DIT s)) s) ∧
    sameSlots s (l.foldl (fun s _ => yackdelay DITLEN (yackplay .DIT s)) s) := by
  induction l generalizing s with
  | nil => exact ⟨plainly_refl s, sameSlots_refl s⟩
  | cons a rest ih =>
    rw [List.foldl_cons]
    exact ⟨plainly_trans (plainly_trans (yackplay_plainly _ _) (yackdelay_plainly _ _)) (ih _).1,
      sameSlots_trans (sameSlots_trans (yackplay_slots _ _) (yackdelay_slots _ _)) (ih _).2⟩

/-- A call of `yackerror` logs its marker once, then keying and timing, and
writes no slot. -/
theorem yackerror_frame (s : Yack) :
    (∃ x, (yackerror s).log = s.log ++ Event.error :: x ∧ ∀ e ∈ x, plainEvent e = true) ∧
    sameSlots s (yackerror s) := by
  unfold yackerror
  simp only []
  obtain ⟨⟨x, hx, px⟩, sl⟩ := dits_frame (List.range 8) { s with log := s.log ++ [Event.error] }
  obtain ⟨y, hy, py⟩ := yackdelay_plainly DAHLEN
    ((List.range 8).foldl (fun s _ => yackdelay DITLEN (yackplay .DIT s))
      { s with log := s.log ++ [Event.error] })
  refine ⟨⟨x ++ y, ?_, ?_⟩, ?_⟩
  · rw [hy, hx]
    simp
  · intro e he
    rcases List.mem_append.mp he with h | h
    · exact px e h
    · exact py e h
  · exact sameSlots_trans (sameSlots_trans ⟨rfl, rfl, rfl, rfl⟩ sl) (yackdelay_slots _ _)

theorem plain_no_ctrlkey (x : List Event) (hx : ∀ e ∈ x, plainEvent e = true) (j : Nat)
    (r : Bool) : Event.ctrlkey j r ∉ x := by
  intro hm
  have := hx _ hm
  simp [plainEvent] at this

theorem plain_markers (x : List Event) (hx : ∀ e ∈ x, plainEvent e = true) :
    charsOf x = [] ∧ heardOf x = [] ∧ errorsOf x = 0 :=
  notMark_markers x (fun e he => plainEvent_notMark e (hx e he))

theorem recordLoop_succ (h : Header) (w : Nat → Poll) (pd : Nat → Paddle) (ud : Nat → Nat)
    (fuel k : Nat) (m : Capture) (s : Yack) (he : m.extimer ≠ 0) :
    recordLoop h w pd ud (fuel + 1) k m s
      = if (yackctrlkey h w FALSE s).2 = true then some ((yackctrlkey h w FALSE s).1, none)
        else
          match capture h (yackiambic ON (pd k) (ud k) (yackctrlkey h w FALSE s).1).2
              { m with extimer := m.extimer - 1 }
              (yackiambic ON (pd k) (ud k) (yackctrlkey h w FALSE s).1).1 with
          | none => none
          | some ms =>
            recordLoop h w pd ud fuel (k + 1) (overflow h ms.1 ms.2).1
              (yackbeat (overflow h ms.1 ms.2).2) := by
  rw [recordLoop, if_neg he]
  simp only []
  split_ifs
  · rfl
  · cases capture h (yackiambic ON (pd k) (ud k) (yackctrlkey h w FALSE s).1).2
        { m with extimer := m.extimer - 1 }
        (yackiambic ON (pd k) (ud k) (yackctrlkey h w FALSE s).1).1 <;> rfl

theorem overflow_lt (h : Header) (m : Capture) (s : Yack) (hi : m.i < h.RBSIZE) :
    overflow h m s = (m, s) := by
  unfold overflow
  rw [if_neg (by omega)]

theorem overflow_ge (h : Header) (m : Capture) (s : Yack) (hi : h.RBSIZE ≤ m.i) :
    overflow h m s = ({ m with i := 0 }, yackerror s) := by
  unfold overflow
  rw [if_pos hi]

/-- One pass of the recording loop after the poll and the call of `yackiambic`
that returned `c`: nothing is captured, or `c` is captured below the end of the
buffer, or `c` fills the buffer, the error prosign is sounded and the index goes
back to 0. -/
theorem record_pass (h : Header) (hR : 0 < h.RBSIZE) (hB : h.RBSIZE < 256) (c : Nat)
    (m : Capture) (s : Yack) (hi : m.i < h.RBSIZE) (hl : m.rambuffer.length = h.RBSIZE) :
    ∃ m2 s2, capture h c m s = some (m2, s2) ∧
      ∃ x, (yackbeat (overflow h m2 s2).2).log = s.log ++ x ∧
        sameSlots s (yackbeat (overflow h m2 s2).2) ∧
        (∀ j r, Event.ctrlkey j r ∉ x) ∧
        (overflow h m2 s2).1.rambuffer.length = h.RBSIZE ∧
        (overflow h m2 s2).1.i < h.RBSIZE ∧
        ((c = 0 ∧ heardOf x = [] ∧ errorsOf x = 0 ∧ (overflow h m2 s2).1.i = m.i ∧
            (overflow h m2 s2).1.rambuffer = m.rambuffer) ∨
          (c ≠ 0 ∧ heardOf x = [c] ∧ m.i + 1 < h.RBSIZE ∧ errorsOf x = 0 ∧
            (overflow h m2 s2).1.i = m.i + 1 ∧
            (overflow h m2 s2).1.rambuffer = m.rambuffer.set m.i c) ∨
          (c ≠ 0 ∧ heardOf x = [c] ∧ m.i + 1 = h.RBSIZE ∧ errorsOf x = 1 ∧
            (overflow h m2 s2).1.i = 0 ∧
            (overflow h m2 s2).1.rambuffer = m.rambuffer.set m.i c)) := by
  by_cases hc : c = 0
  · refine ⟨m, s, by simp [capture, hc], [Event.beat], ?_, ?_, ?_, ?_, ?_, Or.inl ?_⟩
    · rw [overflow_lt h m s hi]
      rfl
    · rw [overflow_lt h m s hi]
      exact ⟨rfl, rfl, rfl, rfl⟩
    · intro j r hm
      simp at hm
    · rw [overflow_lt h m s hi]
      exact hl
    · rw [overflow_lt h m s hi]
      exact hi
    · rw [overflow_lt h m s hi]
      exact ⟨hc, rfl, rfl, rfl, rfl⟩
  · have hmod : (m.i + 1) % 256 = m.i + 1 := Nat.mod_eq_of_lt (by omega)
    refine ⟨{ rambuffer := m.rambuffer.set m.i c, i := m.i + 1,
              extimer := h.RECTIMEOUT % 65536 },
      { s with log := s.log ++ [Event.heard c] }, by simp [capture, hc, hi, hmod], ?_⟩
    have hl' : (m.rambuffer.set m.i c).length = h.RBSIZE := by
      rw [List.length_set]
      exact hl
    by_cases ho : m.i + 1 < h.RBSIZE
    · rw [overflow_lt h _ _ ho]
      refine ⟨[Event.heard c, Event.beat], ?_, ⟨rfl, rfl, rfl, rfl⟩, ?_, hl', ho,
        Or.inr (Or.inl ⟨hc, rfl, ho, rfl, rfl, rfl⟩)⟩
      · simp [yackbeat]
      · intro j r hm
        simp at hm
    · have hfull : m.i + 1 = h.RBSIZE := by omega
      have hge : h.RBSIZE ≤ m.i + 1 := by omega
      obtain ⟨⟨y, hy, py⟩, sl⟩ := yackerror_frame { s with log := s.log ++ [Event.heard c] }
      rw [overflow_ge h _ _ hge]
      generalize yackerror { s with log := s.log ++ [Event.heard c] } = e at hy sl ⊢
      refine ⟨Event.heard c :: Event.error :: (y ++ [Event.beat]), ?_, ?_, ?_, hl', hR,
        Or.inr (Or.inr ⟨hc, ?_, hfull, ?_, rfl, rfl⟩)⟩
      · show e.log ++ [Event.beat] = _
        rw [hy]
        simp
      · exact sameSlots_trans (sameSlots_trans ⟨rfl, rfl, rfl, rfl⟩ sl) ⟨rfl, rfl, rfl, rfl⟩
      · intro j r hm
        simp only [List.mem_cons, List.mem_append, List.mem_singleton, List.not_mem_nil,
          or_false] at hm
        rcases hm with hm | hm | hm | hm
        · cases hm
        · cases hm
        · exact plain_no_ctrlkey y py j r hm
        · cases hm
      · have := (plain_markers y py).2.1
        simp only [heardOf, List.filterMap_cons, List.filterMap_append,
          List.filterMap_nil] at this ⊢
        rw [this]
        rfl
      · have := (plain_markers y py).2.2
        simp only [errorsOf, List.count_cons, List.count_append, List.count_nil] at this ⊢
        rw [this]
        simp

theorem plain_truePoll (e : Event) (he : plainEvent e = true) : truePoll e = false := by
  cases e <;> simp_all [plainEvent, truePoll]

theorem take_set_succ (l : List Nat) (i c : Nat) (hi : i < l.length) :
    (l.set i c).take (i + 1) = l.take i ++ [c] := by
  rw [List.take_succ, take_set_self]
  simp [hi]

/-- The recording loop from a pass at which the buffer holds the characters
`pre` below the index: it writes no slot; it ends on a poll that returned TRUE,
or at the timeout with every poll FALSE, and then, `all` being `pre` followed by
the characters heard, the index is `|all| mod RBSIZE`, `yackerror` was called
`|all| / RBSIZE` times, and the buffer holds the last characters of `all` below
the index. -/
theorem recordLoop_spec (h : Header) (w : Nat → Poll) (pd : Nat → Paddle) (ud : Nat → Nat)
    (hR : 0 < h.RBSIZE) (hB : h.RBSIZE < 256) :
    ∀ fuel k m s pre s' out, m.rambuffer.length = h.RBSIZE → m.i < h.RBSIZE →
      pre.length = m.i → m.rambuffer.take m.i = pre →
      recordLoop h w pd ud fuel k m s = some (s', out) →
      ∃ x, s'.log = s.log ++ x ∧ sameSlots s s' ∧
        (out = none → ∃ y j, x = y ++ [Event.ctrlkey j true]) ∧
        (∀ m', out = some m' →
          noTruePoll x ∧ m'.rambuffer.length = h.RBSIZE ∧
          m'.i = (pre ++ heardOf x).length % h.RBSIZE ∧
          errorsOf x = (pre ++ heardOf x).length / h.RBSIZE ∧
          m'.rambuffer.take m'.i
            = (pre ++ heardOf x).drop ((pre ++ heardOf x).length - m'.i)) := by
  have hstop : ∀ (m : Capture) (s : Yack) (pre : List Nat), m.rambuffer.length = h.RBSIZE →
      m.i < h.RBSIZE → pre.length = m.i → m.rambuffer.take m.i = pre →
      ∃ x, s.log = s.log ++ x ∧ sameSlots s s ∧
        ((some m : Option Capture) = none → ∃ y j, x = y ++ [Event.ctrlkey j true]) ∧
        (∀ m', some m = some m' →
          noTruePoll x ∧ m'.rambuffer.length = h.RBSIZE ∧
          m'.i = (pre ++ heardOf x).length % h.RBSIZE ∧
          errorsOf x = (pre ++ heardOf x).length / h.RBSIZE ∧
          m'.rambuffer.take m'.i
            = (pre ++ heardOf x).drop ((pre ++ heardOf x).length - m'.i)) := by
    intro m s pre hl hi hp ht
    refine ⟨[], by simp, sameSlots_refl s, fun hc => (by cases hc), ?_⟩
    intro m' hm'
    simp only [Option.some.injEq] at hm'
    subst hm'
    refine ⟨fun e he => (by cases he), hl, ?_, ?_, ?_⟩
    · simp [heardOf, hp, Nat.mod_eq_of_lt hi]
    · simp [heardOf, errorsOf, hp, Nat.div_eq_of_lt hi]
    · simp [heardOf, hp, ht]
  intro fuel
  induction fuel with
  | zero =>
    intro k m s pre s' out hl hi hp ht hrun
    rw [recordLoop] at hrun
    split_ifs at hrun
    simp only [Option.some.injEq, Prod.mk.injEq] at hrun
    obtain ⟨e1, e2⟩ := hrun
    subst e1 e2
    exact hstop m s pre hl hi hp ht
  | succ fuel ih =>
    intro k m s pre s' out hl hi hp ht hrun
    by_cases he : m.extimer = 0
    · rw [recordLoop, if_pos he] at hrun
      simp only [Option.some.injEq, Prod.mk.injEq] at hrun
      obtain ⟨e1, e2⟩ := hrun
      subst e1 e2
      exact hstop m s pre hl hi hp ht
    · rw [recordLoop_succ h w pd ud fuel k m s he] at hrun
      obtain ⟨y, hy, py⟩ := yackctrlkey_log h w FALSE s
      have sl0 := yackctrlkey_slots h w FALSE s
      by_cases hr : (yackctrlkey h w FALSE s).2 = true
      · rw [if_pos hr] at hrun
        simp only [Option.some.injEq, Prod.mk.injEq] at hrun
        obtain ⟨e1, e2⟩ := hrun
        subst e1 e2
        refine ⟨y ++ [Event.ctrlkey s.npolls true], ?_, sl0, fun _ => ⟨y, s.npolls, rfl⟩,
          fun m' hm' => (by cases hm')⟩
        rw [hy, hr, List.append_assoc]
      · rw [if_neg hr] at hrun
        have hr' : (yackctrlkey h w FALSE s).2 = false := by simpa using hr
        rw [hr'] at hy
        obtain ⟨⟨z, hz, pz⟩, sl1⟩ := yackiambic_frame ON (pd k) (ud k) (yackctrlkey h w FALSE s).1
        obtain ⟨m2, s2, hcap, x, hx, sl2, nx, hl3, hi3, hcase⟩ := record_pass h hR hB
          (yackiambic ON (pd k) (ud k) (yackctrlkey h w FALSE s).1).2
          { m with extimer := m.extimer - 1 }
          (yackiambic ON (pd k) (ud k) (yackctrlkey h w FALSE s).1).1 hi hl
        rw [hcap] at hrun
        simp only [] at hrun
        have hfront : ∀ u, noTruePoll u →
            noTruePoll (y ++ [Event.ctrlkey s.npolls false] ++ z ++ x ++ u) := by
          intro u hu e hm
          simp only [List.mem_append, List.mem_singleton] at hm
          rcases hm with (((hm | hm) | hm) | hm) | hm
          · exact plain_truePoll e (py e hm)
          · rw [hm]
            rfl
          · exact plain_truePoll e (pz e hm)
          · cases e with
            | ctrlkey j r => exact absurd hm (nx j r)
            | _ => rfl
          · exact hu e hm
        have hheard : ∀ u, heardOf (y ++ [Event.ctrlkey s.npolls false] ++ z ++ x ++ u)
            = heardOf x ++ heardOf u := by
          intro u
          rw [heardOf_append, heardOf_append, heardOf_append, heardOf_append,
            (plain_markers y py).2.1, (plain_markers z pz).2.1]
          simp [heardOf]
        have herr : ∀ u, errorsOf (y ++ [Event.ctrlkey s.npolls false] ++ z ++ x ++ u)
            = errorsOf x + errorsOf u := by
          intro u
          rw [errorsOf_append, errorsOf_append, errorsOf_append, errorsOf_append,
            (plain_markers y py).2.2, (plain_markers z pz).2.2]
          simp [errorsOf]
        have hlog : ∀ u, s'.log = (yackbeat (overflow h m2 s2).2).log ++ u →
            s'.log = s.log ++ (y ++ [Event.ctrlkey s.npolls false] ++ z ++ x ++ u) := by
          intro u hu
          rw [hu, hx, hz, hy]
          simp
        have hslots : sameSlots s (yackbeat (overflow h m2 s2).2) :=
          sameSlots_trans sl0 (sameSlots_trans sl1 sl2)
        rcases hcase with ⟨hc0, hh, hE, hi', hb'⟩ | ⟨hc1, hh, hlt, hE, hi', hb'⟩ |
            ⟨hc1, hh, hfull, hE, hi', hb'⟩
        · -- nothing captured
          obtain ⟨u, hu, slu, habort, htime⟩ := ih (k + 1) _ _ pre s' out hl3 hi3
            (by rw [hi']; exact hp) (by rw [hi', hb']; exact ht) hrun
          refine ⟨_, hlog u hu, sameSlots_trans hslots slu, ?_, ?_⟩
          · intro ho
            obtain ⟨v, j, hv⟩ := habort ho
            exact ⟨y ++ [Event.ctrlkey s.npolls false] ++ z ++ x ++ v, j, by rw [hv]; simp⟩
          · intro m' hm'
            obtain ⟨t1, t2, t3, t4, t5⟩ := htime m' hm'
            rw [hheard, herr, hh, hE]
            simp only [List.nil_append, Nat.zero_add]
            exact ⟨hfront u t1, t2, t3, t4, t5⟩
        · -- a character is captured below the end of the buffer
          obtain ⟨u, hu, slu, habort, htime⟩ := ih (k + 1) _ _
            (pre ++ [(yackiambic ON (pd k) (ud k) (yackctrlkey h w FALSE s).1).2]) s' out hl3 hi3
            (by rw [hi']; simp [hp])
            (by rw [hi', hb']
                show (m.rambuffer.set m.i _).take (m.i + 1) = _
                rw [take_set_succ _ _ _ (by rw [hl]; exact hi), ht]) hrun
          refine ⟨_, hlog u hu, sameSlots_trans hslots slu, ?_, ?_⟩
          · intro ho
            obtain ⟨v, j, hv⟩ := habort ho
            exact ⟨y ++ [Event.ctrlkey s.npolls false] ++ z ++ x ++ v, j, by rw [hv]; simp⟩
          · intro m' hm'
            obtain ⟨t1, t2, t3, t4, t5⟩ := htime m' hm'
            rw [hheard, herr, hh, hE]
            simp only [Nat.zero_add]
            rw [List.append_assoc] at t3 t4 t5
            exact ⟨hfront u t1, t2, t3, t4, t5⟩
        · -- the character fills the buffer
          obtain ⟨u, hu, slu, habort, htime⟩ := ih (k + 1) _ _ [] s' out hl3 hi3
            (by rw [hi']; rfl) (by rw [hi']; rfl) hrun
          refine ⟨_, hlog u hu, sameSlots_trans hslots slu, ?_, ?_⟩
          · intro ho
            obtain ⟨v, j, hv⟩ := habort ho
            exact ⟨y ++ [Event.ctrlkey s.npolls false] ++ z ++ x ++ v, j, by rw [hv]; simp⟩
          · intro m' hm'
            obtain ⟨t1, t2, t3, t4, t5⟩ := htime m' hm'
            simp only [List.nil_append] at t3 t4 t5
            rw [hheard, herr, hh, hE]
            have hfl : (pre ++ ([(yackiambic ON (pd k) (ud k) (yackctrlkey h w FALSE s).1).2]
                ++ heardOf u)).length = h.RBSIZE + (heardOf u).length := by
              simp only [List.length_append, List.length_singleton]
              change m.i + 1 = h.RBSIZE at hfull
              omega
            have hle : m'.i ≤ (heardOf u).length := by
              rw [t3]
              exact Nat.mod_le _ _
            refine ⟨hfront u t1, t2, ?_, ?_, ?_⟩
            · rw [hfl, Nat.add_mod_left]
              exact t3
            · rw [hfl, Nat.add_div_left _ hR, t4]
              omega
            · rw [hfl, t5]
              have hsplit : pre ++ ([(yackiambic ON (pd k) (ud k)
                  (yackctrlkey h w FALSE s).1).2] ++ heardOf u)
                  = (pre ++ [(yackiambic ON (pd k) (ud k) (yackctrlkey h w FALSE s).1).2])
                    ++ heardOf u := by simp
              have hpl : (pre ++ [(yackiambic ON (pd k) (ud k)
                  (yackctrlkey h w FALSE s).1).2]).length = h.RBSIZE := by
                simp only [List.length_append, List.length_singleton]
                change m.i + 1 = h.RBSIZE at hfull
                omega
              have hidx : h.RBSIZE + (heardOf u).length - m'.i
                  = (pre ++ [(yackiambic ON (pd k) (ud k)
                      (yackctrlkey h w FALSE s).1).2]).length
                    + ((heardOf u).length - m'.i) := by
                rw [hpl]
                omega
              rw [hsplit, hidx, List.drop_append]

theorem storeMessage_slots (h : Header) (msgnr : Nat) (m : Capture) (s : Yack) (hi : m.i ≠ 0) :
    (storeMessage h msgnr m s).log = s.log ∧
    (∀ n, n ≠ msgnr → slot n (storeMessage h msgnr m s) = slot n s) ∧
    (1 ≤ msgnr → msgnr ≤ 4 →
      slot msgnr (storeMessage h msgnr m s)
        = copyBlock (m.rambuffer.set (m.i - 1) 0) (slot msgnr s) h.RBSIZE) := by
  have hcases : msgnr = 1 ∨ msgnr = 2 ∨ msgnr = 3 ∨ msgnr = 4 ∨
      (msgnr ≠ 1 ∧ msgnr ≠ 2 ∧ msgnr ≠ 3 ∧ msgnr ≠ 4) := by omega
  unfold storeMessage
  rw [if_pos hi]
  simp only []
  rcases hcases with rfl | rfl | rfl | rfl | ⟨a, b, c, d⟩
  · refine ⟨by simp, fun n hn => by simp [slot, hn], fun _ _ => by simp [slot]⟩
  · refine ⟨by simp, fun n hn => by simp [slot, hn], fun _ _ => by simp [slot]⟩
  · refine ⟨by simp, fun n hn => by simp [slot, hn], fun _ _ => by simp [slot]⟩
  · refine ⟨by simp, fun n hn => by simp [slot, hn], fun _ _ => by simp [slot]⟩
  · refine ⟨by simp [a, b, c, d], fun n hn => by simp [a, b, c, d], fun _ _ => by omega⟩

/-- A recording that returns: the log of the recording loop `xloop` and of what
follows it `xend`. Either the loop ended on a poll that returned TRUE and no
slot is written; or every poll returned FALSE, the loop called `yackerror` once
for every `RBSIZE` characters heard, and then either nothing is in the buffer,
`yackerror` is called once more and no slot is written, or slot `msgnr` alone
is written and starts with the characters heard since the last restart
without the final one, and a NUL. -/
theorem record_session (h : Header) (w : Nat → Poll) (pd : Nat → Paddle) (ud : Nat → Nat)
    (junk : List Nat) (fuel msgnr : Nat) (s s' : Yack) (hR : 0 < h.RBSIZE) (ht : h.typed)
    (hy : yackmessage h w pd ud junk fuel .RECORD msgnr s = some s') :
    ∃ xloop xend, s'.log = s.log ++ (xloop ++ xend) ∧ heardOf xend = [] ∧ noTruePoll xend ∧
      (((∃ y j, xloop = y ++ [Event.ctrlkey j true]) ∧ sameSlots s s') ∨
        (noTruePoll xloop ∧ errorsOf xloop = (heardOf xloop).length / h.RBSIZE ∧
          (((heardOf xloop).length % h.RBSIZE = 0 ∧ errorsOf xend = 1 ∧ sameSlots s s') ∨
            ((heardOf xloop).length % h.RBSIZE ≠ 0 ∧ xend = [] ∧
              (∀ n, n ≠ msgnr → slot n s' = slot n s) ∧
              (1 ≤ msgnr → msgnr ≤ 4 →
                (slot msgnr s').take ((heardOf xloop).length % h.RBSIZE)
                  = ((heardOf xloop).drop
                      ((heardOf xloop).length - (heardOf xloop).length % h.RBSIZE)).dropLast
                    ++ [0]))))) := by
  have hB : h.RBSIZE < 256 := ht.2.2.2.2.2.1
  have hbuf : ((junk ++ List.replicate h.RBSIZE 0).take h.RBSIZE).length = h.RBSIZE := by
    simp
  unfold yackmessage at hy
  simp only [] at hy
  cases hrun : recordLoop h w pd ud fuel 0
      { rambuffer := (junk ++ List.replicate h.RBSIZE 0).take h.RBSIZE, i := 0,
        extimer := h.RECTIMEOUT % 65536 } s with
  | none =>
    rw [hrun] at hy
    cases hy
  | some r =>
    obtain ⟨s1, out⟩ := r
    rw [hrun] at hy
    obtain ⟨x, hx, sl, habort, htime⟩ := recordLoop_spec h w pd ud hR hB fuel 0
      { rambuffer := (junk ++ List.replicate h.RBSIZE 0).take h.RBSIZE, i := 0,
        extimer := h.RECTIMEOUT % 65536 } s [] s1 out hbuf hR rfl rfl hrun
    cases out with
    | none =>
      simp only [Option.some.injEq] at hy
      subst hy
      exact ⟨x, [], by simpa using hx, rfl, fun e he => (by cases he),
        Or.inl ⟨habort rfl, sl⟩⟩
    | some m =>
      simp only [Option.some.injEq] at hy
      obtain ⟨t1, t2, t3, t4, t5⟩ := htime m rfl
      simp only [List.nil_append] at t3 t4 t5
      by_cases hi : m.i = 0
      · have hs' : s' = yackerror s1 := by
          rw [← hy]
          unfold storeMessage
          rw [if_neg (by simpa using hi)]
        obtain ⟨⟨y, hy1, py⟩, sly⟩ := yackerror_frame s1
        rw [← hs'] at hy1 sly
        refine ⟨x, Event.error :: y, ?_, ?_, ?_, Or.inr ⟨t1, t4, Or.inl ⟨?_, ?_, ?_⟩⟩⟩
        · rw [hy1, hx, List.append_assoc]
        · have := (plain_markers y py).2.1
          simp only [heardOf, List.filterMap_cons] at this ⊢
          exact this
        · intro e he
          rcases List.mem_cons.mp he with rfl | he
          · rfl
          · exact plain_truePoll e (py e he)
        · rw [← t3]
          exact hi
        · have := (plain_markers y py).2.2
          simp only [errorsOf, List.count_cons] at this ⊢
          rw [this]
          simp
        · exact sameSlots_trans sl sly
      · obtain ⟨l1, l2, l3⟩ := storeMessage_slots h msgnr m s1 hi
        rw [hy] at l1 l2 l3
        have hk : (heardOf x).length % h.RBSIZE ≠ 0 := by
          rw [← t3]
          exact hi
        have hklt : m.i < h.RBSIZE := by
          rw [t3]
          exact Nat.mod_lt _ hR
        refine ⟨x, [], ?_, rfl, fun e he => (by cases he),
          Or.inr ⟨t1, t4, Or.inr ⟨hk, rfl, ?_, ?_⟩⟩⟩
        · rw [l1, hx, List.append_nil]
        · intro n hn
          rw [l2 n hn]
          obtain ⟨a1, a2, a3, a4⟩ := sl
          unfold slot
          rw [a1, a2, a3, a4]
        · intro h1 h4
          rw [l3 h1 h4, ← t3]
          unfold copyBlock
          have hlen : (m.rambuffer.set (m.i - 1) 0).length = h.RBSIZE := by
            rw [List.length_set]
            exact t2
          rw [List.take_append_of_le_length (by rw [List.length_take, hlen]; omega),
            List.take_take, Nat.min_eq_left (by omega)]
          have hset := take_set_succ m.rambuffer (m.i - 1) 0 (by rw [t2]; omega)
          rw [Nat.sub_add_cancel (by omega)] at hset
          rw [hset, ← List.dropLast_take (by rw [t2]; exact hklt), t5]

/-- C16: a recording `yackmessage(RECORD, msgnr)` that returns leaves all four
message slots as they were when a command-key poll has returned TRUE, and when
no character is in the buffer at the timeout; otherwise, every poll having
returned FALSE and `k > 0` characters being in the buffer, the slots other than
`msgnr` are unchanged and slot `msgnr` starts with the last `k` characters
heard, in order and without the final one, followed by a NUL. The buffer index
is the number of characters heard modulo `RBSIZE`. -/
theorem yackmessage_record_slots (h : Header) (w : Nat → Poll) (pd : Nat → Paddle)
    (ud : Nat → Nat) (junk : List Nat) (fuel msgnr : Nat) (s s' : Yack) (hR : 0 < h.RBSIZE)
    (ht : h.typed) (hy : yackmessage h w pd ud junk fuel .RECORD msgnr s = some s') :
    ∃ x, s'.log = s.log ++ x ∧
      (¬ noTruePoll x → sameSlots s s') ∧
      ((heardOf x).length % h.RBSIZE = 0 → sameSlots s s') ∧
      (noTruePoll x → (heardOf x).length % h.RBSIZE ≠ 0 →
        (∀ n, n ≠ msgnr → slot n s' = slot n s) ∧
        (1 ≤ msgnr → msgnr ≤ 4 →
          (slot msgnr s').take ((heardOf x).length % h.RBSIZE)
            = ((heardOf x).drop
                ((heardOf x).length - (heardOf x).length % h.RBSIZE)).dropLast ++ [0])) := by
  obtain ⟨xloop, xend, hl, he, hn, hcase⟩ := record_session h w pd ud junk fuel msgnr s s' hR ht hy
  have hheard : heardOf (xloop ++ xend) = heardOf xloop := by
    rw [heardOf_append, he, List.append_nil]
  refine ⟨xloop ++ xend, hl, ?_, ?_, ?_⟩
  · intro hno
    rcases hcase with ⟨_, sl⟩ | ⟨np, _, hc⟩
    · exact sl
    · rcases hc with ⟨_, _, sl⟩ | ⟨_, hx, _, _⟩
      · exact sl
      · exfalso
        apply hno
        intro e hm
        rcases List.mem_append.mp hm with h1 | h1
        · exact np e h1
        · exact hn e h1
  · intro hk
    rw [hheard] at hk
    rcases hcase with ⟨_, sl⟩ | ⟨_, _, hc⟩
    · exact sl
    · rcases hc with ⟨_, _, sl⟩ | ⟨hk', _, _, _⟩
      · exact sl
      · exact absurd hk hk'
  · intro hno hk
    rw [hheard] at hk ⊢
    rcases hcase with ⟨⟨y, j, hx⟩, _⟩ | ⟨_, _, hc⟩
    · exfalso
      have := hno (Event.ctrlkey j true) (by rw [hx]; simp)
      simp [truePoll] at this
    · rcases hc with ⟨hk', _, _⟩ | ⟨_, _, ho, hm⟩
      · exact absurd hk' hk
      · exact ⟨ho, hm⟩

theorem record_example_returns :
    (yackmessage recordHeader (fun _ => none) oneDit (fun _ => 0) [] 100 .RECORD 1
      recordState).isSome = true := by
  decide

/-- Witness for C16: the letter E keyed into slot 1 at 5 bytes per message: the
recording hears E and the word space and stores E and a NUL. -/
theorem yackmessage_record_slots_witness :
    (∃ s', yackmessage recordHeader (fun _ => none) oneDit (fun _ => 0) [] 100 .RECORD 1
        recordState = some s' ∧
      ∃ x, s'.log = recordState.log ++ x ∧
        (¬ noTruePoll x → sameSlots recordState s') ∧
        ((heardOf x).length % recordHeader.RBSIZE = 0 → sameSlots recordState s') ∧
        (noTruePoll x → (heardOf x).length % recordHeader.RBSIZE ≠ 0 →
          (∀ n, n ≠ 1 → slot n s' = slot n recordState) ∧
          (1 ≤ 1 → 1 ≤ 4 →
            (slot 1 s').take ((heardOf x).length % recordHeader.RBSIZE)
              = ((heardOf x).drop
                  ((heardOf x).length - (heardOf x).length % recordHeader.RBSIZE)).dropLast
                ++ [0]))) ∧
    (yackmessage recordHeader (fun _ => none) oneDit (fun _ => 0) [] 100 .RECORD 1
        recordState).map (fun s => (heardOf s.log, decide (noTruePoll s.log), s.eebuffer1))
      = some (['E'.toNat, ' '.toNat], true, ['E'.toNat, 0, 0, 0, 0]) :=
  ⟨⟨_, (Option.some_get record_example_returns).symm,
      yackmessage_record_slots recordHeader (fun _ => none) oneDit (fun _ => 0) [] 100 1
        recordState _ (by decide) (by decide) (Option.some_get record_example_returns).symm⟩,
    by decide⟩

/-- C17, amended: in a recording that returns with every poll FALSE, that is by
timeout, the log splits into that of the recording loop and that of what
follows. In the loop `yackerror` is called where the index reaches `RBSIZE`,
once for every `RBSIZE` characters heard; after the loop it is called once more
when no character was heard since the last restart. So when the index has
reached `RBSIZE` exactly once, `yackerror` is played once if a character was
heard after the overflow and twice if none was, and the capture restarted at
index 0: the stored message starts with the characters heard after the first
`RBSIZE`, without the final one, and a NUL. -/
theorem yackmessage_record_errors (h : Header) (w : Nat → Poll) (pd : Nat → Paddle)
    (ud : Nat → Nat) (junk : List Nat) (fuel msgnr : Nat) (s s' : Yack) (hR : 0 < h.RBSIZE)
    (ht : h.typed) (hy : yackmessage h w pd ud junk fuel .RECORD msgnr s = some s') :
    ∃ xloop xend, s'.log = s.log ++ (xloop ++ xend) ∧
      heardOf (xloop ++ xend) = heardOf xloop ∧
      (noTruePoll (xloop ++ xend) →
        errorsOf xloop = (heardOf xloop).length / h.RBSIZE ∧
        errorsOf xend = (if (heardOf xloop).length % h.RBSIZE = 0 then 1 else 0) ∧
        (errorsOf xloop = 1 →
          errorsOf (xloop ++ xend) = (if (heardOf xloop).length = h.RBSIZE then 2 else 1) ∧
          ((heardOf xloop).length ≠ h.RBSIZE → 1 ≤ msgnr → msgnr ≤ 4 →
            (slot msgnr s').take ((heardOf xloop).length - h.RBSIZE)
              = ((heardOf xloop).drop h.RBSIZE).dropLast ++ [0]))) := by
  obtain ⟨xloop, xend, hl, he, hn, hcase⟩ := record_session h w pd ud junk fuel msgnr s s' hR ht hy
  refine ⟨xloop, xend, hl, by rw [heardOf_append, he, List.append_nil], ?_⟩
  intro hno
  rcases hcase with ⟨⟨y, j, hx⟩, _⟩ | ⟨_, hE, hc⟩
  · exfalso
    have := hno (Event.ctrlkey j true) (by rw [hx]; simp)
    simp [truePoll] at this
  · have hdm := Nat.div_add_mod (heardOf xloop).length h.RBSIZE
    have hmlt := Nat.mod_lt (heardOf xloop).length hR
    rcases hc with ⟨hk, hend, _⟩ | ⟨hk, hend, _, hm⟩
    · refine ⟨hE, by rw [if_pos hk, hend], ?_⟩
      intro h1
      rw [hE] at h1
      rw [h1, hk] at hdm
      have htot : (heardOf xloop).length = h.RBSIZE := by omega
      refine ⟨?_, fun hne => absurd htot hne⟩
      rw [errorsOf_append, hE, hend, if_pos htot, htot, Nat.div_self hR]
    · refine ⟨hE, by rw [if_neg hk, hend]; rfl, ?_⟩
      intro h1
      rw [hE] at h1
      rw [h1] at hdm
      have htot : (heardOf xloop).length ≠ h.RBSIZE := by omega
      refine ⟨?_, fun _ m1 m4 => ?_⟩
      · rw [errorsOf_append, hE, h1, hend, if_neg htot]
        rfl
      · have e1 : (heardOf xloop).length % h.RBSIZE = (heardOf xloop).length - h.RBSIZE := by
          omega
        have e2 : (heardOf xloop).length - ((heardOf xloop).length - h.RBSIZE) = h.RBSIZE := by
          omega
        have := hm m1 m4
        rw [e1, e2] at this
        exact this

/-- Witness for C17, amended: the recording of the letter E at 5 bytes per
message: no overflow, no `yackerror`. -/
theorem yackmessage_record_errors_witness :
    (∃ s', yackmessage recordHeader (fun _ => none) oneDit (fun _ => 0) [] 100 .RECORD 1
        recordState = some s' ∧
      ∃ xloop xend, s'.log = recordState.log ++ (xloop ++ xend) ∧
        heardOf (xloop ++ xend) = heardOf xloop ∧
        (noTruePoll (xloop ++ xend) →
          errorsOf xloop = (heardOf xloop).length / recordHeader.RBSIZE ∧
          errorsOf xend = (if (heardOf xloop).length % recordHeader.RBSIZE = 0 then 1 else 0) ∧
          (errorsOf xloop = 1 →
            errorsOf (xloop ++ xend)
              = (if (heardOf xloop).length = recordHeader.RBSIZE then 2 else 1) ∧
            ((heardOf xloop).length ≠ recordHeader.RBSIZE → 1 ≤ 1 → 1 ≤ 4 →
              (slot 1 s').take ((heardOf xloop).length - recordHeader.RBSIZE)
                = ((heardOf xloop).drop recordHeader.RBSIZE).dropLast ++ [0])))) ∧
    (yackmessage recordHeader (fun _ => none) oneDit (fun _ => 0) [] 100 .RECORD 1
        recordState).map (fun s => errorsOf s.log) = some 0 :=
  ⟨⟨_, (Option.some_get record_example_returns).symm,
      yackmessage_record_errors recordHeader (fun _ => none) oneDit (fun _ => 0) [] 100 1
        recordState _ (by decide) (by decide) (Option.some_get record_example_returns).symm⟩,
    by decide⟩

set_option maxRecDepth 100000 in
theorem record_overflow_loop :
    (recordLoop shortHeader (fun _ => none) oneDit (fun _ => 0) 100 0
        { rambuffer := [0, 0], i := 0, extimer := 8 } recordState).map
      (fun r => (heardOf r.1.log, decide (noTruePoll r.1.log), errorsOf r.1.log,
        r.2.map Capture.i))
      = some (['E'.toNat, ' '.toNat], true, 1, some 0) := by
  decide

set_option maxRecDepth 100000 in
theorem record_overflow_session :
    (yackmessage shortHeader (fun _ => none) oneDit (fun _ => 0) [] 100 .RECORD 1
        recordState).map
      (fun s => (heardOf s.log, decide (noTruePoll s.log), errorsOf s.log, s.eebuffer1))
      = some (['E'.toNat, ' '.toNat], true, 2, []) := by
  decide

/-- C17 as stated fails: with a buffer of 2 bytes, the letter E and the word
space that follows it bring the index to `RBSIZE` once, on the space, and
`yackerror` is played there; nothing more is keyed, the recording loop ends by
timeout with the index at 0 and one `yackerror` played, and `yackmessage` then
plays `yackerror` a second time. -/
theorem record_overflow_two_errors :
    shortHeader.RBSIZE = 2 ∧
    (recordLoop shortHeader (fun _ => none) oneDit (fun _ => 0) 100 0
        { rambuffer := [0, 0], i := 0, extimer := 8 } recordState).map
      (fun r => (heardOf r.1.log, decide (noTruePoll r.1.log), errorsOf r.1.log,
        r.2.map Capture.i))
      = some (['E'.toNat, ' '.toNat], true, 1, some 0) ∧
    (yackmessage shortHeader (fun _ => none) oneDit (fun _ => 0) [] 100 .RECORD 1
        recordState).map
      (fun s => (heardOf s.log, decide (noTruePoll s.log), errorsOf s.log, s.eebuffer1))
      = some (['E'.toNat, ' '.toNat], true, 2, []) :=
  ⟨rfl, record_overflow_loop, record_overflow_session⟩

set_option maxRecDepth 100000 in
theorem play_example_runs :
    (yackmessage exampleHeader (fun _ => none) oneDit (fun _ => 0) [] 0 .PLAY 1
        messageState).map (fun s => charsOf s.log) = some ['A'.toNat, 'B'.toNat] ∧
    (yackmessage exampleHeader (pressAtPoll 3) oneDit (fun _ => 0) [] 0 .PLAY 1
        messageState).map (fun s => (charsOf s.log, s.log.getLast?))
      = some (['A'.toNat], some (Event.ctrlkey 3 true)) ∧
    (replayHead exampleHeader (pressAtPoll 3) 1 ((slot 1 messageState).take exampleHeader.RBSIZE)
        messageState).map (fun t => (yackctrlkey exampleHeader (pressAtPoll 3) TRUE t).2)
      = some true := by
  decide

/-- Witness for C18: slot 1 holding "AB", a NUL and a leftover byte, played with
the command button pressed during poll 3, the poll that `yackmessage` makes
before B: A is played, that poll returns TRUE and is the last event, and B is
not played. With the button open at every poll A and B are played. -/
theorem yackmessage_play_witness :
    (∃ s' x m, yackmessage exampleHeader (pressAtPoll 3) oneDit (fun _ => 0) [] 0 .PLAY 1
        messageState = some s' ∧ s'.log = messageState.log ++ x ∧
      m ≤ (((slot 1 messageState).take exampleHeader.RBSIZE).takeWhile
            (fun c => decide (c ≠ 0))).length ∧
      charsOf x = (((slot 1 messageState).take exampleHeader.RBSIZE).takeWhile
            (fun c => decide (c ≠ 0))).take m ∧
      (m < (((slot 1 messageState).take exampleHeader.RBSIZE).takeWhile
            (fun c => decide (c ≠ 0))).length →
        ∃ pre j, x = pre ++ [Event.ctrlkey j true]) ∧
      ((∀ j, Event.ctrlkey j true ∉ x) →
        charsOf x = ((slot 1 messageState).take exampleHeader.RBSIZE).takeWhile
            (fun c => decide (c ≠ 0))) ∧
      sameSlots messageState s' ∧
      (∀ k t,
        k < (((slot 1 messageState).take exampleHeader.RBSIZE).takeWhile
            (fun c => decide (c ≠ 0))).length →
        replayHead exampleHeader (pressAtPoll 3) k
          ((slot 1 messageState).take exampleHeader.RBSIZE) messageState = some t →
        ((yackctrlkey exampleHeader (pressAtPoll 3) TRUE t).2 = true →
          s' = (yackctrlkey exampleHeader (pressAtPoll 3) TRUE t).1 ∧ m = k) ∧
        ((yackctrlkey exampleHeader (pressAtPoll 3) TRUE t).2 = false → k < m)) ∧
      (∀ k, k ≤ m → (replayHead exampleHeader (pressAtPoll 3) k
          ((slot 1 messageState).take exampleHeader.RBSIZE) messageState).isSome = true)) ∧
    (yackmessage exampleHeader (fun _ => none) oneDit (fun _ => 0) [] 0 .PLAY 1
        messageState).map (fun s => charsOf s.log) = some ['A'.toNat, 'B'.toNat] ∧
    (yackmessage exampleHeader (pressAtPoll 3) oneDit (fun _ => 0) [] 0 .PLAY 1
        messageState).map (fun s => (charsOf s.log, s.log.getLast?))
      = some (['A'.toNat], some (Event.ctrlkey 3 true)) ∧
    (replayHead exampleHeader (pressAtPoll 3) 1 ((slot 1 messageState).take exampleHeader.RBSIZE)
        messageState).map (fun t => (yackctrlkey exampleHeader (pressAtPoll 3) TRUE t).2)
      = some true :=
  ⟨yackmessage_play exampleHeader (pressAtPoll 3) oneDit (fun _ => 0) [] 0 1 messageState
      (by decide) (by decide) (by decide),
    play_example_runs⟩


/-! ## Saving the settings: `yacksave` (C21) -/

theorem dirty_bclr (v : Nat) : bclr v DIRTYFLAG &&& DIRTYFLAG = 0 := by
  unfold bclr
  rw [Nat.and_assoc]
  have : (255 ^^^ DIRTYFLAG) &&& DIRTYFLAG = 0 := by decide
  rw [this, Nat.and_zero]

theorem bclr_dirty_bits (v : Nat) : sameButDirty (bclr v DIRTYFLAG) v := by
  intro i hi hne
  unfold bclr
  rw [Nat.testBit_and]
  have : (255 ^^^ DIRTYFLAG).testBit i = true := by
    interval_cases i <;> first | decide | exact absurd rfl hne
  rw [this, Bool.and_true]

theorem yacksave_clean (s : Yack) (hd : s.volflags &&& DIRTYFLAG = 0) : yacksave s = s := by
  unfold yacksave
  rw [if_neg (by simpa using hd)]

/-- C21: `yacksave` writes to EEPROM only when `DIRTYFLAG` is set. If it is
set, the magic, pitch, speed, flags and Farnsworth cells afterwards hold
`MAGPAT`, `ctcvalue`, `wpm`, `yackflags` and `farnsworth`, and no variable other
than `volflags` changes; if it is clear, nothing changes at all. In both cases
`DIRTYFLAG` is clear afterwards and every other bit of `volflags` is as before,
so a second `yacksave` in a row changes nothing. -/
theorem yacksave_frame (s : Yack) :
    (s.volflags &&& DIRTYFLAG ≠ 0 →
      yacksave s = { s with magic := MAGPAT, ctcstor := s.ctcvalue, wpmstor := s.wpm,
                            flagstor := s.yackflags, fwstor := s.farnsworth,
                            volflags := (yacksave s).volflags }) ∧
    (s.volflags &&& DIRTYFLAG = 0 → yacksave s = s) ∧
    (yacksave s).volflags &&& DIRTYFLAG = 0 ∧
    sameButDirty (yacksave s).volflags s.volflags ∧
    yacksave (yacksave s) = yacksave s := by
  have hclear : (yacksave s).volflags &&& DIRTYFLAG = 0 := by
    unfold yacksave
    split_ifs with hd
    · exact dirty_bclr _
    · simpa using hd
  refine ⟨?_, ?_, hclear, ?_, ?_⟩
  · intro hd
    unfold yacksave
    rw [if_pos hd]
  · exact yacksave_clean s
  · unfold yacksave
    split_ifs with hd
    · exact bclr_dirty_bits _
    · intro i _ _
      rfl
  · exact yacksave_clean _ hclear

/-- Witness for C21: a state with `DIRTYFLAG` and `TXKEY` set, 20 wpm, and 15
wpm in EEPROM: the save stores 20 and leaves `TXKEY` alone. -/
theorem yacksave_frame_witness :
    (yacksave dirtyState).wpmstor = 20 ∧ (yacksave dirtyState).volflags = TXKEY ∧
    yacksave (yacksave dirtyState) = yacksave dirtyState :=
  ⟨by decide, by decide, (yacksave_frame dirtyState).2.2.2.2⟩

/-! ## The command key leaves the other bits of `volflags` alone (C22, C25) -/

theorem mask_bit (a k : Nat) : a &&& 2 ^ k ≠ 0 ↔ a.testBit k = true := by
  constructor
  · intro hne
    by_contra hb
    apply hne
    apply Nat.eq_of_testBit_eq
    intro i
    rw [Nat.testBit_and, Nat.testBit_two_pow, Nat.zero_testBit]
    by_cases hi : k = i
    · subst hi
      simp [hb]
    · simp [hi]
  · intro hb hz
    have := congrArg (fun n => n.testBit k) hz
    simp [Nat.testBit_and, Nat.testBit_two_pow, hb] at this

theorem latch_bits_refl (a : Nat) : sameButLatch a a :=
  fun _ _ _ => rfl

theorem latch_bits_trans {a b c : Nat} (h1 : sameButLatch a b) (h2 : sameButLatch b c) :
    sameButLatch a c :=
  fun i hi hne => (h1 i hi hne).trans (h2 i hi hne)

theorem bclr_latch_bits (v : Nat) : sameButLatch (bclr v CKLATCH) v := by
  intro i hi hne
  unfold bclr
  rw [Nat.testBit_and]
  have : (255 ^^^ CKLATCH).testBit i = true := by
    interval_cases i <;> first | decide | exact absurd rfl hne
  rw [this, Bool.and_true]

theorem or_latch_bits (v : Nat) : sameButLatch (v ||| CKLATCH) v := by
  intro i hi hne
  rw [Nat.testBit_or]
  have : CKLATCH.testBit i = false := by
    interval_cases i <;> first | decide | exact absurd rfl hne
  rw [this, Bool.or_false]

theorem ctrlWait_latch_bits (h : Header) (passes : List Paddle) (s : Yack) (v : Nat) :
    sameButLatch (ctrlWait h passes (s, v)).2 v := by
  induction passes generalizing s v with
  | nil => exact latch_bits_refl v
  | cons p rest ih =>
    rw [ctrlWait]
    cases hd : p.dit <;> cases hh : p.dah <;>
      simp only [Bool.false_eq_true, if_false, if_true]
    · exact ih _ _
    · exact latch_bits_trans (ih _ _) (bclr_latch_bits _)
    · exact latch_bits_trans (ih _ _) (bclr_latch_bits _)
    · exact latch_bits_trans (ih _ _)
        (latch_bits_trans (bclr_latch_bits _) (bclr_latch_bits _))

theorem yackctrlkey_latch_bits (h : Header) (w : Nat → Poll) (mode : Nat) (s : Yack) :
    sameButLatch (yackctrlkey h w mode s).1.volflags s.volflags := by
  obtain ⟨v, _, hv, _, hopen, hclosed⟩ := yackctrlkey_result h w mode s
  have hvb : sameButLatch v s.volflags := by
    cases hw : w s.npolls with
    | none =>
      rw [hopen hw]
      exact latch_bits_refl _
    | some passes =>
      rw [hclosed passes hw]
      exact latch_bits_trans (ctrlWait_latch_bits _ _ _ _) (or_latch_bits _)
  rw [hv]
  split_ifs
  · exact latch_bits_trans (bclr_latch_bits _) hvb
  · exact hvb

/-- C22: on return from `yackctrlkey`, for every `mode`, with the button open or
pressed and whatever the paddles did during the hold, every bit of `volflags`
other than `CKLATCH` has the value it had on entry; in particular `TXKEY` and
`SIDETONE`, which `yackinhibit(ON)` forces for the time of the hold. -/
theorem yackctrlkey_restores_volflags (h : Header) (w : Nat → Poll) (mode : Nat) (s : Yack) :
    sameButLatch (yackctrlkey h w mode s).1.volflags s.volflags ∧
    ((yackctrlkey h w mode s).1.volflags &&& TXKEY ≠ 0 ↔ s.volflags &&& TXKEY ≠ 0) ∧
    ((yackctrlkey h w mode s).1.volflags &&& SIDETONE ≠ 0 ↔ s.volflags &&& SIDETONE ≠ 0) ∧
    (yackinhibit ON s).volflags &&& TXKEY = 0 ∧ (yackinhibit ON s).volflags &&& SIDETONE ≠ 0 := by
  have hb := yackctrlkey_latch_bits h w mode s
  have e5 : TXKEY = 2 ^ 5 := by decide
  have e4 : SIDETONE = 2 ^ 4 := by decide
  refine ⟨hb, ?_, ?_, ?_, ?_⟩
  · rw [e5, mask_bit, mask_bit, hb 5 (by decide) (by decide)]
  · rw [e4, mask_bit, mask_bit, hb 4 (by decide) (by decide)]
  · show (bclr s.volflags (TXKEY ||| SIDETONE) ||| SIDETONE) &&& TXKEY = 0
    have := mask_bit (bclr s.volflags (TXKEY ||| SIDETONE) ||| SIDETONE) 5
    rw [← e5] at this
    by_contra hne
    have hbit := this.mp hne
    simp only [bclr, Nat.testBit_or, Nat.testBit_and] at hbit
    have h1 : (255 ^^^ (TXKEY ||| SIDETONE)).testBit 5 = false := by decide
    have h2 : SIDETONE.testBit 5 = false := by decide
    rw [h1, h2] at hbit
    simp at hbit
  · show (bclr s.volflags (TXKEY ||| SIDETONE) ||| SIDETONE) &&& SIDETONE ≠ 0
    rw [e4, mask_bit, ← e4, Nat.testBit_or]
    have h2 : SIDETONE.testBit 4 = true := by decide
    rw [h2, Bool.or_true]

/-- Witness for C22: the button pressed and released from a state with `TXKEY`
and `DIRTYFLAG` set. -/
theorem yackctrlkey_restores_volflags_witness :
    sameButLatch (yackctrlkey exampleHeader (pressAtPoll 0) FALSE dirtyState).1.volflags
      dirtyState.volflags ∧
    (yackctrlkey exampleHeader (pressAtPoll 0) FALSE dirtyState).1.volflags
      = DIRTYFLAG ||| TXKEY ||| CKLATCH :=
  ⟨(yackctrlkey_restores_volflags exampleHeader (pressAtPoll 0) FALSE dirtyState).1, by decide⟩

/-- C25 fails on the code: the button pressed and released, no paddle touched,
from a state with `DIRTYFLAG` set, 20 wpm, and 15 wpm in EEPROM. `yackctrlkey`
writes the settings (the stored speed becomes 20), and on return `DIRTYFLAG` is
set again, restored with the rest of `volflags` from `volbfr`. -/
theorem yackctrlkey_dirty_after_save :
    dirtyState.volflags &&& DIRTYFLAG ≠ 0 ∧ dirtyState.wpmstor = 15 ∧
    pressAtPoll 0 dirtyState.npolls = some [] ∧
    (yackctrlkey exampleHeader (pressAtPoll 0) FALSE dirtyState).1.wpmstor = 20 ∧
    (yackctrlkey exampleHeader (pressAtPoll 0) FALSE dirtyState).1.volflags &&& DIRTYFLAG ≠ 0 ∧
    (yackctrlkey exampleHeader (pressAtPoll 0) TRUE dirtyState).1.volflags &&& DIRTYFLAG ≠ 0 := by
  decide

/-- On return from `yackctrlkey` `DIRTYFLAG` is what it was on entry, whether the
settings were written or not. -/
theorem yackctrlkey_dirty_restored (h : Header) (w : Nat → Poll) (mode : Nat) (s : Yack) :
    (yackctrlkey h w mode s).1.volflags &&& DIRTYFLAG ≠ 0 ↔ s.volflags &&& DIRTYFLAG ≠ 0 := by
  have e2 : DIRTYFLAG = 2 ^ 2 := by decide
  rw [e2, mask_bit, mask_bit, yackctrlkey_latch_bits h w mode s 2 (by decide) (by decide)]

/-! ## Start-up with stored settings (C26) -/

/-- C27 fails on the code: `yacknumber(0)` with no command-key press hands
`yackchar` the space alone, and no `'0'`: the loop `while (n)` that produces the
digits does not run for 0. -/
theorem yacknumber_zero_sends_space_only :
    (yacknumber exampleHeader (fun _ => none) [] 0 powerOn).map (fun s => charsOf s.log)
      = some [' '.toNat] ∧
    (yacknumber exampleHeader (fun _ => none) [] 0 powerOn).map (fun s => charsOf s.log)
      ≠ some ['0'.toNat, ' '.toNat] := by
  decide

/-! ## The element count at the decode branch (C24) -/

set_option maxRecDepth 1000000 in
theorem heldDit_state :
    (runFsm (heldDit 0) powerOn 65).bcntr = 8 ∧
    (runFsm (heldDit 0x40) powerOn 65).bcntr = 8 ∧
    decodeDue ON (heldDit 0 65).paddle (runFsm (heldDit 0) powerOn 65) ∧
    retAt (heldDit 0) powerOn 65 = 0 ∧
    retAt (heldDit 0x40) powerOn 65 = 'E'.toNat := by
  decide

/-- The element count is 8 when the decode branch is taken on call 65 of the
run with the dit paddle held. -/
theorem decode_with_eight_elements :
    (runFsm (heldDit 0) powerOn 65).bcntr = 8 ∧
    (runFsm (heldDit 0x40) powerOn 65).bcntr = 8 ∧
    decodeDue ON (heldDit 0 65).paddle (runFsm (heldDit 0) powerOn 65) ∧
    retAt (heldDit 0) powerOn 65 = 0 ∧
    retAt (heldDit 0x40) powerOn 65 = 'E'.toNat :=
  heldDit_state

/-! ## Packing by the FSM and unpacking by `yackchar` (C28) -/

set_option maxRecDepth 100000 in
theorem codeElements_justify : ∀ n, n < 8 → 1 ≤ n → ∀ b, b < 2 ^ n →
    codeElements (justify b n) = unpackElements n b ∧ 0 < justify b n ∧ justify b n < 256 := by
  decide

set_option maxRecDepth 100000 in
theorem morse_repack : ∀ b ∈ morse,
    justify (packElements (codeElements b)) (codeElements b).length = b ∧
    1 ≤ (codeElements b).length ∧ (codeElements b).length ≤ 7 ∧ 0 < b ∧ b < 256 := by
  decide

theorem shift_in : ∀ b, b < 128 →
    (b <<< 1) % 256 = 2 * b ∧ ((b <<< 1) % 256) ||| 1 = 2 * b + 1 := by
  decide

theorem packElements_snoc (es : List Element) (e : Element) :
    packElements (es ++ [e]) = 2 * packElements es + (if e = Element.DAH then 1 else 0) := by
  simp [packElements, List.foldl_append]

/-- The start of an element shifts it into the buffer as `packElements` does. -/
theorem startElement_packs (s : Yack) (es : List Element) (hb : s.buffer = packElements es)
    (hc : s.bcntr = es.length) (hl : es.length < 7) :
    (startElement s).1.buffer
      = packElements (es ++ [if s.volflags &&& DITLATCH ≠ 0 then Element.DIT else Element.DAH]) ∧
    (startElement s).1.bcntr = es.length + 1 := by
  have hlt : packElements es < 128 := by
    have h1 := (unpack_pack es).2
    have h2 : 2 ^ es.length ≤ 2 ^ 7 := Nat.pow_le_pow_right (by decide) (by omega)
    omega
  obtain ⟨e1, e2⟩ := shift_in _ hlt
  have hm : (es.length + 1) % 256 = es.length + 1 := Nat.mod_eq_of_lt (by omega)
  rw [packElements_snoc]
  by_cases hd : s.volflags &&& DITLATCH ≠ 0
  · have hs : (startElement s).1.buffer = (s.buffer <<< 1) % 256 ∧
        (startElement s).1.bcntr = (s.bcntr + 1) % 256 := by
      unfold startElement
      simp [hd]
    rw [hs.1, hs.2, if_pos hd, hb, hc, e1, hm]
    simp
  · have hs : (startElement s).1.buffer = ((s.buffer <<< 1) % 256) ||| 1 ∧
        (startElement s).1.bcntr = (s.bcntr + 1) % 256 := by
      unfold startElement
      simp [hd]
    rw [hs.1, hs.2, if_neg hd, hb, hc, e2, hm]
    simp

/-- The polls of the playback loop without a command-key press: one per
element. -/
theorem playLoop_polls (h : Header) (w : Nat → Poll) (hopen : neverPressed w) :
    ∀ fuel code s s', code < 256 → 0 < code →
      s.volflags &&& CKLATCH = 0 → playLoop h w fuel code s = some (s', true) →
      s'.npolls = s.npolls + (codeElements code).length := by
  intro fuel
  induction fuel with
  | zero =>
    intro code s s' _ _ _ hp
    rw [playLoop] at hp
    split_ifs at hp with hc
    simp only [Option.some.injEq, Prod.mk.injEq] at hp
    rw [← hp.1, hc, codeElements_stop]
    rfl
  | succ fuel ih =>
    intro code s s' h1 h2 hck hp
    by_cases hc : code = 0x80
    · rw [playLoop, if_pos hc] at hp
      simp only [Option.some.injEq, Prod.mk.injEq] at hp
      rw [← hp.1, hc, codeElements_stop]
      rfl
    · obtain ⟨e1, e2⟩ := codeElements_step code h1 h2 hc
      rw [playLoop_succ h w fuel code s hc, yackctrlkey_open h w s (hopen _)] at hp
      have hr : decide (s.volflags &&& CKLATCH ≠ 0) = false := by simp [hck]
      simp only [hr, Bool.false_eq_true, if_false] at hp
      have := ih _ _ _ (Nat.mod_lt _ (by decide)) e2 (by
        rw [yackdelay_eq]
        split_ifs <;> simp only [(yackplay_frame _ _).2.1] <;> exact hck) hp
      rw [this, e1, yackdelay_eq, List.length_cons]
      split_ifs <;> simp only [(yackplay_frame _ _).2.2.2.1] <;> omega

theorem decodeChar_justify (u : Nat) (s : Yack) (hb : s.bcntr ≤ 7) :
    (decodeChar u s).2 = morsechar (justify s.buffer s.bcntr) := by
  unfold decodeChar justify
  simp [hb]

/-- C28: the packing of the FSM and the unpacking of `yackchar` are inverse on
every element sequence `es` of 1 to 7 elements. The start of an element shifts
it into `buffer` as `packElements` does, and the decode branch hands
`morsechar` the byte `justify (packElements es) |es|`; for that byte the
playback loop, without a command-key press, ends after exactly `|es|` passes
(one poll each) and keys exactly `es`. Conversely, for every entry of `morse`
the loop ends, and packing the sequence it keys gives the entry back. -/
theorem pack_unpack_inverse (es : List Element) (h1 : 1 ≤ es.length) (h7 : es.length ≤ 7) :
    (∀ (s : Yack) (pre : List Element), s.buffer = packElements pre → s.bcntr = pre.length →
      pre.length < 7 →
      (startElement s).1.buffer
        = packElements
            (pre ++ [if s.volflags &&& DITLATCH ≠ 0 then Element.DIT else Element.DAH]) ∧
      (startElement s).1.bcntr = pre.length + 1) ∧
    (∀ (s : Yack) (u : Nat), s.buffer = packElements es → s.bcntr = es.length →
      (decodeChar u s).2 = morsechar (justify (packElements es) es.length)) ∧
    codeElements (justify (packElements es) es.length) = es ∧
    (∀ (h : Header) (w : Nat → Poll) (st : Yack), neverPressed w →
      st.volflags &&& CKLATCH = 0 → st.wpmcnt < 256 →
      ∃ st', playLoop h w 8 (justify (packElements es) es.length) st = some (st', true) ∧
        keySchedule st'.log = keySchedule st.log ++ es.flatMap (elementSchedule st.wpmcnt) ∧
        st'.npolls = st.npolls + es.length) ∧
    (∀ b ∈ morse,
      justify (packElements (codeElements b)) (codeElements b).length = b ∧
      ∀ (h : Header) (w : Nat → Poll) (st : Yack), neverPressed w →
        st.volflags &&& CKLATCH = 0 → st.wpmcnt < 256 →
        ∃ st', playLoop h w 8 b st = some (st', true) ∧
          keySchedule st'.log
            = keySchedule st.log ++ (codeElements b).flatMap (elementSchedule st.wpmcnt)) := by
  obtain ⟨hu, hp⟩ := unpack_pack es
  obtain ⟨c1, c2, c3⟩ := codeElements_justify es.length (by omega) h1 (packElements es) hp
  rw [hu] at c1
  refine ⟨fun s pre hb hc hl => startElement_packs s pre hb hc hl, ?_, c1, ?_, ?_⟩
  · intro s u hb hc
    rw [decodeChar_justify u s (by omega), hb, hc]
  · intro h w st hopen hck hW
    obtain ⟨st', e1, e2, _, _⟩ := playLoop_schedule h w hopen 8 _ st c3 c2
      (by rw [c1]; omega) hck hW
    refine ⟨st', e1, by rw [e2, c1], ?_⟩
    rw [playLoop_polls h w hopen 8 _ st st' c3 c2 hck e1, c1]
  · intro b hb
    obtain ⟨r1, r2, r3, r4, r5⟩ := morse_repack b hb
    refine ⟨r1, ?_⟩
    intro h w st hopen hck hW
    obtain ⟨st', e1, e2, _, _⟩ := playLoop_schedule h w hopen 8 b st r5 r4 (by omega) hck hW
    exact ⟨st', e1, e2⟩

/-- Witness for C28: the sequence dot, dash of the letter A. -/
theorem pack_unpack_inverse_witness :
    codeElements (justify (packElements [Element.DIT, Element.DAH])
      [Element.DIT, Element.DAH].length) = [Element.DIT, Element.DAH] ∧
    justify (packElements [Element.DIT, Element.DAH]) [Element.DIT, Element.DAH].length
      = 0b01100000 :=
  ⟨(pack_unpack_inverse [Element.DIT, Element.DAH] (by decide) (by decide)).2.2.1, by decide⟩

/-- With no command-key press `yacknumber(0)` hands `yackchar` the space
alone, for every header, buffer content and state. -/
theorem yacknumber_zero (h : Header) (w : Nat → Poll) (junk : List Nat) (s : Yack)
    (hopen : neverPressed w) (hck : s.volflags &&& CKLATCH = 0) :
    ∃ s' x, yacknumber h w junk 0 s = some s' ∧ s'.log = s.log ++ x ∧
      charsOf x = [' '.toNat] := by
  obtain ⟨s2, x2, y2, g2, p2, _⟩ := yackchar_open h w hopen ' '.toNat s hck
  refine ⟨s2, Event.char ' '.toNat :: x2, ?_, g2, ?_⟩
  · unfold yacknumber
    simp only [Nat.zero_mod, digitLoop, sendDigits]
    simpa using y2
  · have := (notMark_markers x2 p2).1
    simp only [charsOf, List.filterMap_cons] at this ⊢
    rw [this]


/-! ## The recording stays inside the buffer (C29) -/

theorem recordHead_succ (h : Header) (w : Nat → Poll) (pd : Nat → Paddle) (ud : Nat → Nat)
    (n k : Nat) (m : Capture) (s : Yack) (he : m.extimer ≠ 0) :
    recordHead h w pd ud (n + 1) k m s
      = if (yackctrlkey h w FALSE s).2 = true then none
        else
          match capture h (yackiambic ON (pd k) (ud k) (yackctrlkey h w FALSE s).1).2
              { m with extimer := m.extimer - 1 }
              (yackiambic ON (pd k) (ud k) (yackctrlkey h w FALSE s).1).1 with
          | none => none
          | some ms =>
            recordHead h w pd ud n (k + 1) (overflow h ms.1 ms.2).1
              (yackbeat (overflow h ms.1 ms.2).2) := by
  rw [recordHead, if_neg he]
  simp only []
  split_ifs
  · rfl
  · cases capture h (yackiambic ON (pd k) (ud k) (yackctrlkey h w FALSE s).1).2
        { m with extimer := m.extimer - 1 }
        (yackiambic ON (pd k) (ud k) (yackctrlkey h w FALSE s).1).1 <;> rfl

/-- A pass of the recording loop that starts with the index below `RBSIZE`
writes inside the buffer and ends with the index below `RBSIZE`. -/
theorem capture_in_bounds (h : Header) (c : Nat) (m : Capture) (s : Yack)
    (hi : m.i < h.RBSIZE) (hl : m.rambuffer.length = h.RBSIZE) :
    ∃ ms, capture h c m s = some ms ∧ (overflow h ms.1 ms.2).1.i < h.RBSIZE ∧
      (overflow h ms.1 ms.2).1.rambuffer.length = h.RBSIZE := by
  by_cases hc : c = 0
  · refine ⟨(m, s), by simp [capture, hc], ?_, ?_⟩
    · rw [overflow_lt h m s hi]
      exact hi
    · rw [overflow_lt h m s hi]
      exact hl
  · refine ⟨({ rambuffer := m.rambuffer.set m.i c, i := (m.i + 1) % 256,
                extimer := h.RECTIMEOUT % 65536 },
              { s with log := s.log ++ [Event.heard c] }), by simp [capture, hc, hi], ?_, ?_⟩
    · have hle : (m.i + 1) % 256 ≤ m.i + 1 := Nat.mod_le _ _
      by_cases hlt : (m.i + 1) % 256 < h.RBSIZE
      · rw [overflow_lt h _ _ hlt]
        exact hlt
      · rw [overflow_ge h _ _ (by simpa using hlt)]
        exact hi.trans_le' (Nat.zero_le _)
    · unfold overflow
      split_ifs <;> simp [hl]

theorem recordHead_in_bounds (h : Header) (w : Nat → Poll) (pd : Nat → Paddle)
    (ud : Nat → Nat) :
    ∀ n k m s m' t, m.i < h.RBSIZE → m.rambuffer.length = h.RBSIZE →
      recordHead h w pd ud n k m s = some (m', t) →
      m'.i < h.RBSIZE ∧ m'.rambuffer.length = h.RBSIZE := by
  intro n
  induction n with
  | zero =>
    intro k m s m' t hi hl hh
    simp only [recordHead, Option.some.injEq, Prod.mk.injEq] at hh
    rw [← hh.1]
    exact ⟨hi, hl⟩
  | succ n ih =>
    intro k m s m' t hi hl hh
    by_cases he : m.extimer = 0
    · rw [recordHead, if_pos he] at hh
      cases hh
    · rw [recordHead_succ h w pd ud n k m s he] at hh
      by_cases hr : (yackctrlkey h w FALSE s).2 = true
      · rw [if_pos hr] at hh
        cases hh
      · rw [if_neg hr] at hh
        obtain ⟨ms, hms, h1, h2⟩ := capture_in_bounds h
          (yackiambic ON (pd k) (ud k) (yackctrlkey h w FALSE s).1).2
          { m with extimer := m.extimer - 1 }
          (yackiambic ON (pd k) (ud k) (yackctrlkey h w FALSE s).1).1 hi hl
        rw [hms] at hh
        exact ih _ _ _ _ _ h1 h2 hh

/-- The recording loop and its passes: a timeout is found at the head of a pass
with `extimer` 0, and the loop gives no result only when the pass after the
last of the fuel is still to run. -/
theorem recordLoop_heads (h : Header) (w : Nat → Poll) (pd : Nat → Paddle) (ud : Nat → Nat) :
    ∀ fuel k m s, m.i < h.RBSIZE → m.rambuffer.length = h.RBSIZE →
      (∀ t m', recordLoop h w pd ud fuel k m s = some (t, some m') →
        ∃ n, n ≤ fuel ∧ recordHead h w pd ud n k m s = some (m', t) ∧ m'.extimer = 0) ∧
      (recordLoop h w pd ud fuel k m s = none →
        ∃ m' t, recordHead h w pd ud fuel k m s = some (m', t) ∧ m'.extimer ≠ 0) := by
  intro fuel
  induction fuel with
  | zero =>
    intro k m s hi hl
    by_cases he : m.extimer = 0
    · refine ⟨?_, ?_⟩
      · intro t m' hh
        simp only [recordLoop, if_pos he, Option.some.injEq, Prod.mk.injEq] at hh
        obtain ⟨rfl, rfl⟩ := hh
        exact ⟨0, le_refl _, rfl, he⟩
      · intro hh
        simp [recordLoop, he] at hh
    · refine ⟨?_, ?_⟩
      · intro t m' hh
        simp [recordLoop, he] at hh
      · intro _
        exact ⟨m, s, rfl, he⟩
  | succ fuel ih =>
    intro k m s hi hl
    by_cases he : m.extimer = 0
    · refine ⟨?_, ?_⟩
      · intro t m' hh
        simp only [recordLoop, if_pos he, Option.some.injEq, Prod.mk.injEq] at hh
        obtain ⟨rfl, rfl⟩ := hh
        exact ⟨0, Nat.zero_le _, rfl, he⟩
      · intro hh
        simp [recordLoop, he] at hh
    · rw [recordLoop_succ h w pd ud fuel k m s he, recordHead_succ h w pd ud fuel k m s he]
      by_cases hr : (yackctrlkey h w FALSE s).2 = true
      · rw [if_pos hr, if_pos hr]
        refine ⟨?_, ?_⟩
        · intro t m' hh
          simp at hh
        · intro hh
          cases hh
      · rw [if_neg hr, if_neg hr]
        obtain ⟨ms, hms, h1, h2⟩ := capture_in_bounds h
          (yackiambic ON (pd k) (ud k) (yackctrlkey h w FALSE s).1).2
          { m with extimer := m.extimer - 1 }
          (yackiambic ON (pd k) (ud k) (yackctrlkey h w FALSE s).1).1 hi hl
        rw [hms]
        obtain ⟨a, b⟩ := ih (k + 1) _ (yackbeat (overflow h ms.1 ms.2).2) h1 h2
        refine ⟨?_, b⟩
        intro t m' hh
        obtain ⟨n, hn, hd, h0⟩ := a t m' hh
        refine ⟨n + 1, by omega, ?_, h0⟩
        rw [recordHead_succ h w pd ud n k m s he, if_neg hr, hms]
        exact hd

theorem recordStart_in_bounds (h : Header) (junk : List Nat) (hR : 0 < h.RBSIZE) :
    (recordStart h junk).i < h.RBSIZE ∧ (recordStart h junk).rambuffer.length = h.RBSIZE := by
  unfold recordStart
  simp [hR]

/-- The scan for the first NUL stops at or before any index that holds one. -/
theorem scan_le (buf : List Nat) :
    ∀ j, buf[j]? = some 0 → (buf.takeWhile (fun c => decide (c ≠ 0))).length ≤ j := by
  induction buf with
  | nil =>
    intro j _
    simp
  | cons c rest ih =>
    intro j hj
    by_cases hc : c = 0
    · simp [List.takeWhile, hc]
    · cases j with
      | zero =>
        simp at hj
        exact absurd hj hc
      | succ j =>
        have hrest := ih j (by simpa using hj)
        have hcons : (c :: rest).takeWhile (fun c => decide (c ≠ 0))
            = c :: rest.takeWhile (fun c => decide (c ≠ 0)) := by
          simp [List.takeWhile, hc]
        rw [hcons, List.length_cons]
        omega

/-- A buffer with a NUL among its first `n - 1` bytes is scanned by the replay
loop to an index below `n - 1`. -/
theorem scan_stops (buf : List Nat) (n : Nat) (h0 : 0 ∈ buf.take (n - 1)) :
    0 ∈ buf.take n ∧
    ((buf.take n).takeWhile (fun c => decide (c ≠ 0))).length < n - 1 := by
  obtain ⟨j, hj, hz⟩ := List.getElem_of_mem h0
  rw [List.length_take] at hj
  rw [List.getElem_take] at hz
  have hjn : j < (buf.take n).length := by
    rw [List.length_take]
    omega
  have hz' : (buf.take n)[j] = 0 := by
    rw [List.getElem_take]
    exact hz
  refine ⟨?_, ?_⟩
  · rw [← hz']
    exact List.getElem_mem hjn
  · have := scan_le (buf.take n) j (by rw [List.getElem?_eq_getElem hjn, hz'])
    omega

theorem yackbeat_slots (s : Yack) : sameSlots s (yackbeat s) :=
  ⟨rfl, rfl, rfl, rfl⟩

theorem capture_slots (h : Header) (c : Nat) (m : Capture) (s : Yack) (ms : Capture × Yack)
    (hc : capture h c m s = some ms) : sameSlots s (yackbeat (overflow h ms.1 ms.2).2) := by
  have h1 : sameSlots s ms.2 := by
    unfold capture at hc
    split_ifs at hc
    · simp only [Option.some.injEq] at hc
      rw [← hc]
      exact ⟨rfl, rfl, rfl, rfl⟩
    · simp only [Option.some.injEq] at hc
      rw [← hc]
      exact sameSlots_refl s
  have h2 : sameSlots ms.2 (overflow h ms.1 ms.2).2 := by
    by_cases hlt : ms.1.i < h.RBSIZE
    · rw [overflow_lt h _ _ hlt]
      exact sameSlots_refl _
    · rw [overflow_ge h _ _ (by omega)]
      simp only []
      exact (yackerror_frame ms.2).2
  generalize (overflow h ms.1 ms.2).2 = X at h2
  exact sameSlots_trans h1 (sameSlots_trans h2 (yackbeat_slots X))

/-- The recording loop writes no message slot. -/
theorem recordLoop_slots (h : Header) (w : Nat → Poll) (pd : Nat → Paddle) (ud : Nat → Nat) :
    ∀ fuel k m s s' out, recordLoop h w pd ud fuel k m s = some (s', out) →
      sameSlots s s' := by
  intro fuel
  induction fuel with
  | zero =>
    intro k m s s' out hh
    by_cases he : m.extimer = 0
    · simp only [recordLoop, if_pos he, Option.some.injEq, Prod.mk.injEq] at hh
      rw [← hh.1]
      exact sameSlots_refl s
    · simp [recordLoop, he] at hh
  | succ fuel ih =>
    intro k m s s' out hh
    by_cases he : m.extimer = 0
    · simp only [recordLoop, if_pos he, Option.some.injEq, Prod.mk.injEq] at hh
      rw [← hh.1]
      exact sameSlots_refl s
    · rw [recordLoop_succ h w pd ud fuel k m s he] at hh
      by_cases hr : (yackctrlkey h w FALSE s).2 = true
      · rw [if_pos hr] at hh
        simp only [Option.some.injEq, Prod.mk.injEq] at hh
        rw [← hh.1]
        exact yackctrlkey_slots h w FALSE s
      · rw [if_neg hr] at hh
        cases hc : capture h (yackiambic ON (pd k) (ud k) (yackctrlkey h w FALSE s).1).2
            { m with extimer := m.extimer - 1 }
            (yackiambic ON (pd k) (ud k) (yackctrlkey h w FALSE s).1).1 with
        | none =>
          rw [hc] at hh
          cases hh
        | some ms =>
          rw [hc] at hh
          exact sameSlots_trans (yackctrlkey_slots h w FALSE s)
            (sameSlots_trans (yackiambic_frame ON (pd k) (ud k) _).2
              (sameSlots_trans (capture_slots h _ _ _ ms hc) (ih _ _ _ _ _ hh)))

theorem yackmessage_record_eq (h : Header) (w : Nat → Poll) (pd : Nat → Paddle)
    (ud : Nat → Nat) (junk : List Nat) (fuel msgnr : Nat) (s : Yack) :
    yackmessage h w pd ud junk fuel .RECORD msgnr s
      = match recordLoop h w pd ud fuel 0 (recordStart h junk) s with
        | none => none
        | some (s, none) => some s
        | some (s, some m) => some (storeMessage h msgnr m s) := by
  rfl

theorem storeMessage_empty (h : Header) (msgnr : Nat) (m : Capture) (s : Yack) (hi : m.i = 0) :
    sameSlots s (storeMessage h msgnr m s) := by
  unfold storeMessage
  rw [if_neg (by simpa using hi)]
  exact (yackerror_frame s).2

/-- A message stored at the timeout has its NUL among the first `RBSIZE - 1`
bytes of the slot. -/
theorem storeMessage_nul (h : Header) (msgnr : Nat) (m : Capture) (s : Yack)
    (hi : m.i ≠ 0) (hb : m.i < h.RBSIZE) (hl : m.rambuffer.length = h.RBSIZE)
    (h1 : 1 ≤ msgnr) (h4 : msgnr ≤ 4) :
    0 ∈ (slot msgnr (storeMessage h msgnr m s)).take (h.RBSIZE - 1) := by
  rw [(storeMessage_slots h msgnr m s hi).2.2 h1 h4]
  unfold copyBlock
  have hlen : m.i - 1 < (m.rambuffer.set (m.i - 1) 0).length := by
    rw [List.length_set]
    omega
  have hk : m.i - 1 < (((m.rambuffer.set (m.i - 1) 0).take h.RBSIZE
      ++ (slot msgnr s).drop h.RBSIZE).take (h.RBSIZE - 1)).length := by
    simp only [List.length_take, List.length_append, List.length_set, List.length_drop]
    omega
  have hz : (((m.rambuffer.set (m.i - 1) 0).take h.RBSIZE
      ++ (slot msgnr s).drop h.RBSIZE).take (h.RBSIZE - 1))[m.i - 1] = 0 := by
    rw [List.getElem_take, List.getElem_append_left (by
      simp only [List.length_take, List.length_set]
      omega), List.getElem_take, List.getElem_set_self]
  have hmem := List.getElem_mem hk
  rw [hz] at hmem
  exact hmem

/-- C29: with `RBSIZE > 0`, every pass of the recording loop of
`yackmessage(RECORD)` starts with the index `i` below `RBSIZE` and a buffer of
`RBSIZE` bytes, so that the append `rambuffer[i++] = c` writes inside the
buffer whatever `yackiambic` returns, and the loop gives no result only while
passes remain to be run. At the timeout with `i > 0` the NUL is written at
`i - 1`, below `RBSIZE - 1`, and slot `msgnr`, the only one written, has a NUL
among its first `RBSIZE - 1` bytes: PLAY of that slot, from any state that
holds it, returns, its scan stopping at an index below `RBSIZE - 1`. In every
other return of RECORD no slot is written. -/
theorem record_in_bounds (h : Header) (w : Nat → Poll) (pd : Nat → Paddle) (ud : Nat → Nat)
    (junk : List Nat) (fuel msgnr : Nat) (s : Yack) (hR : 0 < h.RBSIZE) :
    (∀ n m t, recordHead h w pd ud n 0 (recordStart h junk) s = some (m, t) →
      m.i < h.RBSIZE ∧ m.rambuffer.length = h.RBSIZE ∧
      ∀ c u, (capture h c { m with extimer := m.extimer - 1 } u).isSome = true) ∧
    (recordLoop h w pd ud fuel 0 (recordStart h junk) s = none →
      ∃ m t, recordHead h w pd ud fuel 0 (recordStart h junk) s = some (m, t) ∧
        m.extimer ≠ 0) ∧
    (∀ t, recordLoop h w pd ud fuel 0 (recordStart h junk) s = some (t, none) →
      yackmessage h w pd ud junk fuel .RECORD msgnr s = some t ∧ sameSlots s t) ∧
    (∀ t m, recordLoop h w pd ud fuel 0 (recordStart h junk) s = some (t, some m) →
      yackmessage h w pd ud junk fuel .RECORD msgnr s = some (storeMessage h msgnr m t) ∧
      sameSlots s t ∧
      (∀ n, n ≠ msgnr → slot n (storeMessage h msgnr m t) = slot n t) ∧
      (m.i = 0 → sameSlots t (storeMessage h msgnr m t)) ∧
      (m.i ≠ 0 → m.i - 1 < h.RBSIZE - 1 ∧ m.rambuffer.length = h.RBSIZE ∧
        (1 ≤ msgnr → msgnr ≤ 4 →
          0 ∈ (slot msgnr (storeMessage h msgnr m t)).take (h.RBSIZE - 1) ∧
          ∀ (w' : Nat → Poll) (pd' : Nat → Paddle) (ud' : Nat → Nat) (junk' : List Nat)
            (fuel' : Nat) (u : Yack),
            slot msgnr u = slot msgnr (storeMessage h msgnr m t) →
            (yackmessage h w' pd' ud' junk' fuel' .PLAY msgnr u).isSome = true ∧
            (((slot msgnr u).take h.RBSIZE).takeWhile (fun c => decide (c ≠ 0))).length
              < h.RBSIZE - 1))) := by
  obtain ⟨hi0, hl0⟩ := recordStart_in_bounds h junk hR
  refine ⟨?_, ?_, ?_, ?_⟩
  · intro n m t hh
    obtain ⟨hi, hl⟩ := recordHead_in_bounds h w pd ud n 0 _ s m t hi0 hl0 hh
    refine ⟨hi, hl, ?_⟩
    intro c u
    obtain ⟨ms, hms, _⟩ := capture_in_bounds h c { m with extimer := m.extimer - 1 } u hi hl
    rw [hms]
    rfl
  · exact (recordLoop_heads h w pd ud fuel 0 _ s hi0 hl0).2
  · intro t hh
    refine ⟨?_, recordLoop_slots h w pd ud fuel 0 _ s t none hh⟩
    rw [yackmessage_record_eq, hh]
  · intro t m hh
    obtain ⟨n, _, hd, _⟩ := (recordLoop_heads h w pd ud fuel 0 _ s hi0 hl0).1 t m hh
    obtain ⟨hi, hl⟩ := recordHead_in_bounds h w pd ud n 0 _ s m t hi0 hl0 hd
    refine ⟨?_, recordLoop_slots h w pd ud fuel 0 _ s t (some m) hh, ?_, ?_, ?_⟩
    · rw [yackmessage_record_eq, hh]
    · intro k hk
      by_cases hz : m.i = 0
      · unfold storeMessage
        rw [if_neg (by simpa using hz)]
        obtain ⟨a, b, c, d⟩ := (yackerror_frame t).2
        unfold slot
        rw [a, b, c, d]
      · exact (storeMessage_slots h msgnr m t hz).2.1 k hk
    · exact storeMessage_empty h msgnr m t
    · intro hz
      refine ⟨by omega, hl, ?_⟩
      intro h1 h4
      have hnul := storeMessage_nul h msgnr m t hz hi hl h1 h4
      refine ⟨hnul, ?_⟩
      intro w' pd' ud' junk' fuel' u hu
      rw [← hu] at hnul
      obtain ⟨hin, hstop⟩ := scan_stops _ _ hnul
      refine ⟨?_, hstop⟩
      have hbuf : ((junk' ++ List.replicate h.RBSIZE 0).take h.RBSIZE).length = h.RBSIZE := by
        simp
      obtain ⟨s', x, k, e, _⟩ := replay_spec h w' _ u hin
      unfold yackmessage
      simp only [loadMessage_slot h msgnr _ u h1 h4 hbuf]
      rw [e]
      rfl

set_option maxRecDepth 100000 in
theorem record_example_index :
    ((recordLoop recordHeader (fun _ => none) oneDit (fun _ => 0) 100 0
        (recordStart recordHeader []) recordState).bind (fun r => r.2)).map (fun m => m.i)
      = some 2 := by
  decide

theorem record_example_loop :
    ∃ t m, recordLoop recordHeader (fun _ => none) oneDit (fun _ => 0) 100 0
        (recordStart recordHeader []) recordState = some (t, some m) ∧ m.i = 2 := by
  have h := record_example_index
  match hr : recordLoop recordHeader (fun _ => none) oneDit (fun _ => 0) 100 0
      (recordStart recordHeader []) recordState with
  | none =>
    rw [hr] at h
    cases h
  | some (t, none) =>
    rw [hr] at h
    cases h
  | some (t, some m) =>
    rw [hr] at h
    exact ⟨t, m, rfl, by simpa using h⟩

/-- Witness for C29: the letter E keyed into slot 1 at 5 bytes per message. The
loop ends by timeout with two characters in the buffer, E and the word space;
the NUL goes to index 1, slot 1 is stored as E, NUL and what the buffer held,
and PLAY of it returns. -/
theorem record_in_bounds_witness :
    0 < recordHeader.RBSIZE ∧
    (∃ t m, recordLoop recordHeader (fun _ => none) oneDit (fun _ => 0) 100 0
        (recordStart recordHeader []) recordState = some (t, some m) ∧ m.i = 2 ∧
      m.i - 1 < recordHeader.RBSIZE - 1 ∧
      0 ∈ (slot 1 (storeMessage recordHeader 1 m t)).take (recordHeader.RBSIZE - 1) ∧
      (yackmessage recordHeader (fun _ => none) oneDit (fun _ => 0) [] 0 .PLAY 1
        (storeMessage recordHeader 1 m t)).isSome = true) ∧
    (yackmessage recordHeader (fun _ => none) oneDit (fun _ => 0) [] 100 .RECORD 1
        recordState).map (fun s => s.eebuffer1) = some ['E'.toNat, 0, 0, 0, 0] := by
  obtain ⟨t, m, hl, hi⟩ := record_example_loop
  have hw := (record_in_bounds recordHeader (fun _ => none) oneDit (fun _ => 0) [] 100 1
    recordState (by decide)).2.2.2 t m hl
  have hz : m.i ≠ 0 := by omega
  obtain ⟨hb, _, hs⟩ := hw.2.2.2.2 hz
  obtain ⟨hn, hp⟩ := hs (by decide) (by decide)
  exact ⟨by decide, ⟨t, m, hl, hi, hb, hn,
    (hp (fun _ => none) oneDit (fun _ => 0) [] 0 _ rfl).1⟩, by decide⟩


/-! ## The memory of IAMBIC-B (C23) -/

theorem keylatch_volflags (p : Paddle) (s : Yack) :
    (keylatch p s).volflags = s.volflags ||| latchOf s.yackflags p := by
  unfold keylatch latchOf
  cases p.dit <;> cases p.dah <;> simp [Nat.or_assoc]

theorem latchOf_open (yf : Nat) : latchOf yf ⟨false, false⟩ = 0 := by
  simp [latchOf]

theorem latch_clear_all (v : Nat) : (bclr v (DITLATCH ||| DAHLATCH)) &&& SQUEEZED = 0 := by
  rw [latch_bclr]
  have h : v &&& SQUEEZED ≤ 3 := Nat.and_le_right
  generalize v &&& SQUEEZED = x at *
  interval_cases x <;> decide

theorem latch_clear_none (v m : Nat) (h : v &&& SQUEEZED = 0) :
    (bclr v m) &&& SQUEEZED = 0 := by
  rw [latch_bclr, h]
  simp [bclr]

/-- The latches after the latch of the element just sent is cleared: when the
latch of the other kind is set, it alone is left. -/
theorem latch_clear_last (v sym : Nat) (hs : sym = DITLATCH ∨ sym = DAHLATCH)
    (h : v &&& opposite sym ≠ 0) :
    (bclr v sym) &&& SQUEEZED = opposite sym := by
  have hv : (v &&& SQUEEZED) &&& opposite sym ≠ 0 := by
    rw [Nat.and_assoc]
    have e : SQUEEZED &&& opposite sym = opposite sym := by
      rcases hs with rfl | rfl <;> decide
    rw [e]
    exact h
  rw [latch_bclr]
  have hle : v &&& SQUEEZED ≤ 3 := Nat.and_le_right
  generalize v &&& SQUEEZED = x at *
  rcases hs with rfl | rfl <;> interval_cases x <;> first | decide | exact absurd rfl hv

theorem modeLatch_iambic (s : Yack)
    (hm : s.yackflags &&& MODE = IAMBICA ∨ s.yackflags &&& MODE = IAMBICB) :
    (modeLatch s).volflags = bclr s.volflags s.lastsymbol ∧ (modeLatch s).lastsymbol = 0 := by
  unfold modeLatch
  simp only []
  rw [if_pos hm]
  exact ⟨rfl, rfl⟩

theorem startElement_latches (s : Yack) :
    (startElement s).1.volflags &&& SQUEEZED = 0 ∧
    (startElement s).1.lastsymbol
      = if s.volflags &&& DITLATCH ≠ 0 then DITLATCH else DAHLATCH := by
  unfold startElement
  simp only []
  split_ifs <;> exact ⟨by simp [latch_clear_all], by simp⟩

/-- A call in the KEYED state: the last symbol stays, and the paddles are
latched in IAMBIC-B and in no other mode. -/
theorem tick_keyed_latch (i : Tick) (s : Yack) (hf : s.fsms = .KEYED) :
    (tick i s).1.lastsymbol = s.lastsymbol ∧
    (tick i s).1.volflags
      = if i.yackflags &&& MODE = IAMBICB then s.volflags ||| latchOf i.yackflags i.paddle
        else s.volflags := by
  rw [tick_eq]
  obtain ⟨pf, -, -, -, py, -, -, pls, -, pv, -⟩ := prelude_fields i s
  rw [hf] at pf
  generalize prelude i s = s1 at *
  simp only [pf]
  unfold keyedCase
  simp only [py]
  by_cases hb : i.yackflags &&& MODE = IAMBICB
  · simp only [if_pos hb]
    split_ifs <;> simp [keylatch_volflags, py, pls, pv]
  · simp only [if_neg hb]
    split_ifs <;> simp [pls, pv]

/-- A call in the IEG state: no `key` call, the paddles are latched, and the
state goes to IDLE when the timer runs out. -/
theorem tick_ieg (i : Tick) (s : Yack) (hf : s.fsms = .IEG) :
    (tick i s).1.log = [] ∧ (tick i s).1.lastsymbol = s.lastsymbol ∧
    (tick i s).1.volflags = s.volflags ||| latchOf i.yackflags i.paddle ∧
    (s.timer ≤ 1 → (tick i s).1.fsms = .IDLE ∧
      (tick i s).1.timer = ((ICGLEN - IEGLEN - 1) * i.wpmcnt) % 65536) ∧
    (2 ≤ s.timer → (tick i s).1.fsms = .IEG ∧ (tick i s).1.timer = s.timer - 1) := by
  rw [tick_eq]
  obtain ⟨pf, pt, pl, pw, py, -, -, pls, -, pv, -⟩ := prelude_fields i s
  rw [hf] at pf
  generalize prelude i s = s1 at *
  simp only [pf]
  unfold iegCase
  simp only [keylatch_timer]
  by_cases ht : s1.timer = 0
  · simp only [if_pos ht]
    refine ⟨by simp [pl], by simp [pls], by simp [keylatch_volflags, py, pv], ?_, ?_⟩
    · intro _
      simp [pw]
    · intro h2
      omega
  · simp only [if_neg ht]
    refine ⟨by simp [pl], by simp [pls], by simp [keylatch_volflags, py, pv], ?_, ?_⟩
    · intro h1
      omega
    · intro _
      simp [pf, pt]

/-- A call in the IDLE state in an iambic mode: with no latch left after the
latch of the last symbol is cleared, no `key` call is made; with a latch left
and the timer not run out, an element is started, a dit if the dit latch is
left and a dah otherwise, and both latches are cleared. -/
theorem tick_idle_iambic (i : Tick) (s : Yack) (hf : s.fsms = .IDLE)
    (hm : i.yackflags &&& MODE = IAMBICA ∨ i.yackflags &&& MODE = IAMBICB) :
    ((bclr (s.volflags ||| latchOf i.yackflags i.paddle) s.lastsymbol) &&& SQUEEZED = 0 →
      (tick i s).1.log = [] ∧ (tick i s).1.volflags &&& SQUEEZED = 0) ∧
    ((bclr (s.volflags ||| latchOf i.yackflags i.paddle) s.lastsymbol) &&& SQUEEZED ≠ 0 →
      2 ≤ s.timer →
      (tick i s).1.log = [Event.keyDown] ∧ (tick i s).1.volflags &&& SQUEEZED = 0 ∧
      (tick i s).1.lastsymbol
        = if (bclr (s.volflags ||| latchOf i.yackflags i.paddle) s.lastsymbol) &&& DITLATCH ≠ 0
          then DITLATCH else DAHLATCH) := by
  rw [tick_eq]
  obtain ⟨pf, pt, pl, pw, py, -, -, pls, -, pv, -⟩ := prelude_fields i s
  rw [hf] at pf
  generalize prelude i s = s1 at *
  simp only [pf]
  have hm1 : (keylatch i.paddle s1).yackflags &&& MODE = IAMBICA ∨
      (keylatch i.paddle s1).yackflags &&& MODE = IAMBICB := by
    simpa [py] using hm
  obtain ⟨mv, mls⟩ := modeLatch_iambic (keylatch i.paddle s1) hm1
  rw [keylatch_volflags, keylatch_lastsymbol, py, pv, pls] at mv
  have ml : (modeLatch (keylatch i.paddle s1)).log = [] := by simp [pl]
  have mt : (modeLatch (keylatch i.paddle s1)).timer = s.timer - 1 := by simp [pt]
  unfold idleCase
  simp only []
  generalize modeLatch (keylatch i.paddle s1) = s2 at *
  rw [← mv]
  have e3 : DITLATCH ||| DAHLATCH = SQUEEZED := rfl
  rw [e3]
  constructor
  · intro h0
    split_ifs with h1 h2 h3
    · exact ⟨by rw [decodeChar_log, ml], h0⟩
    · exact ⟨ml, h0⟩
    · exact absurd h0 h3
    · exact ⟨ml, h0⟩
  · intro h0 h2
    have ht : s2.timer ≠ 0 := by omega
    rw [if_neg (fun hc => ht hc.1), if_neg (fun hc => ht hc.1), if_pos h0]
    obtain ⟨a, b⟩ := startElement_latches s2
    exact ⟨by rw [(startElement_out s2).2.1, ml]; rfl, a, b⟩

theorem or_keeps_bits (v m b : Nat) (h : v &&& b ≠ 0 ∨ m &&& b ≠ 0) : (v ||| m) &&& b ≠ 0 := by
  intro h0
  have hbit : ∀ i, ((v ||| m) &&& b).testBit i = false := by
    intro i
    rw [h0]
    simp
  simp only [Nat.testBit_and, Nat.testBit_or] at hbit
  rcases h with h | h
  · apply h
    apply Nat.eq_of_testBit_eq
    intro i
    have := hbit i
    simp only [Nat.testBit_and, Nat.zero_testBit]
    cases hv : v.testBit i <;> cases hb : b.testBit i <;> simp_all
  · apply h
    apply Nat.eq_of_testBit_eq
    intro i
    have := hbit i
    simp only [Nat.testBit_and, Nat.zero_testBit]
    cases hv : m.testBit i <;> cases hb : b.testBit i <;> simp_all

/-- A call in an iambic mode with both contacts open and no latch set leaves no
latch set and starts no element. -/
theorem tick_latch_free (i : Tick) (s : Yack)
    (hm : i.yackflags &&& MODE = IAMBICA ∨ i.yackflags &&& MODE = IAMBICB)
    (hp : i.paddle = ⟨false, false⟩) (h0 : s.volflags &&& SQUEEZED = 0) :
    (tick i s).1.volflags &&& SQUEEZED = 0 ∧ (tick i s).1.log ≠ [Event.keyDown] := by
  have hv : s.volflags ||| latchOf i.yackflags i.paddle = s.volflags := by
    rw [hp, latchOf_open]
    simp
  cases hf : s.fsms with
  | IDLE =>
    obtain ⟨hl, hz⟩ := (tick_idle_iambic i s hf hm).1 (by
      rw [hv]
      exact latch_clear_none _ _ h0)
    exact ⟨hz, by rw [hl]; simp⟩
  | KEYED =>
    obtain ⟨-, hk⟩ := tick_keyed_latch i s hf
    rw [hv, ite_self] at hk
    refine ⟨by rw [hk]; exact h0, ?_⟩
    by_cases ht : s.timer ≤ 1
    · rw [(tick_keyed i s hf).1 ht]
      simp
    · rw [((tick_keyed i s hf).2 (by omega)).1]
      simp
  | IEG =>
    obtain ⟨hl, -, hk, -⟩ := tick_ieg i s hf
    rw [hv] at hk
    exact ⟨by rw [hk]; exact h0, by rw [hl]; simp⟩

/-- A run in an iambic mode with both contacts open from call `a` on and no
latch set at call `a`: no element is started from call `a` on. -/
theorem latch_free_run (inp : Nat → Tick) (s : Yack) (a yf : Nat)
    (hm : yf &&& MODE = IAMBICA ∨ yf &&& MODE = IAMBICB)
    (hin : ∀ k, a ≤ k → (inp k).yackflags = yf ∧ (inp k).paddle = ⟨false, false⟩)
    (h0 : (runFsm inp s a).volflags &&& SQUEEZED = 0) :
    ∀ m, (runFsm inp s (a + m)).volflags &&& SQUEEZED = 0 ∧
      keysAt inp s (a + m) ≠ [Event.keyDown] := by
  have hstep : ∀ k, a ≤ k → (runFsm inp s k).volflags &&& SQUEEZED = 0 →
      (runFsm inp s (k + 1)).volflags &&& SQUEEZED = 0 ∧ keysAt inp s k ≠ [Event.keyDown] := by
    intro k hk hz
    have hmk : (inp k).yackflags &&& MODE = IAMBICA ∨ (inp k).yackflags &&& MODE = IAMBICB := by
      rw [(hin k hk).1]
      exact hm
    obtain ⟨h1, h2⟩ := tick_latch_free (inp k) (runFsm inp s k) hmk (hin k hk).2 hz
    refine ⟨?_, h2⟩
    simp only [runFsm]
    exact h1
  have hall : ∀ m, (runFsm inp s (a + m)).volflags &&& SQUEEZED = 0 := by
    intro m
    induction m with
    | zero => exact h0
    | succ m ih => exact (hstep (a + m) (by omega) ih).1
  intro m
  exact ⟨hall m, (hstep (a + m) (by omega) (hall m)).2⟩

theorem tick_keyDown_latches (i : Tick) (s : Yack) (h : (tick i s).1.log = [Event.keyDown]) :
    (tick i s).1.volflags &&& SQUEEZED = 0 := by
  rw [tick_eq] at h ⊢
  obtain ⟨-, -, pl, -⟩ := prelude_fields i s
  generalize prelude i s = s1 at *
  split at h
  · unfold idleCase at h ⊢
    simp only [] at h ⊢
    have hl : (modeLatch (keylatch i.paddle s1)).log = [] := by simp [pl]
    generalize modeLatch (keylatch i.paddle s1) = s2 at *
    split_ifs at h ⊢
    · rw [decodeChar_log, hl] at h
      simp at h
    · simp [hl] at h
    · exact (startElement_latches s2).1
    · simp [hl] at h
  · exfalso
    by_cases ht : s1.timer = 0
    · have := (keyedCase_step i.paddle _).1 ht
      rw [this, pl] at h
      simp at h
    · have := ((keyedCase_step i.paddle _).2 ht).1
      rw [this, pl] at h
      simp at h
  · rw [iegCase_log, pl] at h
    simp at h

/-- The calls of an element after its key-down on call `n` and up to its key-up
on call `u`: the FSM is in KEYED, and a latch is set from the call after the one
on which its paddle is closed in IAMBIC-B, and never in another mode. -/
theorem keyed_phase (inp : Nat → Tick) (s : Yack) (n u yf : Nat)
    (hin : ∀ k, n < k → (inp k).yackflags = yf)
    (hf : (runFsm inp s (n + 1)).fsms = .KEYED)
    (hheld : ∀ k, n < k → k < u → keysAt inp s k = []) :
    ∀ m, n + 1 + m ≤ u →
      (runFsm inp s (n + 1 + m)).fsms = .KEYED ∧
      (runFsm inp s (n + 1 + m)).lastsymbol = (runFsm inp s (n + 1)).lastsymbol ∧
      (yf &&& MODE ≠ IAMBICB →
        (runFsm inp s (n + 1 + m)).volflags = (runFsm inp s (n + 1)).volflags) ∧
      (yf &&& MODE = IAMBICB → ∀ j b, n < j → j < n + 1 + m →
        latchOf yf (inp j).paddle &&& b ≠ 0 →
        (runFsm inp s (n + 1 + m)).volflags &&& b ≠ 0) := by
  intro m
  induction m with
  | zero =>
    intro _
    refine ⟨hf, rfl, fun _ => rfl, ?_⟩
    intro _ j b h1 h2
    omega
  | succ m ih =>
    intro hle
    obtain ⟨i1, i2, i3, i4⟩ := ih (by omega)
    have hkeys := hheld (n + 1 + m) (by omega) (by omega)
    have hy := hin (n + 1 + m) (by omega)
    have ht : 2 ≤ (runFsm inp s (n + 1 + m)).timer := by
      by_contra hlt
      have := (tick_keyed (inp (n + 1 + m)) _ i1).1 (by omega)
      unfold keysAt at hkeys
      rw [this] at hkeys
      cases hkeys
    obtain ⟨-, k1, -⟩ := (tick_keyed (inp (n + 1 + m)) _ i1).2 ht
    obtain ⟨l1, l2⟩ := tick_keyed_latch (inp (n + 1 + m)) _ i1
    rw [hy] at l2
    refine ⟨?_, ?_, ?_, ?_⟩
    · show (runFsm inp s (n + 1 + m + 1)).fsms = .KEYED
      simp only [runFsm]
      exact k1
    · show (runFsm inp s (n + 1 + m + 1)).lastsymbol = _
      simp only [runFsm]
      rw [l1]
      exact i2
    · intro hb
      show (runFsm inp s (n + 1 + m + 1)).volflags = _
      simp only [runFsm]
      rw [l2, if_neg hb]
      exact i3 hb
    · intro hb j b h1 h2 hl
      show (runFsm inp s (n + 1 + m + 1)).volflags &&& b ≠ 0
      simp only [runFsm]
      rw [l2, if_pos hb]
      by_cases hj : j < n + 1 + m
      · exact or_keeps_bits _ _ _ (Or.inl (i4 hb j b h1 hj hl))
      · have : j = n + 1 + m := by omega
        subst this
        exact or_keeps_bits _ _ _ (Or.inr hl)

/-- The inter-element gap with both contacts open: `W` calls without a `key`
call after the key-up, the last symbol and the latches as they are, and then
the FSM is in IDLE with the timer at `W`. -/
theorem ieg_phase (inp : Nat → Tick) (s : Yack) (a W : Nat) (hW1 : 1 ≤ W) (hW : W < 65536)
    (hin : ∀ k, a ≤ k → (inp k).wpmcnt = W ∧ (inp k).paddle = ⟨false, false⟩)
    (hf : (runFsm inp s a).fsms = .IEG) (ht : (runFsm inp s a).timer = W) :
    (∀ k, a ≤ k → k < a + W → keysAt inp s k = []) ∧
    (runFsm inp s (a + W)).fsms = .IDLE ∧ (runFsm inp s (a + W)).timer = W ∧
    (runFsm inp s (a + W)).lastsymbol = (runFsm inp s a).lastsymbol ∧
    (runFsm inp s (a + W)).volflags = (runFsm inp s a).volflags := by
  have hv : ∀ k, a ≤ k → ∀ v : Nat, v ||| latchOf (inp k).yackflags (inp k).paddle = v := by
    intro k hk v
    rw [(hin k hk).2, latchOf_open]
    simp
  have hold : ∀ m, m < W →
      (runFsm inp s (a + m)).fsms = .IEG ∧ (runFsm inp s (a + m)).timer = W - m ∧
      (runFsm inp s (a + m)).lastsymbol = (runFsm inp s a).lastsymbol ∧
      (runFsm inp s (a + m)).volflags = (runFsm inp s a).volflags := by
    intro m
    induction m with
    | zero =>
      intro _
      exact ⟨hf, ht, rfl, rfl⟩
    | succ m ih =>
      intro hm
      obtain ⟨i1, i2, i3, i4⟩ := ih (by omega)
      obtain ⟨-, g2, g3, -, g5⟩ := tick_ieg (inp (a + m)) _ i1
      obtain ⟨g6, g7⟩ := g5 (by omega)
      rw [hv (a + m) (by omega)] at g3
      refine ⟨?_, ?_, ?_, ?_⟩
      · show (runFsm inp s (a + m + 1)).fsms = .IEG
        simp only [runFsm]
        exact g6
      · show (runFsm inp s (a + m + 1)).timer = _
        simp only [runFsm]
        rw [g7, i2]
        omega
      · show (runFsm inp s (a + m + 1)).lastsymbol = _
        simp only [runFsm]
        rw [g2, i3]
      · show (runFsm inp s (a + m + 1)).volflags = _
        simp only [runFsm]
        rw [g3, i4]
  refine ⟨?_, ?_⟩
  · intro k h1 h2
    obtain ⟨i1, -⟩ := hold (k - a) (by omega)
    have e : a + (k - a) = k := by omega
    rw [e] at i1
    exact (tick_ieg (inp k) _ i1).1
  · obtain ⟨i1, i2, i3, i4⟩ := hold (W - 1) (by omega)
    obtain ⟨-, g2, g3, g4, -⟩ := tick_ieg (inp (a + (W - 1))) _ i1
    obtain ⟨g6, g7⟩ := g4 (by omega)
    rw [hv (a + (W - 1)) (by omega)] at g3
    rw [(hin (a + (W - 1)) (by omega)).1] at g7
    have e : a + W = a + (W - 1) + 1 := by omega
    rw [e]
    refine ⟨?_, ?_, ?_, ?_⟩
    · simp only [runFsm]
      exact g6
    · simp only [runFsm]
      rw [g7]
      simp only [ICGLEN, IEGLEN]
      rw [Nat.one_mul]
      exact Nat.mod_eq_of_lt hW
    · simp only [runFsm]
      rw [g2, i3]
    · simp only [runFsm]
      rw [g3, i4]

/-- C23: an element is keyed down on call `n` and up on call `u`, with no `key`
call in between; from call `n + 1` on `wpmcnt = W` with `2 ≤ W` (a 16-bit
value) and `yackflags = yf`; the paddle of the other kind is closed, alone or
with the paddle of the element, on a call `j` with `n < j < u`, and both
contacts are open from call `u` on. Then in IAMBIC-B exactly one further
element is keyed: its key-down is on call `u + W + 1`, it is of the other kind
and its timer is loaded with the length of that kind, and no other call after
`n` keys down. In IAMBIC-A no call after `n` keys down. -/
theorem iambic_b_memory (inp : Nat → Tick) (s : Yack) (n u j W yf : Nat)
    (hW2 : 2 ≤ W) (hW : W < 65536)
    (hin : ∀ k, n < k → (inp k).wpmcnt = W ∧ (inp k).yackflags = yf)
    (hdown : keysAt inp s n = [Event.keyDown])
    (hnu : n < u) (hheld : ∀ k, n < k → k < u → keysAt inp s k = [])
    (hup : keysAt inp s u = [Event.keyUp])
    (hj1 : n < j) (hj2 : j < u)
    (hopp : latchOf yf (inp j).paddle &&& opposite (runFsm inp s (n + 1)).lastsymbol ≠ 0)
    (hopen : ∀ k, u ≤ k → (inp k).paddle = ⟨false, false⟩) :
    ((runFsm inp s (n + 1)).lastsymbol = DITLATCH ∨
      (runFsm inp s (n + 1)).lastsymbol = DAHLATCH) ∧
    (yf &&& MODE = IAMBICB →
      keysAt inp s (u + W + 1) = [Event.keyDown] ∧
      (runFsm inp s (u + W + 2)).lastsymbol = opposite (runFsm inp s (n + 1)).lastsymbol ∧
      (runFsm inp s (u + W + 2)).timer
        = ((if (runFsm inp s (n + 1)).lastsymbol = DITLATCH then DAHLEN else DITLEN) * W)
          % 65536 ∧
      ∀ k, n < k → k ≠ u + W + 1 → keysAt inp s k ≠ [Event.keyDown]) ∧
    (yf &&& MODE = IAMBICA → ∀ k, n < k → keysAt inp s k ≠ [Event.keyDown]) := by
  -- the state after the key-down call
  obtain ⟨hk, hsym⟩ := tick_keyDown (inp n) (runFsm inp s n) hdown
  have hz := tick_keyDown_latches (inp n) (runFsm inp s n) hdown
  have hf : (runFsm inp s (n + 1)).fsms = .KEYED := by
    simp only [runFsm]
    exact hk
  have hz1 : (runFsm inp s (n + 1)).volflags &&& SQUEEZED = 0 := by
    simp only [runFsm]
    exact hz
  have hs : (runFsm inp s (n + 1)).lastsymbol = DITLATCH ∨
      (runFsm inp s (n + 1)).lastsymbol = DAHLATCH := by
    simp only [runFsm]
    rcases hsym with h | h
    · exact Or.inl h.1
    · exact Or.inr h.1
  -- the calls up to the key-up
  have eu : n + 1 + (u - (n + 1)) = u := by omega
  have hph := keyed_phase inp s n u yf (fun k hk => (hin k hk).2) hf hheld (u - (n + 1))
    (by omega)
  rw [eu] at hph
  obtain ⟨p1, p2, p3, p4⟩ := hph
  -- the key-up call
  obtain ⟨q1, q2⟩ := tick_keyUp (inp u) (runFsm inp s u) hup
  obtain ⟨q3, q4⟩ := tick_keyed_latch (inp u) (runFsm inp s u) p1
  rw [(hin u hnu).1] at q2
  rw [hopen u (le_refl u), latchOf_open, Nat.or_zero, ite_self] at q4
  have r1 : (runFsm inp s (u + 1)).fsms = .IEG := by
    simp only [runFsm]
    exact q1
  have r2 : (runFsm inp s (u + 1)).timer = W := by
    simp only [runFsm]
    rw [q2]
    simp only [IEGLEN]
    rw [Nat.one_mul]
    exact Nat.mod_eq_of_lt hW
  have r3 : (runFsm inp s (u + 1)).lastsymbol = (runFsm inp s (n + 1)).lastsymbol := by
    simp only [runFsm]
    rw [q3]
    exact p2
  have r4 : (runFsm inp s (u + 1)).volflags = (runFsm inp s u).volflags := by
    simp only [runFsm]
    exact q4
  refine ⟨hs, ?_, ?_⟩
  · intro hb
    have hm : yf &&& MODE = IAMBICA ∨ yf &&& MODE = IAMBICB := Or.inr hb
    have hv := p4 hb j _ hj1 hj2 hopp
    rw [← r4] at hv
    -- the inter-element gap
    obtain ⟨g1, g2, g3, g4, g5⟩ := ieg_phase inp s (u + 1) W (by omega) hW
      (fun k hk => ⟨(hin k (by omega)).1, hopen k (by omega)⟩) r1 r2
    have ed : u + 1 + W = u + W + 1 := by omega
    rw [ed] at g1 g2 g3 g4 g5
    rw [r3] at g4
    -- the call that starts the second element
    have hmd : (inp (u + W + 1)).yackflags &&& MODE = IAMBICA ∨
        (inp (u + W + 1)).yackflags &&& MODE = IAMBICB := by
      rw [(hin (u + W + 1) (by omega)).2]
      exact hm
    have hlast := latch_clear_last _ _ hs hv
    have hidle := (tick_idle_iambic (inp (u + W + 1)) (runFsm inp s (u + W + 1)) g2 hmd).2
    rw [hopen (u + W + 1) (by omega), latchOf_open, Nat.or_zero, g4, g5] at hidle
    have hne : opposite (runFsm inp s (n + 1)).lastsymbol ≠ 0 := by
      rcases hs with h | h <;> rw [h] <;> decide
    obtain ⟨d1, d2, d3⟩ := hidle (by rw [hlast]; exact hne) (by omega)
    rw [latch_dit, hlast] at d3
    have d6 : (tick (inp (u + W + 1)) (runFsm inp s (u + W + 1))).1.lastsymbol
        = opposite (runFsm inp s (n + 1)).lastsymbol := by
      rw [d3]
      rcases hs with h | h <;> rw [h] <;> decide
    have d4 : (runFsm inp s (u + W + 2)).lastsymbol
        = opposite (runFsm inp s (n + 1)).lastsymbol := d6
    have d5 : (runFsm inp s (u + W + 1 + 1)).volflags &&& SQUEEZED = 0 := d2
    have hfree := latch_free_run inp s (u + W + 1 + 1) yf hm
      (fun k hk => ⟨(hin k (by omega)).2, hopen k (by omega)⟩) d5
    refine ⟨d1, d4, ?_, ?_⟩
    · obtain ⟨-, ht⟩ := tick_keyDown (inp (u + W + 1)) (runFsm inp s (u + W + 1)) d1
      rw [(hin (u + W + 1) (by omega)).1] at ht
      show (tick (inp (u + W + 1)) (runFsm inp s (u + W + 1))).1.timer = _
      rcases hs with h | h
      · rw [h] at d6 ⊢
        rcases ht with ⟨t1, _⟩ | ⟨_, t2⟩
        · rw [d6] at t1
          exact absurd t1 (by decide)
        · rw [t2]
          rfl
      · rw [h] at d6 ⊢
        rcases ht with ⟨_, t2⟩ | ⟨t1, _⟩
        · rw [t2]
          rfl
        · rw [d6] at t1
          exact absurd t1 (by decide)
    · intro k hnk hkd
      by_cases h1 : k < u
      · rw [hheld k hnk h1]
        simp
      · by_cases h2 : k = u
        · rw [h2, hup]
          simp
        · by_cases h3 : k < u + W + 1
          · rw [g1 k (by omega) h3]
            simp
          · have e : k = u + W + 1 + 1 + (k - (u + W + 1 + 1)) := by omega
            rw [e]
            exact (hfree _).2
  · intro ha
    have hm : yf &&& MODE = IAMBICA ∨ yf &&& MODE = IAMBICB := Or.inl ha
    have hnb : yf &&& MODE ≠ IAMBICB := by
      rw [ha]
      decide
    have hz2 : (runFsm inp s (u + 1)).volflags &&& SQUEEZED = 0 := by
      rw [r4, p3 hnb]
      exact hz1
    have hfree := latch_free_run inp s (u + 1) yf hm
      (fun k hk => ⟨(hin k (by omega)).2, hopen k (by omega)⟩) hz2
    intro k hnk
    by_cases h1 : k < u
    · rw [hheld k hnk h1]
      simp
    · by_cases h2 : k = u
      · rw [h2, hup]
        simp
      · have e : k = u + 1 + (k - (u + 1)) := by omega
        rw [e]
        exact (hfree _).2

theorem memoryInput_open (yf k : Nat) (hk : 2 ≤ k) :
    (memoryInput yf k).paddle = ⟨false, false⟩ := by
  have h0 : k ≠ 0 := by omega
  have h1 : k ≠ 1 := by omega
  simp [memoryInput, h0, h1]

/-- Witness for C23: at 2 ticks per dot a dit is keyed down on call 0 and up on
call 2, the dah paddle is closed on call 1 and both contacts are open from call
2 on. In IAMBIC-B a dah is keyed down on call 5 and nothing else follows; in
IAMBIC-A nothing follows. -/
theorem iambic_b_memory_witness :
    (keysAt (memoryInput IAMBICB) powerOn 0 = [Event.keyDown] ∧
      keysAt (memoryInput IAMBICB) powerOn 2 = [Event.keyUp] ∧
      (runFsm (memoryInput IAMBICB) powerOn (0 + 1)).lastsymbol = DITLATCH ∧
      (memoryInput IAMBICB 1).paddle = ⟨false, true⟩) ∧
    (keysAt (memoryInput IAMBICB) powerOn (2 + 2 + 1) = [Event.keyDown] ∧
      (runFsm (memoryInput IAMBICB) powerOn (2 + 2 + 2)).lastsymbol
        = opposite (runFsm (memoryInput IAMBICB) powerOn (0 + 1)).lastsymbol ∧
      (runFsm (memoryInput IAMBICB) powerOn (2 + 2 + 2)).timer
        = ((if (runFsm (memoryInput IAMBICB) powerOn (0 + 1)).lastsymbol = DITLATCH
            then DAHLEN else DITLEN) * 2) % 65536 ∧
      ∀ k, 0 < k → k ≠ 2 + 2 + 1 →
        keysAt (memoryInput IAMBICB) powerOn k ≠ [Event.keyDown]) ∧
    (∀ k, 0 < k → keysAt (memoryInput IAMBICA) powerOn k ≠ [Event.keyDown]) :=
  ⟨by decide,
    (iambic_b_memory (memoryInput IAMBICB) powerOn 0 2 1 2 IAMBICB (by decide) (by decide)
      (fun _ _ => ⟨rfl, rfl⟩) (by decide) (by decide)
      (fun k h1 h2 => by
        have hk : k = 1 := by omega
        subst hk
        decide)
      (by decide) (by decide) (by decide) (by decide)
      (memoryInput_open IAMBICB)).2.1 (by decide),
    (iambic_b_memory (memoryInput IAMBICA) powerOn 0 2 1 2 IAMBICA (by decide) (by decide)
      (fun _ _ => ⟨rfl, rfl⟩) (by decide) (by decide)
      (fun k h1 h2 => by
        have hk : k = 1 := by omega
        subst hk
        decide)
      (by decide) (by decide) (by decide) (by decide)
      (memoryInput_open IAMBICA)).2.2 (by decide)⟩

end CWKeyer
